import Mathlib

/-!
# First pass of the MusicXML importer (`mscore/importxmlfirstpass.cpp`)

A shallow embedding of the tick-keyed interval maps, the voice/staff allocator
and the tick cursor of the first pass, together with the properties stated
about them.
-/

namespace Ms

/-! ## Fraction -/

/-- Modelled from the spec: the exact-fraction type of `libmscore/fraction.h`,
which is not part of the sources.  A numerator and a denominator as given to the
constructor `Fraction(z, n)`; `0/0` is the invalid sentinel and `0/1` the
value zero.  Nothing is normalised on construction. -/
structure Fraction where
  numerator : Int
  denominator : Int
deriving DecidableEq, Repr

namespace Fraction

/-- Modelled from the spec: the validity state of a fraction (`isValid()`), false
exactly for a zero denominator such as the sentinel `0/0`. -/
def isValid (f : Fraction) : Bool := f.denominator != 0

/-- Modelled from the spec: exact comparison `a < b` of two fractions, by
cross-multiplication. -/
def lt (a b : Fraction) : Prop :=
  a.numerator * b.denominator < b.numerator * a.denominator

instance : LT Fraction := ⟨Fraction.lt⟩

instance decLt (a b : Fraction) : Decidable (a < b) :=
  inferInstanceAs (Decidable (a.numerator * b.denominator < b.numerator * a.denominator))

/-- Modelled from the spec: `a <= b` is `!(b < a)`. -/
def le (a b : Fraction) : Prop := ¬ (b < a)

instance : LE Fraction := ⟨Fraction.le⟩

instance decLe (a b : Fraction) : Decidable (a ≤ b) :=
  inferInstanceAs (Decidable (¬ (b < a)))

/-- Modelled from the spec: exact equality of value (`operator==`), so that
`1/2 == 2/4`. -/
def eqv (a b : Fraction) : Bool :=
  a.numerator * b.denominator == b.numerator * a.denominator

/-- Modelled from the spec: exact addition (`operator+=`).  An invalid operand
gives an invalid result. -/
def add (a b : Fraction) : Fraction :=
  ⟨a.numerator * b.denominator + b.numerator * a.denominator,
   a.denominator * b.denominator⟩

/-- Modelled from the spec: exact subtraction (`operator-=`).  An invalid operand
gives an invalid result. -/
def sub (a b : Fraction) : Fraction :=
  ⟨a.numerator * b.denominator - b.numerator * a.denominator,
   a.denominator * b.denominator⟩

instance : Add Fraction := ⟨Fraction.add⟩
instance : Sub Fraction := ⟨Fraction.sub⟩

/-- Modelled from the spec: the rational value of a fraction (zero for an invalid
one, which has no value). -/
def toRat (f : Fraction) : ℚ := (f.numerator : ℚ) / (f.denominator : ℚ)

/-- A fraction in the usual form, with a positive denominator. -/
def Proper (f : Fraction) : Prop := 0 < f.denominator

instance decProper (f : Fraction) : Decidable f.Proper :=
  inferInstanceAs (Decidable (0 < f.denominator))

end Fraction

/-! ## Interval maps (`std::map<Fraction, T>`) -/

/-- The entries of a `std::map<Fraction, α>` in iteration order, that is in
ascending key order. -/
abbrev FractionMap (α : Type) := List (Fraction × α)

namespace FractionMap

variable {α : Type}

/-- The class invariant of `std::map`: keys strictly ascending under
`operator<`, here on fractions in the usual form. -/
def WF (m : FractionMap α) : Prop :=
  m.Pairwise (fun a b => a.1 < b.1) ∧ ∀ e ∈ m, e.1.Proper

/-- The position `std::map::upper_bound(f)`: the first entry whose key is
greater than `f` (`m.length` stands for `end()`). -/
def upper_bound : FractionMap α → Fraction → Nat
  | [], _ => 0
  | (k, _) :: t, f => if f < k then 0 else upper_bound t f + 1

/-- The position `std::map::find(f)`: the entry whose key is equivalent to `f`
(neither is less than the other), if any. -/
def find : FractionMap α → Fraction → Option Nat
  | [], _ => none
  | (k, _) :: t, f =>
    if f < k then none
    else if k < f then (find t f).map (· + 1)
    else some 0

/-- The call `std::map::insert({f, v})`: the new map and whether the insertion
took place; when an equivalent key is present nothing changes. -/
def insert : FractionMap α → Fraction → α → FractionMap α × Bool
  | [], f, v => ([(f, v)], true)
  | (k, w) :: t, f, v =>
    if f < k then ((f, v) :: (k, w) :: t, true)
    else if k < f then ((k, w) :: (insert t f v).1, (insert t f v).2)
    else ((k, w) :: t, false)

/-- The value stored at the last key not greater than `f`, `d` when there is
none: a recursive reading of `upper_bound` followed by one step back. -/
def lookupLE (d : α) : FractionMap α → Fraction → α
  | [], _ => d
  | (k, v) :: t, f => if f < k then d else lookupLE v t f

end FractionMap

/-- The class `MusicXmlInstrList`, a `std::map<Fraction, QString>`. -/
abbrev MusicXmlInstrList := FractionMap String

/-- The class `MusicXmlOctaveShiftList`, a `std::map<Fraction, int>`. -/
abbrev MusicXmlOctaveShiftList := FractionMap Int

/-- The method `MusicXmlInstrList::instrument`. -/
def MusicXmlInstrList.instrument (m : MusicXmlInstrList) (f : Fraction) : String :=
  if m.isEmpty then ""
  else
    let i := FractionMap.upper_bound m f
    if i = 0 then ""
    else (m[i - 1]?.map Prod.snd).getD ""

/-- The method `MusicXmlInstrList::setInstrument`: the diagnostic aside, a plain
`insert` whose result flag is dropped. -/
def MusicXmlInstrList.setInstrument (m : MusicXmlInstrList) (instr : String)
    (f : Fraction) : MusicXmlInstrList :=
  (FractionMap.insert m f instr).1

/-- The method `MusicXmlOctaveShiftList::octaveShift`. -/
def MusicXmlOctaveShiftList.octaveShift (m : MusicXmlOctaveShiftList) (f : Fraction) : Int :=
  if m.isEmpty then 0
  else
    let i := FractionMap.upper_bound m f
    if i = 0 then 0
    else (m[i - 1]?.map Prod.snd).getD 0

/-- The method `MusicXmlOctaveShiftList::addOctaveShift` (the `Q_ASSERT` on `f`
is a debug-build check and changes no state). -/
def MusicXmlOctaveShiftList.addOctaveShift (m : MusicXmlOctaveShiftList) (shift : Int)
    (f : Fraction) : MusicXmlOctaveShiftList :=
  match FractionMap.find m f with
  | none => (FractionMap.insert m f shift).1
  | some i => m.modify (fun e => (e.1, e.2 + shift)) i

/-- The loop of `calcOctaveShiftShifts`, started with `currentShift`. -/
def MusicXmlOctaveShiftList.calcLoop : Int → MusicXmlOctaveShiftList → MusicXmlOctaveShiftList
  | _, [] => []
  | currentShift, (k, v) :: t => (k, currentShift + v) :: calcLoop (currentShift + v) t

/-- The method `MusicXmlOctaveShiftList::calcOctaveShiftShifts`. -/
def MusicXmlOctaveShiftList.calcOctaveShiftShifts (m : MusicXmlOctaveShiftList) :
    MusicXmlOctaveShiftList :=
  MusicXmlOctaveShiftList.calcLoop 0 m

/-- The sum of the values stored at keys not greater than `T`. -/
def MusicXmlOctaveShiftList.total (m : MusicXmlOctaveShiftList) (T : Fraction) : Int :=
  ((m.filter (fun e => decide (e.1 ≤ T))).map Prod.snd).sum

/-! ## Voice descriptors and the voice list

`MAX_STAVES` is a constant of a header that is not part of the sources and whose
value the spec does not give; it is a parameter of every definition that uses it. -/

/-- Modelled from the spec: the fixed per-staff voice capacity `VOICES` of
`libmscore/mscore.h`, which the spec gives as 4. -/
def VOICES : Nat := 4

/-- Modelled from the spec: the class `VoiceDesc` of `musicxmlsupport.h`, which is
not part of the sources.  `chordRests i` is `numberChordRests(i)`, `staff` is
`staff()`, `staffAlloc i` is `staffAlloc(i)`, `voice` is `voice()`, `voices i` is
`voice(i)` and `overlaps` is `overlaps()`; the sentinels are -1 (unassigned) and
-2 (capacity exhausted). -/
structure VoiceDesc where
  chordRests : Nat → Nat
  staff : Int
  staffAlloc : Nat → Int
  voice : Int
  voices : Nat → Int
  overlaps : Bool

namespace VoiceDesc

/-- Modelled from the spec: the default-constructed descriptor, with no chord-rest
counted, every assignment unset and no overlap. -/
def init : VoiceDesc :=
  { chordRests := fun _ => 0, staff := -1, staffAlloc := fun _ => -1, voice := -1,
    voices := fun _ => -1, overlaps := false }

/-- Modelled from the spec: `incrChordRests(s)`, one more chord-rest counted on
staff `s`. -/
def incrChordRests (d : VoiceDesc) (s : Nat) : VoiceDesc :=
  { d with chordRests := fun i => if i = s then d.chordRests i + 1 else d.chordRests i }

/-- Modelled from the spec: `numberChordRests()`, the aggregate count of
chord-rests over the `MAX_STAVES` staves. -/
def numberChordRests (MAX_STAVES : Nat) (d : VoiceDesc) : Nat :=
  ((List.range MAX_STAVES).map d.chordRests).sum

/-- The loop of `preferredStaff()`: the greatest count seen on the first staves
and the first staff where it was seen. -/
def preferredStaffLoop (d : VoiceDesc) : Nat → Nat × Nat
  | 0 => (0, 0)
  | i + 1 =>
    if d.chordRests i > (preferredStaffLoop d i).1 then (d.chordRests i, i)
    else preferredStaffLoop d i

/-- Modelled from the spec: `preferredStaff()`, the staff the notes of the voice
appeared on; for a voice seen on several staves the first one holding the most
chord-rests. -/
def preferredStaff (MAX_STAVES : Nat) (d : VoiceDesc) : Nat :=
  (preferredStaffLoop d MAX_STAVES).2

/-- Modelled from the spec: `setStaff(s)`. -/
def setStaff (d : VoiceDesc) (s : Int) : VoiceDesc := { d with staff := s }

/-- Modelled from the spec: `setStaffAlloc(i, s)`. -/
def setStaffAlloc (d : VoiceDesc) (i : Nat) (s : Int) : VoiceDesc :=
  { d with staffAlloc := fun j => if j = i then s else d.staffAlloc j }

/-- Modelled from the spec: `setVoice(v)`. -/
def setVoice (d : VoiceDesc) (v : Int) : VoiceDesc := { d with voice := v }

/-- Modelled from the spec: `setVoice(i, v)`. -/
def setVoiceAt (d : VoiceDesc) (i : Nat) (v : Int) : VoiceDesc :=
  { d with voices := fun j => if j = i then v else d.voices j }

/-- Modelled from the spec: `setOverlap(b)`. -/
def setOverlap (d : VoiceDesc) (b : Bool) : VoiceDesc := { d with overlaps := b }

end VoiceDesc

/-- The type `VoiceList`, a `QMap<QString, VoiceDesc>`: its entries in iteration
order, that is in ascending key order. -/
abbrev VoiceList := List (String × VoiceDesc)

namespace VoiceList

/-- The class invariant of `QMap`: keys strictly ascending. -/
def WF (vl : VoiceList) : Prop := vl.Pairwise (fun a b => a.1 < b.1)

/-- The call `vcLst.value(key)`: the stored descriptor, a default-constructed
one when the key is absent. -/
def value (vl : VoiceList) (key : String) : VoiceDesc :=
  match vl.find? (fun e => e.1 == key) with
  | some e => e.2
  | none => VoiceDesc.init

/-- The access `vcLst[key]` followed by a setter `f`.  The key is always read
from an entry of the list, so that no entry is created. -/
def modify (vl : VoiceList) (key : String) (f : VoiceDesc → VoiceDesc) : VoiceList :=
  vl.map (fun e => if e.1 = key then (e.1, f e.2) else e)

/-- Every voice as the scan leaves it before allocation: no staff and no voice
slot assigned yet. -/
def Unassigned (vl : VoiceList) : Prop :=
  ∀ e ∈ vl, e.2.staff = -1 ∧ e.2.voice = -1 ∧
    ∀ s, e.2.staffAlloc s = -1 ∧ e.2.voices s = -1

end VoiceList

/-! ## `allocateStaves` -/

/-- The inner loop over regular voices in `allocateStaves`: `(max, key)` after
the iteration, started from `acc`. -/
def findRegular (MAX_STAVES : Nat) : VoiceList → Nat × String → Nat × String
  | [], acc => acc
  | (k, d) :: t, acc =>
    if !d.overlaps && decide (d.numberChordRests MAX_STAVES > acc.1) && d.staff == -1 then
      findRegular MAX_STAVES t (d.numberChordRests MAX_STAVES, k)
    else findRegular MAX_STAVES t acc

/-- One round of the outer loop over regular voices, on the voice list and the
array `voicesAllocated`. -/
def regularStep (MAX_STAVES : Nat) (st : VoiceList × (Nat → Nat)) : VoiceList × (Nat → Nat) :=
  let key := (findRegular MAX_STAVES st.1 (0, "")).2
  if key ≠ "" then
    let prefSt := (st.1.value key).preferredStaff MAX_STAVES
    if st.2 prefSt < VOICES then
      (st.1.modify key (fun d => d.setStaff prefSt),
        fun i => if i = prefSt then st.2 i + 1 else st.2 i)
    else
      (st.1.modify key (fun d => d.setStaff (-2)), st.2)
  else st

/-- The outer loop over regular voices, `n` rounds. -/
def regularLoop (MAX_STAVES : Nat) : Nat → VoiceList × (Nat → Nat) → VoiceList × (Nat → Nat)
  | 0, st => st
  | n + 1, st => regularLoop MAX_STAVES n (regularStep MAX_STAVES st)

/-- The inner loop over overlapping voices for staff `h`: `(max, key)` after
the iteration, started from `acc`. -/
def findOverlapping (h : Nat) : VoiceList → Nat × String → Nat × String
  | [], acc => acc
  | (k, d) :: t, acc =>
    if d.overlaps && decide (d.chordRests h > acc.1) && d.staffAlloc h == -1 then
      findOverlapping h t (d.chordRests h, k)
    else findOverlapping h t acc

/-- One round of the middle loop over overlapping voices for staff `h`. -/
def overlapStep (h : Nat) (st : VoiceList × (Nat → Nat)) : VoiceList × (Nat → Nat) :=
  let key := (findOverlapping h st.1 (0, "")).2
  if key ≠ "" then
    let prefSt := h
    if st.2 prefSt < VOICES then
      (st.1.modify key (fun d => d.setStaffAlloc prefSt 1),
        fun i => if i = prefSt then st.2 i + 1 else st.2 i)
    else
      (st.1.modify key (fun d => d.setStaffAlloc prefSt (-2)), st.2)
  else st

/-- The middle loop over overlapping voices for staff `h`, `n` rounds. -/
def overlapLoop (h : Nat) : Nat → VoiceList × (Nat → Nat) → VoiceList × (Nat → Nat)
  | 0, st => st
  | n + 1, st => overlapLoop h n (overlapStep h st)

/-- The loop over the staves `h = 0 .. MAX_STAVES - 1` for overlapping voices. -/
def overlapStaves (MAX_STAVES : Nat) (st : VoiceList × (Nat → Nat)) :
    VoiceList × (Nat → Nat) :=
  (List.range MAX_STAVES).foldl (fun st h => overlapLoop h st.1.length st) st

/-- The function `allocateStaves`, for `MAX_STAVES` staves. -/
def allocateStaves (MAX_STAVES : Nat) (vcLst : VoiceList) : VoiceList :=
  (overlapStaves MAX_STAVES (regularLoop MAX_STAVES vcLst.length (vcLst, fun _ => 0))).1

/-! ## `allocateVoices` -/

/-- The first loop of `allocateVoices`, on the entries still to visit and the
array `nextVoice`; `vcLst[i.key()]` is the entry under the iterator. -/
def regularVoices : VoiceList → (Nat → Nat) → VoiceList × (Nat → Nat)
  | [], nextVoice => ([], nextVoice)
  | (k, d) :: t, nextVoice =>
    if d.staff ≥ 0 then
      let r := regularVoices t
        (fun i => if i = d.staff.toNat then nextVoice i + 1 else nextVoice i)
      ((k, d.setVoice (nextVoice d.staff.toNat)) :: r.1, r.2)
    else
      let r := regularVoices t nextVoice
      ((k, d) :: r.1, r.2)

/-- The loop over the staves `j` for one entry in the second loop of
`allocateVoices`: `staffAlloc(j)` is read from the entry `d0` under the iterator. -/
def overlapVoicesEntry (d0 : VoiceDesc) : List Nat → VoiceDesc × (Nat → Nat) →
    VoiceDesc × (Nat → Nat)
  | [], st => st
  | j :: js, st =>
    if d0.staffAlloc j ≥ 0 then
      overlapVoicesEntry d0 js
        (st.1.setVoiceAt j (st.2 j), fun i => if i = j then st.2 i + 1 else st.2 i)
    else overlapVoicesEntry d0 js st

/-- The second loop of `allocateVoices`. -/
def overlapVoices (MAX_STAVES : Nat) : VoiceList → (Nat → Nat) → VoiceList × (Nat → Nat)
  | [], nextVoice => ([], nextVoice)
  | (k, d) :: t, nextVoice =>
    let e := overlapVoicesEntry d (List.range MAX_STAVES) (d, nextVoice)
    let r := overlapVoices MAX_STAVES t e.2
    ((k, e.1) :: r.1, r.2)

/-- The function `allocateVoices`, for `MAX_STAVES` staves. -/
def allocateVoices (MAX_STAVES : Nat) (vcLst : VoiceList) : VoiceList :=
  let r := regularVoices vcLst (fun _ => 0)
  (overlapVoices MAX_STAVES r.1 r.2).1

/-- A voice with 10 chord-rests, all on staff 0. -/
def tenOnStaffZero : VoiceDesc :=
  { VoiceDesc.init with chordRests := fun i => if i = 0 then 10 else 0 }

/-- A voice with 3 chord-rests, all on staff 0. -/
def threeOnStaffZero : VoiceDesc :=
  { VoiceDesc.init with chordRests := fun i => if i = 0 then 3 else 0 }

/-- The voices "1" (10 chord-rests on staff 0) and "2" (3 chord-rests on staff 0)
of the two-voice scenario. -/
def twoVoices : VoiceList := [("1", tenOnStaffZero), ("2", threeOnStaffZero)]

/-- The voice `d` occupies a voice of staff `s`: a regular voice assigned to `s`
or an overlapping voice allocated on `s`. -/
def occupies (s : Nat) (d : VoiceDesc) : Bool :=
  (!d.overlaps && d.staff == (s : Int)) || (d.overlaps && d.staffAlloc s == 1)

/-- The loop invariant of `allocateStaves`: `voicesAllocated[s]` bounds the
voices occupying staff `s` and never exceeds `VOICES`. -/
def CapacityInv (st : VoiceList × (Nat → Nat)) : Prop :=
  st.1.WF ∧ ∀ s, st.1.countP (fun e => occupies s e.2) ≤ st.2 s ∧ st.2 s ≤ VOICES

/-- The common shape of the two inner loops of `allocateStaves`: the greatest
count `cnt` among the eligible voices seen so far and the key of the first voice
that reached it. -/
def findMax (elig : VoiceDesc → Bool) (cnt : VoiceDesc → Nat) :
    VoiceList → Nat × String → Nat × String
  | [], acc => acc
  | (k, d) :: t, acc =>
    if elig d && decide (cnt d > acc.1) then findMax elig cnt t (cnt d, k)
    else findMax elig cnt t acc

/-- The invariant behind the priority by chord-rest count, for two regular
voices `u` and `v` with the same preferred staff `p` where `u` is served first
(`prio`): `v` is handled only after `u`, and once `u` is refused staff `p` is
full. -/
def PriorityInv (u v : String × VoiceDesc) (p : Nat) (st : VoiceList × (Nat → Nat)) : Prop :=
  st.1.WF ∧ ∃ du dv, (u.1, du) ∈ st.1 ∧ (v.1, dv) ∈ st.1 ∧
    du.overlaps = false ∧ dv.overlaps = false ∧
    du.chordRests = u.2.chordRests ∧ dv.chordRests = v.2.chordRests ∧
    (du.staff = -1 ∨ du.staff = (p : Int) ∨ du.staff = -2) ∧
    (dv.staff ≠ -1 → du.staff ≠ -1) ∧
    (du.staff = -2 → VOICES ≤ st.2 p) ∧
    (du.staff = -2 → dv.staff ≠ (p : Int))

/-- A voice with one chord-rest, on staff 0. -/
def oneOnStaffZero : VoiceDesc := VoiceDesc.init.incrChordRests 0

/-- What `allocateStaves` keeps of a voice list that starts unassigned: no voice
slot is set, an overlapping voice has no staff of its own and a regular voice
no per-staff allocation. -/
def StavesInv (st : VoiceList × (Nat → Nat)) : Prop :=
  st.1.WF ∧ ∀ e ∈ st.1, e.2.voice = -1 ∧ (∀ s, e.2.voices s = -1) ∧
    (e.2.overlaps = true → e.2.staff = -1) ∧
    (e.2.overlaps = false → ∀ s, e.2.staffAlloc s = -1)

/-- The part of an entry that `allocateVoices` reads and leaves alone. -/
def allocation (e : String × VoiceDesc) : String × Bool × Int × (Nat → Int) :=
  (e.1, e.2.overlaps, e.2.staff, e.2.staffAlloc)

/-- The loop invariant behind the handling of regular voices: no key is the
empty string, and a regular voice holds a chord-rest and is unassigned, on its
preferred staff, or refused. -/
def RegularInv (M : Nat) (st : VoiceList × (Nat → Nat)) : Prop :=
  st.1.WF ∧ ∀ e ∈ st.1, e.1 ≠ "" ∧ (e.2.overlaps = false →
    1 ≤ e.2.numberChordRests M ∧
    (e.2.staff = -1 ∨ e.2.staff = (e.2.preferredStaff M : Int) ∨ e.2.staff = -2))

/-- The regular voices still unassigned. -/
def pending (vl : VoiceList) : Nat :=
  vl.countP (fun e => !e.2.overlaps && e.2.staff == -1)

/-- The final state of a regular voice. -/
def Settled (M : Nat) (e : String × VoiceDesc) : Prop :=
  e.2.overlaps = false →
    e.2.staff = (e.2.preferredStaff M : Int) ∨ e.2.staff = -2

/-! ## The document tree and the helpers of `MxmlSupport` -/

/-- Modelled from the spec: an element of the external tree-of-elements API
(`QDomElement`): a tag name, string-keyed attributes, text content and ordered
child elements. -/
inductive QDomElement where
  | mk (tagName : String) (attributes : List (String × String)) (text : String)
      (children : List QDomElement)

namespace QDomElement

/-- The call `e.tagName()`. -/
def tagName : QDomElement → String
  | mk t _ _ _ => t

/-- The call `e.text()`. -/
def text : QDomElement → String
  | mk _ _ t _ => t

/-- The child elements, as visited by `firstChildElement()` and
`nextSiblingElement()`. -/
def children : QDomElement → List QDomElement
  | mk _ _ _ c => c

/-- The call `e.attribute(name)`, the empty string when the attribute is absent. -/
def attr : QDomElement → String → String
  | mk _ a _ _, name => ((a.find? (fun p => p.1 == name)).map Prod.snd).getD ""

end QDomElement

/-- Modelled from the spec: `Fraction::print()`, the printable form
`numerator/denominator`. -/
def Fraction.print (f : Fraction) : String :=
  toString f.numerator ++ "/" ++ toString f.denominator

/-- Modelled from the spec: the helper functions of `MxmlSupport`
(`musicxmlsupport.cpp`), which are not part of the sources and are taken as
parameters: `stringToInt` (the value and the `ok` flag), `durationAsFraction`,
`noteTypeToFraction` and `calculateFraction`. -/
structure MxmlSupport where
  stringToInt : String → Int × Bool
  durationAsFraction : Int → QDomElement → Fraction
  noteTypeToFraction : String → Fraction
  calculateFraction : String → Int → Int → Int → Fraction

/-- The value of a string of decimal digits. -/
def digitsValue (cs : List Char) : Nat :=
  cs.foldl (fun acc c => acc * 10 + (c.toNat - 48)) 0

/-- Modelled from the spec: the integer a text stands for and whether it is one;
an offending text gives the unset value 0. -/
def parseInt (s : String) : Int × Bool :=
  match s.data with
  | [] => (0, false)
  | '-' :: cs =>
    if !cs.isEmpty && cs.all Char.isDigit then (-(digitsValue cs : Int), true) else (0, false)
  | cs => if cs.all Char.isDigit then ((digitsValue cs : Int), true) else (0, false)

/-- Modelled from the spec: the explicitly specified duration, the value of the
`duration` element over four times the divisions per quarter note. -/
def specDurationAsFraction (divisions : Int) (e : QDomElement) : Fraction :=
  if e.tagName = "duration" then ⟨(parseInt e.text).1, 4 * divisions⟩ else ⟨0, 1⟩

/-- Modelled from the spec: the duration of a symbolic note type, invalid for an
unknown type. -/
def specNoteTypeToFraction (type : String) : Fraction :=
  if type = "1024th" then ⟨1, 1024⟩
  else if type = "512th" then ⟨1, 512⟩
  else if type = "256th" then ⟨1, 256⟩
  else if type = "128th" then ⟨1, 128⟩
  else if type = "64th" then ⟨1, 64⟩
  else if type = "32nd" then ⟨1, 32⟩
  else if type = "16th" then ⟨1, 16⟩
  else if type = "eighth" then ⟨1, 8⟩
  else if type = "quarter" then ⟨1, 4⟩
  else if type = "half" then ⟨1, 2⟩
  else if type = "whole" then ⟨1, 1⟩
  else if type = "breve" then ⟨2, 1⟩
  else if type = "long" then ⟨4, 1⟩
  else if type = "maxima" then ⟨8, 1⟩
  else ⟨0, 0⟩

/-- The duration `f` of the undotted type with `dots` dots: `f * (2 - 1/2^dots)`. -/
def dotted (f : Fraction) (dots : Nat) : Fraction :=
  ⟨f.numerator * (2 ^ (dots + 1) - 1), f.denominator * 2 ^ dots⟩

/-- Modelled from the spec: the duration derived from the symbolic note type, the
dot count and the normal/actual tuplet ratio. -/
def specCalculateFraction (type : String) (dots normalNotes actualNotes : Int) : Fraction :=
  let f := specNoteTypeToFraction type
  if f.isValid then
    let g := dotted f dots.toNat
    if actualNotes > 0 ∧ normalNotes > 0 then
      ⟨g.numerator * normalNotes, g.denominator * actualNotes⟩
    else g
  else f

/-- Modelled from the spec: the helpers of `MxmlSupport` as the spec describes
them. -/
def mxmlSupport : MxmlSupport :=
  { stringToInt := parseInt
    durationAsFraction := specDurationAsFraction
    noteTypeToFraction := specNoteTypeToFraction
    calculateFraction := specCalculateFraction }

/-! ## `noteDurationAsFraction` -/

/-- The local variables of `noteDurationAsFraction` together with its reference
parameter `duration`. -/
structure NoteVars where
  actualNotes : Int
  chord : Bool
  dots : Int
  grace : Bool
  normalNotes : Int
  rest : Bool
  type : String
  duration : Fraction

/-- The loop over the children of a `time-modification` element. -/
def timeModificationLoop (ms : MxmlSupport) : List QDomElement → NoteVars → NoteVars
  | [], v => v
  | ee :: rest, v =>
    let v1 := if ee.tagName = "actual-notes" then
      { v with actualNotes := (ms.stringToInt ee.text).1 } else v
    let v2 := if ee.tagName = "normal-notes" then
      { v1 with normalNotes := (ms.stringToInt ee.text).1 } else v1
    timeModificationLoop ms rest v2

/-- The loop over the children of the note element. -/
def noteLoop (ms : MxmlSupport) (divisions : Int) : List QDomElement → NoteVars → NoteVars
  | [], v => v
  | e :: rest, v =>
    noteLoop ms divisions rest
      (if e.tagName = "chord" then { v with chord := true }
      else if e.tagName = "dot" then { v with dots := v.dots + 1 }
      else if e.tagName = "duration" then
        (if divisions > 0 then { v with duration := ms.durationAsFraction divisions e } else v)
      else if e.tagName = "grace" then { v with grace := true }
      else if e.tagName = "rest" then { v with rest := true }
      else if e.tagName = "time-modification" then timeModificationLoop ms e.children v
      else if e.tagName = "type" then { v with type := e.text }
      else v)

/-- The printable description `noteDurDesc` built by `noteDurationAsFraction`. -/
def describeDuration (ms : MxmlSupport) (v : NoteVars) (f : Fraction) : String :=
  "dur " ++ v.duration.print ++ " calcdur '" ++ (ms.noteTypeToFraction v.type).print
    ++ String.mk (List.replicate v.dots.toNat '.')
    ++ (if v.actualNotes ≠ 0 ∨ v.normalNotes ≠ 0 then
        " norm/act " ++ toString v.normalNotes ++ "/" ++ toString v.actualNotes else "")
    ++ " -> " ++ (if f.isValid then f.print else "invalid") ++ "'"

/-- The function `noteDurationAsFraction`: the returned fraction, then the
reference parameters `duration` and `noteDurDesc`. -/
def noteDurationAsFraction (ms : MxmlSupport) (divisions : Int) (e : QDomElement) :
    Fraction × Fraction × String :=
  let v := noteLoop ms divisions e.children
    { actualNotes := 0, chord := false, dots := 0, grace := false, normalNotes := 0,
      rest := false, type := "", duration := ⟨0, 0⟩ }
  if v.chord || v.grace then (⟨0, 1⟩, ⟨0, 1⟩, "")
  else
    let f := ms.calculateFraction v.type v.dots v.normalNotes v.actualNotes
    let noteDurDesc := describeDuration ms v f
    if v.rest && v.type == "" then (v.duration, v.duration, noteDurDesc)
    else if v.rest && v.type == "whole" && v.duration.isValid then
      (v.duration, v.duration, noteDurDesc)
    else (f, v.duration, noteDurDesc)

/-! ## `moveTick` -/

/-- The reference parameters of `aaamoveTick`. -/
structure TickState where
  tick : Fraction
  maxtick : Fraction
  duration : Fraction
  noteDurDesc : String
  errorStr : String

/-- The loop over the children of a `forward` element (`voice` and `staff`
children do nothing, any other child is only reported). -/
def forwardLoop (ms : MxmlSupport) (divisions : Int) : List QDomElement → TickState → TickState
  | [], st => st
  | ee :: rest, st =>
    if ee.tagName = "duration" then
      forwardLoop ms divisions rest
        { st with
          tick := st.tick + ms.durationAsFraction divisions ee
          maxtick :=
            if st.tick + ms.durationAsFraction divisions ee > st.maxtick then
              st.tick + ms.durationAsFraction divisions ee
            else st.maxtick }
    else forwardLoop ms divisions rest st

/-- The loop over the children of a `backup` element (any child other than
`duration` is only reported). -/
def backupLoop (ms : MxmlSupport) (divisions : Int) : List QDomElement → TickState → TickState
  | [], st => st
  | ee :: rest, st =>
    if ee.tagName = "duration" then
      if ms.durationAsFraction divisions ee > st.tick then
        backupLoop ms divisions rest
          { st with
            tick := ⟨0, 1⟩
            errorStr := "backup beyond start of measure"
            noteDurDesc := (ms.durationAsFraction divisions ee).print }
      else
        backupLoop ms divisions rest
          { st with tick := st.tick - ms.durationAsFraction divisions ee }
    else backupLoop ms divisions rest st

/-- The `note` branch of `aaamoveTick`. -/
def noteTick (ms : MxmlSupport) (divisions : Int) (e : QDomElement) (st : TickState) :
    TickState :=
  let r := noteDurationAsFraction ms divisions e
  let fraction := r.1
  let duration := r.2.1
  let st1 : TickState := { st with duration := duration, noteDurDesc := r.2.2 }
  let st2 : TickState :=
    if duration.isValid && fraction.isValid then
      { st1 with
        errorStr := if !(Fraction.eqv duration fraction) then
          "calculated duration not equal to specified duration" else st1.errorStr
        tick := st1.tick + duration }
    else if duration.isValid then
      { st1 with
        errorStr := "calculated duration invalid, using specified duration"
        tick := st1.tick + duration }
    else if fraction.isValid then
      { st1 with
        errorStr := "specified duration invalid, using calculated duration"
        tick := st1.tick + fraction }
    else { st1 with errorStr := "calculated and specified duration invalid" }
  { st2 with maxtick := if st2.tick > st2.maxtick then st2.tick else st2.maxtick }

/-- The function `aaamoveTick`, on its reference parameters. -/
def aaamoveTick (ms : MxmlSupport) (st : TickState) (divisions : Int) (e : QDomElement) :
    TickState :=
  if e.tagName = "forward" then forwardLoop ms divisions e.children st
  else if e.tagName = "backup" then backupLoop ms divisions e.children st
  else if e.tagName = "note" then noteTick ms divisions e st
  else st

/-- The tick cursor at the start of a part: every fraction default-constructed
and no text. -/
def TickState.start : TickState :=
  { tick := ⟨0, 1⟩, maxtick := ⟨0, 1⟩, duration := ⟨0, 1⟩, noteDurDesc := "", errorStr := "" }

/-- A `forward` element with the one child `<duration>480</duration>`. -/
def forward480 : QDomElement :=
  .mk "forward" [] "480" [.mk "duration" [] "480" []]

/-- A `backup` element with the one child `<duration>960</duration>`. -/
def backup960 : QDomElement :=
  .mk "backup" [] "960" [.mk "duration" [] "960" []]

/-! ## Reading the note element back from its children -/

/-- The scan variables of `noteDurationAsFraction` after the loop over the
children of the note element `e`. -/
def noteVars (ms : MxmlSupport) (divisions : Int) (e : QDomElement) : NoteVars :=
  noteLoop ms divisions e.children
    { actualNotes := 0, chord := false, dots := 0, grace := false, normalNotes := 0,
      rest := false, type := "", duration := ⟨0, 0⟩ }

/-- One round of the loop over the children of the note element. -/
def noteStep (ms : MxmlSupport) (divisions : Int) (e : QDomElement) (v : NoteVars) : NoteVars :=
  if e.tagName = "chord" then { v with chord := true }
  else if e.tagName = "dot" then { v with dots := v.dots + 1 }
  else if e.tagName = "duration" then
    (if divisions > 0 then { v with duration := ms.durationAsFraction divisions e } else v)
  else if e.tagName = "grace" then { v with grace := true }
  else if e.tagName = "rest" then { v with rest := true }
  else if e.tagName = "time-modification" then timeModificationLoop ms e.children v
  else if e.tagName = "type" then { v with type := e.text }
  else v

/-- The last child with the tag name `tag`, if any. -/
def lastChild (tag : String) (cs : List QDomElement) : Option QDomElement :=
  cs.reverse.find? (fun c => c.tagName == tag)

/-- The explicitly specified duration of a note with the children `cs`: what
`durationAsFraction` makes of the last `duration` child when the divisions are
positive, the invalid `0/0` otherwise. -/
def explicitDuration (ms : MxmlSupport) (divisions : Int) (cs : List QDomElement) : Fraction :=
  match lastChild "duration" cs with
  | some d => if divisions > 0 then ms.durationAsFraction divisions d else ⟨0, 0⟩
  | none => ⟨0, 0⟩

/-- The symbolic type of a note with the children `cs`: the text of the last
`type` child, empty when there is none. -/
def symbolicType (cs : List QDomElement) : String :=
  ((lastChild "type" cs).map QDomElement.text).getD ""

/-- The children of the `time-modification` children of a note with the children
`cs`, in document order. -/
def timeModificationChildren (cs : List QDomElement) : List QDomElement :=
  (cs.filter (fun c => c.tagName == "time-modification")).flatMap QDomElement.children

/-- The actual notes of the tuplet ratio of a note with the children `cs`: what
`stringToInt` makes of the text of the last `actual-notes` element among the
children of its `time-modification` children, 0 when there is none. -/
def actualNotesOf (ms : MxmlSupport) (cs : List QDomElement) : Int :=
  ((lastChild "actual-notes" (timeModificationChildren cs)).map
    (fun c => (ms.stringToInt c.text).1)).getD 0

/-- The normal notes of the tuplet ratio of a note with the children `cs`: what
`stringToInt` makes of the text of the last `normal-notes` element among the
children of its `time-modification` children, 0 when there is none. -/
def normalNotesOf (ms : MxmlSupport) (cs : List QDomElement) : Int :=
  ((lastChild "normal-notes" (timeModificationChildren cs)).map
    (fun c => (ms.stringToInt c.text).1)).getD 0

/-- An eighth note of a triplet: `<duration>160</duration>`, `<type>eighth</type>`
and a `time-modification` of 3 actual notes in the time of 2 normal notes. -/
def tripletEighth : QDomElement :=
  .mk "note" [] "160eighth32"
    [.mk "duration" [] "160" [], .mk "type" [] "eighth" [],
     .mk "time-modification" [] "32"
       [.mk "actual-notes" [] "3" [], .mk "normal-notes" [] "2" []]]

/-- A typeless whole-measure rest, `<rest/>` with `<duration>1920</duration>`. -/
def wholeMeasureRest : QDomElement :=
  .mk "note" [] "1920" [.mk "rest" [] "" [], .mk "duration" [] "1920" []]

/-- A quarter note, `<duration>480</duration>` with `<type>quarter</type>`. -/
def quarterNote : QDomElement :=
  .mk "note" [] "480quarter" [.mk "duration" [] "480" [], .mk "type" [] "quarter" []]

/-- A chord member, `<chord/>` with `<duration>480</duration>` and
`<type>quarter</type>`. -/
def chordNote : QDomElement :=
  .mk "note" [] "480quarter"
    [.mk "chord" [] "" [], .mk "duration" [] "480" [], .mk "type" [] "quarter" []]

/-! ## Ticks -/

/-- Modelled from the spec: `Fraction::ticks()`, the conversion to an integer tick
count.  A fraction counts whole notes and a quarter note is `division` ticks
(`MScore::division`, a constant that is not part of the sources and is taken as
a parameter), so that a whole note is `4 * division` ticks; the quotient is
rounded to the nearest tick.  The integer operations are those of C++, which
truncate. -/
def Fraction.ticks (division : Int) (f : Fraction) : Int :=
  Int.tdiv (f.numerator * division * 4 + Int.tdiv f.denominator 2) f.denominator

/-! ## `determineTimeSig` -/

/-- Modelled from the spec: the time signature kinds `TimeSigType` of
`libmscore/timesig.h` that the first pass uses. -/
inductive TimeSigType where
  | NORMAL
  | FOUR_FOUR
  | ALLA_BREVE
deriving DecidableEq, Repr

/-- The text without leading and trailing white space. -/
def trimSpace (cs : List Char) : List Char :=
  ((cs.dropWhile Char.isWhitespace).reverse.dropWhile Char.isWhitespace).reverse

/-- The integer a decimal text stands for, with an optional sign and surrounding
white space, and 0 when the text is not an integer. -/
def decimalValue (s : String) : Int :=
  match trimSpace s.data with
  | '+' :: ds => if !ds.isEmpty && ds.all Char.isDigit then (digitsValue ds : Int) else 0
  | cs => (parseInt (String.mk cs)).1

/-- Whether `v` is a value of the C++ type `int`, of 32 bits. -/
def fitsInt (v : Int) : Bool := decide (-2147483648 ≤ v ∧ v ≤ 2147483647)

/-- The call `QString::toInt()` of the Qt library: the integer a decimal text
stands for, with an optional sign and surrounding white space, and 0 when the
text is not an integer or the integer is outside the range of `int`. -/
def toInt (s : String) : Int :=
  if fitsInt (decimalValue s) then decimalValue s else 0

/-- The pieces of a text between the occurrences of `sep`, empty pieces
included; `cur` holds the piece being read, in reverse. -/
def splitChars (sep : Char) : List Char → List Char → List (List Char)
  | [], cur => [cur.reverse]
  | c :: cs, cur =>
    if c = sep then cur.reverse :: splitChars sep cs [] else splitChars sep cs (c :: cur)

/-- The call `QString::split("+")` of the Qt library. -/
def splitPlus (s : String) : List String :=
  (splitChars '+' s.data []).map String.mk

/-- The function `determineTimeSig`: the returned flag, then the return
parameters `st`, `bts` and `btp`. -/
def determineTimeSig (beats beatType timeSymbol : String) : Bool × TimeSigType × Int × Int :=
  if beats = "2" ∧ beatType = "2" ∧ timeSymbol = "cut" then
    (true, TimeSigType.ALLA_BREVE, 2, 2)
  else if beats = "4" ∧ beatType = "4" ∧ timeSymbol = "common" then
    (true, TimeSigType.FOUR_FOUR, 4, 4)
  else if !timeSymbol.isEmpty ∧ timeSymbol ≠ "normal" then
    (false, TimeSigType.NORMAL, 0, 0)
  else
    (true, TimeSigType.NORMAL,
      (splitPlus beats).foldl (fun bts s => bts + toInt s) 0, toInt beatType)

/-- The loop of the driver over the children of a `time` element, on the local
variables `beats` and `beatType`. -/
def timeLoop : List QDomElement → String × String → String × String
  | [], v => v
  | eeee :: rest, v =>
    if eeee.tagName = "beats" then timeLoop rest (eeee.text, v.2)
    else if eeee.tagName = "beat-type" then timeLoop rest (v.1, eeee.text)
    else timeLoop rest v

/-- The handling of a `time` element by the driver, on the local variables
`timeSigLen` and `timeSigType`. -/
def readTime (division : Int) (eee : QDomElement) (ts : Int × Int) : Int × Int :=
  let v := timeLoop eee.children ("", "")
  if v.1 ≠ "" ∧ v.2 ≠ "" then
    let r := determineTimeSig v.1 v.2 ""
    if r.1 then ((Fraction.mk r.2.2.1 r.2.2.2).ticks division, r.2.2.2) else ts
  else ts

/-- The element `<time><beats>4</beats><beat-type>4</beat-type></time>`. -/
def timeFourFour : QDomElement :=
  .mk "time" [] "44" [.mk "beats" [] "4" [], .mk "beat-type" [] "4" []]

/-! ## Measure durations -/

/-- The rounding of a measure length in the driver: `correctedLength` from
`length`, up to a multiple of the raster `MScore::division/16`. -/
def correctedLength (division : Int) (length : Int) : Int :=
  if Int.tmod length (Int.tdiv division 16) ≠ 0 then
    (Int.tdiv length (Int.tdiv division 16) + 1) * Int.tdiv division 16
  else length

/-- The loop of `measureDurationAsFraction`, for at most `fuel` rounds; `none`
when the loop has not ended by then. -/
def measureDurationLoop (tsigtype : Int) : Nat → Fraction → Option Fraction
  | 0, res => if res.denominator < tsigtype then none else some res
  | fuel + 1, res =>
    if res.denominator < tsigtype then
      measureDurationLoop tsigtype fuel ⟨res.numerator * 2, res.denominator * 2⟩
    else some res

/-- The function `measureDurationAsFraction`, its loop run for at most `fuel`
rounds. -/
def measureDurationAsFraction (fuel : Nat) (length : Fraction) (tsigtype : Int) :
    Option Fraction :=
  if tsigtype ≤ 0 then some length else measureDurationLoop tsigtype fuel length

/-! ## Parts and the global measure-length table -/

/-- The class `MusicXmlPart`, with the members the first pass uses. -/
structure MusicXmlPart where
  id : String
  name : String
  voicelist : VoiceList
  measureNumbers : List String
  measureDurations : List Fraction
  instrList : MusicXmlInstrList
  octaveShifts : List MusicXmlOctaveShiftList

namespace MusicXmlPart

/-- The method `MusicXmlPart::addMeasureNumberAndDuration`. -/
def addMeasureNumberAndDuration (p : MusicXmlPart) (measureNumber : String)
    (measureDuration : Fraction) : MusicXmlPart :=
  { p with
    measureNumbers := p.measureNumbers ++ [measureNumber]
    measureDurations := p.measureDurations ++ [measureDuration] }

/-- The method `MusicXmlPart::measureDuration`. -/
def measureDuration (p : MusicXmlPart) (i : Int) : Fraction :=
  if i ≥ 0 ∧ i < p.measureDurations.length then p.measureDurations.getD i.toNat ⟨0, 0⟩
  else ⟨0, 0⟩

/-- Modelled from the spec: `nMeasures()`, the per-part measure count, one entry
being appended per measure scanned. -/
def nMeasures (p : MusicXmlPart) : Nat := p.measureDurations.length

end MusicXmlPart

/-- The first loop of `determineMeasureLength`: the greatest number of measures
of a part, started from `nMeasures`. -/
def maxMeasures : List MusicXmlPart → Nat → Nat
  | [], nMeasures => nMeasures
  | p :: rest, nMeasures =>
    maxMeasures rest (if p.nMeasures > nMeasures then p.nMeasures else nMeasures)

/-- The inner loop of `determineMeasureLength` for measure `i`, started from
`maxMeasDur`. -/
def maxMeasureDuration (i : Nat) : List MusicXmlPart → Fraction → Fraction
  | [], maxMeasDur => maxMeasDur
  | p :: rest, maxMeasDur =>
    maxMeasureDuration i rest
      (if i < p.nMeasures then
        (if p.measureDuration i > maxMeasDur then p.measureDuration i else maxMeasDur)
      else maxMeasDur)

/-- The method `MxmlReaderFirstPass::determineMeasureLength` on the parts read:
the returned flag and the table `ml`, whose previous content is cleared. -/
def determineMeasureLength (parts : List MusicXmlPart) (_ml : List Fraction) :
    Bool × List Fraction :=
  (true, (List.range (maxMeasures parts 0)).map
    (fun i => maxMeasureDuration i parts ⟨0, 1⟩))

/-- The pieces `parts` written one after the other with a `+` between them. -/
def joinPlus : List (List Char) → List Char
  | [] => []
  | [p] => p
  | p :: q :: ps => p ++ '+' :: joinPlus (q :: ps)

/-- A part with the measure durations `ds` and nothing else. -/
def partOfDurations (ds : List Fraction) : MusicXmlPart :=
  { id := "P1", name := "", voicelist := [], measureNumbers := ds.map (fun _ => ""),
    measureDurations := ds, instrList := [], octaveShifts := [] }

/-! ## Reduction, zero test and conversion from ticks -/

/-- Modelled from the spec: `reduced()` and `reduce()` of the exact-fraction type,
the fraction in lowest terms: numerator and denominator divided by their
greatest common divisor. -/
def Fraction.reduced (f : Fraction) : Fraction :=
  ⟨Int.tdiv f.numerator (Int.gcd f.numerator f.denominator),
   Int.tdiv f.denominator (Int.gcd f.numerator f.denominator)⟩

/-- Modelled from the spec: `isZero()`, whether the value is zero. -/
def Fraction.isZero (f : Fraction) : Bool := f.numerator == 0

/-- Modelled from the spec: `Fraction::fromTicks`, the conversion from an integer
tick count: `ticks` over the `4 * division` ticks of a whole note, in lowest
terms. -/
def Fraction.fromTicks (division : Int) (ticks : Int) : Fraction :=
  (Fraction.mk ticks (division * 4)).reduced

/-! ## The voice overlap detector -/

/-- Modelled from the spec: a call received by the voice overlap detector, the
"new measure" boundary signal or a note given by start tick, end tick, voice
identifier and staff. -/
inductive VodCall where
  | newMeasure
  | addNote (startTick endTick : Int) (voice : String) (staff : Int)
deriving DecidableEq, Repr

/-- Modelled from the spec: the class `VoiceOverlapDetector`, which is not part of
the sources, by the calls it has received so far, in the order received.  Its
answer `stavesOverlap(voice)` is a function of these calls and is taken as a
parameter wherever it is used. -/
abbrev VoiceOverlapDetector := List VodCall

/-- The notes `(startTick, endTick, staff)` of the voice `voice` among the calls
received, measure by measure; `cur` holds the notes of the measure being read. -/
def vodMeasures (voice : String) :
    List VodCall → List (Int × Int × Int) → List (List (Int × Int × Int))
  | [], cur => [cur]
  | VodCall.newMeasure :: rest, cur => cur :: vodMeasures voice rest []
  | VodCall.addNote s e v st :: rest, cur =>
    if v = voice then vodMeasures voice rest ((s, e, st) :: cur)
    else vodMeasures voice rest cur

/-- Modelled from the spec: `stavesOverlap(voice)`, whether in some measure two
notes of the voice on different staves have intersecting time intervals. -/
def specStavesOverlap (vod : VoiceOverlapDetector) (voice : String) : Bool :=
  (vodMeasures voice vod []).any (fun notes =>
    notes.any (fun a => notes.any (fun b =>
      a.2.2 != b.2.2 && decide (a.1 < b.2.1) && decide (b.1 < a.2.1))))

/-! ## Insertion into the voice list -/

namespace VoiceList

/-- The call `vcLst.contains(key)`. -/
def contains (vl : VoiceList) (key : String) : Bool := vl.any (fun e => e.1 == key)

/-- The call `vcLst.insert(key, d)` of `QMap`: the entry is put at its place in
key order, texts being compared character by character, and replaces the value
of an equal key. -/
def insert : VoiceList → String → VoiceDesc → VoiceList
  | [], key, d => [(key, d)]
  | (k, w) :: t, key, d =>
    if key.data < k.data then (key, d) :: (k, w) :: t
    else if k.data < key.data then (k, w) :: insert t key d
    else (k, d) :: t

end VoiceList

/-! ## The first-pass driver `initVoiceMapperAndMapVoices` -/

/-- The local variables of `initVoiceMapperAndMapVoices` together with the part
`parts[partNr]` it fills. -/
structure DriverState where
  vod : VoiceOverlapDetector
  loc_divisions : Int
  loc_tick : Fraction
  loc_maxtick : Fraction
  timeSigLen : Int
  timeSigType : Int
  staves : Int
  part : MusicXmlPart

/-- The local variables at the start of `initVoiceMapperAndMapVoices`, for the
part `p`. -/
def DriverState.start (p : MusicXmlPart) : DriverState :=
  { vod := [], loc_divisions := -1, loc_tick := ⟨0, 1⟩, loc_maxtick := ⟨0, 1⟩,
    timeSigLen := -1, timeSigType := -1, staves := 1, part := p }

/-- The loop of the driver over the children of an `attributes` element. -/
def attributesLoop (ms : MxmlSupport) (division : Int) :
    List QDomElement → DriverState → DriverState
  | [], s => s
  | eee :: rest, s =>
    attributesLoop ms division rest
      (if eee.tagName = "divisions" then
        { s with loc_divisions := (ms.stringToInt eee.text).1 }
      else if eee.tagName = "staves" then
        { s with staves :=
            if !(ms.stringToInt eee.text).2 || decide ((ms.stringToInt eee.text).1 ≤ 0) then 1
            else (ms.stringToInt eee.text).1 }
      else if eee.tagName = "time" then
        { s with
          timeSigLen := (readTime division eee (s.timeSigLen, s.timeSigType)).1
          timeSigType := (readTime division eee (s.timeSigLen, s.timeSigType)).2 }
      else s)

/-- The local variables of the driver for one `note` element. -/
structure NoteScan where
  chord : Bool
  grace : Bool
  voice : String
  staff : Int
  rest : Bool
  instrId : String

/-- The loop of the driver over the children of a `note` element. -/
def noteScanLoop : List QDomElement → NoteScan → NoteScan
  | [], v => v
  | eee :: rest, v =>
    noteScanLoop rest
      (if eee.tagName = "chord" then { v with chord := true }
      else if eee.tagName = "grace" then { v with grace := true }
      else if eee.tagName = "voice" then { v with voice := eee.text }
      else if eee.tagName = "staff" then { v with staff := toInt eee.text - 1 }
      else if eee.tagName = "pitch" then v
      else if eee.tagName = "rest" then { v with rest := true }
      else if eee.tagName = "instrument" then { v with instrId := eee.attr "id" }
      else v)

/-- A call of `aaamoveTick` by the driver on `loc_tick` and `loc_maxtick`, the
other reference parameters being fresh local variables. -/
def moveTick (ms : MxmlSupport) (ee : QDomElement) (s : DriverState) : TickState :=
  aaamoveTick ms
    { tick := s.loc_tick, maxtick := s.loc_maxtick, duration := ⟨0, 1⟩, noteDurDesc := "",
      errorStr := "" }
    s.loc_divisions ee

/-- The staff `corrStaff` the driver counts a note on. -/
def corrStaff (v : NoteScan) (staves : Int) : Int :=
  if v.staff ≥ 0 ∧ v.staff < staves then v.staff else 0

/-- The handling of a `note` element by the driver. -/
def scanNote (ms : MxmlSupport) (division : Int) (MAX_STAVES : Nat) (ee : QDomElement)
    (s : DriverState) : DriverState :=
  let v := noteScanLoop ee.children
    { chord := false, grace := false, voice := "1", staff := 0, rest := false, instrId := "" }
  if !v.chord then
    let t := s.loc_tick.reduced
    let s1 : DriverState :=
      { s with
        part :=
          { s.part with
            instrList :=
              if v.instrId ≠ s.part.instrList.instrument t then
                s.part.instrList.setInstrument v.instrId t
              else s.part.instrList
            voicelist :=
              if corrStaff v s.staves < MAX_STAVES then
                VoiceList.modify
                  (if s.part.voicelist.contains v.voice then s.part.voicelist
                    else s.part.voicelist.insert v.voice VoiceDesc.init)
                  v.voice (fun d => d.incrChordRests (corrStaff v s.staves).toNat)
              else s.part.voicelist } }
    if !v.grace then
      { s1 with
        loc_tick := (moveTick ms ee s1).tick
        loc_maxtick := (moveTick ms ee s1).maxtick
        vod := s1.vod ++ [VodCall.addNote (s1.loc_tick.ticks division)
          ((moveTick ms ee s1).tick.ticks division) v.voice (corrStaff v s.staves)] }
    else s1
  else s

/-- The handling of one child `ee` of a `measure` element by the driver. -/
def scanElement (ms : MxmlSupport) (division : Int) (MAX_STAVES : Nat) (ee : QDomElement)
    (s : DriverState) : DriverState :=
  let s1 := if ee.tagName = "attributes" then attributesLoop ms division ee.children s else s
  let s2 := if ee.tagName = "note" then scanNote ms division MAX_STAVES ee s1 else s1
  if s2.loc_divisions > 0 then
    if ee.tagName = "backup" then
      { s2 with loc_tick := (moveTick ms ee s2).tick, loc_maxtick := (moveTick ms ee s2).maxtick }
    else if ee.tagName = "forward" then
      { s2 with loc_tick := (moveTick ms ee s2).tick, loc_maxtick := (moveTick ms ee s2).maxtick }
    else s2
  else s2

/-- The loop of the driver over the children of a `measure` element. -/
def measureLoop (ms : MxmlSupport) (division : Int) (MAX_STAVES : Nat) :
    List QDomElement → DriverState → DriverState
  | [], s => s
  | ee :: rest, s =>
    measureLoop ms division MAX_STAVES rest (scanElement ms division MAX_STAVES ee s)

/-- The function `copyOverlapData`, with the answers `stavesOverlap` of the
detector. -/
def copyOverlapData (stavesOverlap : VoiceOverlapDetector → String → Bool)
    (vod : VoiceOverlapDetector) (vcLst : VoiceList) : VoiceList :=
  vcLst.foldl
    (fun acc i => if stavesOverlap vod i.1 then acc.modify i.1 (fun d => d.setOverlap true)
      else acc)
    vcLst

/-- The raw duration of a measure in the driver: `fMeasureDuration` after the
subtraction and `reduce()`, default-constructed when a tick is invalid. -/
def rawDuration (measureStartTick loc_maxtick : Fraction) : Fraction :=
  if measureStartTick.isValid && loc_maxtick.isValid then
    (loc_maxtick - measureStartTick).reduced
  else ⟨0, 1⟩

/-- The tick length `length` of a measure in the driver, before rounding: that
of the time signature when the raw duration is zero and a time signature length
is known, that of the raw duration otherwise. -/
def measureLength (division : Int) (raw : Fraction) (timeSigLen : Int) : Int :=
  (if raw.isZero && decide (timeSigLen > 0) then Fraction.fromTicks division timeSigLen
    else raw).ticks division

/-- The measure duration `fMeasureDuration` the driver records for a measure
started at `measureStartTick`; `none` when the loop of
`measureDurationAsFraction` does not end.  The loop is given `timeSigType`
rounds, which is enough whenever it ends at all. -/
def fMeasureDuration (division : Int) (measureStartTick loc_maxtick : Fraction)
    (timeSigLen timeSigType : Int) : Option Fraction :=
  measureDurationAsFraction timeSigType.toNat
    (Fraction.fromTicks division (correctedLength division
      (measureLength division (rawDuration measureStartTick loc_maxtick) timeSigLen)))
    timeSigType

/-- The handling of a `measure` element by the driver. -/
def scanMeasure (ms : MxmlSupport) (stavesOverlap : VoiceOverlapDetector → String → Bool)
    (division : Int) (MAX_STAVES : Nat) (e : QDomElement) (s : DriverState) :
    Option DriverState :=
  let s1 := measureLoop ms division MAX_STAVES e.children
    { s with vod := s.vod ++ [VodCall.newMeasure] }
  (fMeasureDuration division s.loc_tick s1.loc_maxtick s1.timeSigLen s1.timeSigType).map
    (fun d =>
      { s1 with
        part := MusicXmlPart.addMeasureNumberAndDuration
          { s1.part with voicelist := copyOverlapData stavesOverlap s1.vod s1.part.voicelist }
          (e.attr "number") d })

/-- The loop of the driver over the children of the `part` element. -/
def partLoop (ms : MxmlSupport) (stavesOverlap : VoiceOverlapDetector → String → Bool)
    (division : Int) (MAX_STAVES : Nat) : List QDomElement → DriverState → Option DriverState
  | [], s => some s
  | e :: rest, s =>
    if e.tagName = "measure" then
      (scanMeasure ms stavesOverlap division MAX_STAVES e s).bind
        (fun s1 => partLoop ms stavesOverlap division MAX_STAVES rest s1)
    else partLoop ms stavesOverlap division MAX_STAVES rest s

/-- The fixup of the instrument list at the end of the driver: the first entry
is erased and its instrument set again at tick zero. -/
def firstInstrFixup : MusicXmlInstrList → MusicXmlInstrList
  | [] => []
  | (_, firstInstr) :: rest => MusicXmlInstrList.setInstrument rest firstInstr ⟨0, 1⟩

/-- The body of `initVoiceMapperAndMapVoices` on the part element `e`, with `p`
for `parts[partNr]`. -/
def mapVoices (ms : MxmlSupport) (stavesOverlap : VoiceOverlapDetector → String → Bool)
    (division : Int) (MAX_STAVES : Nat) (e : QDomElement) (p : MusicXmlPart) :
    Option MusicXmlPart :=
  (partLoop ms stavesOverlap division MAX_STAVES e.children (DriverState.start p)).map
    (fun s =>
      { s.part with
        voicelist := allocateVoices MAX_STAVES (allocateStaves MAX_STAVES s.part.voicelist)
        instrList := firstInstrFixup s.part.instrList })

/-- What stops the first pass before its end. -/
inductive Fault where
  | partOutOfRange (partNr nParts : Nat)
  | endlessLoop
deriving DecidableEq, Repr

/-- The method `initVoiceMapperAndMapVoices` on the list `parts`: the access
`parts[partNr]` has no bound check and is out of range for
`partNr >= parts.size()`. -/
def initVoiceMapperAndMapVoices (ms : MxmlSupport)
    (stavesOverlap : VoiceOverlapDetector → String → Bool) (division : Int) (MAX_STAVES : Nat)
    (parts : List MusicXmlPart) (e : QDomElement) (partNr : Nat) :
    Except Fault (List MusicXmlPart) :=
  match parts[partNr]? with
  | none => .error (Fault.partOutOfRange partNr parts.length)
  | some p =>
    match mapVoices ms stavesOverlap division MAX_STAVES e p with
    | none => .error Fault.endlessLoop
    | some p1 => .ok (parts.set partNr p1)

/-- The method `parsePart`. -/
def parsePart (ms : MxmlSupport) (stavesOverlap : VoiceOverlapDetector → String → Bool)
    (division : Int) (MAX_STAVES : Nat) (parts : List MusicXmlPart) (e : QDomElement)
    (partNr : Nat) : Except Fault (List MusicXmlPart) :=
  initVoiceMapperAndMapVoices ms stavesOverlap division MAX_STAVES parts e partNr

/-- The constructor `MusicXmlPart(id, name)`. -/
def MusicXmlPart.create (MAX_STAVES : Nat) (id name : String) : MusicXmlPart :=
  { id := id, name := name, voicelist := [], measureNumbers := [], measureDurations := [],
    instrList := [], octaveShifts := List.replicate MAX_STAVES [] }

/-- The inner loop of `parsePartList`, on the variable `partName`. -/
def partNameLoop : List QDomElement → String → String
  | [], partName => partName
  | ee :: rest, partName =>
    partNameLoop rest (if ee.tagName = "part-name" then ee.text else partName)

/-- The outer loop of `parsePartList`, on the variable `partName` and the list
`parts`. -/
def partListLoop (MAX_STAVES : Nat) :
    List QDomElement → String → List MusicXmlPart → List MusicXmlPart
  | [], _, parts => parts
  | e :: rest, partName, parts =>
    if e.tagName = "score-part" then
      partListLoop MAX_STAVES rest (partNameLoop e.children partName)
        (parts ++ [MusicXmlPart.create MAX_STAVES (e.attr "id")
          (partNameLoop e.children partName)])
    else partListLoop MAX_STAVES rest partName parts

/-- The method `parsePartList`. -/
def parsePartList (MAX_STAVES : Nat) (e : QDomElement) (parts : List MusicXmlPart) :
    List MusicXmlPart :=
  partListLoop MAX_STAVES e.children "" parts

/-- The loop of `parseFile` over the children of the root element, on the
variable `partNr` and the list `parts`. -/
def parseFileLoop (ms : MxmlSupport) (stavesOverlap : VoiceOverlapDetector → String → Bool)
    (division : Int) (MAX_STAVES : Nat) :
    List QDomElement → Nat → List MusicXmlPart → Except Fault (List MusicXmlPart)
  | [], _, parts => .ok parts
  | e :: rest, partNr, parts =>
    if e.tagName = "part" then
      match parsePart ms stavesOverlap division MAX_STAVES parts e partNr with
      | .ok parts1 => parseFileLoop ms stavesOverlap division MAX_STAVES rest (partNr + 1) parts1
      | .error f => .error f
    else if e.tagName = "part-list" then
      parseFileLoop ms stavesOverlap division MAX_STAVES rest partNr
        (parsePartList MAX_STAVES e parts)
    else parseFileLoop ms stavesOverlap division MAX_STAVES rest partNr parts

/-- The method `parseFile` on the root element `root` of the document, for a
reader that holds no part yet. -/
def parseFile (ms : MxmlSupport) (stavesOverlap : VoiceOverlapDetector → String → Bool)
    (division : Int) (MAX_STAVES : Nat) (root : QDomElement) :
    Except Fault (List MusicXmlPart) :=
  parseFileLoop ms stavesOverlap division MAX_STAVES root.children 0 []

/-- A duration that is valid and not negative: a positive denominator and a
non-negative numerator. -/
def Fraction.NonNeg (f : Fraction) : Prop := 0 < f.denominator ∧ 0 ≤ f.numerator

instance Fraction.decNonNeg (f : Fraction) : Decidable f.NonNeg :=
  inferInstanceAs (Decidable (0 < f.denominator ∧ 0 ≤ f.numerator))

/-- The invariant of the tick cursor: `0 <= tick <= maxtick`, on fractions with
positive denominators. -/
def TickInv (tick maxtick : Fraction) : Prop :=
  tick.NonNeg ∧ maxtick.Proper ∧ tick ≤ maxtick

/-- The durations that `aaamoveTick` resolves on the element `e` are not
negative: the duration of every `duration` child and, for a note, the
calculated and the specified duration when valid. -/
def ResolvedNonNeg (ms : MxmlSupport) (divisions : Int) (e : QDomElement) : Prop :=
  (∀ c ∈ e.children, c.tagName = "duration" → (ms.durationAsFraction divisions c).NonNeg) ∧
  ((noteDurationAsFraction ms divisions e).1.isValid = true →
    (noteDurationAsFraction ms divisions e).1.NonNeg) ∧
  ((noteDurationAsFraction ms divisions e).2.1.isValid = true →
    (noteDurationAsFraction ms divisions e).2.1.NonNeg)

/-- The durations written in the part element `e` are not negative: every
`duration` child of a child of a measure resolves to a non-negative duration,
whatever the positive divisions, and a valid calculated duration is never
negative. -/
def DurationsNonNeg (ms : MxmlSupport) (e : QDomElement) : Prop :=
  (∀ m ∈ e.children, ∀ ee ∈ m.children, ∀ c ∈ ee.children, c.tagName = "duration" →
    ∀ divisions : Int, 0 < divisions → (ms.durationAsFraction divisions c).NonNeg) ∧
  ∀ (type : String) (dots normalNotes actualNotes : Int),
    (ms.calculateFraction type dots normalNotes actualNotes).isValid = true →
    (ms.calculateFraction type dots normalNotes actualNotes).NonNeg

/-- A first measure, numbered 1: 480 divisions, the time signature 4/4, a quarter
note, a `forward` by 480, a `backup` by 960 and two more `forward` by 480. -/
def measureOne : QDomElement :=
  .mk "measure" [("number", "1")] ""
    [.mk "attributes" [] "" [.mk "divisions" [] "480" [], timeFourFour],
     quarterNote, forward480, backup960, forward480, forward480]

/-- An empty measure, numbered 2. -/
def measureTwo : QDomElement := .mk "measure" [("number", "2")] "" []

/-- A measure with one rest of 481 divisions, one more than a quarter note at 480
divisions. -/
def measureOffRaster : QDomElement :=
  .mk "measure" [("number", "3")] ""
    [.mk "note" [] "481" [.mk "rest" [] "" [], .mk "duration" [] "481" []]]

/-- A part element with the measures 1 and 2. -/
def partOneTwo : QDomElement := .mk "part" [("id", "P1")] "" [measureOne, measureTwo]

/-- A `part-list` element declaring the one part P1. -/
def partListOne : QDomElement :=
  .mk "part-list" [] "Piano"
    [.mk "score-part" [("id", "P1")] "Piano" [.mk "part-name" [] "Piano" []]]

/-- A document with a `part` element and no `part-list`. -/
def partWithoutPartList : QDomElement :=
  .mk "score-partwise" [] "" [partOneTwo]

/-- A document whose `part-list` declares one part and which holds two `part`
elements. -/
def twoPartsOneDeclared : QDomElement :=
  .mk "score-partwise" [] "Piano" [partListOne, partOneTwo, .mk "part" [("id", "P2")] "" []]

/-- A document whose `part` element comes before the `part-list`. -/
def partBeforePartList : QDomElement :=
  .mk "score-partwise" [] "Piano" [partOneTwo, partListOne]

/-- A document whose `part-list` declares the one part it holds. -/
def onePartDeclared : QDomElement :=
  .mk "score-partwise" [] "Piano" [partListOne, partOneTwo]

/-- A quarter note in the voice `voice`: `<duration>480</duration>`,
`<voice>voice</voice>` and `<type>quarter</type>`. -/
def quarterNoteInVoice (voice : String) : QDomElement :=
  .mk "note" [] ""
    [.mk "duration" [] "480" [], .mk "voice" [] voice [], .mk "type" [] "quarter" []]

/-- A part element with one measure holding a quarter note in voice 2 followed by
a quarter note in voice 10. -/
def partVoicesTwoAndTen : QDomElement :=
  .mk "part" [("id", "P1")] ""
    [.mk "measure" [("number", "1")] ""
      [.mk "attributes" [] "" [.mk "divisions" [] "480" []],
       quarterNoteInVoice "2", quarterNoteInVoice "10"]]

/-- An overlapping voice with one chord-rest on staff 0 and one on staff 1. -/
def overlappingOnTwoStaves : VoiceDesc :=
  ((VoiceDesc.init.incrChordRests 0).incrChordRests 1).setOverlap true

/-- A quarter note in the voice `voice` on the staff numbered `staff`. -/
def quarterNoteOnStaff (voice staff : String) : QDomElement :=
  .mk "note" [] ""
    [.mk "duration" [] "480" [], .mk "voice" [] voice [], .mk "type" [] "quarter" [],
     .mk "staff" [] staff []]

/-- A part element with two staves and one measure, in which a voice with the
empty identifier has a quarter note on staff 1 and, after a `backup`, a quarter
note at the same time on staff 2. -/
def partEmptyVoiceOnTwoStaves : QDomElement :=
  .mk "part" [("id", "P1")] ""
    [.mk "measure" [("number", "1")] ""
      [.mk "attributes" [] "" [.mk "divisions" [] "480" [], .mk "staves" [] "2" []],
       quarterNoteOnStaff "" "1",
       .mk "backup" [] "480" [.mk "duration" [] "480" []],
       quarterNoteOnStaff "" "2"]]

/-- The slot of the voice `d` on staff `s`: `voice(s)` for an overlapping voice,
`voice()` for a regular one. -/
def slotOn (s : Nat) (d : VoiceDesc) : Int := if d.overlaps then d.voices s else d.voice

/-- The overlapping voices with a chord-rest on staff `h` that are not handled
yet on `h`. -/
def pendingOn (h : Nat) (vl : VoiceList) : Nat :=
  vl.countP (fun e => e.2.overlaps && decide (1 ≤ e.2.chordRests h) && e.2.staffAlloc h == -1)

/-- The loop invariant behind the handling of overlapping voices on staff `h`: no
key is the empty string; a voice handled on `h` is an overlapping voice with a
chord-rest on `h`, granted (1) or refused (-2); a voice is refused only on a
full staff; and a voice is granted only after every overlapping voice with more
chord-rests on `h` has been granted. -/
def OverlapInv (h : Nat) (st : VoiceList × (Nat → Nat)) : Prop :=
  st.1.WF ∧ (∀ e ∈ st.1, e.1 ≠ "") ∧
  (∀ e ∈ st.1, e.2.staffAlloc h = -1 ∨
    (e.2.overlaps = true ∧ 1 ≤ e.2.chordRests h ∧
      (e.2.staffAlloc h = 1 ∨ e.2.staffAlloc h = -2))) ∧
  (∀ e ∈ st.1, e.2.staffAlloc h = -2 → VOICES ≤ st.2 h) ∧
  (∀ u ∈ st.1, ∀ v ∈ st.1, u.2.overlaps = true →
    v.2.chordRests h < u.2.chordRests h → v.2.staffAlloc h = 1 → u.2.staffAlloc h = 1)

/-- What `allocateStaves` reads and writes of a voice for staff `h`: whether the
voice overlaps, its chord-rests on `h` and its allocation on `h`. -/
def onStaff (h : Nat) (d : VoiceDesc) : Bool × Nat × Int :=
  (d.overlaps, d.chordRests h, d.staffAlloc h)

/-- The final state of two voices `a` and `b` on a staff, each given as by
`onStaff`: an overlapping voice `a` is granted or refused when it has a
chord-rest on the staff and is untouched otherwise, and if `b` is granted with
fewer chord-rests than the overlapping voice `a`, so is `a`. -/
def SettledOn (a b : Bool × Nat × Int) : Prop :=
  (a.1 = true → (1 ≤ a.2.1 → a.2.2 = 1 ∨ a.2.2 = -2) ∧ (a.2.1 = 0 → a.2.2 = -1)) ∧
  (a.1 = true → b.2.1 < a.2.1 → b.2.2 = 1 → a.2.2 = 1)

/-- The number of parts a `part-list` element declares. -/
def partsDeclared (e : QDomElement) : Nat :=
  e.children.countP (fun c => c.tagName == "score-part")

/-- Whether every `part` element among the children `l` of the root comes after
enough declarations: read with the running index `partNr` and `nParts` parts
created so far, each `part` element finds `partNr < nParts`. -/
def indicesInRange : List QDomElement → Nat → Nat → Bool
  | [], _, _ => true
  | e :: rest, partNr, nParts =>
    if e.tagName = "part" then decide (partNr < nParts) && indicesInRange rest (partNr + 1) nParts
    else if e.tagName = "part-list" then indicesInRange rest partNr (nParts + partsDeclared e)
    else indicesInRange rest partNr nParts

/-! ## Properties of the order on fractions -/

theorem Fraction.lt_def (a b : Fraction) :
    a < b ↔ a.numerator * b.denominator < b.numerator * a.denominator := Iff.rfl

theorem Fraction.le_def (a b : Fraction) :
    a ≤ b ↔ ¬ (b < a) := Iff.rfl

theorem Fraction.lt_trans_of_proper {a b c : Fraction} (ha : a.Proper) (hb : b.Proper)
    (hc : c.Proper) (hab : a < b) (hbc : b < c) : a < c := by
  rw [Fraction.lt_def] at *
  unfold Fraction.Proper at ha hb hc
  have h1 : a.numerator * b.denominator * c.denominator
      < b.numerator * a.denominator * c.denominator :=
    Int.mul_lt_mul_of_pos_right hab hc
  have h2 : b.numerator * c.denominator * a.denominator
      < c.numerator * b.denominator * a.denominator :=
    Int.mul_lt_mul_of_pos_right hbc ha
  have h3 : a.numerator * c.denominator * b.denominator
      < c.numerator * a.denominator * b.denominator := by
    calc a.numerator * c.denominator * b.denominator
        = a.numerator * b.denominator * c.denominator := by ring
      _ < b.numerator * a.denominator * c.denominator := h1
      _ = b.numerator * c.denominator * a.denominator := by ring
      _ < c.numerator * b.denominator * a.denominator := h2
      _ = c.numerator * a.denominator * b.denominator := by ring
  exact lt_of_mul_lt_mul_right h3 (le_of_lt hb)

theorem Fraction.lt_irrefl (a : Fraction) : ¬ a < a := by
  rw [Fraction.lt_def]; omega

theorem Fraction.lt_asymm {a b : Fraction} (h : a < b) : ¬ b < a := by
  rw [Fraction.lt_def] at *
  omega

/-! ## The value in effect at a tick -/

namespace FractionMap

variable {α : Type}

theorem upper_bound_le_length (m : FractionMap α) (f : Fraction) :
    upper_bound m f ≤ m.length := by
  induction m with
  | nil => simp [upper_bound]
  | cons e t ih =>
    obtain ⟨k, v⟩ := e
    simp only [upper_bound, List.length_cons]
    split <;> omega

theorem upper_bound_back (m : FractionMap α) (f : Fraction) (d : α) :
    (if upper_bound m f = 0 then d
      else (m[upper_bound m f - 1]?.map Prod.snd).getD d) = lookupLE d m f := by
  induction m generalizing d with
  | nil => simp [upper_bound, lookupLE]
  | cons e t ih =>
    obtain ⟨k, v⟩ := e
    simp only [upper_bound, lookupLE]
    by_cases h : f < k
    · simp [h]
    · simp only [h, if_false, Nat.add_one_ne_zero, Nat.add_sub_cancel]
      rw [← ih v]
      by_cases h0 : upper_bound t f = 0
      · simp [h0]
      · have hle := upper_bound_le_length t f
        obtain ⟨j, hj⟩ := Nat.exists_eq_succ_of_ne_zero h0
        have hlt : j < t.length := by omega
        simp [hj, List.getElem?_cons_succ, List.getElem?_eq_getElem hlt]

theorem lookupLE_of_all_gt (d : α) (m : FractionMap α) (f : Fraction)
    (h : ∀ e ∈ m, f < e.1) : lookupLE d m f = d := by
  cases m with
  | nil => rfl
  | cons e t =>
    obtain ⟨k, v⟩ := e
    have : f < k := h (k, v) (List.mem_cons_self _ _)
    simp [lookupLE, this]

theorem lookupLE_greatest (d : α) (m : FractionMap α) (f : Fraction) (hm : m.WF)
    (hf : f.Proper) (e : Fraction × α) (he : e ∈ m) (hle : e.1 ≤ f)
    (hmax : ∀ x ∈ m, x.1 ≤ f → x.1 ≤ e.1) : lookupLE d m f = e.2 := by
  induction m generalizing d with
  | nil => cases he
  | cons a t ih =>
    obtain ⟨k, v⟩ := a
    obtain ⟨hsorted, hproper⟩ := hm
    rw [List.pairwise_cons] at hsorted
    have hk : k.Proper := hproper (k, v) (List.mem_cons_self _ _)
    have hwt : WF t := ⟨hsorted.2, fun x hx => hproper x (List.mem_cons_of_mem _ hx)⟩
    simp only [lookupLE]
    by_cases hfk : f < k
    · exfalso
      rcases List.mem_cons.1 he with rfl | het
      · exact hle hfk
      · have hke : k < e.1 := hsorted.1 e het
        exact hle (Fraction.lt_trans_of_proper hf hk
          (hproper e (List.mem_cons_of_mem _ het)) hfk hke)
    · simp only [hfk, if_false]
      by_cases het : e ∈ t
      · exact ih v hwt het (fun x hx => hmax x (List.mem_cons_of_mem _ hx))
      · rcases List.mem_cons.1 he with rfl | het2
        · apply lookupLE_of_all_gt
          intro x hx
          by_contra hnot
          exact hmax x (List.mem_cons_of_mem _ hx) hnot (hsorted.1 x hx)
        · exact absurd het2 het

end FractionMap

theorem MusicXmlInstrList.instrument_eq_lookupLE (m : MusicXmlInstrList) (f : Fraction) :
    m.instrument f = FractionMap.lookupLE "" m f := by
  unfold MusicXmlInstrList.instrument
  cases m with
  | nil => rfl
  | cons e t =>
    simp only [List.isEmpty_cons, Bool.false_eq_true, if_false]
    exact FractionMap.upper_bound_back (e :: t) f ""

theorem MusicXmlOctaveShiftList.octaveShift_eq_lookupLE (m : MusicXmlOctaveShiftList)
    (f : Fraction) : m.octaveShift f = FractionMap.lookupLE 0 m f := by
  unfold MusicXmlOctaveShiftList.octaveShift
  cases m with
  | nil => rfl
  | cons e t =>
    simp only [List.isEmpty_cons, Bool.false_eq_true, if_false]
    exact FractionMap.upper_bound_back (e :: t) f 0

/-- C1: `instrument(T)` and `octaveShift(T)` return the value stored at the
greatest key not greater than `T`, and the empty string, respectively zero, when
the list is empty or holds no key not greater than `T`. -/
theorem value_at_tick_is_greatest_key_le (T : Fraction) (hT : T.Proper) :
    (∀ m : MusicXmlInstrList, FractionMap.WF m →
      MusicXmlInstrList.instrument [] T = "" ∧
      ((∀ e ∈ m, ¬ e.1 ≤ T) → m.instrument T = "") ∧
      (∀ e ∈ m, e.1 ≤ T → (∀ x ∈ m, x.1 ≤ T → x.1 ≤ e.1) → m.instrument T = e.2)) ∧
    (∀ m : MusicXmlOctaveShiftList, FractionMap.WF m →
      MusicXmlOctaveShiftList.octaveShift [] T = 0 ∧
      ((∀ e ∈ m, ¬ e.1 ≤ T) → m.octaveShift T = 0) ∧
      (∀ e ∈ m, e.1 ≤ T → (∀ x ∈ m, x.1 ≤ T → x.1 ≤ e.1) → m.octaveShift T = e.2)) := by
  refine ⟨fun m hm => ⟨rfl, ?_, ?_⟩, fun m hm => ⟨rfl, ?_, ?_⟩⟩
  · intro h
    rw [MusicXmlInstrList.instrument_eq_lookupLE]
    exact FractionMap.lookupLE_of_all_gt _ _ _ (fun e he => not_not.1 (h e he))
  · intro e he hle hmax
    rw [MusicXmlInstrList.instrument_eq_lookupLE]
    exact FractionMap.lookupLE_greatest _ m T hm hT e he hle hmax
  · intro h
    rw [MusicXmlOctaveShiftList.octaveShift_eq_lookupLE]
    exact FractionMap.lookupLE_of_all_gt _ _ _ (fun e he => not_not.1 (h e he))
  · intro e he hle hmax
    rw [MusicXmlOctaveShiftList.octaveShift_eq_lookupLE]
    exact FractionMap.lookupLE_greatest _ m T hm hT e he hle hmax

theorem value_at_tick_witness :
    MusicXmlInstrList.instrument
      [(⟨0, 1⟩, "P1-I1"), (⟨1, 2⟩, "P1-I2"), (⟨2, 1⟩, "P1-I3")] ⟨1, 1⟩ = "P1-I2" ∧
    MusicXmlOctaveShiftList.octaveShift [(⟨0, 1⟩, 1), (⟨1, 2⟩, 2), (⟨2, 1⟩, 3)] ⟨1, 1⟩ = 2 :=
  ⟨((value_at_tick_is_greatest_key_le ⟨1, 1⟩ (by decide)).1
      [(⟨0, 1⟩, "P1-I1"), (⟨1, 2⟩, "P1-I2"), (⟨2, 1⟩, "P1-I3")]
      (by unfold FractionMap.WF; decide)).2.2 (⟨1, 2⟩, "P1-I2") (by simp) (by decide) (by decide),
   ((value_at_tick_is_greatest_key_le ⟨1, 1⟩ (by decide)).2
      [(⟨0, 1⟩, 1), (⟨1, 2⟩, 2), (⟨2, 1⟩, 3)]
      (by unfold FractionMap.WF; decide)).2.2 (⟨1, 2⟩, 2) (by simp) (by decide) (by decide)⟩

theorem Fraction.lt_of_equiv_right {a b t : Fraction} (ha : a.Proper) (hb : b.Proper)
    (h1 : ¬ a < b) (h2 : ¬ b < a) (h : t < a) : t < b := by
  rw [Fraction.lt_def] at *
  unfold Fraction.Proper at ha hb
  have heq : a.numerator * b.denominator = b.numerator * a.denominator := by omega
  have h3 : t.numerator * a.denominator * b.denominator
      < a.numerator * t.denominator * b.denominator :=
    Int.mul_lt_mul_of_pos_right h hb
  have h4 : t.numerator * b.denominator * a.denominator
      < b.numerator * t.denominator * a.denominator := by
    calc t.numerator * b.denominator * a.denominator
        = t.numerator * a.denominator * b.denominator := by ring
      _ < a.numerator * t.denominator * b.denominator := h3
      _ = a.numerator * b.denominator * t.denominator := by ring
      _ = b.numerator * a.denominator * t.denominator := by rw [heq]
      _ = b.numerator * t.denominator * a.denominator := by ring
  exact lt_of_mul_lt_mul_right h4 (le_of_lt ha)

namespace FractionMap

variable {α : Type}

theorem WF.tail {e : Fraction × α} {t : FractionMap α} (h : WF (e :: t)) : WF t :=
  ⟨(List.pairwise_cons.1 h.1).2, fun x hx => h.2 x (List.mem_cons_of_mem _ hx)⟩

theorem WF.head_lt {e : Fraction × α} {t : FractionMap α} (h : WF (e :: t)) :
    ∀ x ∈ t, e.1 < x.1 := (List.pairwise_cons.1 h.1).1

theorem WF.head_proper {e : Fraction × α} {t : FractionMap α} (h : WF (e :: t)) :
    e.1.Proper := h.2 e (List.mem_cons_self _ _)

theorem WF.cons {e : Fraction × α} {t : FractionMap α} (ht : WF t) (he : e.1.Proper)
    (hlt : ∀ x ∈ t, e.1 < x.1) : WF (e :: t) :=
  ⟨List.pairwise_cons.2 ⟨hlt, ht.1⟩, fun x hx => by
    rcases List.mem_cons.1 hx with rfl | hx
    · exact he
    · exact ht.2 x hx⟩

theorem insert_keys (m : FractionMap α) (f : Fraction) (v : α) :
    ∀ x ∈ (insert m f v).1, x.1 = f ∨ x ∈ m := by
  induction m with
  | nil => intro x hx; simp [insert] at hx; left; rw [hx]
  | cons e t ih =>
    obtain ⟨k, w⟩ := e
    intro x hx
    simp only [insert] at hx
    split at hx
    · rcases List.mem_cons.1 hx with rfl | hx
      · left; rfl
      · right; exact hx
    · split at hx
      · rcases List.mem_cons.1 hx with rfl | hx
        · right; exact List.mem_cons_self _ _
        · rcases ih x hx with h | h
          · left; exact h
          · right; exact List.mem_cons_of_mem _ h
      · right; exact hx

theorem insert_wf (m : FractionMap α) (f : Fraction) (v : α) (hm : WF m) (hf : f.Proper) :
    WF (insert m f v).1 := by
  induction m with
  | nil => exact WF.cons hm hf (fun x hx => by cases hx)
  | cons e t ih =>
    obtain ⟨k, w⟩ := e
    simp only [insert]
    split
    · rename_i hfk
      refine WF.cons hm hf (fun x hx => ?_)
      rcases List.mem_cons.1 hx with rfl | hx
      · exact hfk
      · exact Fraction.lt_trans_of_proper hf hm.head_proper (hm.2 x (List.mem_cons_of_mem _ hx))
          hfk (hm.head_lt x hx)
    · split
      · rename_i hkf
        refine WF.cons (ih hm.tail) hm.head_proper (fun x hx => ?_)
        rcases insert_keys t f v x hx with h | h
        · rw [h]; exact hkf
        · exact hm.head_lt x h
      · exact hm

/-- Inserting at a key equivalent to a present one changes nothing. -/
theorem insert_of_present (m : FractionMap α) (f : Fraction) (v : α) (hm : WF m)
    (hf : f.Proper) (h : ∃ e ∈ m, ¬ e.1 < f ∧ ¬ f < e.1) : (insert m f v).1 = m := by
  induction m with
  | nil => obtain ⟨e, he, _⟩ := h; cases he
  | cons a t ih =>
    obtain ⟨k, w⟩ := a
    obtain ⟨e, he, h1, h2⟩ := h
    simp only [insert]
    split
    · rename_i hfk
      exfalso
      rcases List.mem_cons.1 he with rfl | het
      · exact h2 hfk
      · exact h2 (Fraction.lt_trans_of_proper hf hm.head_proper
          (hm.2 e (List.mem_cons_of_mem _ het)) hfk (hm.head_lt e het))
    · split
      · rename_i hkf
        rcases List.mem_cons.1 he with rfl | het
        · exact absurd hkf h1
        · simp only
          rw [ih hm.tail ⟨e, het, h1, h2⟩]
      · rfl

/-- Inserting at a key equivalent to no present one puts the new entry at its
place and leaves the entries before and after it as they were. -/
theorem insert_of_absent (m : FractionMap α) (f : Fraction) (v : α)
    (h : ∀ e ∈ m, e.1 < f ∨ f < e.1) :
    ∃ l₁ l₂, m = l₁ ++ l₂ ∧ (insert m f v).1 = l₁ ++ (f, v) :: l₂ := by
  induction m with
  | nil => exact ⟨[], [], rfl, rfl⟩
  | cons a t ih =>
    obtain ⟨k, w⟩ := a
    simp only [insert]
    split
    · exact ⟨[], (k, w) :: t, rfl, rfl⟩
    · split
      · obtain ⟨l₁, l₂, h1, h2⟩ := ih (fun e he => h e (List.mem_cons_of_mem _ he))
        refine ⟨(k, w) :: l₁, l₂, by rw [h1]; rfl, ?_⟩
        simp only [h2, List.cons_append]
      · rename_i h1 h2
        rcases h (k, w) (List.mem_cons_self _ _) with h3 | h3
        · exact absurd h3 h2
        · exact absurd h3 h1

end FractionMap

/-- C4: `setInstrument(instr, f)` leaves the whole list unchanged when a key
equivalent to `f` is present, and otherwise yields the old list with the one
entry `f -> instr` put at its place, every other entry unchanged. -/
theorem setInstrument_first_write_kept (m : MusicXmlInstrList) (hm : FractionMap.WF m)
    (instr : String) (f : Fraction) (hf : f.Proper) :
    ((∃ e ∈ m, ¬ e.1 < f ∧ ¬ f < e.1) → m.setInstrument instr f = m) ∧
    ((∀ e ∈ m, e.1 < f ∨ f < e.1) →
      FractionMap.WF (m.setInstrument instr f) ∧
      ∃ l₁ l₂, m = l₁ ++ l₂ ∧ m.setInstrument instr f = l₁ ++ (f, instr) :: l₂) :=
  ⟨fun h => FractionMap.insert_of_present m f instr hm hf h,
   fun h => ⟨FractionMap.insert_wf m f instr hm hf, FractionMap.insert_of_absent m f instr h⟩⟩

theorem setInstrument_first_write_kept_witness :
    MusicXmlInstrList.setInstrument [(⟨0, 1⟩, "P1-I1"), (⟨1, 2⟩, "P1-I2")] "P1-I3" ⟨2, 4⟩
      = [(⟨0, 1⟩, "P1-I1"), (⟨1, 2⟩, "P1-I2")] :=
  (setInstrument_first_write_kept [(⟨0, 1⟩, "P1-I1"), (⟨1, 2⟩, "P1-I2")]
    (by unfold FractionMap.WF; decide) "P1-I3" ⟨2, 4⟩ (by decide)).1
    ⟨(⟨1, 2⟩, "P1-I2"), by simp, by decide, by decide⟩

namespace MusicXmlOctaveShiftList

theorem total_nil (T : Fraction) : total [] T = 0 := rfl

theorem total_cons (e : Fraction × Int) (t : MusicXmlOctaveShiftList) (T : Fraction) :
    total (e :: t) T = (if e.1 ≤ T then e.2 else 0) + total t T := by
  unfold total
  by_cases h : e.1 ≤ T <;> simp [List.filter_cons, h]

theorem total_of_all_gt (m : MusicXmlOctaveShiftList) (T : Fraction)
    (h : ∀ e ∈ m, T < e.1) : total m T = 0 := by
  induction m with
  | nil => rfl
  | cons e t ih =>
    rw [total_cons, ih (fun x hx => h x (List.mem_cons_of_mem _ hx))]
    have : ¬ e.1 ≤ T := fun hle => hle (h e (List.mem_cons_self _ _))
    simp [this]

theorem addOctaveShift_nil (s : Int) (f : Fraction) :
    addOctaveShift [] s f = [(f, s)] := rfl

theorem addOctaveShift_cons (k : Fraction) (w : Int) (t : MusicXmlOctaveShiftList) (s : Int)
    (f : Fraction) :
    addOctaveShift ((k, w) :: t) s f =
      if f < k then (f, s) :: (k, w) :: t
      else if k < f then (k, w) :: addOctaveShift t s f
      else (k, w + s) :: t := by
  unfold addOctaveShift
  simp only [FractionMap.find, FractionMap.insert]
  by_cases h1 : f < k
  · simp [h1]
  · by_cases h2 : k < f
    · simp only [h1, h2, if_false, if_true]
      cases hfind : FractionMap.find t f with
      | none => simp
      | some i => simp [List.modify]
    · simp [h1, h2, List.modify]

theorem addOctaveShift_keys (m : MusicXmlOctaveShiftList) (s : Int) (f : Fraction) :
    ∀ x ∈ addOctaveShift m s f, x.1 = f ∨ ∃ y ∈ m, y.1 = x.1 := by
  induction m with
  | nil => intro x hx; rw [addOctaveShift_nil] at hx; simp at hx; left; rw [hx]
  | cons e t ih =>
    obtain ⟨k, w⟩ := e
    intro x hx
    rw [addOctaveShift_cons] at hx
    split at hx
    · rcases List.mem_cons.1 hx with rfl | hx
      · left; rfl
      · right; exact ⟨x, hx, rfl⟩
    · split at hx
      · rcases List.mem_cons.1 hx with rfl | hx
        · right; exact ⟨(k, w), List.mem_cons_self _ _, rfl⟩
        · rcases ih x hx with h | ⟨y, hy, h⟩
          · left; exact h
          · right; exact ⟨y, List.mem_cons_of_mem _ hy, h⟩
      · rcases List.mem_cons.1 hx with rfl | hx
        · right; exact ⟨(k, w), List.mem_cons_self _ _, rfl⟩
        · right; exact ⟨x, List.mem_cons_of_mem _ hx, rfl⟩

theorem addOctaveShift_wf (m : MusicXmlOctaveShiftList) (s : Int) (f : Fraction)
    (hm : FractionMap.WF m) (hf : f.Proper) : FractionMap.WF (addOctaveShift m s f) := by
  induction m with
  | nil => exact FractionMap.WF.cons hm hf (fun x hx => by cases hx)
  | cons e t ih =>
    obtain ⟨k, w⟩ := e
    rw [addOctaveShift_cons]
    split
    · rename_i hfk
      refine FractionMap.WF.cons hm hf (fun x hx => ?_)
      rcases List.mem_cons.1 hx with rfl | hx
      · exact hfk
      · exact Fraction.lt_trans_of_proper hf hm.head_proper (hm.2 x (List.mem_cons_of_mem _ hx))
          hfk (hm.head_lt x hx)
    · split
      · rename_i hkf
        refine FractionMap.WF.cons (ih hm.tail) hm.head_proper (fun x hx => ?_)
        rcases addOctaveShift_keys t s f x hx with h | ⟨y, hy, h⟩
        · rw [h]; exact hkf
        · rw [← h]; exact hm.head_lt y hy
      · exact FractionMap.WF.cons hm.tail hm.head_proper hm.head_lt

theorem total_addOctaveShift (m : MusicXmlOctaveShiftList) (s : Int) (f T : Fraction)
    (hm : FractionMap.WF m) (hf : f.Proper) :
    total (addOctaveShift m s f) T = total m T + (if f ≤ T then s else 0) := by
  induction m with
  | nil => rw [addOctaveShift_nil, total_cons, total_nil]; simp
  | cons e t ih =>
    obtain ⟨k, w⟩ := e
    rw [addOctaveShift_cons]
    split
    · rw [total_cons (f, s)]; ring
    · split
      · rw [total_cons, total_cons, ih hm.tail]; ring
      · rename_i h1 h2
        rw [total_cons, total_cons]
        have hk : k.Proper := hm.head_proper
        have hiff : k ≤ T ↔ f ≤ T := by
          rw [Fraction.le_def, Fraction.le_def]
          constructor
          · intro h hlt
            exact h (Fraction.lt_of_equiv_right hf hk h1 h2 hlt)
          · intro h hlt
            exact h (Fraction.lt_of_equiv_right hk hf h2 h1 hlt)
        by_cases hle : f ≤ T
        · simp [hle, hiff.2 hle]; ring
        · have : ¬ k ≤ T := fun h => hle (hiff.1 h)
          simp [hle, this]

theorem lookupLE_calcLoop (c : Int) (m : MusicXmlOctaveShiftList) (T : Fraction)
    (hm : FractionMap.WF m) (hT : T.Proper) :
    FractionMap.lookupLE c (calcLoop c m) T = c + total m T := by
  induction m generalizing c with
  | nil => simp [calcLoop, FractionMap.lookupLE, total_nil]
  | cons e t ih =>
    obtain ⟨k, v⟩ := e
    simp only [calcLoop, FractionMap.lookupLE]
    split
    · rename_i hTk
      rw [total_of_all_gt]
      · simp
      · intro x hx
        rcases List.mem_cons.1 hx with rfl | hx
        · exact hTk
        · exact Fraction.lt_trans_of_proper hT hm.head_proper
            (hm.2 x (List.mem_cons_of_mem _ hx)) hTk (hm.head_lt x hx)
    · rename_i hTk
      rw [ih (c + v) hm.tail, total_cons]
      have : k ≤ T := hTk
      simp [this]; ring

theorem foldl_addOctaveShift (calls : List (Int × Fraction)) (m : MusicXmlOctaveShiftList)
    (T : Fraction) (hm : FractionMap.WF m) (hcalls : ∀ c ∈ calls, c.2.Proper) :
    FractionMap.WF (calls.foldl (fun m c => addOctaveShift m c.1 c.2) m) ∧
    total (calls.foldl (fun m c => addOctaveShift m c.1 c.2) m) T
      = total m T + ((calls.filter (fun c => decide (c.2 ≤ T))).map Prod.fst).sum := by
  induction calls generalizing m with
  | nil => simp [hm]
  | cons c cs ih =>
    have hc : c.2.Proper := hcalls c (List.mem_cons_self _ _)
    have hstep := addOctaveShift_wf m c.1 c.2 hm hc
    obtain ⟨h1, h2⟩ := ih (addOctaveShift m c.1 c.2) hstep
      (fun x hx => hcalls x (List.mem_cons_of_mem _ hx))
    refine ⟨h1, ?_⟩
    rw [List.foldl_cons, h2, total_addOctaveShift m c.1 c.2 T hm hc]
    by_cases hle : c.2 ≤ T
    · simp [List.filter_cons, hle]; ring
    · simp [List.filter_cons, hle]

end MusicXmlOctaveShiftList

/-- C2: after any sequence of `addOctaveShift` calls on an empty list and one
`calcOctaveShiftShifts`, `octaveShift(T)` is the sum of the shifts added at
ticks not greater than `T`. -/
theorem octaveShift_eq_sum_of_shifts (calls : List (Int × Fraction))
    (hproper : ∀ c ∈ calls, c.2.Proper)
    (hassert : ∀ c ∈ calls, (⟨0, 1⟩ : Fraction) ≤ c.2)
    (T : Fraction) (hT : T.Proper) :
    MusicXmlOctaveShiftList.octaveShift
      (MusicXmlOctaveShiftList.calcOctaveShiftShifts
        (calls.foldl (fun m c => MusicXmlOctaveShiftList.addOctaveShift m c.1 c.2) [])) T
      = ((calls.filter (fun c => decide (c.2 ≤ T))).map Prod.fst).sum := by
  have hnil : FractionMap.WF ([] : MusicXmlOctaveShiftList) :=
    ⟨List.Pairwise.nil, fun e he => by cases he⟩
  obtain ⟨hwf, htot⟩ := MusicXmlOctaveShiftList.foldl_addOctaveShift calls [] T hnil hproper
  rw [MusicXmlOctaveShiftList.octaveShift_eq_lookupLE,
    MusicXmlOctaveShiftList.calcOctaveShiftShifts,
    MusicXmlOctaveShiftList.lookupLE_calcLoop 0 _ T hwf hT, htot,
    MusicXmlOctaveShiftList.total_nil]
  simp

theorem octaveShift_eq_sum_of_shifts_witness :
    MusicXmlOctaveShiftList.octaveShift
      (MusicXmlOctaveShiftList.calcOctaveShiftShifts
        (([(1, ⟨0, 1⟩), (2, ⟨3, 1⟩), (-1, ⟨1, 1⟩), (4, ⟨0, 2⟩)] : List (Int × Fraction)).foldl
          (fun m c => MusicXmlOctaveShiftList.addOctaveShift m c.1 c.2) [])) ⟨2, 1⟩ = 4 :=
  octaveShift_eq_sum_of_shifts [(1, ⟨0, 1⟩), (2, ⟨3, 1⟩), (-1, ⟨1, 1⟩), (4, ⟨0, 2⟩)]
    (by decide) (by decide) ⟨2, 1⟩ (by decide)

namespace MusicXmlOctaveShiftList

theorem calcLoop_keys (c : Int) (m : MusicXmlOctaveShiftList) :
    ∀ x ∈ calcLoop c m, ∃ y ∈ m, y.1 = x.1 := by
  induction m generalizing c with
  | nil => intro x hx; cases hx
  | cons e t ih =>
    obtain ⟨k, v⟩ := e
    intro x hx
    simp only [calcLoop] at hx
    rcases List.mem_cons.1 hx with rfl | hx
    · exact ⟨(k, v), List.mem_cons_self _ _, rfl⟩
    · obtain ⟨y, hy, h⟩ := ih _ x hx
      exact ⟨y, List.mem_cons_of_mem _ hy, h⟩

/-- A running total is at least the start value when the raw values up to its
key are non-negative. -/
theorem calcLoop_ge_start (c : Int) (m : MusicXmlOctaveShiftList) (hm : FractionMap.WF m)
    (x : Fraction × Int) (hx : x ∈ calcLoop c m)
    (hpos : ∀ y ∈ m, y.1 ≤ x.1 → 0 ≤ y.2) : c ≤ x.2 := by
  induction m generalizing c with
  | nil => cases hx
  | cons e t ih =>
    obtain ⟨k, v⟩ := e
    simp only [calcLoop] at hx
    rcases List.mem_cons.1 hx with rfl | hx
    · have : 0 ≤ v := hpos (k, v) (List.mem_cons_self _ _) (Fraction.lt_irrefl k)
      simp only; omega
    · obtain ⟨y, hy, hyx⟩ := calcLoop_keys _ t x hx
      have hkx : k < x.1 := by rw [← hyx]; exact hm.head_lt y hy
      have hv : 0 ≤ v := hpos (k, v) (List.mem_cons_self _ _) (Fraction.lt_asymm hkx)
      have := ih (c + v) hm.tail hx (fun y hy => hpos y (List.mem_cons_of_mem _ hy))
      omega

theorem calcLoop_mono (c : Int) (m : MusicXmlOctaveShiftList) (hm : FractionMap.WF m)
    (x₁ x₂ : Fraction × Int) (h₁ : x₁ ∈ calcLoop c m) (h₂ : x₂ ∈ calcLoop c m)
    (hlt : x₁.1 < x₂.1) (hpos : ∀ y ∈ m, x₁.1 < y.1 → y.1 ≤ x₂.1 → 0 ≤ y.2) :
    x₁.2 ≤ x₂.2 := by
  induction m generalizing c with
  | nil => cases h₁
  | cons e t ih =>
    obtain ⟨k, v⟩ := e
    simp only [calcLoop] at h₁ h₂
    rcases List.mem_cons.1 h₁ with rfl | h₁
    · rcases List.mem_cons.1 h₂ with rfl | h₂
      · exact absurd hlt (Fraction.lt_irrefl _)
      · exact calcLoop_ge_start (c + v) t hm.tail x₂ h₂
          (fun y hy hle => hpos y (List.mem_cons_of_mem _ hy) (hm.head_lt y hy) hle)
    · rcases List.mem_cons.1 h₂ with rfl | h₂
      · obtain ⟨y, hy, hyx⟩ := calcLoop_keys _ t x₁ h₁
        have hkx : k < x₁.1 := by rw [← hyx]; exact hm.head_lt y hy
        exact absurd hlt (Fraction.lt_asymm hkx)
      · exact ih (c + v) hm.tail h₁ h₂ (fun y hy => hpos y (List.mem_cons_of_mem _ hy))

end MusicXmlOctaveShiftList

/-- C3 (as stated, refuted): one octave shift up at tick 0 and one down at tick 1
give the running totals 1 at tick 0 and 0 at tick 1, which decrease. -/
theorem running_totals_not_monotone :
    ∃ x₁ ∈ MusicXmlOctaveShiftList.calcOctaveShiftShifts
        (MusicXmlOctaveShiftList.addOctaveShift
          (MusicXmlOctaveShiftList.addOctaveShift [] 1 ⟨0, 1⟩) (-1) ⟨1, 1⟩),
      ∃ x₂ ∈ MusicXmlOctaveShiftList.calcOctaveShiftShifts
        (MusicXmlOctaveShiftList.addOctaveShift
          (MusicXmlOctaveShiftList.addOctaveShift [] 1 ⟨0, 1⟩) (-1) ⟨1, 1⟩),
      x₁.1 < x₂.1 ∧ ¬ x₁.2 ≤ x₂.2 :=
  ⟨(⟨0, 1⟩, 1), by decide, (⟨1, 1⟩, 0), by decide, by decide, by decide⟩

/-- C3 (amended): after `calcOctaveShiftShifts`, for two keys `k1 < k2` of the
list the running total at `k1` is at most the one at `k2` whenever the raw
values stored at the keys in `(k1, k2]` are non-negative. -/
theorem running_totals_monotone_of_nonneg (m : MusicXmlOctaveShiftList)
    (hm : FractionMap.WF m) (x₁ x₂ : Fraction × Int)
    (h₁ : x₁ ∈ m.calcOctaveShiftShifts) (h₂ : x₂ ∈ m.calcOctaveShiftShifts)
    (hlt : x₁.1 < x₂.1) (hpos : ∀ y ∈ m, x₁.1 < y.1 → y.1 ≤ x₂.1 → 0 ≤ y.2) :
    x₁.2 ≤ x₂.2 :=
  MusicXmlOctaveShiftList.calcLoop_mono 0 m hm x₁ x₂ h₁ h₂ hlt hpos

theorem running_totals_monotone_of_nonneg_witness :
    MusicXmlOctaveShiftList.calcOctaveShiftShifts [(⟨0, 1⟩, 1), (⟨1, 1⟩, 2), (⟨2, 1⟩, -5)]
      = [(⟨0, 1⟩, 1), (⟨1, 1⟩, 3), (⟨2, 1⟩, -2)] ∧
    ((⟨0, 1⟩, 1) : Fraction × Int).2 ≤ ((⟨1, 1⟩, 3) : Fraction × Int).2 :=
  ⟨by decide, running_totals_monotone_of_nonneg [(⟨0, 1⟩, 1), (⟨1, 1⟩, 2), (⟨2, 1⟩, -5)]
    (by unfold FractionMap.WF; decide) (⟨0, 1⟩, 1) (⟨1, 1⟩, 3) (by decide) (by decide)
    (by decide) (by decide)⟩

/-! ## The voice list as a map -/

namespace VoiceList

theorem modify_keys (vl : VoiceList) (key : String) (f : VoiceDesc → VoiceDesc) :
    (modify vl key f).map Prod.fst = vl.map Prod.fst := by
  unfold modify
  rw [List.map_map]
  apply List.map_congr_left
  intro e _
  simp only [Function.comp]
  split <;> rfl

theorem modify_length (vl : VoiceList) (key : String) (f : VoiceDesc → VoiceDesc) :
    (modify vl key f).length = vl.length := by
  unfold modify; simp

theorem wf_iff_keys (vl : VoiceList) :
    WF vl ↔ (vl.map Prod.fst).Pairwise (· < ·) := by
  unfold WF
  rw [List.pairwise_map]

theorem modify_wf (vl : VoiceList) (key : String) (f : VoiceDesc → VoiceDesc) (h : WF vl) :
    WF (modify vl key f) := by
  rw [wf_iff_keys] at *
  rw [modify_keys]; exact h

theorem WF.rest {e : String × VoiceDesc} {t : VoiceList} (h : WF (e :: t)) : WF t :=
  (List.pairwise_cons.1 h).2

theorem WF.first_lt {e : String × VoiceDesc} {t : VoiceList} (h : WF (e :: t)) :
    ∀ x ∈ t, e.1 < x.1 := (List.pairwise_cons.1 h).1

theorem WF.key_inj {vl : VoiceList} (h : WF vl) {a b : String × VoiceDesc} (ha : a ∈ vl)
    (hb : b ∈ vl) (hab : a.1 = b.1) : a = b := by
  induction vl with
  | nil => cases ha
  | cons e t ih =>
    rcases List.mem_cons.1 ha with ha | ha
    · rcases List.mem_cons.1 hb with hb | hb
      · rw [ha, hb]
      · have := h.first_lt b hb
        rw [← ha, hab] at this
        exact absurd this (lt_irrefl _)
    · rcases List.mem_cons.1 hb with hb | hb
      · have := h.first_lt a ha
        rw [← hb, hab] at this
        exact absurd this (lt_irrefl _)
      · exact ih h.rest ha hb

theorem modify_of_not_key (vl : VoiceList) (key : String) (f : VoiceDesc → VoiceDesc)
    (h : ∀ e ∈ vl, e.1 ≠ key) : modify vl key f = vl := by
  unfold modify
  conv_rhs => rw [← List.map_id vl]
  apply List.map_congr_left
  intro e he
  simp [h e he]

theorem modify_cons (e : String × VoiceDesc) (t : VoiceList) (key : String)
    (f : VoiceDesc → VoiceDesc) :
    modify (e :: t) key f = (if e.1 = key then (e.1, f e.2) else e) :: modify t key f := rfl

theorem countP_modify_le (P : VoiceDesc → Bool) (vl : VoiceList) (key : String)
    (f : VoiceDesc → VoiceDesc) (h : ∀ d, P (f d) = true → P d = true) :
    (modify vl key f).countP (fun e => P e.2) ≤ vl.countP (fun e => P e.2) := by
  induction vl with
  | nil => simp [modify]
  | cons e t ih =>
    rw [modify_cons, List.countP_cons, List.countP_cons]
    have := ih
    by_cases hk : e.1 = key
    · rw [if_pos hk]
      dsimp only
      by_cases hp : P (f e.2) = true
      · rw [if_pos hp, if_pos (h e.2 hp)]; omega
      · rw [if_neg hp]; split <;> omega
    · rw [if_neg hk]; omega

theorem countP_modify_le_succ (P : VoiceDesc → Bool) (vl : VoiceList) (key : String)
    (f : VoiceDesc → VoiceDesc) (hwf : WF vl) :
    (modify vl key f).countP (fun e => P e.2) ≤ vl.countP (fun e => P e.2) + 1 := by
  induction vl with
  | nil => simp [modify]
  | cons e t ih =>
    rw [modify_cons, List.countP_cons, List.countP_cons]
    by_cases hk : e.1 = key
    · have ht : modify t key f = t := by
        apply modify_of_not_key
        intro x hx hxk
        have := hwf.first_lt x hx
        rw [hk, hxk] at this
        exact absurd this (lt_irrefl _)
      rw [ht]
      split <;> split <;> omega
    · simp only [hk, if_false]
      have := ih hwf.rest
      omega

end VoiceList

/-! ## Capacity of a staff -/

theorem CapacityInv.step {vl : VoiceList} {va va' : Nat → Nat} (h : CapacityInv (vl, va))
    (key : String) (f : VoiceDesc → VoiceDesc)
    (hstep : ∀ s, (va' s = va s ∧ ∀ d, occupies s (f d) = true → occupies s d = true) ∨
      (va' s = va s + 1 ∧ va s < VOICES)) :
    CapacityInv (vl.modify key f, va') := by
  obtain ⟨hwf, hcap⟩ := h
  refine ⟨VoiceList.modify_wf vl key f hwf, fun s => ?_⟩
  have h1 := (hcap s).1
  have h2 := (hcap s).2
  dsimp only at h1 h2 ⊢
  rcases hstep s with ⟨h3, h4⟩ | ⟨h3, h4⟩
  · have := VoiceList.countP_modify_le (occupies s) vl key f h4
    omega
  · have := VoiceList.countP_modify_le_succ (occupies s) vl key f hwf
    omega

theorem regularStep_capacity (M : Nat) (st : VoiceList × (Nat → Nat)) (h : CapacityInv st) :
    CapacityInv (regularStep M st) := by
  unfold regularStep
  simp only
  split
  · split
    · rename_i hlt
      apply CapacityInv.step h
      intro s
      by_cases hs : s = VoiceDesc.preferredStaff M (st.1.value (findRegular M st.1 (0, "")).2)
      · right
        rw [if_pos hs, hs]
        exact ⟨rfl, hlt⟩
      · left
        rw [if_neg hs]
        refine ⟨rfl, fun d hd => ?_⟩
        simp only [occupies, VoiceDesc.setStaff, Bool.or_eq_true, Bool.and_eq_true,
          beq_iff_eq, Nat.cast_inj] at hd ⊢
        rcases hd with ⟨_, h2⟩ | h2
        · exact absurd h2.symm hs
        · right; exact h2
    · apply CapacityInv.step h
      intro s
      left
      refine ⟨rfl, fun d hd => ?_⟩
      simp only [occupies, VoiceDesc.setStaff, Bool.or_eq_true, Bool.and_eq_true,
        beq_iff_eq] at hd ⊢
      rcases hd with ⟨_, h2⟩ | h2
      · omega
      · right; exact h2
  · exact h

theorem overlapStep_capacity (h : Nat) (st : VoiceList × (Nat → Nat)) (hinv : CapacityInv st) :
    CapacityInv (overlapStep h st) := by
  unfold overlapStep
  simp only
  split
  · split
    · rename_i hlt
      apply CapacityInv.step hinv
      intro s
      by_cases hs : s = h
      · right
        rw [if_pos hs, hs]
        exact ⟨rfl, hlt⟩
      · left
        rw [if_neg hs]
        refine ⟨rfl, fun d hd => ?_⟩
        simp only [occupies, VoiceDesc.setStaffAlloc, hs, if_false] at hd ⊢
        exact hd
    · apply CapacityInv.step hinv
      intro s
      left
      refine ⟨rfl, fun d hd => ?_⟩
      simp only [occupies, VoiceDesc.setStaffAlloc, Bool.or_eq_true, Bool.and_eq_true,
        beq_iff_eq] at hd ⊢
      rcases hd with h2 | ⟨h2, h3⟩
      · left; exact h2
      · split at h3
        · omega
        · right; exact ⟨h2, h3⟩
  · exact hinv

theorem regularLoop_capacity (M n : Nat) (st : VoiceList × (Nat → Nat)) (h : CapacityInv st) :
    CapacityInv (regularLoop M n st) := by
  induction n generalizing st with
  | zero => exact h
  | succ n ih => exact ih _ (regularStep_capacity M st h)

theorem overlapLoop_capacity (h n : Nat) (st : VoiceList × (Nat → Nat)) (hinv : CapacityInv st) :
    CapacityInv (overlapLoop h n st) := by
  induction n generalizing st with
  | zero => exact hinv
  | succ n ih => exact ih _ (overlapStep_capacity h st hinv)

theorem overlapStaves_capacity (M : Nat) (st : VoiceList × (Nat → Nat)) (hinv : CapacityInv st) :
    CapacityInv (overlapStaves M st) := by
  unfold overlapStaves
  generalize List.range M = hs
  induction hs generalizing st with
  | nil => exact hinv
  | cons h t ih => exact ih _ (overlapLoop_capacity h _ st hinv)

theorem countP_occupies_split (s : Nat) (vl : VoiceList) :
    vl.countP (fun e => !e.2.overlaps && e.2.staff == (s : Int)) +
      vl.countP (fun e => e.2.overlaps && e.2.staffAlloc s == 1)
      = vl.countP (fun e => occupies s e.2) := by
  induction vl with
  | nil => rfl
  | cons e t ih =>
    rw [List.countP_cons, List.countP_cons, List.countP_cons, ← ih]
    have hocc : occupies s e.2 = ((!e.2.overlaps && e.2.staff == (s : Int)) ||
      (e.2.overlaps && e.2.staffAlloc s == 1)) := rfl
    rw [hocc]
    cases e.2.overlaps <;> simp <;> omega

/-- C5: after `allocateStaves` on a voice list in which every voice starts
unassigned, no staff holds more than `VOICES` voices, counting the regular voices
assigned to it and the overlapping voices allocated on it. -/
theorem allocateStaves_capacity (MAX_STAVES : Nat) (vcLst : VoiceList) (hwf : vcLst.WF)
    (hinit : ∀ e ∈ vcLst, e.2.staff = -1 ∧ ∀ s, e.2.staffAlloc s = -1) (s : Nat) :
    (allocateStaves MAX_STAVES vcLst).countP
        (fun e => !e.2.overlaps && e.2.staff == (s : Int)) +
      (allocateStaves MAX_STAVES vcLst).countP
        (fun e => e.2.overlaps && e.2.staffAlloc s == 1) ≤ VOICES := by
  have h0 : CapacityInv (vcLst, fun _ => 0) := by
    refine ⟨hwf, fun s => ⟨?_, Nat.zero_le _⟩⟩
    simp only [Nat.le_zero, List.countP_eq_zero]
    intro e he
    obtain ⟨h1, h2⟩ := hinit e he
    simp [occupies, h1, h2 s]
  have h1 := overlapStaves_capacity MAX_STAVES _
    (regularLoop_capacity MAX_STAVES vcLst.length _ h0)
  rw [countP_occupies_split]
  exact le_trans (h1.2 s).1 (h1.2 s).2

theorem allocateStaves_capacity_witness :
    (allocateStaves 4 twoVoices).countP (fun e => !e.2.overlaps && e.2.staff == ((0 : Nat) : Int)) +
      (allocateStaves 4 twoVoices).countP (fun e => e.2.overlaps && e.2.staffAlloc 0 == 1)
      ≤ VOICES :=
  allocateStaves_capacity 4 twoVoices (by simp [VoiceList.WF, twoVoices, String.lt_iff_toList_lt]; decide)
    (by unfold twoVoices; simp [tenOnStaffZero, threeOnStaffZero, VoiceDesc.init]) 0

theorem findRegular_eq_findMax (M : Nat) (l : VoiceList) (acc : Nat × String) :
    findRegular M l acc
      = findMax (fun d => !d.overlaps && d.staff == -1) (VoiceDesc.numberChordRests M) l acc := by
  induction l generalizing acc with
  | nil => rfl
  | cons e t ih =>
    obtain ⟨k, d⟩ := e
    simp only [findRegular, findMax, ih]
    rw [Bool.and_right_comm]

theorem findOverlapping_eq_findMax (h : Nat) (l : VoiceList) (acc : Nat × String) :
    findOverlapping h l acc
      = findMax (fun d => d.overlaps && d.staffAlloc h == -1) (fun d => d.chordRests h) l acc := by
  induction l generalizing acc with
  | nil => rfl
  | cons e t ih =>
    obtain ⟨k, d⟩ := e
    simp only [findOverlapping, findMax, ih]
    rw [Bool.and_right_comm]

theorem findMax_spec (elig : VoiceDesc → Bool) (cnt : VoiceDesc → Nat) (l : VoiceList)
    (acc : Nat × String) :
    acc.1 ≤ (findMax elig cnt l acc).1 ∧
    (∀ x ∈ l, elig x.2 = true → cnt x.2 ≤ (findMax elig cnt l acc).1) ∧
    (findMax elig cnt l acc = acc ∨
      ∃ l₁ e l₂, l = l₁ ++ e :: l₂ ∧ elig e.2 = true ∧
        findMax elig cnt l acc = (cnt e.2, e.1) ∧ acc.1 < cnt e.2 ∧
        ∀ x ∈ l₁, elig x.2 = true → cnt x.2 < cnt e.2) := by
  induction l generalizing acc with
  | nil =>
    refine ⟨le_refl _, ?_, Or.inl rfl⟩
    intro x hx
    cases hx
  | cons a t ih =>
    obtain ⟨k, d⟩ := a
    simp only [findMax]
    by_cases hc : (elig d && decide (cnt d > acc.1)) = true
    · rw [if_pos hc]
      simp only [Bool.and_eq_true, decide_eq_true_eq] at hc
      obtain ⟨h1, h2, h3⟩ := ih (cnt d, k)
      dsimp only at h1 h3
      refine ⟨by omega, ?_, Or.inr ?_⟩
      · intro x hx hel
        rcases List.mem_cons.1 hx with rfl | hx
        · exact h1
        · exact h2 x hx hel
      · rcases h3 with h3 | ⟨l₁, e, l₂, hl, hel, hr, hlt, hbefore⟩
        · exact ⟨[], (k, d), t, rfl, hc.1, h3, hc.2, fun x hx => by cases hx⟩
        · refine ⟨(k, d) :: l₁, e, l₂, by rw [hl]; rfl, hel, hr, by omega, ?_⟩
          intro x hx hxe
          rcases List.mem_cons.1 hx with rfl | hx
          · exact hlt
          · exact hbefore x hx hxe
    · rw [if_neg hc]
      simp only [Bool.and_eq_true, decide_eq_true_eq, not_and, not_lt] at hc
      obtain ⟨h1, h2, h3⟩ := ih acc
      refine ⟨h1, ?_, ?_⟩
      · intro x hx hel
        rcases List.mem_cons.1 hx with rfl | hx
        · exact le_trans (hc hel) h1
        · exact h2 x hx hel
      · rcases h3 with h3 | ⟨l₁, e, l₂, hl, hel, hr, hlt, hbefore⟩
        · exact Or.inl h3
        · refine Or.inr ⟨(k, d) :: l₁, e, l₂, by rw [hl]; rfl, hel, hr, hlt, ?_⟩
          intro x hx hxe
          rcases List.mem_cons.1 hx with rfl | hx
          · exact lt_of_le_of_lt (hc hxe) hlt
          · exact hbefore x hx hxe

/-- What the inner loop has found when it ends with a non-empty key: an eligible
entry of the list under that key, with a count not below that of any eligible
entry and above that of every eligible entry before it. -/
theorem findMax_pick (elig : VoiceDesc → Bool) (cnt : VoiceDesc → Nat) (l : VoiceList)
    (hwf : l.WF) (hkey : (findMax elig cnt l (0, "")).2 ≠ "") :
    ∃ e ∈ l, e.1 = (findMax elig cnt l (0, "")).2 ∧ elig e.2 = true ∧
      ∀ x ∈ l, elig x.2 = true → cnt x.2 ≤ cnt e.2 ∧ (x.1 < e.1 → cnt x.2 < cnt e.2) := by
  obtain ⟨_, h2, h3⟩ := findMax_spec elig cnt l (0, "")
  rcases h3 with h3 | ⟨l₁, e, l₂, hl, hel, hr, _, hbefore⟩
  · rw [h3] at hkey; exact absurd rfl hkey
  · have hmem : e ∈ l := by rw [hl]; simp
    refine ⟨e, hmem, by rw [hr], hel, fun x hx hxe => ⟨?_, ?_⟩⟩
    · have := h2 x hx hxe
      rw [hr] at this; exact this
    · intro hlt
      rw [hl] at hx
      rcases List.mem_append.1 hx with hx | hx
      · exact hbefore x hx hxe
      · exfalso
        rcases List.mem_cons.1 hx with rfl | hx
        · exact lt_irrefl _ hlt
        · unfold VoiceList.WF at hwf
          rw [hl, List.pairwise_append] at hwf
          have := (List.pairwise_cons.1 hwf.2.1).1 x hx
          exact lt_asymm hlt this

namespace VoiceList

theorem value_of_mem {vl : VoiceList} (hwf : WF vl) {e : String × VoiceDesc} (he : e ∈ vl) :
    value vl e.1 = e.2 := by
  unfold value
  induction vl with
  | nil => cases he
  | cons a t ih =>
    rw [List.find?_cons]
    by_cases ha : a.1 = e.1
    · have : a = e := hwf.key_inj (List.mem_cons_self _ _) he ha
      simp [this]
    · have hne : (a.1 == e.1) = false := by simpa using ha
      rw [hne]
      rcases List.mem_cons.1 he with rfl | he
      · exact absurd rfl ha
      · exact ih hwf.rest he

theorem mem_modify_of_ne {vl : VoiceList} {e : String × VoiceDesc} (he : e ∈ vl)
    (key : String) (f : VoiceDesc → VoiceDesc) (hne : e.1 ≠ key) : e ∈ modify vl key f := by
  unfold modify
  rw [List.mem_map]
  exact ⟨e, he, by simp [hne]⟩

theorem mem_modify_of_eq {vl : VoiceList} {e : String × VoiceDesc} (he : e ∈ vl)
    (key : String) (f : VoiceDesc → VoiceDesc) (heq : e.1 = key) :
    (e.1, f e.2) ∈ modify vl key f := by
  unfold modify
  rw [List.mem_map]
  exact ⟨e, he, by simp [heq]⟩

theorem mem_modify {vl : VoiceList} {e : String × VoiceDesc} (he : e ∈ vl)
    (key : String) (f : VoiceDesc → VoiceDesc) :
    (e.1, if e.1 = key then f e.2 else e.2) ∈ modify vl key f := by
  by_cases h : e.1 = key
  · rw [if_pos h]; exact mem_modify_of_eq he key f h
  · rw [if_neg h]; exact mem_modify_of_ne he key f h

theorem mem_modify_inv {vl : VoiceList} {x : String × VoiceDesc} {key : String}
    {f : VoiceDesc → VoiceDesc} (hx : x ∈ modify vl key f) :
    ∃ e ∈ vl, x = (e.1, if e.1 = key then f e.2 else e.2) := by
  unfold modify at hx
  rw [List.mem_map] at hx
  obtain ⟨e, he, rfl⟩ := hx
  refine ⟨e, he, ?_⟩
  split <;> rfl

end VoiceList

theorem VoiceDesc.preferredStaffLoop_congr (d d' : VoiceDesc)
    (h : d.chordRests = d'.chordRests) (n : Nat) :
    preferredStaffLoop d n = preferredStaffLoop d' n := by
  induction n with
  | zero => rfl
  | succ n ih => simp only [preferredStaffLoop, ih, h]

theorem VoiceDesc.preferredStaff_congr (M : Nat) (d d' : VoiceDesc)
    (h : d.chordRests = d'.chordRests) : d.preferredStaff M = d'.preferredStaff M := by
  unfold preferredStaff
  rw [preferredStaffLoop_congr d d' h]

theorem VoiceDesc.numberChordRests_congr (M : Nat) (d d' : VoiceDesc)
    (h : d.chordRests = d'.chordRests) : d.numberChordRests M = d'.numberChordRests M := by
  unfold numberChordRests
  rw [h]

theorem PriorityInv.frame {u v : String × VoiceDesc} {p : Nat} {vl : VoiceList}
    {va va' : Nat → Nat} (hinv : PriorityInv u v p (vl, va)) (key : String)
    (f : VoiceDesc → VoiceDesc)
    (hf : ∀ d, (f d).staff = d.staff ∧ (f d).overlaps = d.overlaps ∧
      (f d).chordRests = d.chordRests)
    (hva : va p ≤ va' p) : PriorityInv u v p (vl.modify key f, va') := by
  obtain ⟨hwf, du, dv, hu, hv, h1, h2, h3, h4, h5, h6, h7, h8⟩ := hinv
  refine ⟨VoiceList.modify_wf vl key f hwf, (if u.1 = key then f du else du),
    (if v.1 = key then f dv else dv), VoiceList.mem_modify hu key f,
    VoiceList.mem_modify hv key f, ?_⟩
  dsimp only at h7 ⊢
  have e1 : (if u.1 = key then f du else du).staff = du.staff := by
    split
    · exact (hf du).1
    · rfl
  have e2 : (if v.1 = key then f dv else dv).staff = dv.staff := by
    split
    · exact (hf dv).1
    · rfl
  have e3 : (if u.1 = key then f du else du).overlaps = du.overlaps := by
    split
    · exact (hf du).2.1
    · rfl
  have e4 : (if v.1 = key then f dv else dv).overlaps = dv.overlaps := by
    split
    · exact (hf dv).2.1
    · rfl
  have e5 : (if u.1 = key then f du else du).chordRests = du.chordRests := by
    split
    · exact (hf du).2.2
    · rfl
  have e6 : (if v.1 = key then f dv else dv).chordRests = dv.chordRests := by
    split
    · exact (hf dv).2.2
    · rfl
  rw [e1, e2, e3, e4, e5, e6]
  exact ⟨h1, h2, h3, h4, h5, h6, fun h => le_trans (h7 h) hva, h8⟩

theorem PriorityInv.assign (M : Nat) {u v : String × VoiceDesc} {p : Nat} {vl : VoiceList}
    {va va' : Nat → Nat} (hinv : PriorityInv u v p (vl, va))
    (hne : u.1 ≠ v.1)
    (hprio : v.2.numberChordRests M < u.2.numberChordRests M ∨
      (u.2.numberChordRests M = v.2.numberChordRests M ∧ u.1 < v.1))
    (e : String × VoiceDesc) (he : e ∈ vl) (hst : e.2.staff = -1)
    (hmax : ∀ x ∈ vl, x.2.overlaps = false → x.2.staff = -1 →
      x.2.numberChordRests M ≤ e.2.numberChordRests M ∧
      (x.1 < e.1 → x.2.numberChordRests M < e.2.numberChordRests M))
    (X : Int) (hva : va p ≤ va' p)
    (hX : (X = (p : Int) ∧ va p < VOICES) ∨ (X = -2 ∧ VOICES ≤ va p)) :
    PriorityInv u v p (vl.modify e.1 (fun d => d.setStaff X), va') := by
  obtain ⟨hwf, du, dv, hu, hv, h1, h2, h3, h4, h5, h6, h7, h8⟩ := hinv
  dsimp only at h7 hu hv
  have hcu : du.numberChordRests M = u.2.numberChordRests M :=
    VoiceDesc.numberChordRests_congr M _ _ h3
  have hcv : dv.numberChordRests M = v.2.numberChordRests M :=
    VoiceDesc.numberChordRests_congr M _ _ h4
  unfold PriorityInv
  dsimp only at hwf ⊢
  refine ⟨VoiceList.modify_wf vl e.1 (fun d => d.setStaff X) hwf, ?_⟩
  by_cases hev : e.1 = v.1
  · have hedv : e = (v.1, dv) := hwf.key_inj he hv hev
    have hdv : dv.staff = -1 := by rw [hedv] at hst; exact hst
    have hdu : du.staff ≠ -1 := by
      intro hdu
      obtain ⟨hle, hlt⟩ := hmax (u.1, du) hu h1 hdu
      rw [hedv] at hle hlt
      dsimp only at hle hlt
      rcases hprio with hp | ⟨hp1, hp2⟩
      · omega
      · have := hlt hp2
        omega
    refine ⟨du, dv.setStaff X, ?_, ?_, h1, h2, h3, h4, h5, fun _ => hdu,
      fun h => le_trans (h7 h) hva, ?_⟩
    · exact VoiceList.mem_modify_of_ne hu _ _ (fun h => hne (h.trans hev))
    · have := VoiceList.mem_modify_of_eq he e.1 (fun d => d.setStaff X) rfl
      rw [hedv] at this
      rw [hedv]
      exact this
    · intro hm2
      have := h7 hm2
      simp only [VoiceDesc.setStaff]
      rcases hX with ⟨_, hlt⟩ | ⟨hx, _⟩
      · omega
      · omega
  · by_cases heu : e.1 = u.1
    · have hedu : e = (u.1, du) := hwf.key_inj he hu heu
      have hdu : du.staff = -1 := by rw [hedu] at hst; exact hst
      have hdv : dv.staff = -1 := by
        by_contra hdv
        exact h6 hdv hdu
      refine ⟨du.setStaff X, dv, ?_, ?_, h1, h2, h3, h4, ?_, ?_, ?_, ?_⟩
      · have := VoiceList.mem_modify_of_eq he e.1 (fun d => d.setStaff X) rfl
        rw [hedu] at this
        rw [hedu]
        exact this
      · exact VoiceList.mem_modify_of_ne hv _ _ (fun h => hev h.symm)
      · simp only [VoiceDesc.setStaff]
        rcases hX with ⟨hx, _⟩ | ⟨hx, _⟩
        · right; left; exact hx
        · right; right; exact hx
      · intro h; exact absurd hdv h
      · simp only [VoiceDesc.setStaff]
        intro hx
        rcases hX with ⟨hx', _⟩ | ⟨_, hle⟩
        · omega
        · exact le_trans hle hva
      · intro _
        rw [hdv]; omega
    · refine ⟨du, dv, ?_, ?_, h1, h2, h3, h4, h5, h6, fun h => le_trans (h7 h) hva, h8⟩
      · exact VoiceList.mem_modify_of_ne hu _ _ (fun h => heu h.symm)
      · exact VoiceList.mem_modify_of_ne hv _ _ (fun h => hev h.symm)

theorem regularStep_priority (M : Nat) (u v : String × VoiceDesc) (p : Nat)
    (hpu : u.2.preferredStaff M = p) (hpv : v.2.preferredStaff M = p)
    (hne : u.1 ≠ v.1)
    (hprio : v.2.numberChordRests M < u.2.numberChordRests M ∨
      (u.2.numberChordRests M = v.2.numberChordRests M ∧ u.1 < v.1))
    (st : VoiceList × (Nat → Nat)) (hinv : PriorityInv u v p st) :
    PriorityInv u v p (regularStep M st) := by
  obtain ⟨vl, va⟩ := st
  have hwf : vl.WF := hinv.1
  unfold regularStep
  dsimp only
  by_cases hkey : (findRegular M vl (0, "")).2 ≠ ""
  · rw [if_pos hkey]
    have hpick := findMax_pick (fun d => !d.overlaps && d.staff == -1)
      (VoiceDesc.numberChordRests M) vl hwf
      (by rw [← findRegular_eq_findMax]; exact hkey)
    rw [← findRegular_eq_findMax] at hpick
    obtain ⟨e, he, hek, hel, hmax⟩ := hpick
    rw [← hek, VoiceList.value_of_mem hwf he]
    simp only [Bool.and_eq_true, Bool.not_eq_true', beq_iff_eq] at hel hmax
    have hmax' : ∀ x ∈ vl, x.2.overlaps = false → x.2.staff = -1 →
        x.2.numberChordRests M ≤ e.2.numberChordRests M ∧
        (x.1 < e.1 → x.2.numberChordRests M < e.2.numberChordRests M) :=
      fun x hx h1 h2 => hmax x hx ⟨h1, h2⟩
    by_cases hrel : e.1 = u.1 ∨ e.1 = v.1
    · have hpe : e.2.preferredStaff M = p := by
        obtain ⟨_, du, dv, hu, hv, _, _, h3, h4, _⟩ := hinv
        rcases hrel with h | h
        · have : e = (u.1, du) := hwf.key_inj he hu h
          rw [this, ← hpu]
          exact VoiceDesc.preferredStaff_congr M _ _ h3
        · have : e = (v.1, dv) := hwf.key_inj he hv h
          rw [this, ← hpv]
          exact VoiceDesc.preferredStaff_congr M _ _ h4
      rw [hpe]
      by_cases hlt : va p < VOICES
      · rw [if_pos hlt]
        apply PriorityInv.assign M hinv hne hprio e he hel.2 hmax' (p : Int)
        · simp
        · left; exact ⟨rfl, hlt⟩
      · rw [if_neg hlt]
        apply PriorityInv.assign M hinv hne hprio e he hel.2 hmax' (-2) (le_refl _)
        right; exact ⟨rfl, by omega⟩
    · have hframe : ∀ (X : Int) (va' : Nat → Nat), va p ≤ va' p →
          PriorityInv u v p (vl.modify e.1 (fun d => d.setStaff X), va') := by
        intro X va' hva
        obtain ⟨_, du, dv, hu, hv, h1, h2, h3, h4, h5, h6, h7, h8⟩ := hinv
        unfold PriorityInv
        dsimp only at hu hv h7 ⊢
        refine ⟨VoiceList.modify_wf vl e.1 (fun d => d.setStaff X) hwf, du, dv, ?_, ?_, h1, h2, h3,
          h4, h5, h6,
          fun h => le_trans (h7 h) hva, h8⟩
        · exact VoiceList.mem_modify_of_ne hu _ _ (fun h => hrel (Or.inl h.symm))
        · exact VoiceList.mem_modify_of_ne hv _ _ (fun h => hrel (Or.inr h.symm))
      split
      · apply hframe
        dsimp only
        split <;> omega
      · exact hframe _ _ (le_refl _)
  · rw [if_neg hkey]
    exact hinv

theorem overlapStep_priority (u v : String × VoiceDesc) (p h : Nat)
    (st : VoiceList × (Nat → Nat)) (hinv : PriorityInv u v p st) :
    PriorityInv u v p (overlapStep h st) := by
  obtain ⟨vl, va⟩ := st
  unfold overlapStep
  dsimp only
  split
  · split
    · apply PriorityInv.frame hinv
      · intro d; exact ⟨rfl, rfl, rfl⟩
      · dsimp only; split <;> omega
    · apply PriorityInv.frame hinv
      · intro d; exact ⟨rfl, rfl, rfl⟩
      · exact le_refl _
  · exact hinv

theorem regularLoop_priority (M : Nat) (u v : String × VoiceDesc) (p : Nat)
    (hpu : u.2.preferredStaff M = p) (hpv : v.2.preferredStaff M = p)
    (hne : u.1 ≠ v.1)
    (hprio : v.2.numberChordRests M < u.2.numberChordRests M ∨
      (u.2.numberChordRests M = v.2.numberChordRests M ∧ u.1 < v.1))
    (n : Nat) (st : VoiceList × (Nat → Nat)) (hinv : PriorityInv u v p st) :
    PriorityInv u v p (regularLoop M n st) := by
  induction n generalizing st with
  | zero => exact hinv
  | succ n ih => exact ih _ (regularStep_priority M u v p hpu hpv hne hprio st hinv)

theorem overlapLoop_priority (u v : String × VoiceDesc) (p h n : Nat)
    (st : VoiceList × (Nat → Nat)) (hinv : PriorityInv u v p st) :
    PriorityInv u v p (overlapLoop h n st) := by
  induction n generalizing st with
  | zero => exact hinv
  | succ n ih => exact ih _ (overlapStep_priority u v p h st hinv)

theorem overlapStaves_priority (M : Nat) (u v : String × VoiceDesc) (p : Nat)
    (st : VoiceList × (Nat → Nat)) (hinv : PriorityInv u v p st) :
    PriorityInv u v p (overlapStaves M st) := by
  unfold overlapStaves
  generalize List.range M = hs
  induction hs generalizing st with
  | nil => exact hinv
  | cons h t ih => exact ih _ (overlapLoop_priority u v p h _ st hinv)

/-- C7: greedy priority by chord-rest count in `allocateStaves`.  For two regular
voices `u` and `v` with the same preferred staff, where `u` holds more
chord-rests than `v`, or as many and comes earlier in the iteration order of the
voice list: if `v` ends assigned to that staff then so does `u`. -/
theorem allocateStaves_priority (MAX_STAVES : Nat) (vcLst : VoiceList) (hwf : vcLst.WF)
    (hinit : ∀ e ∈ vcLst, e.2.staff = -1)
    (u v : String × VoiceDesc) (hu : u ∈ vcLst) (hv : v ∈ vcLst)
    (hou : u.2.overlaps = false) (hov : v.2.overlaps = false)
    (hpref : u.2.preferredStaff MAX_STAVES = v.2.preferredStaff MAX_STAVES)
    (hprio : v.2.numberChordRests MAX_STAVES < u.2.numberChordRests MAX_STAVES ∨
      (u.2.numberChordRests MAX_STAVES = v.2.numberChordRests MAX_STAVES ∧ u.1 < v.1)) :
    ((allocateStaves MAX_STAVES vcLst).value v.1).staff
        = (v.2.preferredStaff MAX_STAVES : Int) →
      ((allocateStaves MAX_STAVES vcLst).value u.1).staff
        = (u.2.preferredStaff MAX_STAVES : Int) := by
  have hne : u.1 ≠ v.1 := by
    intro h
    have huv : u = v := hwf.key_inj hu hv h
    rcases hprio with hp | ⟨_, hp⟩
    · rw [huv] at hp; exact lt_irrefl _ hp
    · rw [huv] at hp; exact lt_irrefl _ hp
  have h0 : PriorityInv u v (v.2.preferredStaff MAX_STAVES) (vcLst, fun _ => 0) := by
    refine ⟨hwf, u.2, v.2, hu, hv, hou, hov, rfl, rfl, Or.inl (hinit u hu), ?_, ?_, ?_⟩
    · intro h; exact absurd (hinit v hv) h
    · intro h; rw [hinit u hu] at h; omega
    · intro h; rw [hinit u hu] at h; omega
  have h1 := overlapStaves_priority MAX_STAVES u v _ _
    (regularLoop_priority MAX_STAVES u v _ hpref rfl hne hprio vcLst.length _ h0)
  obtain ⟨hwf', du, dv, hu', hv', _, _, _, _, h5, h6, _, h8⟩ := h1
  have e1 : (allocateStaves MAX_STAVES vcLst).value u.1 = du :=
    VoiceList.value_of_mem hwf' hu'
  have e2 : (allocateStaves MAX_STAVES vcLst).value v.1 = dv :=
    VoiceList.value_of_mem hwf' hv'
  rw [e1, e2, hpref]
  intro hvp
  rcases h5 with h5 | h5 | h5
  · exact absurd h5 (h6 (by rw [hvp]; omega))
  · exact h5
  · exact absurd hvp (h8 h5)

theorem allocateStaves_priority_witness :
    ((allocateStaves 4 twoVoices).value "1").staff = 0 :=
  allocateStaves_priority 4 twoVoices
    (by simp [VoiceList.WF, twoVoices, String.lt_iff_toList_lt]; decide)
    (by unfold twoVoices; simp [tenOnStaffZero, threeOnStaffZero, VoiceDesc.init])
    ("1", tenOnStaffZero) ("2", threeOnStaffZero)
    (List.mem_cons_self _ _) (List.mem_cons_of_mem _ (List.mem_cons_self _ _))
    rfl rfl (by decide) (Or.inl (by decide)) (by decide)

/-- C6 (evaluation at the failing input): a regular voice whose identifier is the
empty string, holding one chord-rest, is still unassigned (staff -1) after
`allocateStaves`, alone or next to a voice "1" which it then also keeps
unassigned; under the identifier "1" the same voice gets staff 0. -/
theorem allocateStaves_empty_identifier_unassigned :
    (allocateStaves 4 [("", oneOnStaffZero)]).map (fun e => (e.1, e.2.overlaps, e.2.staff))
      = [("", false, -1)] ∧
    (allocateStaves 4 [("", oneOnStaffZero), ("1", oneOnStaffZero)]).map
      (fun e => (e.1, e.2.overlaps, e.2.staff)) = [("", false, -1), ("1", false, -1)] ∧
    (allocateStaves 4 [("1", oneOnStaffZero)]).map (fun e => (e.1, e.2.overlaps, e.2.staff))
      = [("1", false, 0)] := by
  decide

theorem StavesInv.modify {vl : VoiceList} {va va' : Nat → Nat} (hinv : StavesInv (vl, va))
    (e : String × VoiceDesc) (he : e ∈ vl) (f : VoiceDesc → VoiceDesc)
    (hf : (f e.2).voice = e.2.voice ∧ (f e.2).voices = e.2.voices ∧
      (f e.2).overlaps = e.2.overlaps ∧
      (e.2.overlaps = true → (f e.2).staff = e.2.staff) ∧
      (e.2.overlaps = false → (f e.2).staffAlloc = e.2.staffAlloc)) :
    StavesInv (vl.modify e.1 f, va') := by
  obtain ⟨hwf, hall⟩ := hinv
  unfold StavesInv
  dsimp only at hwf hall ⊢
  refine ⟨VoiceList.modify_wf vl e.1 f hwf, fun x hx => ?_⟩
  obtain ⟨y, hy, rfl⟩ := VoiceList.mem_modify_inv hx
  dsimp only
  by_cases hk : y.1 = e.1
  · have hye : y = e := hwf.key_inj hy he hk
    rw [if_pos hk, hye]
    obtain ⟨h1, h2, h3, h4⟩ := hall e he
    obtain ⟨g1, g2, g3, g4, g5⟩ := hf
    rw [g1, g2, g3]
    refine ⟨h1, h2, fun ho => ?_, fun ho => ?_⟩
    · rw [g4 ho]; exact h3 ho
    · rw [g5 ho]; exact h4 ho
  · rw [if_neg hk]
    exact hall y hy

theorem regularStep_stavesInv (M : Nat) (st : VoiceList × (Nat → Nat)) (hinv : StavesInv st) :
    StavesInv (regularStep M st) := by
  obtain ⟨vl, va⟩ := st
  have hwf : vl.WF := hinv.1
  unfold regularStep
  dsimp only
  by_cases hkey : (findRegular M vl (0, "")).2 ≠ ""
  · rw [if_pos hkey]
    have hpick := findMax_pick (fun d => !d.overlaps && d.staff == -1)
      (VoiceDesc.numberChordRests M) vl hwf
      (by rw [← findRegular_eq_findMax]; exact hkey)
    rw [← findRegular_eq_findMax] at hpick
    obtain ⟨e, he, hek, hel, _⟩ := hpick
    rw [← hek]
    simp only [Bool.and_eq_true, Bool.not_eq_true', beq_iff_eq] at hel
    split
    · apply StavesInv.modify hinv e he
      refine ⟨rfl, rfl, rfl, fun ho => ?_, fun _ => rfl⟩
      rw [hel.1] at ho; cases ho
    · apply StavesInv.modify hinv e he
      refine ⟨rfl, rfl, rfl, fun ho => ?_, fun _ => rfl⟩
      rw [hel.1] at ho; cases ho
  · rw [if_neg hkey]
    exact hinv

theorem overlapStep_stavesInv (h : Nat) (st : VoiceList × (Nat → Nat)) (hinv : StavesInv st) :
    StavesInv (overlapStep h st) := by
  obtain ⟨vl, va⟩ := st
  have hwf : vl.WF := hinv.1
  unfold overlapStep
  dsimp only
  by_cases hkey : (findOverlapping h vl (0, "")).2 ≠ ""
  · rw [if_pos hkey]
    have hpick := findMax_pick (fun d => d.overlaps && d.staffAlloc h == -1)
      (fun d => d.chordRests h) vl hwf
      (by rw [← findOverlapping_eq_findMax]; exact hkey)
    rw [← findOverlapping_eq_findMax] at hpick
    obtain ⟨e, he, hek, hel, _⟩ := hpick
    rw [← hek]
    simp only [Bool.and_eq_true, beq_iff_eq] at hel
    split
    · apply StavesInv.modify hinv e he
      refine ⟨rfl, rfl, rfl, fun _ => rfl, fun ho => ?_⟩
      rw [hel.1] at ho; cases ho
    · apply StavesInv.modify hinv e he
      refine ⟨rfl, rfl, rfl, fun _ => rfl, fun ho => ?_⟩
      rw [hel.1] at ho; cases ho
  · rw [if_neg hkey]
    exact hinv

theorem regularLoop_stavesInv (M n : Nat) (st : VoiceList × (Nat → Nat)) (h : StavesInv st) :
    StavesInv (regularLoop M n st) := by
  induction n generalizing st with
  | zero => exact h
  | succ n ih => exact ih _ (regularStep_stavesInv M st h)

theorem overlapLoop_stavesInv (h n : Nat) (st : VoiceList × (Nat → Nat)) (hinv : StavesInv st) :
    StavesInv (overlapLoop h n st) := by
  induction n generalizing st with
  | zero => exact hinv
  | succ n ih => exact ih _ (overlapStep_stavesInv h st hinv)

theorem overlapStaves_stavesInv (M : Nat) (st : VoiceList × (Nat → Nat)) (hinv : StavesInv st) :
    StavesInv (overlapStaves M st) := by
  unfold overlapStaves
  generalize List.range M = hs
  induction hs generalizing st with
  | nil => exact hinv
  | cons h t ih => exact ih _ (overlapLoop_stavesInv h _ st hinv)

theorem allocateStaves_stavesInv (M : Nat) (vl : VoiceList) (hwf : vl.WF)
    (hinit : vl.Unassigned) :
    (allocateStaves M vl).WF ∧ ∀ e ∈ allocateStaves M vl, e.2.voice = -1 ∧
      (∀ s, e.2.voices s = -1) ∧ (e.2.overlaps = true → e.2.staff = -1) ∧
      (e.2.overlaps = false → ∀ s, e.2.staffAlloc s = -1) := by
  have h0 : StavesInv (vl, fun _ => 0) := by
    refine ⟨hwf, fun e he => ?_⟩
    obtain ⟨h1, h2, h3⟩ := hinit e he
    exact ⟨h2, fun s => (h3 s).2, fun _ => h1, fun _ s => (h3 s).1⟩
  exact overlapStaves_stavesInv M _ (regularLoop_stavesInv M vl.length _ h0)

theorem regularVoices_allocation (l : VoiceList) (nv : Nat → Nat) :
    (regularVoices l nv).1.map allocation = l.map allocation := by
  induction l generalizing nv with
  | nil => rfl
  | cons a t ih =>
    obtain ⟨k, d⟩ := a
    simp only [regularVoices]
    split
    · simp only [List.map_cons, ih]
      rfl
    · simp only [List.map_cons, ih]

theorem regularVoices_next (l : VoiceList) (nv : Nat → Nat) (s : Nat) :
    (regularVoices l nv).2 s = nv s + l.countP (fun x => x.2.staff == (s : Int)) := by
  induction l generalizing nv with
  | nil => rfl
  | cons a t ih =>
    obtain ⟨k, d⟩ := a
    simp only [regularVoices, List.countP_cons]
    split
    · rename_i hge
      rw [ih]
      dsimp only
      by_cases hs : d.staff = (s : Int)
      · have hn : s = d.staff.toNat := by omega
        have hb : (d.staff == (s : Int)) = true := by rw [beq_iff_eq]; exact hs
        rw [if_pos hn, if_pos hb]
        omega
      · have hn : ¬ s = d.staff.toNat := by omega
        have hb : ¬ (d.staff == (s : Int)) = true := by rw [beq_iff_eq]; exact hs
        rw [if_neg hn, if_neg hb]
        omega
    · rename_i hge
      rw [ih]
      have hb : ¬ (d.staff == (s : Int)) = true := by rw [beq_iff_eq]; omega
      rw [if_neg hb]
      omega

theorem regularVoices_get (l : VoiceList) (nv : Nat → Nat) (i : Nat) (e : String × VoiceDesc)
    (h : l[i]? = some e) :
    ∃ d, (regularVoices l nv).1[i]? = some (e.1, d) ∧ d.voices = e.2.voices ∧
      (∀ s : Nat, e.2.staff = (s : Int) →
        d.voice = ((nv s + (l.take i).countP (fun x => x.2.staff == (s : Int)) : Nat) : Int)) ∧
      (e.2.staff < 0 → d.voice = e.2.voice) := by
  induction l generalizing nv i with
  | nil => simp at h
  | cons a t ih =>
    obtain ⟨k, d0⟩ := a
    cases i with
    | zero =>
      simp only [List.getElem?_cons_zero, Option.some.injEq] at h
      subst h
      simp only [regularVoices]
      split
      · rename_i hge
        refine ⟨d0.setVoice (nv d0.staff.toNat), by simp, rfl, ?_, ?_⟩
        · intro s hs
          have : d0.staff.toNat = s := by omega
          simp [VoiceDesc.setVoice, this]
        · intro hlt
          omega
      · rename_i hge
        refine ⟨d0, by simp, rfl, ?_, fun _ => rfl⟩
        intro s hs
        omega
    | succ j =>
      simp only [List.getElem?_cons_succ] at h
      simp only [regularVoices]
      split
      · rename_i hge
        obtain ⟨d, h1, h2, h3, h4⟩ :=
          ih (fun i => if i = d0.staff.toNat then nv i + 1 else nv i) j h
        refine ⟨d, by simpa using h1, h2, ?_, h4⟩
        intro s hs
        rw [h3 s hs, List.take_succ_cons, List.countP_cons]
        dsimp only
        by_cases hd : d0.staff = (s : Int)
        · have hn : s = d0.staff.toNat := by omega
          have hb : (d0.staff == (s : Int)) = true := by rw [beq_iff_eq]; exact hd
          rw [if_pos hn, if_pos hb]
          push_cast
          omega
        · have hn : ¬ s = d0.staff.toNat := by omega
          have hb : ¬ (d0.staff == (s : Int)) = true := by rw [beq_iff_eq]; exact hd
          rw [if_neg hn, if_neg hb]
          push_cast
          omega
      · rename_i hge
        obtain ⟨d, h1, h2, h3, h4⟩ := ih nv j h
        refine ⟨d, by simpa using h1, h2, ?_, h4⟩
        intro s hs
        rw [h3 s hs, List.take_succ_cons, List.countP_cons]
        have hb : ¬ (d0.staff == (s : Int)) = true := by rw [beq_iff_eq]; omega
        rw [if_neg hb]
        push_cast
        omega

theorem overlapVoicesEntry_spec (d0 : VoiceDesc) (js : List Nat) (hnd : js.Nodup)
    (st : VoiceDesc × (Nat → Nat)) :
    allocation ("", (overlapVoicesEntry d0 js st).1) = allocation ("", st.1) ∧
    (overlapVoicesEntry d0 js st).1.voice = st.1.voice ∧
    (∀ j, (overlapVoicesEntry d0 js st).1.voices j
      = if j ∈ js ∧ 0 ≤ d0.staffAlloc j then (st.2 j : Int) else st.1.voices j) ∧
    (∀ j, (overlapVoicesEntry d0 js st).2 j
      = if j ∈ js ∧ 0 ≤ d0.staffAlloc j then st.2 j + 1 else st.2 j) := by
  induction js generalizing st with
  | nil => simp [overlapVoicesEntry]
  | cons j0 js ih =>
    rw [List.nodup_cons] at hnd
    simp only [overlapVoicesEntry]
    split
    · rename_i hge
      obtain ⟨h1, h2, h3, h4⟩ := ih hnd.2
        (st.1.setVoiceAt j0 (st.2 j0), fun i => if i = j0 then st.2 i + 1 else st.2 i)
      refine ⟨h1, h2, fun j => ?_, fun j => ?_⟩
      · rw [h3 j]
        by_cases hj : j = j0
        · subst hj
          simp [hnd.1, hge, VoiceDesc.setVoiceAt]
        · simp [hj, VoiceDesc.setVoiceAt]
      · rw [h4 j]
        by_cases hj : j = j0
        · subst hj
          simp [hnd.1, hge]
        · simp [hj]
    · rename_i hge
      obtain ⟨h1, h2, h3, h4⟩ := ih hnd.2 st
      refine ⟨h1, h2, fun j => ?_, fun j => ?_⟩
      · rw [h3 j]
        by_cases hj : j = j0
        · subst hj
          simp [hnd.1, hge]
        · simp [hj]
      · rw [h4 j]
        by_cases hj : j = j0
        · subst hj
          simp [hnd.1, hge]
        · simp [hj]

theorem overlapVoices_allocation (M : Nat) (l : VoiceList) (nv : Nat → Nat) :
    (overlapVoices M l nv).1.map allocation = l.map allocation := by
  induction l generalizing nv with
  | nil => rfl
  | cons a t ih =>
    obtain ⟨k, d⟩ := a
    simp only [overlapVoices, List.map_cons, ih]
    have := (overlapVoicesEntry_spec d (List.range M) (List.nodup_range M) (d, nv)).1
    simp only [allocation, Prod.mk.injEq, true_and] at this
    obtain ⟨h1, h2, h3⟩ := this
    simp only [allocation, h1, h2, h3]

theorem overlapVoices_get (M : Nat) (l : VoiceList) (nv : Nat → Nat) (i : Nat)
    (e : String × VoiceDesc) (h : l[i]? = some e) :
    ∃ d, (overlapVoices M l nv).1[i]? = some (e.1, d) ∧ d.voice = e.2.voice ∧
      ∀ j, d.voices j = if j < M ∧ 0 ≤ e.2.staffAlloc j then
        ((nv j + (l.take i).countP (fun x => decide (0 ≤ x.2.staffAlloc j)) : Nat) : Int)
        else e.2.voices j := by
  induction l generalizing nv i with
  | nil => simp at h
  | cons a t ih =>
    obtain ⟨k, d0⟩ := a
    obtain ⟨_, h2, h3, h4⟩ :=
      overlapVoicesEntry_spec d0 (List.range M) (List.nodup_range M) (d0, nv)
    cases i with
    | zero =>
      simp only [List.getElem?_cons_zero, Option.some.injEq] at h
      subst h
      simp only [overlapVoices]
      refine ⟨_, by simp, h2, fun j => ?_⟩
      rw [h3 j]
      simp [List.mem_range]
    | succ j' =>
      simp only [List.getElem?_cons_succ] at h
      simp only [overlapVoices]
      obtain ⟨d, g1, g2, g3⟩ :=
        ih (overlapVoicesEntry d0 (List.range M) (d0, nv)).2 j' h
      refine ⟨d, by simpa using g1, g2, fun j => ?_⟩
      rw [g3 j, h4 j, List.take_succ_cons, List.countP_cons]
      by_cases hj : j < M ∧ 0 ≤ e.2.staffAlloc j
      · rw [if_pos hj, if_pos hj]
        by_cases hd : 0 ≤ d0.staffAlloc j
        · simp [List.mem_range, hj.1, hd]
          omega
        · simp [List.mem_range, hj.1, hd]
      · rw [if_neg hj, if_neg hj]

theorem getElem?_of_allocation_eq {l l' : VoiceList}
    (h : l.map allocation = l'.map allocation) {i : Nat} {e : String × VoiceDesc}
    (hg : l[i]? = some e) : ∃ e', l'[i]? = some e' ∧ allocation e' = allocation e := by
  have h1 : (l.map allocation)[i]? = some (allocation e) := by
    rw [List.getElem?_map, hg]; rfl
  rw [h, List.getElem?_map] at h1
  cases hl : l'[i]? with
  | none => rw [hl] at h1; cases h1
  | some e' =>
    rw [hl] at h1
    exact ⟨e', rfl, by simpa using h1⟩

theorem countP_take_of_allocation_eq {l l' : VoiceList}
    (h : l.map allocation = l'.map allocation)
    (P : String × Bool × Int × (Nat → Int) → Bool) (i : Nat) :
    (l.take i).countP (fun e => P (allocation e))
      = (l'.take i).countP (fun e => P (allocation e)) := by
  have h1 : ∀ l : VoiceList, (l.take i).countP (fun e => P (allocation e))
      = ((l.map allocation).take i).countP P := by
    intro l
    rw [← List.map_take, List.countP_map]
    rfl
  rw [h1 l, h1 l', h]

theorem countP_of_allocation_eq {l l' : VoiceList}
    (h : l.map allocation = l'.map allocation)
    (P : String × Bool × Int × (Nat → Int) → Bool) :
    l.countP (fun e => P (allocation e)) = l'.countP (fun e => P (allocation e)) := by
  have h1 : ∀ l : VoiceList, l.countP (fun e => P (allocation e))
      = (l.map allocation).countP P := by
    intro l
    rw [List.countP_map]
    rfl
  rw [h1 l, h1 l', h]

theorem regularStep_keys (M : Nat) (st : VoiceList × (Nat → Nat)) :
    (regularStep M st).1.map Prod.fst = st.1.map Prod.fst := by
  unfold regularStep
  dsimp only
  split
  · split <;> (dsimp only; exact VoiceList.modify_keys _ _ _)
  · rfl

theorem overlapStep_keys (h : Nat) (st : VoiceList × (Nat → Nat)) :
    (overlapStep h st).1.map Prod.fst = st.1.map Prod.fst := by
  unfold overlapStep
  dsimp only
  split
  · split <;> (dsimp only; exact VoiceList.modify_keys _ _ _)
  · rfl

theorem regularLoop_keys (M n : Nat) (st : VoiceList × (Nat → Nat)) :
    (regularLoop M n st).1.map Prod.fst = st.1.map Prod.fst := by
  induction n generalizing st with
  | zero => rfl
  | succ n ih => exact (ih _).trans (regularStep_keys M st)

theorem overlapLoop_keys (h n : Nat) (st : VoiceList × (Nat → Nat)) :
    (overlapLoop h n st).1.map Prod.fst = st.1.map Prod.fst := by
  induction n generalizing st with
  | zero => rfl
  | succ n ih => exact (ih _).trans (overlapStep_keys h st)

theorem overlapStaves_keys (M : Nat) (st : VoiceList × (Nat → Nat)) :
    (overlapStaves M st).1.map Prod.fst = st.1.map Prod.fst := by
  unfold overlapStaves
  generalize List.range M = hs
  induction hs generalizing st with
  | nil => rfl
  | cons h t ih => exact (ih _).trans (overlapLoop_keys h _ st)

theorem allocateStaves_keys (M : Nat) (vl : VoiceList) :
    (allocateStaves M vl).map Prod.fst = vl.map Prod.fst :=
  (overlapStaves_keys M _).trans (regularLoop_keys M _ _)

theorem allocateVoices_allocation (M : Nat) (vl : VoiceList) :
    (allocateVoices M vl).map allocation = vl.map allocation :=
  (overlapVoices_allocation M _ _).trans (regularVoices_allocation vl _)

theorem allocateVoices_keys (M : Nat) (vl : VoiceList) :
    (allocateVoices M vl).map Prod.fst = vl.map Prod.fst := by
  have h := congrArg (List.map Prod.fst) (allocateVoices_allocation M vl)
  simpa [List.map_map, Function.comp, allocation] using h

/-- C8: voice-slot numbering by `allocateVoices` after `allocateStaves`, on a
voice list that starts unassigned.  The key order of the list is kept.  For the
entry at position `i`: a regular voice with staff `s` gets as slot the number of
regular voices with staff `s` before it; an overlapping voice allocated on a
staff `s` gets the number of regular voices with staff `s` plus the number of
overlapping voices allocated on `s` before it; and a voice without a valid staff
keeps the unset slot -1. -/
theorem allocateVoices_slots_in_iteration_order (MAX_STAVES : Nat) (vcLst : VoiceList)
    (hwf : vcLst.WF) (hinit : vcLst.Unassigned) :
    (allocateVoices MAX_STAVES (allocateStaves MAX_STAVES vcLst)).map Prod.fst
      = vcLst.map Prod.fst ∧
    ∀ (i : Nat) (e : String × VoiceDesc),
      (allocateVoices MAX_STAVES (allocateStaves MAX_STAVES vcLst))[i]? = some e →
      (e.2.overlaps = false →
        (∀ s : Nat, e.2.staff = (s : Int) → e.2.voice =
          ((((allocateVoices MAX_STAVES (allocateStaves MAX_STAVES vcLst)).take i).countP
            (fun x => !x.2.overlaps && x.2.staff == (s : Int)) : Nat) : Int)) ∧
        (e.2.staff < 0 → e.2.voice = -1)) ∧
      (e.2.overlaps = true → ∀ s : Nat, s < MAX_STAVES →
        (0 ≤ e.2.staffAlloc s → e.2.voices s =
          (((allocateVoices MAX_STAVES (allocateStaves MAX_STAVES vcLst)).countP
              (fun x => !x.2.overlaps && x.2.staff == (s : Int)) +
            ((allocateVoices MAX_STAVES (allocateStaves MAX_STAVES vcLst)).take i).countP
              (fun x => x.2.overlaps && decide (0 ≤ x.2.staffAlloc s)) : Nat) : Int)) ∧
        (e.2.staffAlloc s < 0 → e.2.voices s = -1)) := by
  refine ⟨(allocateVoices_keys _ _).trans (allocateStaves_keys _ _), ?_⟩
  intro i e hget
  obtain ⟨hwfA, hA⟩ := allocateStaves_stavesInv MAX_STAVES vcLst hwf hinit
  generalize hst : allocateStaves MAX_STAVES vcLst = stv at hget hwfA hA ⊢
  have hal1 := regularVoices_allocation stv (fun _ => 0)
  have hal : (allocateVoices MAX_STAVES stv).map allocation = stv.map allocation :=
    allocateVoices_allocation MAX_STAVES stv
  obtain ⟨e0, h0, ha0⟩ := getElem?_of_allocation_eq hal hget
  obtain ⟨d1, h1, hv1, hslot1, hneg1⟩ := regularVoices_get stv (fun _ => 0) i e0 h0
  obtain ⟨d2, h2, hv2, hslot2⟩ := overlapVoices_get MAX_STAVES
    (regularVoices stv (fun _ => 0)).1 (regularVoices stv (fun _ => 0)).2 i (e0.1, d1) h1
  have he : e = (e0.1, d2) := by
    have : (allocateVoices MAX_STAVES stv)[i]? = some (e0.1, d2) := h2
    rw [hget] at this
    exact Option.some.inj this
  have hmem0 : e0 ∈ stv := List.getElem?_mem h0
  obtain ⟨hvoice0, hvoices0, hov0, hreg0⟩ := hA e0 hmem0
  simp only [allocation, Prod.mk.injEq] at ha0
  obtain ⟨_, hao, has, haa⟩ := ha0
  have hd1a : d1.staffAlloc = e0.2.staffAlloc := by
    obtain ⟨x, hx, hxa⟩ := getElem?_of_allocation_eq hal1 h1
    rw [h0] at hx
    have := Option.some.inj hx
    subst this
    simp only [allocation, Prod.mk.injEq] at hxa
    exact hxa.2.2.2.symm
  constructor
  · intro hreg
    have hreg' : e0.2.overlaps = false := by rw [hao]; exact hreg
    constructor
    · intro s hs
      have hs0 : e0.2.staff = (s : Int) := by rw [has]; exact hs
      have hv : e.2.voice = d1.voice := by rw [he]; exact hv2
      rw [hv, hslot1 s hs0]
      have ht := countP_take_of_allocation_eq hal
        (fun a => !a.2.1 && a.2.2.1 == (s : Int)) i
      have ht' : ((allocateVoices MAX_STAVES stv).take i).countP
          (fun x => !x.2.overlaps && x.2.staff == (s : Int))
          = (stv.take i).countP (fun x => !x.2.overlaps && x.2.staff == (s : Int)) := ht
      rw [ht']
      have hc : (stv.take i).countP (fun x => x.2.staff == (s : Int))
          = (stv.take i).countP (fun x => !x.2.overlaps && x.2.staff == (s : Int)) := by
        apply List.countP_congr
        intro x hx
        have hxm := List.mem_of_mem_take hx
        obtain ⟨_, _, h3, _⟩ := hA x hxm
        simp only [beq_iff_eq, Bool.and_eq_true, Bool.not_eq_true']
        constructor
        · intro hxs
          refine ⟨?_, hxs⟩
          by_contra hno
          have := h3 (by simpa using hno)
          omega
        · intro hxs; exact hxs.2
      rw [hc]
      simp
    · intro hneg
      have hv : e.2.voice = d1.voice := by rw [he]; exact hv2
      rw [hv, hneg1 (by rw [has]; exact hneg)]
      exact hvoice0
  · intro hovl s hsM
    have hvs : e.2.voices s = d2.voices s := by rw [he]
    constructor
    · intro hge
      have hcond : s < MAX_STAVES ∧ 0 ≤ d1.staffAlloc s := by
        rw [hd1a, haa]; exact ⟨hsM, hge⟩
      rw [hvs, hslot2 s]
      dsimp only
      rw [if_pos hcond, regularVoices_next]
      have hw := countP_of_allocation_eq hal (fun a => !a.2.1 && a.2.2.1 == (s : Int))
      have hw' : (allocateVoices MAX_STAVES stv).countP
          (fun x => !x.2.overlaps && x.2.staff == (s : Int))
          = stv.countP (fun x => !x.2.overlaps && x.2.staff == (s : Int)) := hw
      have hc1 : stv.countP (fun x => x.2.staff == (s : Int))
          = stv.countP (fun x => !x.2.overlaps && x.2.staff == (s : Int)) := by
        apply List.countP_congr
        intro x hxm
        obtain ⟨_, _, h3, _⟩ := hA x hxm
        simp only [beq_iff_eq, Bool.and_eq_true, Bool.not_eq_true']
        constructor
        · intro hxs
          refine ⟨?_, hxs⟩
          by_contra hno
          have := h3 (by simpa using hno)
          omega
        · intro hxs; exact hxs.2
      have ht1 := countP_take_of_allocation_eq hal1
        (fun a => decide (0 ≤ a.2.2.2 s)) i
      have ht1' : ((regularVoices stv (fun _ => 0)).1.take i).countP
          (fun x => decide (0 ≤ x.2.staffAlloc s))
          = (stv.take i).countP (fun x => decide (0 ≤ x.2.staffAlloc s)) := ht1
      have ht2 := countP_take_of_allocation_eq hal
        (fun a => a.2.1 && decide (0 ≤ a.2.2.2 s)) i
      have ht2' : ((allocateVoices MAX_STAVES stv).take i).countP
          (fun x => x.2.overlaps && decide (0 ≤ x.2.staffAlloc s))
          = (stv.take i).countP (fun x => x.2.overlaps && decide (0 ≤ x.2.staffAlloc s)) := ht2
      have hc2 : (stv.take i).countP (fun x => decide (0 ≤ x.2.staffAlloc s))
          = (stv.take i).countP (fun x => x.2.overlaps && decide (0 ≤ x.2.staffAlloc s)) := by
        apply List.countP_congr
        intro x hx
        have hxm := List.mem_of_mem_take hx
        obtain ⟨_, _, _, h4⟩ := hA x hxm
        simp only [decide_eq_true_eq, Bool.and_eq_true]
        constructor
        · intro hxs
          refine ⟨?_, hxs⟩
          by_contra hno
          have := h4 (by simpa using hno) s
          omega
        · intro hxs; exact hxs.2
      rw [hw', ht2', ht1', hc1, hc2]
      simp
    · intro hlt
      have hcond : ¬ (s < MAX_STAVES ∧ 0 ≤ d1.staffAlloc s) := by
        rw [hd1a, haa]; intro h; omega
      rw [hvs, hslot2 s]
      dsimp only
      rw [if_neg hcond, hv1]
      exact hvoices0 s

theorem allocateVoices_slots_in_iteration_order_witness :
    (allocateVoices 4 (allocateStaves 4 twoVoices)).map (fun e => (e.1, e.2.staff, e.2.voice))
      = [("1", 0, 0), ("2", 0, 1)] ∧
    (allocateVoices 4 (allocateStaves 4 twoVoices)).map Prod.fst = twoVoices.map Prod.fst :=
  ⟨by decide,
   (allocateVoices_slots_in_iteration_order 4 twoVoices
    (by simp [VoiceList.WF, twoVoices, String.lt_iff_toList_lt]; decide)
    (by unfold VoiceList.Unassigned twoVoices
        simp [tenOnStaffZero, threeOnStaffZero, VoiceDesc.init])).1⟩

/-! ## Fractions as rational numbers -/

theorem Fraction.add_def (a b : Fraction) :
    a + b = ⟨a.numerator * b.denominator + b.numerator * a.denominator,
      a.denominator * b.denominator⟩ := rfl

theorem Fraction.sub_def (a b : Fraction) :
    a - b = ⟨a.numerator * b.denominator - b.numerator * a.denominator,
      a.denominator * b.denominator⟩ := rfl

theorem Fraction.proper_add {a b : Fraction} (ha : a.Proper) (hb : b.Proper) :
    (a + b).Proper := by
  unfold Fraction.Proper at *
  rw [Fraction.add_def]
  exact Int.mul_pos ha hb

theorem Fraction.proper_sub {a b : Fraction} (ha : a.Proper) (hb : b.Proper) :
    (a - b).Proper := by
  unfold Fraction.Proper at *
  rw [Fraction.sub_def]
  exact Int.mul_pos ha hb

theorem Fraction.toRat_add {a b : Fraction} (ha : a.Proper) (hb : b.Proper) :
    (a + b).toRat = a.toRat + b.toRat := by
  unfold Fraction.Proper at *
  rw [Fraction.add_def]
  unfold Fraction.toRat
  have h1 : (a.denominator : ℚ) ≠ 0 := by exact_mod_cast ne_of_gt ha
  have h2 : (b.denominator : ℚ) ≠ 0 := by exact_mod_cast ne_of_gt hb
  push_cast
  field_simp

theorem Fraction.toRat_sub {a b : Fraction} (ha : a.Proper) (hb : b.Proper) :
    (a - b).toRat = a.toRat - b.toRat := by
  unfold Fraction.Proper at *
  rw [Fraction.sub_def]
  unfold Fraction.toRat
  have h1 : (a.denominator : ℚ) ≠ 0 := by exact_mod_cast ne_of_gt ha
  have h2 : (b.denominator : ℚ) ≠ 0 := by exact_mod_cast ne_of_gt hb
  push_cast
  field_simp
  ring

theorem Fraction.lt_iff_toRat_lt {a b : Fraction} (ha : a.Proper) (hb : b.Proper) :
    a < b ↔ a.toRat < b.toRat := by
  unfold Fraction.Proper at *
  rw [Fraction.lt_def]
  unfold Fraction.toRat
  have h1 : (0 : ℚ) < (a.denominator : ℚ) := by exact_mod_cast ha
  have h2 : (0 : ℚ) < (b.denominator : ℚ) := by exact_mod_cast hb
  rw [div_lt_div_iff₀ h1 h2]
  constructor
  · intro h; exact_mod_cast h
  · intro h; exact_mod_cast h

/-! ## The tick cursor -/

theorem forwardLoop_of_no_duration (ms : MxmlSupport) (divisions : Int)
    (l : List QDomElement) (st : TickState) (h : ∀ x ∈ l, x.tagName ≠ "duration") :
    forwardLoop ms divisions l st = st := by
  induction l with
  | nil => rfl
  | cons x t ih =>
    simp only [forwardLoop, h x (List.mem_cons_self _ _), if_false]
    exact ih (fun y hy => h y (List.mem_cons_of_mem _ hy))

theorem forwardLoop_one_duration (ms : MxmlSupport) (divisions : Int)
    (pre post : List QDomElement) (d : QDomElement) (st : TickState)
    (hd : d.tagName = "duration") (hpre : ∀ x ∈ pre, x.tagName ≠ "duration")
    (hpost : ∀ x ∈ post, x.tagName ≠ "duration") :
    forwardLoop ms divisions (pre ++ d :: post) st =
      { st with
        tick := st.tick + ms.durationAsFraction divisions d
        maxtick :=
          if st.tick + ms.durationAsFraction divisions d > st.maxtick then
            st.tick + ms.durationAsFraction divisions d
          else st.maxtick } := by
  induction pre with
  | nil =>
    simp only [List.nil_append, forwardLoop, hd, if_true]
    exact forwardLoop_of_no_duration ms divisions post _ hpost
  | cons x t ih =>
    simp only [List.cons_append, forwardLoop, hpre x (List.mem_cons_self _ _), if_false]
    exact ih (fun y hy => hpre y (List.mem_cons_of_mem _ hy))

theorem backupLoop_of_no_duration (ms : MxmlSupport) (divisions : Int)
    (l : List QDomElement) (st : TickState) (h : ∀ x ∈ l, x.tagName ≠ "duration") :
    backupLoop ms divisions l st = st := by
  induction l with
  | nil => rfl
  | cons x t ih =>
    simp only [backupLoop, h x (List.mem_cons_self _ _), if_false]
    exact ih (fun y hy => h y (List.mem_cons_of_mem _ hy))

theorem backupLoop_one_duration (ms : MxmlSupport) (divisions : Int)
    (pre post : List QDomElement) (d : QDomElement) (st : TickState)
    (hd : d.tagName = "duration") (hpre : ∀ x ∈ pre, x.tagName ≠ "duration")
    (hpost : ∀ x ∈ post, x.tagName ≠ "duration") :
    backupLoop ms divisions (pre ++ d :: post) st =
      if ms.durationAsFraction divisions d > st.tick then
        { st with
          tick := ⟨0, 1⟩
          errorStr := "backup beyond start of measure"
          noteDurDesc := (ms.durationAsFraction divisions d).print }
      else { st with tick := st.tick - ms.durationAsFraction divisions d } := by
  induction pre with
  | nil =>
    simp only [List.nil_append, backupLoop, hd, if_true]
    split
    · exact backupLoop_of_no_duration ms divisions post _ hpost
    · exact backupLoop_of_no_duration ms divisions post _ hpost
  | cons x t ih =>
    simp only [List.cons_append, backupLoop, hpre x (List.mem_cons_self _ _), if_false]
    exact ih (fun y hy => hpre y (List.mem_cons_of_mem _ hy))

/-- C9: `aaamoveTick` on a `forward` element with one `duration` child, which
resolves to `f`, among any other children: `tick` becomes `tick + f` and
`maxtick` the greater of `maxtick` and the new `tick`, nothing else changes; as
rational numbers the new tick is the sum and the new maxtick the maximum.  A
`forward` element with only `voice` and `staff` children moves nothing. -/
theorem aaamoveTick_forward (ms : MxmlSupport) (st : TickState) (divisions : Int)
    (attrs : List (String × String)) (text : String) (pre post : List QDomElement)
    (d : QDomElement) (hd : d.tagName = "duration")
    (hpre : ∀ x ∈ pre, x.tagName ≠ "duration")
    (hpost : ∀ x ∈ post, x.tagName ≠ "duration") :
    aaamoveTick ms st divisions (.mk "forward" attrs text (pre ++ d :: post)) =
      { st with
        tick := st.tick + ms.durationAsFraction divisions d
        maxtick :=
          if st.tick + ms.durationAsFraction divisions d > st.maxtick then
            st.tick + ms.durationAsFraction divisions d
          else st.maxtick } ∧
    (st.tick.Proper → st.maxtick.Proper → (ms.durationAsFraction divisions d).Proper →
      (aaamoveTick ms st divisions (.mk "forward" attrs text (pre ++ d :: post))).tick.toRat
        = st.tick.toRat + (ms.durationAsFraction divisions d).toRat ∧
      (aaamoveTick ms st divisions (.mk "forward" attrs text (pre ++ d :: post))).maxtick.toRat
        = max st.maxtick.toRat (st.tick.toRat + (ms.durationAsFraction divisions d).toRat)) ∧
    (∀ cs : List QDomElement, (∀ x ∈ cs, x.tagName = "voice" ∨ x.tagName = "staff") →
      aaamoveTick ms st divisions (.mk "forward" attrs text cs) = st) := by
  have hmain : aaamoveTick ms st divisions (.mk "forward" attrs text (pre ++ d :: post)) =
      { st with
        tick := st.tick + ms.durationAsFraction divisions d
        maxtick :=
          if st.tick + ms.durationAsFraction divisions d > st.maxtick then
            st.tick + ms.durationAsFraction divisions d
          else st.maxtick } := by
    unfold aaamoveTick
    simp only [QDomElement.tagName, QDomElement.children, if_true]
    exact forwardLoop_one_duration ms divisions pre post d st hd hpre hpost
  refine ⟨hmain, ?_, ?_⟩
  · intro ht hm hf
    rw [hmain]
    dsimp only
    have hsum := Fraction.toRat_add ht hf
    refine ⟨hsum, ?_⟩
    by_cases hgt : st.tick + ms.durationAsFraction divisions d > st.maxtick
    · rw [if_pos hgt, hsum]
      have := (Fraction.lt_iff_toRat_lt hm (Fraction.proper_add ht hf)).1 hgt
      rw [hsum] at this
      exact (max_eq_right (le_of_lt this)).symm
    · rw [if_neg hgt]
      have : ¬ st.maxtick.toRat < (st.tick + ms.durationAsFraction divisions d).toRat :=
        fun h => hgt ((Fraction.lt_iff_toRat_lt hm (Fraction.proper_add ht hf)).2 h)
      rw [hsum] at this
      exact (max_eq_left (not_lt.1 this)).symm
  · intro cs hcs
    unfold aaamoveTick
    simp only [QDomElement.tagName, QDomElement.children, if_true]
    apply forwardLoop_of_no_duration
    intro x hx
    rcases hcs x hx with h | h <;> rw [h] <;> decide

theorem aaamoveTick_forward_witness :
    (aaamoveTick mxmlSupport TickState.start 480 forward480).tick.toRat = 1 / 4 ∧
    (aaamoveTick mxmlSupport TickState.start 480 forward480).maxtick.toRat = 1 / 4 := by
  have h := (aaamoveTick_forward mxmlSupport TickState.start 480 [] "480" [] []
    (.mk "duration" [] "480" []) rfl (by simp) (by simp)).2.1
    (by decide) (by decide) (by decide)
  have e : (QDomElement.mk "forward" [] "480" ([] ++ QDomElement.mk "duration" [] "480" [] :: []))
      = forward480 := rfl
  rw [e] at h
  have hf : (mxmlSupport.durationAsFraction 480 (.mk "duration" [] "480" [])).toRat = 1 / 4 := by
    have : mxmlSupport.durationAsFraction 480 (.mk "duration" [] "480" []) = ⟨480, 1920⟩ := by
      decide
    rw [this]
    unfold Fraction.toRat
    norm_num
  have h0 : TickState.start.tick.toRat = 0 := by
    unfold Fraction.toRat TickState.start
    norm_num
  have hm : TickState.start.maxtick.toRat = 0 := by
    unfold Fraction.toRat TickState.start
    norm_num
  rw [hf, h0, hm] at h
  constructor
  · rw [h.1]; norm_num
  · rw [h.2]; norm_num

/-- C10: `aaamoveTick` on a `backup` element with one `duration` child, which
resolves to `f`: when `f > tick` the tick becomes 0 and the diagnostic is
"backup beyond start of measure"; otherwise the tick becomes `tick - f` and the
diagnostic is left alone; `maxtick` is unchanged in both cases; and for a tick
and an `f` in the usual form the new tick is not negative. -/
theorem aaamoveTick_backup (ms : MxmlSupport) (st : TickState) (divisions : Int)
    (attrs : List (String × String)) (text : String) (pre post : List QDomElement)
    (d : QDomElement) (hd : d.tagName = "duration")
    (hpre : ∀ x ∈ pre, x.tagName ≠ "duration")
    (hpost : ∀ x ∈ post, x.tagName ≠ "duration") :
    (ms.durationAsFraction divisions d > st.tick →
      aaamoveTick ms st divisions (.mk "backup" attrs text (pre ++ d :: post)) =
        { st with
          tick := ⟨0, 1⟩
          errorStr := "backup beyond start of measure"
          noteDurDesc := (ms.durationAsFraction divisions d).print }) ∧
    (¬ ms.durationAsFraction divisions d > st.tick →
      aaamoveTick ms st divisions (.mk "backup" attrs text (pre ++ d :: post)) =
        { st with tick := st.tick - ms.durationAsFraction divisions d }) ∧
    (aaamoveTick ms st divisions (.mk "backup" attrs text (pre ++ d :: post))).maxtick
      = st.maxtick ∧
    (st.tick.Proper → (ms.durationAsFraction divisions d).Proper →
      (aaamoveTick ms st divisions (.mk "backup" attrs text (pre ++ d :: post))).tick.Proper ∧
      0 ≤ (aaamoveTick ms st divisions
        (.mk "backup" attrs text (pre ++ d :: post))).tick.toRat ∧
      (¬ ms.durationAsFraction divisions d > st.tick →
        (aaamoveTick ms st divisions
          (.mk "backup" attrs text (pre ++ d :: post))).tick.toRat
          = st.tick.toRat - (ms.durationAsFraction divisions d).toRat)) := by
  have hmain : aaamoveTick ms st divisions (.mk "backup" attrs text (pre ++ d :: post)) =
      if ms.durationAsFraction divisions d > st.tick then
        { st with
          tick := ⟨0, 1⟩
          errorStr := "backup beyond start of measure"
          noteDurDesc := (ms.durationAsFraction divisions d).print }
      else { st with tick := st.tick - ms.durationAsFraction divisions d } := by
    unfold aaamoveTick
    have h1 : ¬ ("backup" = "forward") := by decide
    simp only [QDomElement.tagName, QDomElement.children, h1, if_true, if_false]
    exact backupLoop_one_duration ms divisions pre post d st hd hpre hpost
  refine ⟨?_, ?_, ?_, ?_⟩
  · intro h; rw [hmain, if_pos h]
  · intro h; rw [hmain, if_neg h]
  · rw [hmain]; split <;> rfl
  · intro ht hf
    rw [hmain]
    by_cases hgt : ms.durationAsFraction divisions d > st.tick
    · rw [if_pos hgt]
      refine ⟨Int.one_pos, ?_, fun h => absurd hgt h⟩
      unfold Fraction.toRat
      norm_num
    · rw [if_neg hgt]
      dsimp only
      have hsub := Fraction.toRat_sub ht hf
      refine ⟨Fraction.proper_sub ht hf, ?_, fun _ => hsub⟩
      rw [hsub]
      have : ¬ st.tick.toRat < (ms.durationAsFraction divisions d).toRat :=
        fun h => hgt ((Fraction.lt_iff_toRat_lt ht hf).2 h)
      exact sub_nonneg.2 (not_lt.1 this)

theorem aaamoveTick_backup_witness :
    (aaamoveTick mxmlSupport (aaamoveTick mxmlSupport TickState.start 480 forward480)
      480 backup960).tick = ⟨0, 1⟩ ∧
    (aaamoveTick mxmlSupport (aaamoveTick mxmlSupport TickState.start 480 forward480)
      480 backup960).errorStr = "backup beyond start of measure" := by
  have h := (aaamoveTick_backup mxmlSupport
    (aaamoveTick mxmlSupport TickState.start 480 forward480) 480 [] "960" [] []
    (.mk "duration" [] "960" []) rfl (by simp) (by simp)).1 (by decide)
  have e : (QDomElement.mk "backup" [] "960" ([] ++ QDomElement.mk "duration" [] "960" [] :: []))
      = backup960 := rfl
  rw [e] at h
  rw [h]
  exact ⟨rfl, rfl⟩

theorem VoiceList.countP_modify_pred (P : VoiceDesc → Bool) (vl : VoiceList)
    (e : String × VoiceDesc) (f : VoiceDesc → VoiceDesc) (hwf : WF vl) (he : e ∈ vl)
    (h1 : P e.2 = true) (h2 : P (f e.2) = false) :
    (modify vl e.1 f).countP (fun x => P x.2) + 1 = vl.countP (fun x => P x.2) := by
  induction vl with
  | nil => cases he
  | cons a t ih =>
    rw [modify_cons, List.countP_cons, List.countP_cons]
    by_cases hk : a.1 = e.1
    · have hae : a = e := hwf.key_inj (List.mem_cons_self _ _) he hk
      have ht : modify t e.1 f = t := by
        apply modify_of_not_key
        intro x hx hxk
        have := hwf.first_lt x hx
        rw [hk, hxk] at this
        exact absurd this (lt_irrefl _)
      rw [ht, if_pos hk]
      dsimp only
      rw [hae, h1, h2]
      simp
    · rw [if_neg hk]
      rcases List.mem_cons.1 he with rfl | het
      · exact absurd rfl hk
      · have := ih hwf.rest het
        omega

theorem regularStep_progress (M : Nat) (st : VoiceList × (Nat → Nat))
    (hinv : RegularInv M st) :
    RegularInv M (regularStep M st) ∧ pending (regularStep M st).1 = pending st.1 - 1 := by
  obtain ⟨vl, va⟩ := st
  obtain ⟨hwf, hall⟩ := hinv
  dsimp only at hwf hall
  have hspec := findMax_spec (fun d => !d.overlaps && d.staff == -1)
    (VoiceDesc.numberChordRests M) vl (0, "")
  rw [← findRegular_eq_findMax] at hspec
  obtain ⟨_, hmax, hfound⟩ := hspec
  unfold regularStep
  dsimp only
  rcases hfound with hnone | ⟨l₁, e, l₂, hl, hel, hr, _, _⟩
  · -- nothing found: no regular voice is pending
    rw [hnone]
    simp only [ne_eq, not_true_eq_false, if_false]
    refine ⟨⟨hwf, hall⟩, ?_⟩
    have : pending vl = 0 := by
      unfold pending
      rw [List.countP_eq_zero]
      intro x hx hp
      have h1 := hmax x hx hp
      rw [hnone] at h1
      simp only [Bool.and_eq_true, Bool.not_eq_true', beq_iff_eq] at hp
      have := ((hall x hx).2 hp.1).1
      omega
    rw [this]
  · have he : e ∈ vl := by rw [hl]; simp
    have hkey : e.1 ≠ "" := (hall e he).1
    rw [hr]
    dsimp only
    rw [if_pos hkey, VoiceList.value_of_mem hwf he]
    simp only [Bool.and_eq_true, Bool.not_eq_true', beq_iff_eq] at hel
    have hstep : ∀ (X : Int) (va' : Nat → Nat),
        (X = (e.2.preferredStaff M : Int) ∨ X = -2) →
        RegularInv M (vl.modify e.1 (fun d => d.setStaff X), va') ∧
        pending (vl.modify e.1 (fun d => d.setStaff X)) = pending vl - 1 := by
      intro X va' hX
      constructor
      · refine ⟨VoiceList.modify_wf vl e.1 (fun d => d.setStaff X) hwf, fun x hx => ?_⟩
        dsimp only at hx
        obtain ⟨y, hy, rfl⟩ := VoiceList.mem_modify_inv hx
        dsimp only
        by_cases hk : y.1 = e.1
        · have hye : y = e := hwf.key_inj hy he hk
          rw [if_pos hk, hye]
          refine ⟨hkey, fun _ => ⟨((hall e he).2 hel.1).1, ?_⟩⟩
          have hp : VoiceDesc.preferredStaff M (e.2.setStaff X) = VoiceDesc.preferredStaff M e.2 :=
            VoiceDesc.preferredStaff_congr M _ _ rfl
          rw [hp]
          simp only [VoiceDesc.setStaff]
          rcases hX with h | h
          · right; left; exact h
          · right; right; exact h
        · rw [if_neg hk]
          exact hall y hy
      · have := VoiceList.countP_modify_pred (fun d => !d.overlaps && d.staff == -1) vl e
          (fun d => d.setStaff X) hwf he (by simp [hel.1, hel.2])
          (by
            simp only [VoiceDesc.setStaff, Bool.and_eq_false_imp, Bool.not_eq_true',
              beq_eq_false_iff_ne, ne_eq]
            intro _
            rcases hX with h | h <;> omega)
        unfold pending
        dsimp only at this ⊢
        omega
    split
    · exact hstep _ _ (Or.inl rfl)
    · exact hstep _ _ (Or.inr rfl)

theorem regularLoop_progress (M n : Nat) (st : VoiceList × (Nat → Nat))
    (hinv : RegularInv M st) :
    RegularInv M (regularLoop M n st) ∧ pending (regularLoop M n st).1 = pending st.1 - n := by
  induction n generalizing st with
  | zero => exact ⟨hinv, rfl⟩
  | succ n ih =>
    obtain ⟨h1, h2⟩ := regularStep_progress M st hinv
    obtain ⟨h3, h4⟩ := ih _ h1
    refine ⟨h3, ?_⟩
    simp only [regularLoop]
    rw [h4, h2]
    omega

theorem overlapStep_settled (M h : Nat) (st : VoiceList × (Nat → Nat))
    (hall : ∀ e ∈ st.1, Settled M e) : ∀ e ∈ (overlapStep h st).1, Settled M e := by
  have hframe : ∀ (key : String) (X : Int),
      ∀ e ∈ st.1.modify key (fun d => d.setStaffAlloc h X), Settled M e := by
    intro key X x hx
    obtain ⟨y, hy, rfl⟩ := VoiceList.mem_modify_inv hx
    have := hall y hy
    unfold Settled at this ⊢
    dsimp only
    split
    · have hp : VoiceDesc.preferredStaff M (y.2.setStaffAlloc h X)
          = VoiceDesc.preferredStaff M y.2 := VoiceDesc.preferredStaff_congr M _ _ rfl
      rw [hp]
      exact this
    · exact this
  unfold overlapStep
  dsimp only
  split
  · split
    · exact hframe _ _
    · exact hframe _ _
  · exact hall

theorem overlapLoop_settled (M h n : Nat) (st : VoiceList × (Nat → Nat))
    (hall : ∀ e ∈ st.1, Settled M e) : ∀ e ∈ (overlapLoop h n st).1, Settled M e := by
  induction n generalizing st with
  | zero => exact hall
  | succ n ih => exact ih _ (overlapStep_settled M h st hall)

theorem overlapStaves_settled (M : Nat) (st : VoiceList × (Nat → Nat))
    (hall : ∀ e ∈ st.1, Settled M e) : ∀ e ∈ (overlapStaves M st).1, Settled M e := by
  unfold overlapStaves
  generalize List.range M = hs
  induction hs generalizing st with
  | nil => exact hall
  | cons h t ih => exact ih _ (overlapLoop_settled M h _ st hall)

/-- When no voice identifier is the empty string, `allocateStaves` leaves no
regular voice unassigned: each one that starts unassigned with at least one
chord-rest ends on its preferred staff or with the capacity sentinel -2. -/
theorem allocateStaves_regular_settled (MAX_STAVES : Nat) (vcLst : VoiceList)
    (hwf : vcLst.WF) (hkeys : ∀ e ∈ vcLst, e.1 ≠ "")
    (hinit : ∀ e ∈ vcLst, e.2.overlaps = false →
      e.2.staff = -1 ∧ 1 ≤ e.2.numberChordRests MAX_STAVES) :
    ∀ e ∈ allocateStaves MAX_STAVES vcLst, e.2.overlaps = false →
      e.2.staff = (e.2.preferredStaff MAX_STAVES : Int) ∨ e.2.staff = -2 := by
  have h0 : RegularInv MAX_STAVES (vcLst, fun _ => 0) :=
    ⟨hwf, fun e he => ⟨hkeys e he, fun ho => ⟨(hinit e he ho).2, Or.inl (hinit e he ho).1⟩⟩⟩
  obtain ⟨h1, h2⟩ := regularLoop_progress MAX_STAVES vcLst.length _ h0
  have hpend : pending (regularLoop MAX_STAVES vcLst.length (vcLst, fun _ => 0)).1 = 0 := by
    rw [h2]
    have : pending vcLst ≤ vcLst.length := List.countP_le_length _
    dsimp only
    omega
  have hsettled : ∀ e ∈ (regularLoop MAX_STAVES vcLst.length (vcLst, fun _ => 0)).1,
      Settled MAX_STAVES e := by
    intro e he ho
    obtain ⟨_, hcases⟩ := (h1.2 e he).2 ho
    rcases hcases with h | h | h
    · exfalso
      unfold pending at hpend
      rw [List.countP_eq_zero] at hpend
      exact hpend e he (by simp [ho, h])
    · exact Or.inl h
    · exact Or.inr h
  exact overlapStaves_settled MAX_STAVES _ hsettled

/-! ## The tick cursor on a note -/

theorem aaamoveTick_of_note (ms : MxmlSupport) (st : TickState) (divisions : Int)
    (e : QDomElement) (he : e.tagName = "note") :
    aaamoveTick ms st divisions e = noteTick ms divisions e st := by
  unfold aaamoveTick
  rw [he]
  have h1 : ¬ ("note" = "forward") := by decide
  have h2 : ¬ ("note" = "backup") := by decide
  rw [if_neg h1, if_neg h2, if_pos rfl]

theorem Fraction.toRat_ite_max (a b : Fraction) (ha : a.Proper) (hb : b.Proper) :
    (if b > a then b else a).toRat = max a.toRat b.toRat := by
  by_cases h : b > a
  · rw [if_pos h]
    exact (max_eq_right (le_of_lt ((Fraction.lt_iff_toRat_lt ha hb).1 h))).symm
  · rw [if_neg h]
    have : ¬ a.toRat < b.toRat := fun h' => h ((Fraction.lt_iff_toRat_lt ha hb).2 h')
    exact (max_eq_left (not_lt.1 this)).symm

/-- C11: `aaamoveTick` on a `note` element, with `d` the explicit and `c` the
calculated duration that `noteDurationAsFraction` gives: the tick advances by `d`
whenever `d` is valid, by `c` when `d` is invalid and `c` valid, and stays when
both are invalid; afterwards `maxtick` is the greater of the old `maxtick` and
the new tick. -/
theorem aaamoveTick_note (ms : MxmlSupport) (st : TickState) (divisions : Int)
    (e : QDomElement) (he : e.tagName = "note") :
    ((noteDurationAsFraction ms divisions e).2.1.isValid = true →
      (aaamoveTick ms st divisions e).tick
        = st.tick + (noteDurationAsFraction ms divisions e).2.1) ∧
    ((noteDurationAsFraction ms divisions e).2.1.isValid = false →
      (noteDurationAsFraction ms divisions e).1.isValid = true →
      (aaamoveTick ms st divisions e).tick
        = st.tick + (noteDurationAsFraction ms divisions e).1) ∧
    ((noteDurationAsFraction ms divisions e).2.1.isValid = false →
      (noteDurationAsFraction ms divisions e).1.isValid = false →
      (aaamoveTick ms st divisions e).tick = st.tick) ∧
    (aaamoveTick ms st divisions e).maxtick
      = (if (aaamoveTick ms st divisions e).tick > st.maxtick then
          (aaamoveTick ms st divisions e).tick else st.maxtick) ∧
    (st.maxtick.Proper → (aaamoveTick ms st divisions e).tick.Proper →
      (aaamoveTick ms st divisions e).maxtick.toRat
        = max st.maxtick.toRat (aaamoveTick ms st divisions e).tick.toRat) := by
  rw [aaamoveTick_of_note ms st divisions e he]
  have hmax : (noteTick ms divisions e st).maxtick
      = (if (noteTick ms divisions e st).tick > st.maxtick then
          (noteTick ms divisions e st).tick else st.maxtick) := by
    unfold noteTick
    dsimp only
    cases (noteDurationAsFraction ms divisions e).2.1.isValid <;>
      cases (noteDurationAsFraction ms divisions e).1.isValid <;> rfl
  refine ⟨?_, ?_, ?_, hmax, ?_⟩
  · intro hd
    unfold noteTick
    dsimp only
    rw [hd]
    cases (noteDurationAsFraction ms divisions e).1.isValid <;> rfl
  · intro hd hc
    unfold noteTick
    dsimp only
    rw [hd, hc]
    rfl
  · intro hd hc
    unfold noteTick
    dsimp only
    rw [hd, hc]
    rfl
  · intro hm ht
    rw [hmax]
    exact Fraction.toRat_ite_max _ _ hm ht

theorem aaamoveTick_note_witness :
    (aaamoveTick mxmlSupport TickState.start 480 quarterNote).tick = ⟨480, 1920⟩ :=
  (aaamoveTick_note mxmlSupport TickState.start 480 quarterNote rfl).1 (by decide)

/-- C12: the diagnostic of `aaamoveTick` on a `note` element, started empty, with
`d` the explicit and `c` the calculated duration: it stays empty exactly when
both are valid and equal, and otherwise names the case: both valid and
different, only `d` valid, only `c` valid, neither valid. -/
theorem aaamoveTick_note_diagnostic (ms : MxmlSupport) (st : TickState) (divisions : Int)
    (e : QDomElement) (he : e.tagName = "note") (hempty : st.errorStr = "") :
    ((aaamoveTick ms st divisions e).errorStr = "" ↔
      ((noteDurationAsFraction ms divisions e).2.1.isValid = true ∧
        (noteDurationAsFraction ms divisions e).1.isValid = true ∧
        Fraction.eqv (noteDurationAsFraction ms divisions e).2.1
          (noteDurationAsFraction ms divisions e).1 = true)) ∧
    ((noteDurationAsFraction ms divisions e).2.1.isValid = true →
      (noteDurationAsFraction ms divisions e).1.isValid = true →
      Fraction.eqv (noteDurationAsFraction ms divisions e).2.1
        (noteDurationAsFraction ms divisions e).1 = false →
      (aaamoveTick ms st divisions e).errorStr
        = "calculated duration not equal to specified duration") ∧
    ((noteDurationAsFraction ms divisions e).2.1.isValid = true →
      (noteDurationAsFraction ms divisions e).1.isValid = false →
      (aaamoveTick ms st divisions e).errorStr
        = "calculated duration invalid, using specified duration") ∧
    ((noteDurationAsFraction ms divisions e).2.1.isValid = false →
      (noteDurationAsFraction ms divisions e).1.isValid = true →
      (aaamoveTick ms st divisions e).errorStr
        = "specified duration invalid, using calculated duration") ∧
    ((noteDurationAsFraction ms divisions e).2.1.isValid = false →
      (noteDurationAsFraction ms divisions e).1.isValid = false →
      (aaamoveTick ms st divisions e).errorStr
        = "calculated and specified duration invalid") := by
  rw [aaamoveTick_of_note ms st divisions e he]
  have h1 : ¬ ("calculated duration not equal to specified duration" = "") := by decide
  have h2 : ¬ ("calculated duration invalid, using specified duration" = "") := by decide
  have h3 : ¬ ("specified duration invalid, using calculated duration" = "") := by decide
  have h4 : ¬ ("calculated and specified duration invalid" = "") := by decide
  unfold noteTick
  dsimp only
  cases hd : (noteDurationAsFraction ms divisions e).2.1.isValid <;>
    cases hc : (noteDurationAsFraction ms divisions e).1.isValid <;>
    cases hq : Fraction.eqv (noteDurationAsFraction ms divisions e).2.1
      (noteDurationAsFraction ms divisions e).1 <;>
    simp [hempty, h1, h2, h3, h4]

theorem aaamoveTick_note_diagnostic_witness :
    (aaamoveTick mxmlSupport TickState.start 480 quarterNote).errorStr = "" :=
  (aaamoveTick_note_diagnostic mxmlSupport TickState.start 480 quarterNote rfl rfl).1.2
    (by decide)

/-! ## The scan of a note element -/

theorem noteLoop_cons (ms : MxmlSupport) (divisions : Int) (c : QDomElement)
    (l : List QDomElement) (v : NoteVars) :
    noteLoop ms divisions (c :: l) v = noteLoop ms divisions l (noteStep ms divisions c v) := rfl

theorem timeModificationLoop_frame (ms : MxmlSupport) (l : List QDomElement) (v : NoteVars) :
    (timeModificationLoop ms l v).chord = v.chord ∧
    (timeModificationLoop ms l v).grace = v.grace ∧
    (timeModificationLoop ms l v).rest = v.rest ∧
    (timeModificationLoop ms l v).type = v.type ∧
    (timeModificationLoop ms l v).duration = v.duration ∧
    (timeModificationLoop ms l v).dots = v.dots := by
  induction l generalizing v with
  | nil => exact ⟨rfl, rfl, rfl, rfl, rfl, rfl⟩
  | cons ee rest ih =>
    simp only [timeModificationLoop]
    obtain ⟨h1, h2, h3, h4, h5, h6⟩ := ih
      (if ee.tagName = "normal-notes" then
        { (if ee.tagName = "actual-notes" then
            { v with actualNotes := (ms.stringToInt ee.text).1 } else v) with
          normalNotes := (ms.stringToInt ee.text).1 }
      else (if ee.tagName = "actual-notes" then
        { v with actualNotes := (ms.stringToInt ee.text).1 } else v))
    rw [h1, h2, h3, h4, h5, h6]
    by_cases ha : ee.tagName = "actual-notes" <;> by_cases hn : ee.tagName = "normal-notes" <;>
      simp [ha, hn]

theorem noteStep_fields (ms : MxmlSupport) (divisions : Int) (c : QDomElement) (v : NoteVars) :
    (noteStep ms divisions c v).chord = (v.chord || c.tagName == "chord") ∧
    (noteStep ms divisions c v).grace = (v.grace || c.tagName == "grace") ∧
    (noteStep ms divisions c v).rest = (v.rest || c.tagName == "rest") ∧
    (noteStep ms divisions c v).type = (if c.tagName = "type" then c.text else v.type) ∧
    (noteStep ms divisions c v).duration
      = (if c.tagName = "duration" ∧ divisions > 0 then ms.durationAsFraction divisions c
          else v.duration) ∧
    (noteStep ms divisions c v).dots = (if c.tagName = "dot" then v.dots + 1 else v.dots) := by
  unfold noteStep
  by_cases h1 : c.tagName = "chord"
  · simp [h1]
  by_cases h2 : c.tagName = "dot"
  · simp [h2]
  by_cases h3 : c.tagName = "duration"
  · by_cases hd : divisions > 0 <;> simp [h3, hd]
  by_cases h4 : c.tagName = "grace"
  · simp [h4]
  by_cases h5 : c.tagName = "rest"
  · simp [h5]
  by_cases h6 : c.tagName = "time-modification"
  · obtain ⟨g1, g2, g3, g4, g5, g6⟩ := timeModificationLoop_frame ms c.children v
    simp [h6, g1, g2, g3, g4, g5, g6]
  by_cases h7 : c.tagName = "type"
  · simp [h7]
  simp [h1, h2, h3, h4, h5, h6, h7]

theorem lastChild_cons (tag : String) (c : QDomElement) (l : List QDomElement) :
    lastChild tag (c :: l)
      = (lastChild tag l).or (if c.tagName == tag then some c else none) := by
  unfold lastChild
  rw [List.reverse_cons, List.find?_append, List.find?_singleton]

theorem noteLoop_fields (ms : MxmlSupport) (divisions : Int) (l : List QDomElement)
    (v : NoteVars) :
    (noteLoop ms divisions l v).chord = (v.chord || l.any (fun c => c.tagName == "chord")) ∧
    (noteLoop ms divisions l v).grace = (v.grace || l.any (fun c => c.tagName == "grace")) ∧
    (noteLoop ms divisions l v).rest = (v.rest || l.any (fun c => c.tagName == "rest")) ∧
    (noteLoop ms divisions l v).type
      = ((lastChild "type" l).map QDomElement.text).getD v.type ∧
    (noteLoop ms divisions l v).duration
      = (if divisions > 0 then
          ((lastChild "duration" l).map (ms.durationAsFraction divisions)).getD v.duration
        else v.duration) ∧
    (noteLoop ms divisions l v).dots
      = v.dots + (l.countP (fun c => c.tagName == "dot") : Nat) := by
  induction l generalizing v with
  | nil =>
    refine ⟨by simp [noteLoop], by simp [noteLoop], by simp [noteLoop], rfl, ?_, by simp [noteLoop]⟩
    simp [noteLoop, lastChild]
  | cons c l ih =>
    rw [noteLoop_cons]
    obtain ⟨h1, h2, h3, h4, h5, h6⟩ := ih (noteStep ms divisions c v)
    obtain ⟨g1, g2, g3, g4, g5, g6⟩ := noteStep_fields ms divisions c v
    rw [h1, h2, h3, h4, h5, h6, g1, g2, g3, g4, g5, g6]
    refine ⟨?_, ?_, ?_, ?_, ?_, ?_⟩
    · rw [List.any_cons, Bool.or_assoc]
    · rw [List.any_cons, Bool.or_assoc]
    · rw [List.any_cons, Bool.or_assoc]
    · rw [lastChild_cons]
      cases lastChild "type" l with
      | some x => rfl
      | none =>
        by_cases ht : c.tagName = "type"
        · simp [ht]
        · simp [ht]
    · rw [lastChild_cons]
      by_cases hd : divisions > 0
      · rw [if_pos hd, if_pos hd]
        cases lastChild "duration" l with
        | some x => rfl
        | none =>
          by_cases ht : c.tagName = "duration"
          · simp [ht, hd]
          · simp [ht]
      · rw [if_neg hd, if_neg hd]
        simp [hd]
    · rw [List.countP_cons]
      by_cases ht : c.tagName = "dot"
      · simp [ht]; ring
      · simp [ht]

theorem lastChild_append (tag : String) (a b : List QDomElement) :
    lastChild tag (a ++ b) = (lastChild tag b).or (lastChild tag a) := by
  unfold lastChild
  rw [List.reverse_append, List.find?_append]

theorem timeModificationChildren_cons (c : QDomElement) (l : List QDomElement) :
    timeModificationChildren (c :: l)
      = (if c.tagName = "time-modification" then c.children else [])
          ++ timeModificationChildren l := by
  unfold timeModificationChildren
  by_cases h : c.tagName = "time-modification"
  · simp [List.filter_cons, h]
  · simp [List.filter_cons, h]

theorem timeModificationLoop_notes (ms : MxmlSupport) (l : List QDomElement) (v : NoteVars) :
    (timeModificationLoop ms l v).actualNotes
      = ((lastChild "actual-notes" l).map (fun c => (ms.stringToInt c.text).1)).getD
          v.actualNotes ∧
    (timeModificationLoop ms l v).normalNotes
      = ((lastChild "normal-notes" l).map (fun c => (ms.stringToInt c.text).1)).getD
          v.normalNotes := by
  induction l generalizing v with
  | nil => exact ⟨rfl, rfl⟩
  | cons ee rest ih =>
    simp only [timeModificationLoop]
    obtain ⟨h1, h2⟩ := ih
      (if ee.tagName = "normal-notes" then
        { (if ee.tagName = "actual-notes" then
            { v with actualNotes := (ms.stringToInt ee.text).1 } else v) with
          normalNotes := (ms.stringToInt ee.text).1 }
      else (if ee.tagName = "actual-notes" then
        { v with actualNotes := (ms.stringToInt ee.text).1 } else v))
    rw [h1, h2, lastChild_cons, lastChild_cons]
    constructor
    · cases lastChild "actual-notes" rest with
      | some x => rfl
      | none =>
        by_cases ha : ee.tagName = "actual-notes" <;>
          by_cases hn : ee.tagName = "normal-notes" <;> simp [ha, hn]
    · cases lastChild "normal-notes" rest with
      | some x => rfl
      | none =>
        by_cases ha : ee.tagName = "actual-notes" <;>
          by_cases hn : ee.tagName = "normal-notes" <;> simp [ha, hn]

theorem noteStep_notes (ms : MxmlSupport) (divisions : Int) (c : QDomElement) (v : NoteVars) :
    (noteStep ms divisions c v).actualNotes
      = (if c.tagName = "time-modification" then
          (timeModificationLoop ms c.children v).actualNotes else v.actualNotes) ∧
    (noteStep ms divisions c v).normalNotes
      = (if c.tagName = "time-modification" then
          (timeModificationLoop ms c.children v).normalNotes else v.normalNotes) := by
  unfold noteStep
  by_cases h1 : c.tagName = "chord"
  · simp [h1]
  by_cases h2 : c.tagName = "dot"
  · simp [h2]
  by_cases h3 : c.tagName = "duration"
  · by_cases hd : divisions > 0 <;> simp [h3, hd]
  by_cases h4 : c.tagName = "grace"
  · simp [h4]
  by_cases h5 : c.tagName = "rest"
  · simp [h5]
  by_cases h6 : c.tagName = "time-modification"
  · simp [h6]
  by_cases h7 : c.tagName = "type"
  · simp [h7]
  simp [h1, h2, h3, h4, h5, h6, h7]

theorem noteLoop_notes (ms : MxmlSupport) (divisions : Int) (l : List QDomElement)
    (v : NoteVars) :
    (noteLoop ms divisions l v).actualNotes
      = ((lastChild "actual-notes" (timeModificationChildren l)).map
          (fun c => (ms.stringToInt c.text).1)).getD v.actualNotes ∧
    (noteLoop ms divisions l v).normalNotes
      = ((lastChild "normal-notes" (timeModificationChildren l)).map
          (fun c => (ms.stringToInt c.text).1)).getD v.normalNotes := by
  induction l generalizing v with
  | nil => exact ⟨rfl, rfl⟩
  | cons c l ih =>
    rw [noteLoop_cons]
    obtain ⟨h1, h2⟩ := ih (noteStep ms divisions c v)
    obtain ⟨g1, g2⟩ := noteStep_notes ms divisions c v
    obtain ⟨t1, t2⟩ := timeModificationLoop_notes ms c.children v
    rw [h1, h2, g1, g2, timeModificationChildren_cons, lastChild_append, lastChild_append]
    constructor
    · cases lastChild "actual-notes" (timeModificationChildren l) with
      | some x => rfl
      | none =>
        by_cases h : c.tagName = "time-modification"
        · simp [h, t1]
        · simp [h, lastChild]
    · cases lastChild "normal-notes" (timeModificationChildren l) with
      | some x => rfl
      | none =>
        by_cases h : c.tagName = "time-modification"
        · simp [h, t2]
        · simp [h, lastChild]

theorem noteVars_notes (ms : MxmlSupport) (divisions : Int) (e : QDomElement) :
    (noteVars ms divisions e).actualNotes = actualNotesOf ms e.children ∧
    (noteVars ms divisions e).normalNotes = normalNotesOf ms e.children := by
  obtain ⟨h1, h2⟩ := noteLoop_notes ms divisions e.children
    { actualNotes := 0, chord := false, dots := 0, grace := false, normalNotes := 0,
      rest := false, type := "", duration := ⟨0, 0⟩ }
  exact ⟨h1, h2⟩

theorem noteVars_fields (ms : MxmlSupport) (divisions : Int) (e : QDomElement) :
    (noteVars ms divisions e).chord = e.children.any (fun c => c.tagName == "chord") ∧
    (noteVars ms divisions e).grace = e.children.any (fun c => c.tagName == "grace") ∧
    (noteVars ms divisions e).rest = e.children.any (fun c => c.tagName == "rest") ∧
    (noteVars ms divisions e).type = symbolicType e.children ∧
    (noteVars ms divisions e).duration = explicitDuration ms divisions e.children ∧
    (noteVars ms divisions e).dots
      = ((e.children.countP (fun c => c.tagName == "dot") : Nat) : Int) := by
  obtain ⟨h1, h2, h3, h4, h5, h6⟩ := noteLoop_fields ms divisions e.children
    { actualNotes := 0, chord := false, dots := 0, grace := false, normalNotes := 0,
      rest := false, type := "", duration := ⟨0, 0⟩ }
  unfold noteVars
  rw [h1, h2, h3, h4, h5, h6]
  refine ⟨by simp, by simp, by simp, rfl, ?_, by simp⟩
  unfold explicitDuration
  cases lastChild "duration" e.children with
  | some d => by_cases hd : divisions > 0 <;> simp [hd]
  | none => simp

theorem noteDurationAsFraction_eq (ms : MxmlSupport) (divisions : Int) (e : QDomElement) :
    noteDurationAsFraction ms divisions e =
      if (noteVars ms divisions e).chord || (noteVars ms divisions e).grace then
        (⟨0, 1⟩, ⟨0, 1⟩, "")
      else if (noteVars ms divisions e).rest && (noteVars ms divisions e).type == "" then
        ((noteVars ms divisions e).duration, (noteVars ms divisions e).duration,
          describeDuration ms (noteVars ms divisions e)
            (ms.calculateFraction (noteVars ms divisions e).type (noteVars ms divisions e).dots
              (noteVars ms divisions e).normalNotes (noteVars ms divisions e).actualNotes))
      else if (noteVars ms divisions e).rest && (noteVars ms divisions e).type == "whole"
          && (noteVars ms divisions e).duration.isValid then
        ((noteVars ms divisions e).duration, (noteVars ms divisions e).duration,
          describeDuration ms (noteVars ms divisions e)
            (ms.calculateFraction (noteVars ms divisions e).type (noteVars ms divisions e).dots
              (noteVars ms divisions e).normalNotes (noteVars ms divisions e).actualNotes))
      else
        (ms.calculateFraction (noteVars ms divisions e).type (noteVars ms divisions e).dots
            (noteVars ms divisions e).normalNotes (noteVars ms divisions e).actualNotes,
          (noteVars ms divisions e).duration,
          describeDuration ms (noteVars ms divisions e)
            (ms.calculateFraction (noteVars ms divisions e).type (noteVars ms divisions e).dots
              (noteVars ms divisions e).normalNotes (noteVars ms divisions e).actualNotes)) := rfl

/-- C13: for a note element with a `chord` or a `grace` child, whatever the
divisions and the other children, `noteDurationAsFraction` returns exactly `0/1`
and sets the explicit duration to exactly `0/1`, a valid zero. -/
theorem noteDurationAsFraction_chord_or_grace (ms : MxmlSupport) (divisions : Int)
    (e : QDomElement)
    (h : ∃ c ∈ e.children, c.tagName = "chord" ∨ c.tagName = "grace") :
    (noteDurationAsFraction ms divisions e).1 = ⟨0, 1⟩ ∧
    (noteDurationAsFraction ms divisions e).2.1 = ⟨0, 1⟩ ∧
    (noteDurationAsFraction ms divisions e).1.isValid = true ∧
    (noteDurationAsFraction ms divisions e).2.1.isValid = true := by
  obtain ⟨h1, h2, _⟩ := noteVars_fields ms divisions e
  have hcg : ((noteVars ms divisions e).chord || (noteVars ms divisions e).grace) = true := by
    rw [h1, h2]
    obtain ⟨c, hc, hor⟩ := h
    rcases hor with hor | hor
    · rw [Bool.or_eq_true]
      left
      rw [List.any_eq_true]
      exact ⟨c, hc, by simp [hor]⟩
    · rw [Bool.or_eq_true]
      right
      rw [List.any_eq_true]
      exact ⟨c, hc, by simp [hor]⟩
  rw [noteDurationAsFraction_eq, if_pos hcg]
  exact ⟨rfl, rfl, rfl, rfl⟩

theorem noteDurationAsFraction_chord_or_grace_witness :
    (noteDurationAsFraction mxmlSupport 480 chordNote).1 = ⟨0, 1⟩ ∧
    (noteDurationAsFraction mxmlSupport 480 chordNote).2.1 = ⟨0, 1⟩ :=
  ⟨(noteDurationAsFraction_chord_or_grace mxmlSupport 480 chordNote
      ⟨.mk "chord" [] "" [], List.mem_cons_self _ _, Or.inl rfl⟩).1,
   (noteDurationAsFraction_chord_or_grace mxmlSupport 480 chordNote
      ⟨.mk "chord" [] "" [], List.mem_cons_self _ _, Or.inl rfl⟩).2.1⟩

theorem lastChild_tagName (tag : String) (cs : List QDomElement) (d : QDomElement)
    (h : lastChild tag cs = some d) : d.tagName = tag := by
  unfold lastChild at h
  have := List.find?_some h
  simpa using this

/-- C14: for a note element without `chord` and `grace` children,
`noteDurationAsFraction` sets the explicit duration to what `durationAsFraction`
makes of the `duration` child (the invalid `0/0` when the child is absent or the
divisions are not positive) and returns: the explicit duration for a rest with no
symbolic type; the explicit duration for a rest typed "whole" whose explicit
duration is valid; and in every other case the duration calculated from the type
(the text of the last `type` child), the dots (the number of `dot` children) and
the normal and actual notes of the tuplet ratio (what `stringToInt` makes of the
last `normal-notes` and `actual-notes` elements inside the `time-modification`
children, 0 when absent).  The spec's `durationAsFraction` is the value of the
`duration` child over four times the divisions. -/
theorem noteDurationAsFraction_resolution (ms : MxmlSupport) (divisions : Int)
    (e : QDomElement) (hchord : ∀ c ∈ e.children, c.tagName ≠ "chord")
    (hgrace : ∀ c ∈ e.children, c.tagName ≠ "grace") :
    (noteDurationAsFraction ms divisions e).2.1 = explicitDuration ms divisions e.children ∧
    ((∃ c ∈ e.children, c.tagName = "rest") → symbolicType e.children = "" →
      (noteDurationAsFraction ms divisions e).1 = explicitDuration ms divisions e.children) ∧
    ((∃ c ∈ e.children, c.tagName = "rest") → symbolicType e.children = "whole" →
      (explicitDuration ms divisions e.children).isValid = true →
      (noteDurationAsFraction ms divisions e).1 = explicitDuration ms divisions e.children) ∧
    (¬ ((∃ c ∈ e.children, c.tagName = "rest") ∧
        (symbolicType e.children = "" ∨
          (symbolicType e.children = "whole" ∧
            (explicitDuration ms divisions e.children).isValid = true))) →
      (noteDurationAsFraction ms divisions e).1
        = ms.calculateFraction (symbolicType e.children)
            ((e.children.countP (fun c => c.tagName == "dot") : Nat) : Int)
            (normalNotesOf ms e.children) (actualNotesOf ms e.children)) ∧
    (∀ d, lastChild "duration" e.children = some d → 0 < divisions →
      d.tagName = "duration" ∧
      explicitDuration ms divisions e.children = ms.durationAsFraction divisions d) ∧
    (lastChild "duration" e.children = none ∨ divisions ≤ 0 →
      explicitDuration ms divisions e.children = ⟨0, 0⟩ ∧
      (explicitDuration ms divisions e.children).isValid = false) ∧
    (∀ d : QDomElement, d.tagName = "duration" →
      mxmlSupport.durationAsFraction divisions d = ⟨(parseInt d.text).1, 4 * divisions⟩) := by
  obtain ⟨h1, h2, h3, h4, h5, h6⟩ := noteVars_fields ms divisions e
  have hc : (noteVars ms divisions e).chord = false := by
    rw [h1, List.any_eq_false]
    intro c hcm
    simpa using hchord c hcm
  have hg : (noteVars ms divisions e).grace = false := by
    rw [h2, List.any_eq_false]
    intro c hcm
    simpa using hgrace c hcm
  have hrest : (noteVars ms divisions e).rest = true ↔ ∃ c ∈ e.children, c.tagName = "rest" := by
    rw [h3, List.any_eq_true]
    constructor
    · rintro ⟨c, hcm, hcr⟩; exact ⟨c, hcm, by simpa using hcr⟩
    · rintro ⟨c, hcm, hcr⟩; exact ⟨c, hcm, by simpa using hcr⟩
  have hcg : ¬ (((noteVars ms divisions e).chord || (noteVars ms divisions e).grace) = true) := by
    rw [hc, hg]; decide
  rw [noteDurationAsFraction_eq, if_neg hcg]
  refine ⟨?_, ?_, ?_, ?_, ?_, ?_, ?_⟩
  · rw [← h5]
    split
    · rfl
    · split <;> rfl
  · intro hr ht
    have : ((noteVars ms divisions e).rest && (noteVars ms divisions e).type == "") = true := by
      rw [hrest.2 hr, h4, ht]; rfl
    rw [if_pos this, h5]
  · intro hr ht hv
    rw [← h5] at hv
    by_cases h0 : ((noteVars ms divisions e).rest && (noteVars ms divisions e).type == "") = true
    · rw [if_pos h0, h5]
    · have : ((noteVars ms divisions e).rest && (noteVars ms divisions e).type == "whole"
          && (noteVars ms divisions e).duration.isValid) = true := by
        rw [hrest.2 hr, h4, ht, hv]; rfl
      rw [if_neg h0, if_pos this, h5]
  · intro hnot
    have h0 : ¬ (((noteVars ms divisions e).rest && (noteVars ms divisions e).type == "") = true) := by
      intro h
      rw [Bool.and_eq_true, beq_iff_eq, h4] at h
      exact hnot ⟨hrest.1 h.1, Or.inl h.2⟩
    have h00 : ¬ (((noteVars ms divisions e).rest && (noteVars ms divisions e).type == "whole"
        && (noteVars ms divisions e).duration.isValid) = true) := by
      intro h
      rw [Bool.and_eq_true, Bool.and_eq_true, beq_iff_eq, h4, h5] at h
      exact hnot ⟨hrest.1 h.1.1, Or.inr ⟨h.1.2, h.2⟩⟩
    rw [if_neg h0, if_neg h00, h4, h6, (noteVars_notes ms divisions e).1,
      (noteVars_notes ms divisions e).2]
  · intro d hd hpos
    refine ⟨lastChild_tagName _ _ _ hd, ?_⟩
    unfold explicitDuration
    rw [hd]
    simp [hpos]
  · intro hor
    have : explicitDuration ms divisions e.children = ⟨0, 0⟩ := by
      unfold explicitDuration
      rcases hor with h | h
      · rw [h]
      · cases lastChild "duration" e.children with
        | none => rfl
        | some d =>
          have : ¬ divisions > 0 := by omega
          simp [this]
    rw [this]
    exact ⟨rfl, rfl⟩
  · intro d hd
    show specDurationAsFraction divisions d = _
    unfold specDurationAsFraction
    rw [if_pos hd]

theorem noteDurationAsFraction_resolution_witness :
    (noteDurationAsFraction mxmlSupport 480 wholeMeasureRest).1 = ⟨1920, 1920⟩ ∧
    (⟨1920, 1920⟩ : Fraction).toRat = 1 ∧
    normalNotesOf mxmlSupport tripletEighth.children = 2 ∧
    actualNotesOf mxmlSupport tripletEighth.children = 3 ∧
    (noteDurationAsFraction mxmlSupport 480 tripletEighth).1 = ⟨2, 24⟩ := by
  have h := (noteDurationAsFraction_resolution mxmlSupport 480 wholeMeasureRest
    (by decide) (by decide)).2.1 ⟨.mk "rest" [] "" [], List.mem_cons_self _ _, rfl⟩ (by decide)
  have hx : explicitDuration mxmlSupport 480 wholeMeasureRest.children = ⟨1920, 1920⟩ := by
    decide
  rw [hx] at h
  have ht := (noteDurationAsFraction_resolution mxmlSupport 480 tripletEighth
    (by decide) (by decide)).2.2.2.1 (by decide)
  have hn : normalNotesOf mxmlSupport tripletEighth.children = 2 := by decide
  have ha : actualNotesOf mxmlSupport tripletEighth.children = 3 := by decide
  have hc : mxmlSupport.calculateFraction (symbolicType tripletEighth.children)
      ((tripletEighth.children.countP (fun c => c.tagName == "dot") : Nat) : Int) 2 3
      = ⟨2, 24⟩ := by decide
  rw [hn, ha, hc] at ht
  refine ⟨h, ?_, hn, ha, ht⟩
  unfold Fraction.toRat
  norm_num

/-! ## Texts of decimal digits -/

theorem not_whitespace_of_isDigit (c : Char) (h : c.isDigit = true) :
    c.isWhitespace = false := by
  cases hw : c.isWhitespace with
  | false => rfl
  | true =>
    exfalso
    unfold Char.isWhitespace at hw
    simp only [Bool.or_eq_true, decide_eq_true_eq] at hw
    rcases hw with ((hw | hw) | hw) | hw <;> (subst hw; revert h; decide)

theorem ne_plus_of_isDigit (c : Char) (h : c.isDigit = true) : c ≠ '+' := by
  intro hc; subst hc; revert h; decide

theorem ne_minus_of_isDigit (c : Char) (h : c.isDigit = true) : c ≠ '-' := by
  intro hc; subst hc; revert h; decide

theorem dropWhile_whitespace_of_digit (c : Char) (t : List Char) (h : c.isDigit = true) :
    (c :: t).dropWhile Char.isWhitespace = c :: t := by
  rw [List.dropWhile_cons]
  simp [not_whitespace_of_isDigit c h]

theorem trimSpace_of_digits (p : List Char) (hne : p ≠ []) (hall : p.all Char.isDigit = true) :
    trimSpace p = p := by
  unfold trimSpace
  rw [List.all_eq_true] at hall
  obtain ⟨c, t, rfl⟩ := List.exists_cons_of_ne_nil hne
  rw [dropWhile_whitespace_of_digit c t (hall c (List.mem_cons_self _ _))]
  have hrev : (c :: t).reverse ≠ [] := by simp
  obtain ⟨c', t', hct⟩ := List.exists_cons_of_ne_nil hrev
  have hc' : c'.isDigit = true := by
    apply hall
    rw [← List.mem_reverse, hct]
    exact List.mem_cons_self _ _
  rw [hct, dropWhile_whitespace_of_digit c' t' hc', ← hct, List.reverse_reverse]

theorem parseInt_of_digits (p : List Char) (hne : p ≠ []) (hall : p.all Char.isDigit = true) :
    parseInt (String.mk p) = ((digitsValue p : Int), true) := by
  obtain ⟨c, t, rfl⟩ := List.exists_cons_of_ne_nil hne
  have hc : c.isDigit = true := by
    rw [List.all_eq_true] at hall
    exact hall c (List.mem_cons_self _ _)
  unfold parseInt
  dsimp only
  split
  · rename_i h; cases h
  · rename_i cs h
    injection h with h1 h2
    exact absurd h1 (ne_minus_of_isDigit c hc)
  · rename_i cs _ _
    rw [if_pos hall]

theorem decimalValue_of_digits (p : List Char) (hne : p ≠ [])
    (hall : p.all Char.isDigit = true) :
    decimalValue (String.mk p) = (digitsValue p : Int) := by
  obtain ⟨c, t, rfl⟩ := List.exists_cons_of_ne_nil hne
  have hc : c.isDigit = true := by
    rw [List.all_eq_true] at hall
    exact hall c (List.mem_cons_self _ _)
  unfold decimalValue
  dsimp only
  rw [trimSpace_of_digits (c :: t) hne hall]
  split
  · rename_i ds h
    injection h with h1 h2
    exact absurd h1 (ne_plus_of_isDigit c hc)
  · rw [parseInt_of_digits (c :: t) hne hall]

theorem fitsInt_iff (v : Int) : fitsInt v = true ↔ -2147483648 ≤ v ∧ v ≤ 2147483647 := by
  unfold fitsInt
  exact decide_eq_true_iff

theorem toInt_of_digits (p : List Char) (hne : p ≠ []) (hall : p.all Char.isDigit = true)
    (hfit : digitsValue p ≤ 2147483647) :
    toInt (String.mk p) = (digitsValue p : Int) := by
  unfold toInt
  rw [decimalValue_of_digits p hne hall, if_pos ((fitsInt_iff _).2 ⟨by omega, by omega⟩)]

theorem toInt_fits (s : String) : -2147483648 ≤ toInt s ∧ toInt s ≤ 2147483647 := by
  unfold toInt
  by_cases h : fitsInt (decimalValue s) = true
  · rw [if_pos h]
    exact (fitsInt_iff _).1 h
  · rw [if_neg h]
    decide

/-! ## Splitting at `+` -/

theorem splitChars_append (sep : Char) (p l cur : List Char) (h : ∀ c ∈ p, c ≠ sep) :
    splitChars sep (p ++ l) cur = splitChars sep l (p.reverse ++ cur) := by
  induction p generalizing cur with
  | nil => rfl
  | cons c t ih =>
    have hc := h c (List.mem_cons_self _ _)
    show splitChars sep (c :: (t ++ l)) cur = _
    rw [splitChars, if_neg hc, ih (c :: cur) (fun x hx => h x (List.mem_cons_of_mem _ hx))]
    simp

theorem splitChars_joinPlus (parts : List (List Char)) (hne : parts ≠ [])
    (h : ∀ p ∈ parts, ∀ c ∈ p, c ≠ '+') : splitChars '+' (joinPlus parts) [] = parts := by
  induction parts with
  | nil => exact absurd rfl hne
  | cons p ps ih =>
    cases ps with
    | nil =>
      have := splitChars_append '+' p [] [] (h p (List.mem_cons_self _ _))
      rw [List.append_nil] at this
      simp only [joinPlus, this, splitChars, List.append_nil, List.reverse_reverse]
    | cons q qs =>
      simp only [joinPlus]
      rw [splitChars_append '+' p _ [] (h p (List.mem_cons_self _ _))]
      simp only [splitChars, if_true, List.append_nil, List.reverse_reverse]
      rw [ih (by simp) (fun x hx => h x (List.mem_cons_of_mem _ hx))]

theorem joinPlus_ne_nil (parts : List (List Char)) (hne : parts ≠ [])
    (h : ∀ p ∈ parts, p ≠ []) : joinPlus parts ≠ [] := by
  cases parts with
  | nil => exact absurd rfl hne
  | cons p ps =>
    have hp := h p (List.mem_cons_self _ _)
    cases ps with
    | nil => exact hp
    | cons q qs => simp [joinPlus, hp]

theorem foldl_toInt_digits (parts : List (List Char))
    (h : ∀ p ∈ parts, p ≠ [] ∧ p.all Char.isDigit = true)
    (hfit : ∀ p ∈ parts, digitsValue p ≤ 2147483647) (acc : Int) :
    (parts.map String.mk).foldl (fun bts s => bts + toInt s) acc
      = acc + ((parts.map digitsValue).sum : Nat) := by
  induction parts generalizing acc with
  | nil => simp
  | cons p ps ih =>
    simp only [List.map_cons, List.foldl_cons, List.sum_cons]
    rw [ih (fun x hx => h x (List.mem_cons_of_mem _ hx))
        (fun x hx => hfit x (List.mem_cons_of_mem _ hx)),
      toInt_of_digits p (h p (List.mem_cons_self _ _)).1 (h p (List.mem_cons_self _ _)).2
        (hfit p (List.mem_cons_self _ _))]
    push_cast
    ring

theorem determineTimeSig_of_digits (parts : List (List Char)) (bt : List Char)
    (hparts : parts ≠ [])
    (hdigits : ∀ p ∈ parts, p ≠ [] ∧ p.all Char.isDigit = true)
    (hbt : bt ≠ [] ∧ bt.all Char.isDigit = true)
    (hfit : ∀ p ∈ parts, digitsValue p ≤ 2147483647) (hbtfit : digitsValue bt ≤ 2147483647) :
    determineTimeSig (String.mk (joinPlus parts)) (String.mk bt) ""
      = (true, TimeSigType.NORMAL, (((parts.map digitsValue).sum : Nat) : Int),
          (digitsValue bt : Int)) := by
  unfold determineTimeSig
  have h1 : ¬ ("" = "cut") := by decide
  have h2 : ¬ ("" = "common") := by decide
  have h3 : ¬ ((!("" : String).isEmpty) = true ∧ ("" : String) ≠ "normal") := by decide
  rw [if_neg (fun h => h1 h.2.2), if_neg (fun h => h2 h.2.2), if_neg h3]
  have hsplit : splitPlus (String.mk (joinPlus parts)) = parts.map String.mk := by
    unfold splitPlus
    rw [splitChars_joinPlus parts hparts]
    intro p hp c hc
    have := (hdigits p hp).2
    rw [List.all_eq_true] at this
    exact ne_plus_of_isDigit c (this c hc)
  rw [hsplit, foldl_toInt_digits parts hdigits hfit 0, toInt_of_digits bt hbt.1 hbt.2 hbtfit]
  simp

theorem digitsValue_le_sum (parts : List (List Char)) (p : List Char) (hp : p ∈ parts) :
    digitsValue p ≤ (parts.map digitsValue).sum := by
  induction parts with
  | nil => cases hp
  | cons q qs ih =>
    rw [List.map_cons, List.sum_cons]
    rcases List.mem_cons.1 hp with h | h
    · subst h
      omega
    · have := ih h
      omega

theorem stringMk_ne_empty (l : List Char) (h : l ≠ []) : String.mk l ≠ "" := by
  intro hs
  have := congrArg String.data hs
  exact h this

/-- C15 (as stated, refuted): for the time signature 4/4 and 480 ticks per quarter
note the driver stores the length 1920, four quarter notes, and not
`4 * 480 / 4 = 480`. -/
theorem timeSigLen_not_beats_times_division :
    (readTime 480 timeFourFour (-1, -1)).1 = 1920 ∧
    (readTime 480 timeFourFour (-1, -1)).1 ≠ 4 * 480 / 4 := by
  decide

/-- C15 (amended): for a `time` element whose `beats` text is a list of decimal
numbers joined by `+`, with sum `beats_total`, and whose `beat-type` text is a
positive decimal number, all within the range of `int` and such that
`beats_total * 4 * division + beatType / 2` is within that range too (so that
`toInt` reads the numbers written and no `int` of the computation overflows),
the driver stores in `timeSigLen` the tick count
`beats_total * 4 * division / beatType` rounded to the nearest tick, which is
exactly that quotient when `beatType` divides `beats_total * 4 * division`; a
whole note is `4 * division` ticks.  It stores the beat type in `timeSigType`. -/
theorem timeSigLen_eq_whole_notes (division : Int) (hdiv : 0 < division)
    (eee : QDomElement) (ts : Int × Int) (parts : List (List Char)) (bt : List Char)
    (hparts : parts ≠ [])
    (hdigits : ∀ p ∈ parts, p ≠ [] ∧ p.all Char.isDigit = true)
    (hbt : bt ≠ [] ∧ bt.all Char.isDigit = true) (hbtpos : 0 < digitsValue bt)
    (hbtfit : digitsValue bt ≤ 2147483647)
    (hfit : (((parts.map digitsValue).sum : Nat) : Int) * 4 * division
      + (digitsValue bt : Int) / 2 ≤ 2147483647)
    (hscan : timeLoop eee.children ("", "") = (String.mk (joinPlus parts), String.mk bt)) :
    (readTime division eee ts).1
      = ((((parts.map digitsValue).sum : Nat) : Int) * 4 * division + (digitsValue bt : Int) / 2)
          / (digitsValue bt : Int) ∧
    ((digitsValue bt : Int) ∣ (((parts.map digitsValue).sum : Nat) : Int) * 4 * division →
      (readTime division eee ts).1
        = (((parts.map digitsValue).sum : Nat) : Int) * 4 * division / (digitsValue bt : Int)) ∧
    (readTime division eee ts).2 = (digitsValue bt : Int) := by
  have hb1 : String.mk (joinPlus parts) ≠ "" :=
    stringMk_ne_empty _ (joinPlus_ne_nil parts hparts (fun p hp => (hdigits p hp).1))
  have hb2 : String.mk bt ≠ "" := stringMk_ne_empty _ hbt.1
  have hsumfit : (parts.map digitsValue).sum ≤ 2147483647 := by
    have h1 : (0 : Int) ≤ (((parts.map digitsValue).sum : Nat) : Int) := Int.ofNat_nonneg _
    have h2 : (0 : Int) ≤ (digitsValue bt : Int) / 2 :=
      Int.ediv_nonneg (Int.ofNat_nonneg _) (by decide)
    have h3 : (((parts.map digitsValue).sum : Nat) : Int)
        ≤ (((parts.map digitsValue).sum : Nat) : Int) * 4 * division := by
      nlinarith
    have h4 : (((parts.map digitsValue).sum : Nat) : Int) ≤ 2147483647 := by linarith
    exact_mod_cast h4
  have hpartsfit : ∀ p ∈ parts, digitsValue p ≤ 2147483647 := fun p hp =>
    le_trans (digitsValue_le_sum parts p hp) hsumfit
  have hread : readTime division eee ts
      = (Fraction.ticks division ⟨(((parts.map digitsValue).sum : Nat) : Int),
          (digitsValue bt : Int)⟩, (digitsValue bt : Int)) := by
    unfold readTime
    rw [hscan]
    dsimp only
    rw [if_pos ⟨hb1, hb2⟩,
      determineTimeSig_of_digits parts bt hparts hdigits hbt hpartsfit hbtfit]
    rfl
  have hpos : (0 : Int) < (digitsValue bt : Int) := by exact_mod_cast hbtpos
  have hsum : (0 : Int) ≤ (((parts.map digitsValue).sum : Nat) : Int) := Int.ofNat_nonneg _
  have hX : (0 : Int) ≤ (((parts.map digitsValue).sum : Nat) : Int) * 4 * division :=
    Int.mul_nonneg (Int.mul_nonneg hsum (by norm_num)) (le_of_lt hdiv)
  have hticks : Fraction.ticks division ⟨(((parts.map digitsValue).sum : Nat) : Int),
        (digitsValue bt : Int)⟩
      = ((((parts.map digitsValue).sum : Nat) : Int) * 4 * division
          + (digitsValue bt : Int) / 2) / (digitsValue bt : Int) := by
    unfold Fraction.ticks
    dsimp only
    have e1 : (((parts.map digitsValue).sum : Nat) : Int) * division * 4
        = (((parts.map digitsValue).sum : Nat) : Int) * 4 * division := by ring
    rw [e1, Int.tdiv_eq_ediv (le_of_lt hpos) (by norm_num),
      Int.tdiv_eq_ediv (by omega) (le_of_lt hpos)]
  rw [hread]
  refine ⟨hticks, ?_, rfl⟩
  intro hdvd
  dsimp only
  have h0 : (digitsValue bt : Int) / 2 / (digitsValue bt : Int) = 0 :=
    Int.ediv_eq_zero_of_lt (by omega) (by omega)
  rw [hticks, Int.add_ediv_of_dvd_left hdvd, h0]
  simp

theorem timeSigLen_eq_whole_notes_witness :
    (readTime 480 timeFourFour (-1, -1)).1 = 4 * 4 * 480 / 4 := by
  have h := (timeSigLen_eq_whole_notes 480 (by decide) timeFourFour (-1, -1) [['4']] ['4']
    (by decide) (by decide) (by decide) (by decide) (by decide) (by decide)
    (by decide)).2.1 (by decide)
  rw [h]
  decide

/-- C16: for a time symbol that is neither empty nor "normal", outside the two
triples ("2", "2", "cut") and ("4", "4", "common"), `determineTimeSig` returns
false and gives no fraction: `bts = 0`, `btp = 0` and the type `NORMAL`. -/
theorem determineTimeSig_rejects_symbol (beats beatType timeSymbol : String)
    (hne : timeSymbol ≠ "") (hnormal : timeSymbol ≠ "normal")
    (hcut : ¬ (beats = "2" ∧ beatType = "2" ∧ timeSymbol = "cut"))
    (hcommon : ¬ (beats = "4" ∧ beatType = "4" ∧ timeSymbol = "common")) :
    determineTimeSig beats beatType timeSymbol = (false, TimeSigType.NORMAL, 0, 0) := by
  unfold determineTimeSig
  rw [if_neg hcut, if_neg hcommon]
  have h : (!timeSymbol.isEmpty) = true ∧ timeSymbol ≠ "normal" := by
    refine ⟨?_, hnormal⟩
    cases hE : timeSymbol.isEmpty with
    | false => rfl
    | true =>
      exfalso
      apply hne
      rw [String.isEmpty_iff] at hE
      exact hE
  rw [if_pos h]

theorem determineTimeSig_rejects_symbol_witness :
    determineTimeSig "3" "4" "cut" = (false, TimeSigType.NORMAL, 0, 0) :=
  determineTimeSig_rejects_symbol "3" "4" "cut" (by decide) (by decide) (by decide) (by decide)

/-! ## Rounding a measure length to the raster -/

theorem correctedLength_of_dvd (division L : Int) (h : Int.tdiv division 16 ∣ L) :
    correctedLength division L = L := by
  unfold correctedLength
  rw [if_neg (not_not.2 (Int.tmod_eq_zero_of_dvd h))]

theorem correctedLength_dvd (division L : Int) :
    Int.tdiv division 16 ∣ correctedLength division L := by
  unfold correctedLength
  by_cases h : Int.tmod L (Int.tdiv division 16) ≠ 0
  · rw [if_pos h]
    exact Dvd.intro_left _ rfl
  · rw [if_neg h]
    exact Int.dvd_of_tmod_eq_zero (not_not.1 h)

/-- C17: the rounding of a measure length is idempotent.  With the raster
`r = division / 16`, the corrected length of a multiple of `r` is that multiple,
and correcting a corrected length changes nothing, for every integer length. -/
theorem correctedLength_idempotent (division : Int) (L : Int) :
    (Int.tdiv division 16 ∣ L → correctedLength division L = L) ∧
    correctedLength division (correctedLength division L) = correctedLength division L :=
  ⟨correctedLength_of_dvd division L,
   correctedLength_of_dvd division _ (correctedLength_dvd division L)⟩

theorem correctedLength_idempotent_witness :
    correctedLength 480 1920 = 1920 ∧ correctedLength 480 1919 = 1920 ∧
    correctedLength 480 (correctedLength 480 1919) = correctedLength 480 1919 :=
  ⟨(correctedLength_idempotent 480 1920).1 (by decide), by decide,
   (correctedLength_idempotent 480 1919).2⟩

/-- C18: for a non-negative tick length `L` and a positive raster
`r = division / 16`, the corrected length is the least multiple of `r` that is
not below `L`; in particular `L <= corrected < L + r`. -/
theorem correctedLength_least_multiple (division : Int) (hr : 0 < Int.tdiv division 16)
    (L : Int) (hL : 0 ≤ L) :
    Int.tdiv division 16 ∣ correctedLength division L ∧
    L ≤ correctedLength division L ∧
    correctedLength division L < L + Int.tdiv division 16 ∧
    ∀ m : Int, Int.tdiv division 16 ∣ m → L ≤ m → correctedLength division L ≤ m := by
  refine ⟨correctedLength_dvd division L, ?_⟩
  unfold correctedLength
  generalize Int.tdiv division 16 = r at hr ⊢
  rw [Int.tmod_eq_emod hL (le_of_lt hr), Int.tdiv_eq_ediv hL (le_of_lt hr)]
  have hdecomp : r * (L / r) + L % r = L := Int.ediv_add_emod L r
  have hnn : 0 ≤ L % r := Int.emod_nonneg L (ne_of_gt hr)
  have hlt : L % r < r := Int.emod_lt_of_pos L hr
  by_cases h : L % r ≠ 0
  · rw [if_pos h]
    have hpos : 0 < L % r := lt_of_le_of_ne hnn (Ne.symm h)
    have hexp : (L / r + 1) * r = r * (L / r) + r := by ring
    rw [hexp]
    refine ⟨by linarith, by linarith, ?_⟩
    intro m hm hLm
    obtain ⟨k, rfl⟩ := hm
    have hk : L / r < k := by
      by_contra hnot
      have hle : k ≤ L / r := not_lt.1 hnot
      have : r * k ≤ r * (L / r) := Int.mul_le_mul_of_nonneg_left hle (le_of_lt hr)
      linarith
    have : r * (L / r + 1) ≤ r * k := Int.mul_le_mul_of_nonneg_left hk (le_of_lt hr)
    linarith
  · rw [if_neg h]
    exact ⟨le_refl _, by linarith, fun m _ hLm => hLm⟩

theorem correctedLength_least_multiple_witness :
    (30 : Int) ∣ correctedLength 480 1891 ∧ 1891 ≤ correctedLength 480 1891 ∧
    correctedLength 480 1891 < 1891 + 30 ∧ correctedLength 480 1891 = 1920 := by
  have h := correctedLength_least_multiple 480 (by decide) 1891 (by decide)
  exact ⟨h.1, h.2.1, h.2.2.1, by decide⟩

/-! ## `measureDurationAsFraction` -/

theorem measureDurationLoop_of_least (tsigtype : Int) (k : Nat) (res : Fraction) (fuel : Nat)
    (hk : tsigtype ≤ res.denominator * 2 ^ k)
    (hleast : ∀ j < k, res.denominator * 2 ^ j < tsigtype) (hfuel : k ≤ fuel) :
    measureDurationLoop tsigtype fuel res
      = some ⟨res.numerator * 2 ^ k, res.denominator * 2 ^ k⟩ := by
  induction k generalizing res fuel with
  | zero =>
    have hge : ¬ res.denominator < tsigtype := by
      simp only [pow_zero, mul_one] at hk
      omega
    cases fuel with
    | zero => simp [measureDurationLoop, hge]
    | succ f => simp [measureDurationLoop, hge]
  | succ k ih =>
    have hlt : res.denominator < tsigtype := by
      have := hleast 0 (Nat.succ_pos k)
      simpa using this
    cases fuel with
    | zero => omega
    | succ f =>
      simp only [measureDurationLoop, hlt, if_true]
      rw [ih ⟨res.numerator * 2, res.denominator * 2⟩ f
        (by dsimp only; rw [pow_succ] at hk; linarith)
        (fun j hj => by
          have := hleast (j + 1) (by omega)
          dsimp only
          rw [pow_succ] at this
          linarith)
        (by omega)]
      simp only [pow_succ, Option.some.injEq, Fraction.mk.injEq]
      constructor <;> ring

theorem measureDurationLoop_short (tsigtype : Int) (k : Nat) (res : Fraction) (fuel : Nat)
    (hleast : ∀ j < k, res.denominator * 2 ^ j < tsigtype) (hfuel : fuel < k) :
    measureDurationLoop tsigtype fuel res = none := by
  induction fuel generalizing res k with
  | zero =>
    have := hleast 0 hfuel
    simp only [pow_zero, mul_one] at this
    simp [measureDurationLoop, this]
  | succ f ih =>
    have h0 := hleast 0 (by omega)
    simp only [pow_zero, mul_one] at h0
    simp only [measureDurationLoop, h0, if_true]
    cases k with
    | zero => omega
    | succ k =>
      apply ih k
      · intro j hj
        have := hleast (j + 1) (by omega)
        dsimp only
        rw [pow_succ] at this
        linarith
      · omega

theorem exists_least_doubling (d tsigtype : Int) (hd : 1 ≤ d) :
    ∃ k : Nat, tsigtype ≤ d * 2 ^ k ∧ ∀ j < k, d * 2 ^ j < tsigtype := by
  have hex : ∃ k : Nat, tsigtype ≤ d * 2 ^ k := by
    refine ⟨tsigtype.toNat, ?_⟩
    have h1 : (tsigtype.toNat : Int) < ((2 ^ tsigtype.toNat : Nat) : Int) := by
      exact_mod_cast Nat.lt_two_pow tsigtype.toNat
    have h2 : tsigtype ≤ (tsigtype.toNat : Int) := Int.self_le_toNat tsigtype
    have h3 : (0 : Int) < 2 ^ tsigtype.toNat := by positivity
    have h4 : (2 : Int) ^ tsigtype.toNat ≤ d * 2 ^ tsigtype.toNat := by
      nlinarith
    push_cast at h1
    linarith
  classical
  refine ⟨Nat.find hex, Nat.find_spec hex, fun j hj => ?_⟩
  exact not_le.1 (Nat.find_min hex hj)

/-- C19: `measureDurationAsFraction` on a length `n/d` with `d >= 1`.  For
`tsigtype <= 0` the length comes back unchanged.  Otherwise, with `k` the least
number of doublings for which `d * 2^k >= tsigtype`, the loop ends after `k`
rounds with `(n * 2^k)/(d * 2^k)`: the same rational value, a denominator not
below `tsigtype` that is the original one times a power of two. -/
theorem measureDurationAsFraction_doubles (length : Fraction) (hd : 1 ≤ length.denominator)
    (tsigtype : Int) :
    (tsigtype ≤ 0 → ∀ fuel, measureDurationAsFraction fuel length tsigtype = some length) ∧
    (0 < tsigtype → ∃ k : Nat,
      tsigtype ≤ length.denominator * 2 ^ k ∧
      (∀ j < k, length.denominator * 2 ^ j < tsigtype) ∧
      (∀ fuel, k ≤ fuel → measureDurationAsFraction fuel length tsigtype
        = some ⟨length.numerator * 2 ^ k, length.denominator * 2 ^ k⟩) ∧
      (∀ fuel, fuel < k → measureDurationAsFraction fuel length tsigtype = none) ∧
      (⟨length.numerator * 2 ^ k, length.denominator * 2 ^ k⟩ : Fraction).toRat
        = length.toRat) := by
  constructor
  · intro h fuel
    unfold measureDurationAsFraction
    rw [if_pos h]
  · intro h
    obtain ⟨k, hk, hleast⟩ := exists_least_doubling length.denominator tsigtype hd
    refine ⟨k, hk, hleast, ?_, ?_, ?_⟩
    · intro fuel hfuel
      unfold measureDurationAsFraction
      rw [if_neg (by omega)]
      exact measureDurationLoop_of_least tsigtype k length fuel hk hleast hfuel
    · intro fuel hfuel
      unfold measureDurationAsFraction
      rw [if_neg (by omega)]
      exact measureDurationLoop_short tsigtype k length fuel hleast hfuel
    · unfold Fraction.toRat
      dsimp only
      have h2 : ((2 : ℚ) ^ k) ≠ 0 := by positivity
      push_cast
      rw [mul_div_mul_right _ _ h2]

theorem measureDurationAsFraction_doubles_witness :
    measureDurationAsFraction 2 ⟨3, 2⟩ 8 = some ⟨12, 8⟩ ∧
    measureDurationAsFraction 1 ⟨3, 2⟩ 8 = none ∧
    measureDurationAsFraction 0 ⟨3, 2⟩ 0 = some ⟨3, 2⟩ :=
  ⟨by decide, by decide,
   (measureDurationAsFraction_doubles ⟨3, 2⟩ (by decide) 0).1 (by decide) 0⟩

/-! ## The global measure-length table -/

theorem maxMeasures_spec (parts : List MusicXmlPart) (n : Nat) :
    n ≤ maxMeasures parts n ∧ (∀ p ∈ parts, p.nMeasures ≤ maxMeasures parts n) ∧
    (maxMeasures parts n = n ∨ ∃ p ∈ parts, maxMeasures parts n = p.nMeasures) := by
  induction parts generalizing n with
  | nil =>
    refine ⟨le_refl _, ?_, Or.inl rfl⟩
    intro p hp
    cases hp
  | cons q rest ih =>
    simp only [maxMeasures]
    by_cases hq : q.nMeasures > n
    · rw [if_pos hq]
      obtain ⟨h1, h2, h3⟩ := ih q.nMeasures
      refine ⟨by omega, ?_, ?_⟩
      · intro p hp
        rcases List.mem_cons.1 hp with rfl | hp
        · exact h1
        · exact h2 p hp
      · rcases h3 with h3 | ⟨p, hp, h3⟩
        · exact Or.inr ⟨q, List.mem_cons_self _ _, h3⟩
        · exact Or.inr ⟨p, List.mem_cons_of_mem _ hp, h3⟩
    · rw [if_neg hq]
      obtain ⟨h1, h2, h3⟩ := ih n
      refine ⟨h1, ?_, ?_⟩
      · intro p hp
        rcases List.mem_cons.1 hp with rfl | hp
        · omega
        · exact h2 p hp
      · rcases h3 with h3 | ⟨p, hp, h3⟩
        · exact Or.inl h3
        · exact Or.inr ⟨p, List.mem_cons_of_mem _ hp, h3⟩

/-- C20: `determineMeasureLength` returns true and gives, whatever the previous
content of the table, a table whose length is the greatest number of measures
of a part: not below that of any part, equal to that of some part when there is
one, and 0 when there is no part. -/
theorem determineMeasureLength_length (parts : List MusicXmlPart) (ml : List Fraction) :
    (determineMeasureLength parts ml).1 = true ∧
    determineMeasureLength parts ml = determineMeasureLength parts [] ∧
    (∀ p ∈ parts, p.nMeasures ≤ (determineMeasureLength parts ml).2.length) ∧
    (parts = [] → (determineMeasureLength parts ml).2.length = 0) ∧
    (parts ≠ [] → ∃ p ∈ parts, (determineMeasureLength parts ml).2.length = p.nMeasures) := by
  have hlen : (determineMeasureLength parts ml).2.length = maxMeasures parts 0 := by
    simp [determineMeasureLength]
  obtain ⟨_, h2, h3⟩ := maxMeasures_spec parts 0
  refine ⟨rfl, rfl, ?_, ?_, ?_⟩
  · intro p hp
    rw [hlen]
    exact h2 p hp
  · intro h
    rw [hlen, h]
    rfl
  · intro hne
    rw [hlen]
    rcases h3 with h3 | h3
    · obtain ⟨q, rest, rfl⟩ := List.exists_cons_of_ne_nil hne
      refine ⟨q, List.mem_cons_self _ _, ?_⟩
      have := h2 q (List.mem_cons_self _ _)
      omega
    · exact h3

theorem determineMeasureLength_length_witness :
    (determineMeasureLength
      [partOfDurations [⟨1, 1⟩], partOfDurations [⟨3, 4⟩, ⟨1, 1⟩]] [⟨5, 1⟩]).2.length = 2 ∧
    (determineMeasureLength
      [partOfDurations [⟨1, 1⟩], partOfDurations [⟨3, 4⟩, ⟨1, 1⟩]] [⟨5, 1⟩]).1 = true :=
  ⟨by decide,
   (determineMeasureLength_length
      [partOfDurations [⟨1, 1⟩], partOfDurations [⟨3, 4⟩, ⟨1, 1⟩]] [⟨5, 1⟩]).1⟩

/-! ## The entries of the global measure-length table -/

theorem maxMeasureDuration_filter (i : Nat) (parts : List MusicXmlPart) (acc : Fraction) :
    maxMeasureDuration i (parts.filter (fun p => decide (i < p.nMeasures))) acc
      = maxMeasureDuration i parts acc := by
  induction parts generalizing acc with
  | nil => rfl
  | cons q rest ih =>
    by_cases hq : i < q.nMeasures
    · rw [List.filter_cons_of_pos (by simpa using hq)]
      simp only [maxMeasureDuration]
      exact ih _
    · rw [List.filter_cons_of_neg (by simpa using hq)]
      simp only [maxMeasureDuration, if_neg hq]
      exact ih _

theorem maxMeasureDuration_spec (i : Nat) (parts : List MusicXmlPart) (acc : Fraction)
    (hacc : acc.Proper)
    (hparts : ∀ p ∈ parts, i < p.nMeasures → (p.measureDuration i).Proper) :
    (maxMeasureDuration i parts acc).Proper ∧
    acc.toRat ≤ (maxMeasureDuration i parts acc).toRat ∧
    (∀ p ∈ parts, i < p.nMeasures →
      (p.measureDuration i).toRat ≤ (maxMeasureDuration i parts acc).toRat) ∧
    (maxMeasureDuration i parts acc = acc ∨
      ∃ p ∈ parts, i < p.nMeasures ∧ maxMeasureDuration i parts acc = p.measureDuration i) := by
  induction parts generalizing acc with
  | nil =>
    refine ⟨hacc, le_refl _, ?_, Or.inl rfl⟩
    intro p hp
    cases hp
  | cons q rest ih =>
    have hrest : ∀ p ∈ rest, i < p.nMeasures → (p.measureDuration i).Proper :=
      fun p hp => hparts p (List.mem_cons_of_mem _ hp)
    simp only [maxMeasureDuration]
    by_cases hq : i < q.nMeasures
    · have hqp := hparts q (List.mem_cons_self _ _) hq
      rw [if_pos hq]
      by_cases hgt : q.measureDuration i > acc
      · rw [if_pos hgt]
        obtain ⟨h1, h2, h3, h4⟩ := ih (q.measureDuration i) hqp hrest
        have hlt := (Fraction.lt_iff_toRat_lt hacc hqp).1 hgt
        refine ⟨h1, le_trans (le_of_lt hlt) h2, ?_, ?_⟩
        · intro p hp hip
          rcases List.mem_cons.1 hp with rfl | hp
          · exact h2
          · exact h3 p hp hip
        · rcases h4 with h4 | ⟨p, hp, hip, h4⟩
          · exact Or.inr ⟨q, List.mem_cons_self _ _, hq, h4⟩
          · exact Or.inr ⟨p, List.mem_cons_of_mem _ hp, hip, h4⟩
      · rw [if_neg hgt]
        obtain ⟨h1, h2, h3, h4⟩ := ih acc hacc hrest
        have hle : (q.measureDuration i).toRat ≤ acc.toRat :=
          not_lt.1 (fun h => hgt ((Fraction.lt_iff_toRat_lt hacc hqp).2 h))
        refine ⟨h1, h2, ?_, ?_⟩
        · intro p hp hip
          rcases List.mem_cons.1 hp with rfl | hp
          · exact le_trans hle h2
          · exact h3 p hp hip
        · rcases h4 with h4 | ⟨p, hp, hip, h4⟩
          · exact Or.inl h4
          · exact Or.inr ⟨p, List.mem_cons_of_mem _ hp, hip, h4⟩
    · rw [if_neg hq]
      obtain ⟨h1, h2, h3, h4⟩ := ih acc hacc hrest
      refine ⟨h1, h2, ?_, ?_⟩
      · intro p hp hip
        rcases List.mem_cons.1 hp with rfl | hp
        · exact absurd hip hq
        · exact h3 p hp hip
      · rcases h4 with h4 | ⟨p, hp, hip, h4⟩
        · exact Or.inl h4
        · exact Or.inr ⟨p, List.mem_cons_of_mem _ hp, hip, h4⟩

theorem MusicXmlPart.measureDuration_mem (p : MusicXmlPart) (i : Nat) (hi : i < p.nMeasures) :
    p.measureDuration i ∈ p.measureDurations := by
  unfold MusicXmlPart.nMeasures at hi
  unfold MusicXmlPart.measureDuration
  have h : ((i : Int) ≥ 0 ∧ (i : Int) < p.measureDurations.length) := ⟨by omega, by omega⟩
  rw [if_pos h]
  simp only [Int.toNat_ofNat]
  rw [List.getD_eq_getElem _ _ hi]
  exact List.getElem_mem hi

theorem Fraction.eqv_iff_toRat_eq {a b : Fraction} (ha : a.Proper) (hb : b.Proper) :
    Fraction.eqv a b = true ↔ a.toRat = b.toRat := by
  unfold Fraction.Proper at *
  unfold Fraction.eqv Fraction.toRat
  have h1 : (a.denominator : ℚ) ≠ 0 := by exact_mod_cast (ne_of_gt ha)
  have h2 : (b.denominator : ℚ) ≠ 0 := by exact_mod_cast (ne_of_gt hb)
  rw [div_eq_div_iff h1 h2, beq_iff_eq]
  constructor
  · intro h; exact_mod_cast h
  · intro h; exact_mod_cast h

theorem Fraction.toRat_nonneg {a : Fraction} (ha : a.Proper) (hn : 0 ≤ a.numerator) :
    0 ≤ a.toRat := by
  unfold Fraction.Proper at ha
  unfold Fraction.toRat
  have h1 : (0 : ℚ) < (a.denominator : ℚ) := by exact_mod_cast ha
  have h2 : (0 : ℚ) ≤ (a.numerator : ℚ) := by exact_mod_cast hn
  positivity

/-- C21: for parts whose measure durations are valid and non-negative (a positive
denominator and a non-negative numerator), entry `i` of the table produced by
`determineMeasureLength` is the maximum of `measureDuration(i)` over the parts
with more than `i` measures: it is not below the duration of any such part, it
has the value of one of them, and the parts with at most `i` measures do not
contribute, the entry being the same when they are left out. -/
theorem determineMeasureLength_entry (parts : List MusicXmlPart) (ml : List Fraction)
    (hvalid : ∀ p ∈ parts, ∀ d ∈ p.measureDurations, d.Proper ∧ 0 ≤ d.numerator)
    (i : Nat) (hi : i < (determineMeasureLength parts ml).2.length) :
    ∃ m, (determineMeasureLength parts ml).2[i]? = some m ∧ m.Proper ∧
      (∀ p ∈ parts, i < p.nMeasures →
        p.measureDuration i ≤ m ∧ (p.measureDuration i).toRat ≤ m.toRat) ∧
      (∃ p ∈ parts, i < p.nMeasures ∧ Fraction.eqv (p.measureDuration i) m = true ∧
        (p.measureDuration i).toRat = m.toRat) ∧
      (determineMeasureLength (parts.filter (fun p => decide (i < p.nMeasures))) ml).2[i]?
        = some m := by
  have hlen : (determineMeasureLength parts ml).2.length = maxMeasures parts 0 := by
    simp [determineMeasureLength]
  rw [hlen] at hi
  have hprop : ∀ p ∈ parts, i < p.nMeasures →
      (p.measureDuration i).Proper ∧ 0 ≤ (p.measureDuration i).numerator :=
    fun p hp hip => hvalid p hp _ (p.measureDuration_mem i hip)
  have h0 : (⟨0, 1⟩ : Fraction).Proper := by decide
  obtain ⟨h1, _, h3, h4⟩ := maxMeasureDuration_spec i parts ⟨0, 1⟩ h0
    (fun p hp hip => (hprop p hp hip).1)
  -- some part has more than `i` measures
  have hex : ∃ q ∈ parts, i < q.nMeasures := by
    rcases (maxMeasures_spec parts 0).2.2 with h | ⟨q, hq, h⟩
    · omega
    · exact ⟨q, hq, by omega⟩
  refine ⟨maxMeasureDuration i parts ⟨0, 1⟩, ?_, h1, ?_, ?_, ?_⟩
  · simp [determineMeasureLength, List.getElem?_map, List.getElem?_range hi]
  · intro p hp hip
    refine ⟨?_, h3 p hp hip⟩
    rw [Fraction.le_def]
    intro hlt
    have := (Fraction.lt_iff_toRat_lt h1 (hprop p hp hip).1).1 hlt
    exact absurd (h3 p hp hip) (not_le.2 this)
  · rcases h4 with h4 | ⟨p, hp, hip, h4⟩
    · obtain ⟨q, hq, hiq⟩ := hex
      have hle := h3 q hq hiq
      rw [h4] at hle
      have hge := Fraction.toRat_nonneg (hprop q hq hiq).1 (hprop q hq hiq).2
      have hz : (⟨0, 1⟩ : Fraction).toRat = 0 := by simp [Fraction.toRat]
      have heq : (q.measureDuration i).toRat = (maxMeasureDuration i parts ⟨0, 1⟩).toRat := by
        rw [h4, hz]
        rw [hz] at hle
        exact le_antisymm hle hge
      exact ⟨q, hq, hiq, (Fraction.eqv_iff_toRat_eq (hprop q hq hiq).1 h1).2 heq, heq⟩
    · refine ⟨p, hp, hip, ?_, by rw [h4]⟩
      exact (Fraction.eqv_iff_toRat_eq (hprop p hp hip).1 h1).2 (by rw [h4])
  · obtain ⟨q, hq, hiq⟩ := hex
    have hmem : q ∈ parts.filter (fun p => decide (i < p.nMeasures)) :=
      List.mem_filter.2 ⟨hq, by simpa using hiq⟩
    have hlt : i < maxMeasures (parts.filter (fun p => decide (i < p.nMeasures))) 0 :=
      lt_of_lt_of_le hiq ((maxMeasures_spec _ 0).2.1 q hmem)
    simp [determineMeasureLength, List.getElem?_map, List.getElem?_range hlt,
      maxMeasureDuration_filter]

theorem determineMeasureLength_entry_witness :
    ∃ m, (determineMeasureLength
        [partOfDurations [⟨1, 1⟩], partOfDurations [⟨3, 4⟩, ⟨1, 2⟩]] []).2[0]? = some m ∧
      m.Proper ∧
      (∀ p ∈ [partOfDurations [⟨1, 1⟩], partOfDurations [⟨3, 4⟩, ⟨1, 2⟩]], 0 < p.nMeasures →
        p.measureDuration (0 : Nat) ≤ m ∧ (p.measureDuration (0 : Nat)).toRat ≤ m.toRat) ∧
      (∃ p ∈ [partOfDurations [⟨1, 1⟩], partOfDurations [⟨3, 4⟩, ⟨1, 2⟩]], 0 < p.nMeasures ∧
        Fraction.eqv (p.measureDuration (0 : Nat)) m = true ∧
        (p.measureDuration (0 : Nat)).toRat = m.toRat) ∧
      (determineMeasureLength
        ([partOfDurations [⟨1, 1⟩], partOfDurations [⟨3, 4⟩, ⟨1, 2⟩]].filter
          (fun p => decide (0 < p.nMeasures))) []).2[0]? = some m :=
  determineMeasureLength_entry
    [partOfDurations [⟨1, 1⟩], partOfDurations [⟨3, 4⟩, ⟨1, 2⟩]] []
    (by
      intro p hp d hd
      simp only [List.mem_cons, List.mem_singleton, List.not_mem_nil, or_false] at hp
      rcases hp with rfl | rfl
      · simp only [partOfDurations, List.mem_singleton] at hd
        subst hd
        decide
      · simp only [partOfDurations, List.mem_cons, List.mem_singleton, List.not_mem_nil,
          or_false] at hd
        rcases hd with rfl | rfl <;> decide)
    0 (by decide)

/-- C24: the instrument fixup at the end of a part, on an instrument list whose
first entry has the key `k0 >= 0` and the value `v0`: the first entry becomes
`(0/1, v0)` and every other entry is unchanged, so that the list has as many
entries as before and is still sorted, `instrument(0) = v0`, and `instrument(T)`
is unchanged for every `T >= k0`.  An empty list stays empty. -/
theorem firstInstrFixup_promotes (k0 : Fraction) (v0 : String) (rest : MusicXmlInstrList)
    (hwf : FractionMap.WF ((k0, v0) :: rest)) (hk0 : 0 ≤ k0.numerator) :
    firstInstrFixup ((k0, v0) :: rest) = (⟨0, 1⟩, v0) :: rest ∧
    (firstInstrFixup ((k0, v0) :: rest)).length = ((k0, v0) :: rest).length ∧
    FractionMap.WF (firstInstrFixup ((k0, v0) :: rest)) ∧
    (firstInstrFixup ((k0, v0) :: rest)).instrument ⟨0, 1⟩ = v0 ∧
    (∀ T : Fraction, T.Proper → k0 ≤ T →
      (firstInstrFixup ((k0, v0) :: rest)).instrument T
        = MusicXmlInstrList.instrument ((k0, v0) :: rest) T) ∧
    firstInstrFixup [] = [] := by
  have hk0p : 0 < k0.denominator := hwf.2 _ (List.mem_cons_self _ _)
  -- every later key is positive
  have hpos : ∀ e ∈ rest, (⟨0, 1⟩ : Fraction) < e.1 := by
    intro e he
    have hlt : k0 < e.1 := (List.pairwise_cons.1 hwf.1).1 e he
    have hep : 0 < e.1.denominator := hwf.2 _ (List.mem_cons_of_mem _ he)
    rw [Fraction.lt_def] at hlt ⊢
    simp only [zero_mul, mul_one]
    have h1 : 0 ≤ k0.numerator * e.1.denominator := mul_nonneg hk0 (le_of_lt hep)
    by_contra hcon
    have h2 : e.1.numerator * k0.denominator ≤ 0 :=
      mul_nonpos_of_nonpos_of_nonneg (not_lt.1 hcon) (le_of_lt hk0p)
    omega
  have heq : firstInstrFixup ((k0, v0) :: rest) = (⟨0, 1⟩, v0) :: rest := by
    unfold firstInstrFixup MusicXmlInstrList.setInstrument
    cases rest with
    | nil => rfl
    | cons e t =>
      obtain ⟨k1, w⟩ := e
      have := hpos (k1, w) (List.mem_cons_self _ _)
      simp only [FractionMap.insert, if_pos this]
  have hwf1 : FractionMap.WF ((⟨0, 1⟩, v0) :: rest) := by
    refine ⟨List.pairwise_cons.2 ⟨hpos, (List.pairwise_cons.1 hwf.1).2⟩, ?_⟩
    intro e he
    rcases List.mem_cons.1 he with rfl | he
    · show (0 : Int) < 1
      decide
    · exact hwf.2 e (List.mem_cons_of_mem _ he)
  refine ⟨heq, by rw [heq]; rfl, by rw [heq]; exact hwf1, ?_, ?_, rfl⟩
  · rw [heq, MusicXmlInstrList.instrument_eq_lookupLE]
    have h0 : ¬ ((⟨0, 1⟩ : Fraction) < ⟨0, 1⟩) := by decide
    simp only [FractionMap.lookupLE, if_neg h0]
    exact FractionMap.lookupLE_of_all_gt v0 rest ⟨0, 1⟩ hpos
  · intro T hT hle
    rw [heq, MusicXmlInstrList.instrument_eq_lookupLE, MusicXmlInstrList.instrument_eq_lookupLE]
    have h1 : ¬ T < k0 := hle
    have h2 : ¬ T < (⟨0, 1⟩ : Fraction) := by
      rw [Fraction.lt_def] at h1 ⊢
      simp only [zero_mul, mul_one, not_lt]
      unfold Fraction.Proper at hT
      have h3 : 0 ≤ k0.numerator * T.denominator := mul_nonneg hk0 (le_of_lt hT)
      by_contra hcon
      have h4 : T.numerator * k0.denominator < 0 :=
        mul_neg_of_neg_of_pos (not_le.1 hcon) hk0p
      omega
    simp only [FractionMap.lookupLE, if_neg h1, if_neg h2]

theorem firstInstrFixup_promotes_witness :
    firstInstrFixup [(⟨1, 4⟩, "P1-I1"), (⟨1, 2⟩, "P1-I2")]
      = [(⟨0, 1⟩, "P1-I1"), (⟨1, 2⟩, "P1-I2")] ∧
    (firstInstrFixup [(⟨1, 4⟩, "P1-I1"), (⟨1, 2⟩, "P1-I2")]).instrument ⟨0, 1⟩ = "P1-I1" :=
  ⟨(firstInstrFixup_promotes ⟨1, 4⟩ "P1-I1" [(⟨1, 2⟩, "P1-I2")]
      (by unfold FractionMap.WF; constructor <;> simp <;> decide) (by decide)).1,
   (firstInstrFixup_promotes ⟨1, 4⟩ "P1-I1" [(⟨1, 2⟩, "P1-I2")]
      (by unfold FractionMap.WF; constructor <;> simp <;> decide) (by decide)).2.2.2.1⟩

/-! ## The invariant of the tick cursor -/

theorem Fraction.le_iff_toRat_le {a b : Fraction} (ha : a.Proper) (hb : b.Proper) :
    a ≤ b ↔ a.toRat ≤ b.toRat := by
  rw [Fraction.le_def, Fraction.lt_iff_toRat_lt hb ha, not_lt]

theorem Fraction.NonNeg.value_nonneg {a : Fraction} (h : a.NonNeg) : 0 ≤ a.toRat :=
  Fraction.toRat_nonneg h.1 h.2

theorem Fraction.nonneg_of_toRat {a : Fraction} (ha : a.Proper) (h : 0 ≤ a.toRat) :
    a.NonNeg := by
  refine ⟨ha, ?_⟩
  unfold Fraction.Proper at ha
  unfold Fraction.toRat at h
  have h1 : (0 : ℚ) < (a.denominator : ℚ) := by exact_mod_cast ha
  have h2 : (0 : ℚ) ≤ (a.numerator : ℚ) := by
    by_contra hcon
    have : (a.numerator : ℚ) / (a.denominator : ℚ) < 0 := div_neg_of_neg_of_pos (not_le.1 hcon) h1
    linarith
  exact_mod_cast h2

/-- A step of the cursor to `tick + d` for a non-negative `d`, with the update of
`maxtick`. -/
theorem TickInv.advance {tick maxtick d : Fraction} (h : TickInv tick maxtick) (hd : d.NonNeg) :
    TickInv (tick + d) (if tick + d > maxtick then tick + d else maxtick) ∧
    maxtick.toRat ≤ (if tick + d > maxtick then tick + d else maxtick).toRat := by
  obtain ⟨ht, hm, hle⟩ := h
  have hsp : (tick + d).Proper := Fraction.proper_add ht.1 hd.1
  have hsum : (tick + d).toRat = tick.toRat + d.toRat := Fraction.toRat_add ht.1 hd.1
  have hnn : (tick + d).NonNeg := by
    apply Fraction.nonneg_of_toRat hsp
    rw [hsum]
    exact add_nonneg ht.value_nonneg hd.value_nonneg
  by_cases hgt : tick + d > maxtick
  · rw [if_pos hgt]
    refine ⟨⟨hnn, hsp, (Fraction.le_iff_toRat_le hsp hsp).2 (le_refl _)⟩, ?_⟩
    exact le_of_lt ((Fraction.lt_iff_toRat_lt hm hsp).1 hgt)
  · rw [if_neg hgt]
    exact ⟨⟨hnn, hm, hgt⟩, le_refl _⟩

theorem forwardLoop_tickInv (ms : MxmlSupport) (divisions : Int) (l : List QDomElement)
    (st : TickState)
    (hl : ∀ c ∈ l, c.tagName = "duration" → (ms.durationAsFraction divisions c).NonNeg)
    (h : TickInv st.tick st.maxtick) :
    TickInv (forwardLoop ms divisions l st).tick (forwardLoop ms divisions l st).maxtick ∧
    st.maxtick.toRat ≤ (forwardLoop ms divisions l st).maxtick.toRat := by
  induction l generalizing st with
  | nil => exact ⟨h, le_refl _⟩
  | cons c rest ih =>
    have hrest : ∀ x ∈ rest, x.tagName = "duration" → (ms.durationAsFraction divisions x).NonNeg :=
      fun x hx => hl x (List.mem_cons_of_mem _ hx)
    by_cases hc : c.tagName = "duration"
    · simp only [forwardLoop, if_pos hc]
      obtain ⟨h1, h2⟩ := TickInv.advance h (hl c (List.mem_cons_self _ _) hc)
      obtain ⟨h3, h4⟩ := ih
        { st with
          tick := st.tick + ms.durationAsFraction divisions c
          maxtick :=
            if st.tick + ms.durationAsFraction divisions c > st.maxtick then
              st.tick + ms.durationAsFraction divisions c
            else st.maxtick } hrest h1
      exact ⟨h3, le_trans h2 h4⟩
    · simp only [forwardLoop, if_neg hc]
      exact ih st hrest h

theorem backupLoop_tickInv (ms : MxmlSupport) (divisions : Int) (l : List QDomElement)
    (st : TickState)
    (hl : ∀ c ∈ l, c.tagName = "duration" → (ms.durationAsFraction divisions c).NonNeg)
    (h : TickInv st.tick st.maxtick) :
    TickInv (backupLoop ms divisions l st).tick (backupLoop ms divisions l st).maxtick ∧
    (backupLoop ms divisions l st).maxtick = st.maxtick := by
  induction l generalizing st with
  | nil => exact ⟨h, rfl⟩
  | cons c rest ih =>
    have hrest : ∀ x ∈ rest, x.tagName = "duration" → (ms.durationAsFraction divisions x).NonNeg :=
      fun x hx => hl x (List.mem_cons_of_mem _ hx)
    obtain ⟨ht, hm, hle⟩ := h
    by_cases hc : c.tagName = "duration"
    · have hd := hl c (List.mem_cons_self _ _) hc
      by_cases hgt : ms.durationAsFraction divisions c > st.tick
      · simp only [backupLoop, if_pos hc, if_pos hgt]
        have hz : (⟨0, 1⟩ : Fraction).NonNeg := by decide
        have hz0 : (⟨0, 1⟩ : Fraction).toRat = 0 := by simp [Fraction.toRat]
        have hle0 : (⟨0, 1⟩ : Fraction) ≤ st.maxtick := by
          rw [Fraction.le_iff_toRat_le hz.1 hm, hz0]
          exact le_trans ht.value_nonneg ((Fraction.le_iff_toRat_le ht.1 hm).1 hle)
        exact ih _ hrest ⟨hz, hm, hle0⟩
      · simp only [backupLoop, if_pos hc, if_neg hgt]
        have hsp : (st.tick - ms.durationAsFraction divisions c).Proper :=
          Fraction.proper_sub ht.1 hd.1
        have hsub := Fraction.toRat_sub ht.1 hd.1
        have hge : (ms.durationAsFraction divisions c).toRat ≤ st.tick.toRat :=
          not_lt.1 (fun hlt => hgt ((Fraction.lt_iff_toRat_lt ht.1 hd.1).2 hlt))
        have hnn : (st.tick - ms.durationAsFraction divisions c).NonNeg := by
          apply Fraction.nonneg_of_toRat hsp
          rw [hsub]
          linarith only [hge]
        have hle1 : st.tick - ms.durationAsFraction divisions c ≤ st.maxtick := by
          rw [Fraction.le_iff_toRat_le hsp hm, hsub]
          have h5 := (Fraction.le_iff_toRat_le ht.1 hm).1 hle
          have h6 := hd.value_nonneg
          linarith only [h5, h6]
        exact ih _ hrest ⟨hnn, hm, hle1⟩
    · simp only [backupLoop, if_neg hc]
      exact ih st hrest ⟨ht, hm, hle⟩

theorem noteTick_shape (ms : MxmlSupport) (divisions : Int) (e : QDomElement) (st : TickState) :
    (noteTick ms divisions e st).tick
      = (if (noteDurationAsFraction ms divisions e).2.1.isValid = true then
          st.tick + (noteDurationAsFraction ms divisions e).2.1
        else if (noteDurationAsFraction ms divisions e).1.isValid = true then
          st.tick + (noteDurationAsFraction ms divisions e).1
        else st.tick) ∧
    (noteTick ms divisions e st).maxtick
      = (if (noteTick ms divisions e st).tick > st.maxtick then
          (noteTick ms divisions e st).tick else st.maxtick) := by
  unfold noteTick
  dsimp only
  cases (noteDurationAsFraction ms divisions e).2.1.isValid <;>
    cases (noteDurationAsFraction ms divisions e).1.isValid <;> exact ⟨rfl, rfl⟩

theorem noteTick_tickInv (ms : MxmlSupport) (divisions : Int) (e : QDomElement) (st : TickState)
    (h1 : (noteDurationAsFraction ms divisions e).1.isValid = true →
      (noteDurationAsFraction ms divisions e).1.NonNeg)
    (h2 : (noteDurationAsFraction ms divisions e).2.1.isValid = true →
      (noteDurationAsFraction ms divisions e).2.1.NonNeg)
    (h : TickInv st.tick st.maxtick) :
    TickInv (noteTick ms divisions e st).tick (noteTick ms divisions e st).maxtick ∧
    st.maxtick.toRat ≤ (noteTick ms divisions e st).maxtick.toRat := by
  obtain ⟨ht, hm⟩ := noteTick_shape ms divisions e st
  rw [hm, ht]
  by_cases hd : (noteDurationAsFraction ms divisions e).2.1.isValid = true
  · rw [if_pos hd]
    exact TickInv.advance h (h2 hd)
  · rw [if_neg hd]
    by_cases hf : (noteDurationAsFraction ms divisions e).1.isValid = true
    · rw [if_pos hf]
      exact TickInv.advance h (h1 hf)
    · rw [if_neg hf, if_neg h.2.2]
      exact ⟨h, le_refl _⟩

theorem aaamoveTick_tickInv (ms : MxmlSupport) (st : TickState) (divisions : Int)
    (e : QDomElement) (hres : ResolvedNonNeg ms divisions e) (h : TickInv st.tick st.maxtick) :
    TickInv (aaamoveTick ms st divisions e).tick (aaamoveTick ms st divisions e).maxtick ∧
    st.maxtick.toRat ≤ (aaamoveTick ms st divisions e).maxtick.toRat := by
  unfold aaamoveTick
  by_cases h1 : e.tagName = "forward"
  · rw [if_pos h1]
    exact forwardLoop_tickInv ms divisions e.children st hres.1 h
  · rw [if_neg h1]
    by_cases h2 : e.tagName = "backup"
    · rw [if_pos h2]
      obtain ⟨h3, h4⟩ := backupLoop_tickInv ms divisions e.children st hres.1 h
      exact ⟨h3, by rw [h4]⟩
    · rw [if_neg h2]
      by_cases h3 : e.tagName = "note"
      · rw [if_pos h3]
        exact noteTick_tickInv ms divisions e st hres.2.1 hres.2.2 h
      · rw [if_neg h3]
        exact ⟨h, le_refl _⟩

/-! ## Lowest terms and ticks -/

theorem Fraction.reduced_den_pos (f : Fraction) (h : 0 < f.denominator) :
    0 < f.reduced.denominator := by
  unfold Fraction.reduced
  dsimp only
  have hg : 0 < Int.gcd f.numerator f.denominator :=
    Int.gcd_pos_of_ne_zero_right _ (ne_of_gt h)
  have hdvd : ((Int.gcd f.numerator f.denominator : Nat) : Int) ∣ f.denominator :=
    Int.gcd_dvd_right
  rw [Int.tdiv_eq_ediv (le_of_lt h) (by omega)]
  obtain ⟨c, hc⟩ := hdvd
  have hgi : (0 : Int) < (Int.gcd f.numerator f.denominator : Nat) := by exact_mod_cast hg
  have hq : f.denominator / ((Int.gcd f.numerator f.denominator : Nat) : Int) = c := by
    nth_rewrite 1 [hc]
    exact Int.mul_ediv_cancel_left _ (ne_of_gt hgi)
  rw [hq]
  by_contra hcon
  have : ((Int.gcd f.numerator f.denominator : Nat) : Int) * c ≤ 0 :=
    mul_nonpos_of_nonneg_of_nonpos (le_of_lt hgi) (not_lt.1 hcon)
  omega

theorem Fraction.reduced_of_nonneg (f : Fraction) (h : f.NonNeg) :
    f.reduced.NonNeg ∧
    f.reduced.numerator * f.denominator = f.numerator * f.reduced.denominator := by
  obtain ⟨hd, hn⟩ := h
  have hdp := Fraction.reduced_den_pos f hd
  unfold Fraction.reduced at hdp ⊢
  dsimp only at hdp ⊢
  have hg : 0 < Int.gcd f.numerator f.denominator :=
    Int.gcd_pos_of_ne_zero_right _ (ne_of_gt hd)
  have hgi : (0 : Int) < (Int.gcd f.numerator f.denominator : Nat) := by exact_mod_cast hg
  obtain ⟨a, ha⟩ : ((Int.gcd f.numerator f.denominator : Nat) : Int) ∣ f.numerator :=
    Int.gcd_dvd_left
  obtain ⟨b, hb⟩ : ((Int.gcd f.numerator f.denominator : Nat) : Int) ∣ f.denominator :=
    Int.gcd_dvd_right
  have h1 : Int.tdiv f.numerator (Int.gcd f.numerator f.denominator) = a := by
    rw [Int.tdiv_eq_ediv hn (le_of_lt hgi)]
    nth_rewrite 1 [ha]
    exact Int.mul_ediv_cancel_left _ (ne_of_gt hgi)
  have h2 : Int.tdiv f.denominator (Int.gcd f.numerator f.denominator) = b := by
    rw [Int.tdiv_eq_ediv (le_of_lt hd) (le_of_lt hgi)]
    nth_rewrite 1 [hb]
    exact Int.mul_ediv_cancel_left _ (ne_of_gt hgi)
  rw [h2] at hdp
  rw [h1, h2]
  have ha0 : 0 ≤ a := by
    by_contra hcon
    have : ((Int.gcd f.numerator f.denominator : Nat) : Int) * a < 0 :=
      mul_neg_of_pos_of_neg hgi (not_le.1 hcon)
    omega
  refine ⟨⟨hdp, ha0⟩, ?_⟩
  nth_rewrite 1 [hb]
  nth_rewrite 2 [ha]
  ring

theorem Fraction.reduced_toRat (f : Fraction) (h : f.NonNeg) : f.reduced.toRat = f.toRat := by
  obtain ⟨h1, h2⟩ := Fraction.reduced_of_nonneg f h
  unfold Fraction.toRat
  have hd : (f.denominator : ℚ) ≠ 0 := by exact_mod_cast (ne_of_gt h.1)
  have hr : (f.reduced.denominator : ℚ) ≠ 0 := by exact_mod_cast (ne_of_gt h1.1)
  rw [div_eq_div_iff hr hd]
  exact_mod_cast h2

/-- The ticks of a fraction whose value is a whole number `L >= 0` of ticks. -/
theorem Fraction.ticks_of_exact (division : Int) (f : Fraction) (L : Int) (hf : f.Proper)
    (hL : 0 ≤ L) (h : f.numerator * division * 4 = L * f.denominator) :
    f.ticks division = L := by
  unfold Fraction.Proper at hf
  unfold Fraction.ticks
  rw [h]
  have h2 : 0 ≤ Int.tdiv f.denominator 2 := by
    rw [Int.tdiv_eq_ediv (le_of_lt hf) (by decide)]
    omega
  have h3 : Int.tdiv f.denominator 2 < f.denominator := by
    rw [Int.tdiv_eq_ediv (le_of_lt hf) (by decide)]
    omega
  rw [Int.tdiv_eq_ediv (add_nonneg (mul_nonneg hL (le_of_lt hf)) h2) (le_of_lt hf)]
  rw [Int.add_comm, Int.add_mul_ediv_right _ _ (ne_of_gt hf), Int.ediv_eq_zero_of_lt h2 h3]
  simp

theorem Fraction.ticks_nonneg (division : Int) (f : Fraction) (hf : f.NonNeg)
    (hdiv : 0 ≤ division) : 0 ≤ f.ticks division := by
  obtain ⟨hd, hn⟩ := hf
  unfold Fraction.ticks
  have h2 : 0 ≤ Int.tdiv f.denominator 2 := by
    rw [Int.tdiv_eq_ediv (le_of_lt hd) (by decide)]
    omega
  have h3 : 0 ≤ f.numerator * division * 4 + Int.tdiv f.denominator 2 :=
    add_nonneg (mul_nonneg (mul_nonneg hn hdiv) (by decide)) h2
  rw [Int.tdiv_eq_ediv h3 (le_of_lt hd)]
  exact Int.ediv_nonneg h3 (le_of_lt hd)

theorem Fraction.fromTicks_den_pos (division L : Int) (hdiv : 0 < division) :
    0 < (Fraction.fromTicks division L).denominator := by
  unfold Fraction.fromTicks
  apply Fraction.reduced_den_pos
  dsimp only
  omega

theorem Fraction.fromTicks_exact (division L : Int) (hdiv : 0 < division) (hL : 0 ≤ L) :
    (Fraction.fromTicks division L).NonNeg ∧
    (Fraction.fromTicks division L).numerator * division * 4
      = L * (Fraction.fromTicks division L).denominator := by
  have hnn : (Fraction.mk L (division * 4)).NonNeg := ⟨by dsimp only; omega, hL⟩
  obtain ⟨h1, h2⟩ := Fraction.reduced_of_nonneg _ hnn
  unfold Fraction.fromTicks
  refine ⟨h1, ?_⟩
  dsimp only at h2
  linarith

theorem Fraction.ticks_fromTicks (division L : Int) (hdiv : 0 < division) (hL : 0 ≤ L) :
    (Fraction.fromTicks division L).ticks division = L := by
  obtain ⟨h1, h2⟩ := Fraction.fromTicks_exact division L hdiv hL
  exact Fraction.ticks_of_exact division _ L h1.1 hL h2

/-! ## The duration recorded for a measure -/

theorem correctedLength_ge (division L : Int) (hr : 0 < Int.tdiv division 16) (hL : 0 ≤ L) :
    L ≤ correctedLength division L := by
  unfold correctedLength
  by_cases h : Int.tmod L (Int.tdiv division 16) ≠ 0
  · rw [if_pos h, Int.tdiv_eq_ediv hL (le_of_lt hr)]
    have h1 := Int.ediv_add_emod L (Int.tdiv division 16)
    have h2 := Int.emod_lt_of_pos L hr
    linarith
  · rw [if_neg h]

/-- The loop of `measureDurationAsFraction` ends within `tsigtype` rounds on a
length with a positive denominator, with the numerator and the denominator
multiplied by the same power of two. -/
theorem measureDurationAsFraction_enough (length : Fraction) (hd : 1 ≤ length.denominator)
    (tsigtype : Int) :
    ∃ k : Nat, measureDurationAsFraction tsigtype.toNat length tsigtype
      = some ⟨length.numerator * 2 ^ k, length.denominator * 2 ^ k⟩ := by
  unfold measureDurationAsFraction
  by_cases h : tsigtype ≤ 0
  · rw [if_pos h]
    exact ⟨0, by simp⟩
  · rw [if_neg h]
    obtain ⟨k, hk, hleast⟩ := exists_least_doubling length.denominator tsigtype hd
    refine ⟨k, measureDurationLoop_of_least tsigtype k length _ hk hleast ?_⟩
    by_contra hcon
    have hlt := hleast tsigtype.toNat (not_le.1 hcon)
    have h1 : (tsigtype.toNat : Int) < ((2 ^ tsigtype.toNat : Nat) : Int) := by
      exact_mod_cast Nat.lt_two_pow tsigtype.toNat
    have h2 : tsigtype ≤ (tsigtype.toNat : Int) := Int.self_le_toNat tsigtype
    have h3 : (0 : Int) < 2 ^ tsigtype.toNat := by positivity
    have h4 : (2 : Int) ^ tsigtype.toNat ≤ length.denominator * 2 ^ tsigtype.toNat := by
      nlinarith
    push_cast at h1
    linarith

theorem fMeasureDuration_spec (division : Int) (hdiv : 0 < division)
    (measureStartTick loc_maxtick : Fraction) (timeSigLen timeSigType : Int) :
    ∃ d, fMeasureDuration division measureStartTick loc_maxtick timeSigLen timeSigType
        = some d ∧ d.Proper ∧
      (0 ≤ correctedLength division
          (measureLength division (rawDuration measureStartTick loc_maxtick) timeSigLen) →
        d.ticks division = correctedLength division
          (measureLength division (rawDuration measureStartTick loc_maxtick) timeSigLen)) := by
  unfold fMeasureDuration
  obtain ⟨k, hk⟩ := measureDurationAsFraction_enough
    (Fraction.fromTicks division (correctedLength division
      (measureLength division (rawDuration measureStartTick loc_maxtick) timeSigLen)))
    (Fraction.fromTicks_den_pos _ _ hdiv) timeSigType
  rw [hk]
  have hpow : (0 : Int) < 2 ^ k := by positivity
  have hden := Fraction.fromTicks_den_pos division (correctedLength division
      (measureLength division (rawDuration measureStartTick loc_maxtick) timeSigLen)) hdiv
  refine ⟨_, rfl, mul_pos hden hpow, ?_⟩
  intro hc
  obtain ⟨_, h2⟩ := Fraction.fromTicks_exact division _ hdiv hc
  apply Fraction.ticks_of_exact division _ _ (show (0 : Int) < _ from mul_pos hden hpow) hc
  dsimp only
  calc _ = ((Fraction.fromTicks division (correctedLength division
      (measureLength division (rawDuration measureStartTick loc_maxtick) timeSigLen))).numerator
        * division * 4) * 2 ^ k := by ring
    _ = _ := by rw [h2]; ring

/-! ## The driver, element by element -/

theorem attributesLoop_frame (ms : MxmlSupport) (division : Int) (l : List QDomElement)
    (s : DriverState) :
    (attributesLoop ms division l s).part = s.part ∧
    (attributesLoop ms division l s).loc_tick = s.loc_tick ∧
    (attributesLoop ms division l s).loc_maxtick = s.loc_maxtick ∧
    (attributesLoop ms division l s).vod = s.vod := by
  induction l generalizing s with
  | nil => exact ⟨rfl, rfl, rfl, rfl⟩
  | cons c rest ih =>
    simp only [attributesLoop]
    split_ifs <;> exact ih _

theorem scanElement_of_attributes (ms : MxmlSupport) (division : Int) (MAX_STAVES : Nat)
    (ee : QDomElement) (s : DriverState) (h : ee.tagName = "attributes") :
    scanElement ms division MAX_STAVES ee s = attributesLoop ms division ee.children s := by
  unfold scanElement
  simp [h]

theorem scanElement_of_note (ms : MxmlSupport) (division : Int) (MAX_STAVES : Nat)
    (ee : QDomElement) (s : DriverState) (h : ee.tagName = "note") :
    scanElement ms division MAX_STAVES ee s = scanNote ms division MAX_STAVES ee s := by
  unfold scanElement
  simp [h]

theorem scanElement_of_move (ms : MxmlSupport) (division : Int) (MAX_STAVES : Nat)
    (ee : QDomElement) (s : DriverState)
    (h : ee.tagName = "backup" ∨ ee.tagName = "forward") :
    scanElement ms division MAX_STAVES ee s
      = if s.loc_divisions > 0 then
          { s with loc_tick := (moveTick ms ee s).tick, loc_maxtick := (moveTick ms ee s).maxtick }
        else s := by
  unfold scanElement
  rcases h with h | h <;> simp [h]

theorem scanElement_of_other (ms : MxmlSupport) (division : Int) (MAX_STAVES : Nat)
    (ee : QDomElement) (s : DriverState) (h1 : ee.tagName ≠ "attributes")
    (h2 : ee.tagName ≠ "note") (h3 : ee.tagName ≠ "backup") (h4 : ee.tagName ≠ "forward") :
    scanElement ms division MAX_STAVES ee s = s := by
  unfold scanElement
  simp [h1, h2, h3, h4]

theorem scanNote_frame (ms : MxmlSupport) (division : Int) (MAX_STAVES : Nat)
    (ee : QDomElement) (s : DriverState) :
    (scanNote ms division MAX_STAVES ee s).part.measureNumbers = s.part.measureNumbers ∧
    (scanNote ms division MAX_STAVES ee s).part.measureDurations = s.part.measureDurations ∧
    (scanNote ms division MAX_STAVES ee s).loc_divisions = s.loc_divisions ∧
    (scanNote ms division MAX_STAVES ee s).timeSigLen = s.timeSigLen ∧
    (scanNote ms division MAX_STAVES ee s).timeSigType = s.timeSigType ∧
    (((scanNote ms division MAX_STAVES ee s).loc_tick = s.loc_tick ∧
        (scanNote ms division MAX_STAVES ee s).loc_maxtick = s.loc_maxtick) ∨
      ((scanNote ms division MAX_STAVES ee s).loc_tick = (moveTick ms ee s).tick ∧
        (scanNote ms division MAX_STAVES ee s).loc_maxtick = (moveTick ms ee s).maxtick)) := by
  unfold scanNote
  dsimp only
  cases (noteScanLoop ee.children
      { chord := false, grace := false, voice := "1", staff := 0, rest := false,
        instrId := "" }).chord <;>
    cases (noteScanLoop ee.children
      { chord := false, grace := false, voice := "1", staff := 0, rest := false,
        instrId := "" }).grace <;>
    first
    | exact ⟨rfl, rfl, rfl, rfl, rfl, Or.inl ⟨rfl, rfl⟩⟩
    | exact ⟨rfl, rfl, rfl, rfl, rfl, Or.inr ⟨rfl, rfl⟩⟩

theorem lastChild_mem (tag : String) (cs : List QDomElement) (d : QDomElement)
    (h : lastChild tag cs = some d) : d ∈ cs := by
  unfold lastChild at h
  exact List.mem_reverse.1 (List.mem_of_find?_eq_some h)

theorem explicitDuration_nonneg (ms : MxmlSupport) (divisions : Int) (cs : List QDomElement)
    (hdur : ∀ c ∈ cs, c.tagName = "duration" →
      ∀ d : Int, 0 < d → (ms.durationAsFraction d c).NonNeg)
    (hv : (explicitDuration ms divisions cs).isValid = true) :
    (explicitDuration ms divisions cs).NonNeg := by
  unfold explicitDuration at hv ⊢
  cases hl : lastChild "duration" cs with
  | none =>
    rw [hl] at hv
    simp [Fraction.isValid] at hv
  | some d =>
    rw [hl] at hv
    dsimp only at hv ⊢
    by_cases hd : divisions > 0
    · rw [if_pos hd]
      exact hdur d (lastChild_mem _ _ _ hl) (lastChild_tagName _ _ _ hl) divisions hd
    · rw [if_neg hd] at hv
      simp [Fraction.isValid] at hv

theorem noteDurationAsFraction_nonneg (ms : MxmlSupport) (divisions : Int) (e : QDomElement)
    (hdur : ∀ c ∈ e.children, c.tagName = "duration" →
      ∀ d : Int, 0 < d → (ms.durationAsFraction d c).NonNeg)
    (hcalc : ∀ (type : String) (dots normalNotes actualNotes : Int),
      (ms.calculateFraction type dots normalNotes actualNotes).isValid = true →
      (ms.calculateFraction type dots normalNotes actualNotes).NonNeg) :
    ((noteDurationAsFraction ms divisions e).1.isValid = true →
      (noteDurationAsFraction ms divisions e).1.NonNeg) ∧
    ((noteDurationAsFraction ms divisions e).2.1.isValid = true →
      (noteDurationAsFraction ms divisions e).2.1.NonNeg) := by
  have hexp : (noteVars ms divisions e).duration.isValid = true →
      (noteVars ms divisions e).duration.NonNeg := by
    rw [(noteVars_fields ms divisions e).2.2.2.2.1]
    exact explicitDuration_nonneg ms divisions e.children hdur
  have hz : (⟨0, 1⟩ : Fraction).NonNeg := by decide
  rw [noteDurationAsFraction_eq]
  split_ifs
  · exact ⟨fun _ => hz, fun _ => hz⟩
  · exact ⟨hexp, hexp⟩
  · exact ⟨hexp, hexp⟩
  · exact ⟨hcalc _ _ _ _, hexp⟩

theorem moveTick_tickInv (ms : MxmlSupport) (ee : QDomElement) (s : DriverState)
    (hdur : ∀ c ∈ ee.children, c.tagName = "duration" →
      ∀ d : Int, 0 < d → (ms.durationAsFraction d c).NonNeg)
    (hcalc : ∀ (type : String) (dots normalNotes actualNotes : Int),
      (ms.calculateFraction type dots normalNotes actualNotes).isValid = true →
      (ms.calculateFraction type dots normalNotes actualNotes).NonNeg)
    (hcase : ee.tagName = "note" ∨ 0 < s.loc_divisions)
    (h : TickInv s.loc_tick s.loc_maxtick) :
    TickInv (moveTick ms ee s).tick (moveTick ms ee s).maxtick ∧
    s.loc_maxtick.toRat ≤ (moveTick ms ee s).maxtick.toRat := by
  unfold moveTick
  by_cases hn : ee.tagName = "note"
  · rw [aaamoveTick_of_note ms _ _ ee hn]
    obtain ⟨h1, h2⟩ := noteDurationAsFraction_nonneg ms s.loc_divisions ee hdur hcalc
    exact noteTick_tickInv ms s.loc_divisions ee _ h1 h2 h
  · have hpos : 0 < s.loc_divisions := hcase.resolve_left hn
    obtain ⟨h1, h2⟩ := noteDurationAsFraction_nonneg ms s.loc_divisions ee hdur hcalc
    exact aaamoveTick_tickInv ms _ s.loc_divisions ee
      ⟨fun c hc ht => hdur c hc ht s.loc_divisions hpos, h1, h2⟩ h

theorem scanElement_tickInv (ms : MxmlSupport) (division : Int) (MAX_STAVES : Nat)
    (ee : QDomElement) (s : DriverState)
    (hdur : ∀ c ∈ ee.children, c.tagName = "duration" →
      ∀ d : Int, 0 < d → (ms.durationAsFraction d c).NonNeg)
    (hcalc : ∀ (type : String) (dots normalNotes actualNotes : Int),
      (ms.calculateFraction type dots normalNotes actualNotes).isValid = true →
      (ms.calculateFraction type dots normalNotes actualNotes).NonNeg)
    (h : TickInv s.loc_tick s.loc_maxtick) :
    TickInv (scanElement ms division MAX_STAVES ee s).loc_tick
      (scanElement ms division MAX_STAVES ee s).loc_maxtick ∧
    s.loc_maxtick.toRat ≤ (scanElement ms division MAX_STAVES ee s).loc_maxtick.toRat := by
  by_cases h1 : ee.tagName = "attributes"
  · rw [scanElement_of_attributes ms division MAX_STAVES ee s h1]
    obtain ⟨_, ht, hm, _⟩ := attributesLoop_frame ms division ee.children s
    rw [ht, hm]
    exact ⟨h, le_refl _⟩
  by_cases h2 : ee.tagName = "note"
  · rw [scanElement_of_note ms division MAX_STAVES ee s h2]
    rcases (scanNote_frame ms division MAX_STAVES ee s).2.2.2.2.2 with ⟨ht, hm⟩ | ⟨ht, hm⟩
    · rw [ht, hm]
      exact ⟨h, le_refl _⟩
    · rw [ht, hm]
      exact moveTick_tickInv ms ee s hdur hcalc (Or.inl h2) h
  by_cases h3 : ee.tagName = "backup" ∨ ee.tagName = "forward"
  · rw [scanElement_of_move ms division MAX_STAVES ee s h3]
    by_cases hd : s.loc_divisions > 0
    · rw [if_pos hd]
      exact moveTick_tickInv ms ee s hdur hcalc (Or.inr hd) h
    · rw [if_neg hd]
      exact ⟨h, le_refl _⟩
  · rw [scanElement_of_other ms division MAX_STAVES ee s h1 h2 (fun h => h3 (Or.inl h))
      (fun h => h3 (Or.inr h))]
    exact ⟨h, le_refl _⟩

theorem measureLoop_tickInv (ms : MxmlSupport) (division : Int) (MAX_STAVES : Nat)
    (l : List QDomElement) (s : DriverState)
    (hdur : ∀ ee ∈ l, ∀ c ∈ ee.children, c.tagName = "duration" →
      ∀ d : Int, 0 < d → (ms.durationAsFraction d c).NonNeg)
    (hcalc : ∀ (type : String) (dots normalNotes actualNotes : Int),
      (ms.calculateFraction type dots normalNotes actualNotes).isValid = true →
      (ms.calculateFraction type dots normalNotes actualNotes).NonNeg)
    (h : TickInv s.loc_tick s.loc_maxtick) :
    TickInv (measureLoop ms division MAX_STAVES l s).loc_tick
      (measureLoop ms division MAX_STAVES l s).loc_maxtick ∧
    s.loc_maxtick.toRat ≤ (measureLoop ms division MAX_STAVES l s).loc_maxtick.toRat := by
  induction l generalizing s with
  | nil => exact ⟨h, le_refl _⟩
  | cons ee rest ih =>
    simp only [measureLoop]
    obtain ⟨h1, h2⟩ := scanElement_tickInv ms division MAX_STAVES ee s
      (hdur ee (List.mem_cons_self _ _)) hcalc h
    obtain ⟨h3, h4⟩ := ih _ (fun x hx => hdur x (List.mem_cons_of_mem _ hx)) h1
    exact ⟨h3, le_trans h2 h4⟩

theorem rawDuration_nonneg (measureStartTick loc_maxtick : Fraction)
    (hs : measureStartTick.Proper) (hm : loc_maxtick.Proper)
    (hle : measureStartTick.toRat ≤ loc_maxtick.toRat) :
    (rawDuration measureStartTick loc_maxtick).NonNeg ∧
    (rawDuration measureStartTick loc_maxtick).toRat
      = loc_maxtick.toRat - measureStartTick.toRat := by
  have hv1 : measureStartTick.isValid = true := by
    unfold Fraction.Proper at hs
    simp [Fraction.isValid]
    omega
  have hv2 : loc_maxtick.isValid = true := by
    unfold Fraction.Proper at hm
    simp [Fraction.isValid]
    omega
  unfold rawDuration
  rw [hv1, hv2]
  simp only [Bool.and_self, if_true]
  have hsub := Fraction.toRat_sub hm hs
  have hnn : (loc_maxtick - measureStartTick).NonNeg := by
    apply Fraction.nonneg_of_toRat (Fraction.proper_sub hm hs)
    rw [hsub]
    linarith
  exact ⟨(Fraction.reduced_of_nonneg _ hnn).1, by rw [Fraction.reduced_toRat _ hnn, hsub]⟩

/-! ## The driver, measure by measure -/

theorem scanElement_frame (ms : MxmlSupport) (division : Int) (MAX_STAVES : Nat)
    (ee : QDomElement) (s : DriverState) :
    (scanElement ms division MAX_STAVES ee s).part.measureNumbers = s.part.measureNumbers ∧
    (scanElement ms division MAX_STAVES ee s).part.measureDurations
      = s.part.measureDurations := by
  by_cases h1 : ee.tagName = "attributes"
  · rw [scanElement_of_attributes ms division MAX_STAVES ee s h1,
      (attributesLoop_frame ms division ee.children s).1]
    exact ⟨rfl, rfl⟩
  by_cases h2 : ee.tagName = "note"
  · rw [scanElement_of_note ms division MAX_STAVES ee s h2]
    exact ⟨(scanNote_frame ms division MAX_STAVES ee s).1,
      (scanNote_frame ms division MAX_STAVES ee s).2.1⟩
  by_cases h3 : ee.tagName = "backup" ∨ ee.tagName = "forward"
  · rw [scanElement_of_move ms division MAX_STAVES ee s h3]
    split_ifs <;> exact ⟨rfl, rfl⟩
  · rw [scanElement_of_other ms division MAX_STAVES ee s h1 h2 (fun h => h3 (Or.inl h))
      (fun h => h3 (Or.inr h))]
    exact ⟨rfl, rfl⟩

theorem measureLoop_frame (ms : MxmlSupport) (division : Int) (MAX_STAVES : Nat)
    (l : List QDomElement) (s : DriverState) :
    (measureLoop ms division MAX_STAVES l s).part.measureNumbers = s.part.measureNumbers ∧
    (measureLoop ms division MAX_STAVES l s).part.measureDurations
      = s.part.measureDurations := by
  induction l generalizing s with
  | nil => exact ⟨rfl, rfl⟩
  | cons ee rest ih =>
    simp only [measureLoop]
    obtain ⟨h1, h2⟩ := ih (scanElement ms division MAX_STAVES ee s)
    obtain ⟨h3, h4⟩ := scanElement_frame ms division MAX_STAVES ee s
    exact ⟨h1.trans h3, h2.trans h4⟩

/-- What the driver leaves after a `measure` element: the state after the loop
over its children, with one measure number and one duration appended. -/
theorem scanMeasure_spec (ms : MxmlSupport)
    (stavesOverlap : VoiceOverlapDetector → String → Bool) (division : Int)
    (hdiv : 0 < division) (MAX_STAVES : Nat) (e : QDomElement) (s : DriverState) :
    ∃ s1 d, scanMeasure ms stavesOverlap division MAX_STAVES e s = some s1 ∧
      fMeasureDuration division s.loc_tick
        (measureLoop ms division MAX_STAVES e.children
          { s with vod := s.vod ++ [VodCall.newMeasure] }).loc_maxtick
        (measureLoop ms division MAX_STAVES e.children
          { s with vod := s.vod ++ [VodCall.newMeasure] }).timeSigLen
        (measureLoop ms division MAX_STAVES e.children
          { s with vod := s.vod ++ [VodCall.newMeasure] }).timeSigType = some d ∧
      s1.loc_tick = (measureLoop ms division MAX_STAVES e.children
          { s with vod := s.vod ++ [VodCall.newMeasure] }).loc_tick ∧
      s1.loc_maxtick = (measureLoop ms division MAX_STAVES e.children
          { s with vod := s.vod ++ [VodCall.newMeasure] }).loc_maxtick ∧
      s1.part.measureNumbers = s.part.measureNumbers ++ [e.attr "number"] ∧
      s1.part.measureDurations = s.part.measureDurations ++ [d] := by
  obtain ⟨d, hd, _⟩ := fMeasureDuration_spec division hdiv s.loc_tick
    (measureLoop ms division MAX_STAVES e.children
      { s with vod := s.vod ++ [VodCall.newMeasure] }).loc_maxtick
    (measureLoop ms division MAX_STAVES e.children
      { s with vod := s.vod ++ [VodCall.newMeasure] }).timeSigLen
    (measureLoop ms division MAX_STAVES e.children
      { s with vod := s.vod ++ [VodCall.newMeasure] }).timeSigType
  obtain ⟨h1, h2⟩ := measureLoop_frame ms division MAX_STAVES e.children
    { s with vod := s.vod ++ [VodCall.newMeasure] }
  unfold scanMeasure
  dsimp only
  rw [hd]
  refine ⟨_, d, rfl, rfl, rfl, rfl, ?_, ?_⟩
  · simp only [MusicXmlPart.addMeasureNumberAndDuration, h1]
  · simp only [MusicXmlPart.addMeasureNumberAndDuration, h2]

theorem partLoop_spec (ms : MxmlSupport)
    (stavesOverlap : VoiceOverlapDetector → String → Bool) (division : Int)
    (hdiv : 0 < division) (MAX_STAVES : Nat) (l : List QDomElement) (s : DriverState) :
    ∃ s1, partLoop ms stavesOverlap division MAX_STAVES l s = some s1 ∧
      s1.part.measureNumbers = s.part.measureNumbers ++
        (l.filter (fun m => m.tagName == "measure")).map (fun m => m.attr "number") ∧
      s1.part.measureDurations.length = s.part.measureDurations.length +
        l.countP (fun m => m.tagName == "measure") ∧
      s1.part.measureDurations.take s.part.measureDurations.length
        = s.part.measureDurations := by
  induction l generalizing s with
  | nil => exact ⟨s, rfl, by simp, by simp, by simp⟩
  | cons e rest ih =>
    by_cases he : e.tagName = "measure"
    · obtain ⟨s1, d, h1, _, _, _, h2, h3⟩ :=
        scanMeasure_spec ms stavesOverlap division hdiv MAX_STAVES e s
      obtain ⟨s2, h4, h5, h6, h7⟩ := ih s1
      refine ⟨s2, ?_, ?_, ?_, ?_⟩
      · simp only [partLoop, if_pos he, h1, Option.some_bind]
        exact h4
      · rw [h5, h2, List.filter_cons_of_pos (by simpa using he)]
        simp
      · rw [h6, h3, List.countP_cons_of_pos _ _ (by simpa using he)]
        simp
        omega
      · have hlen : s1.part.measureDurations.length = s.part.measureDurations.length + 1 := by
          rw [h3]
          simp
        calc List.take s.part.measureDurations.length s2.part.measureDurations
            = List.take s.part.measureDurations.length
                (List.take (s.part.measureDurations.length + 1) s2.part.measureDurations) := by
              rw [List.take_take]
              simp
          _ = List.take s.part.measureDurations.length (s.part.measureDurations ++ [d]) := by
              rw [← hlen, h7, h3]
          _ = s.part.measureDurations := by simp
    · obtain ⟨s2, h4, h5, h6, h7⟩ := ih s
      refine ⟨s2, ?_, ?_, ?_, h7⟩
      · simp only [partLoop, if_neg he]
        exact h4
      · rw [h5, List.filter_cons_of_neg (by simpa using he)]
      · rw [h6, List.countP_cons_of_neg _ _ (by simpa using he)]

theorem partLoop_tickInv (ms : MxmlSupport)
    (stavesOverlap : VoiceOverlapDetector → String → Bool) (division : Int) (MAX_STAVES : Nat)
    (l : List QDomElement) (s s1 : DriverState)
    (hdur : ∀ m ∈ l, ∀ ee ∈ m.children, ∀ c ∈ ee.children, c.tagName = "duration" →
      ∀ d : Int, 0 < d → (ms.durationAsFraction d c).NonNeg)
    (hcalc : ∀ (type : String) (dots normalNotes actualNotes : Int),
      (ms.calculateFraction type dots normalNotes actualNotes).isValid = true →
      (ms.calculateFraction type dots normalNotes actualNotes).NonNeg)
    (h : TickInv s.loc_tick s.loc_maxtick)
    (hs1 : partLoop ms stavesOverlap division MAX_STAVES l s = some s1) :
    TickInv s1.loc_tick s1.loc_maxtick := by
  induction l generalizing s with
  | nil =>
    simp only [partLoop, Option.some.injEq] at hs1
    rw [← hs1]
    exact h
  | cons e rest ih =>
    have hrest : ∀ m ∈ rest, ∀ ee ∈ m.children, ∀ c ∈ ee.children, c.tagName = "duration" →
        ∀ d : Int, 0 < d → (ms.durationAsFraction d c).NonNeg :=
      fun m hm => hdur m (List.mem_cons_of_mem _ hm)
    by_cases he : e.tagName = "measure"
    · simp only [partLoop, if_pos he] at hs1
      cases hsm : scanMeasure ms stavesOverlap division MAX_STAVES e s with
      | none => rw [hsm] at hs1; simp at hs1
      | some s2 =>
        rw [hsm, Option.some_bind] at hs1
        refine ih s2 hrest ?_ hs1
        have hinv := (measureLoop_tickInv ms division MAX_STAVES e.children
          { s with vod := s.vod ++ [VodCall.newMeasure] }
          (hdur e (List.mem_cons_self _ _)) hcalc h).1
        unfold scanMeasure at hsm
        dsimp only at hsm
        cases hd : fMeasureDuration division s.loc_tick
            (measureLoop ms division MAX_STAVES e.children
              { s with vod := s.vod ++ [VodCall.newMeasure] }).loc_maxtick
            (measureLoop ms division MAX_STAVES e.children
              { s with vod := s.vod ++ [VodCall.newMeasure] }).timeSigLen
            (measureLoop ms division MAX_STAVES e.children
              { s with vod := s.vod ++ [VodCall.newMeasure] }).timeSigType with
        | none => rw [hd] at hsm; simp at hsm
        | some d =>
          rw [hd] at hsm
          simp only [Option.map_some', Option.some.injEq] at hsm
          rw [← hsm]
          exact hinv
    · simp only [partLoop, if_neg he] at hs1
      exact ih s hrest h hs1

/-! ## The measure lists of a part -/

/-- C22: `initVoiceMapperAndMapVoices` on the part element `e` and the part
`parts[partNr]`, with a positive `MScore::division`: the function returns, the
measure numbers of the part are those it held followed by the `number`
attributes of the `measure` children of `e` in document order, and as many
durations are appended, the earlier ones unchanged; for a part that held no
measure the two lists have the same length, the number of `measure` children.
`addMeasureNumberAndDuration` appends one entry to each list. -/
theorem initVoiceMapperAndMapVoices_measures (ms : MxmlSupport)
    (stavesOverlap : VoiceOverlapDetector → String → Bool) (division : Int)
    (hdiv : 0 < division) (MAX_STAVES : Nat) (parts : List MusicXmlPart) (e : QDomElement)
    (partNr : Nat) (p : MusicXmlPart) (hp : parts[partNr]? = some p) :
    (∃ parts1 p1,
      initVoiceMapperAndMapVoices ms stavesOverlap division MAX_STAVES parts e partNr
        = .ok parts1 ∧
      parts1[partNr]? = some p1 ∧
      p1.measureNumbers = p.measureNumbers ++
        (e.children.filter (fun m => m.tagName == "measure")).map (fun m => m.attr "number") ∧
      p1.measureDurations.length = p.measureDurations.length +
        e.children.countP (fun m => m.tagName == "measure") ∧
      p1.measureDurations.take p.measureDurations.length = p.measureDurations ∧
      (p.measureNumbers = [] → p.measureDurations = [] →
        p1.measureNumbers.length = p1.measureDurations.length ∧
        p1.measureDurations.length = e.children.countP (fun m => m.tagName == "measure") ∧
        p1.measureNumbers =
          (e.children.filter (fun m => m.tagName == "measure")).map
            (fun m => m.attr "number"))) ∧
    (∀ (q : MusicXmlPart) (measureNumber : String) (measureDuration : Fraction),
      (q.addMeasureNumberAndDuration measureNumber measureDuration).measureNumbers
        = q.measureNumbers ++ [measureNumber] ∧
      (q.addMeasureNumberAndDuration measureNumber measureDuration).measureDurations
        = q.measureDurations ++ [measureDuration] ∧
      (q.measureNumbers.length = q.measureDurations.length →
        (q.addMeasureNumberAndDuration measureNumber measureDuration).measureNumbers.length
          = (q.addMeasureNumberAndDuration
              measureNumber measureDuration).measureDurations.length)) := by
  constructor
  · obtain ⟨s1, h1, h2, h3, h4⟩ := partLoop_spec ms stavesOverlap division hdiv MAX_STAVES
      e.children (DriverState.start p)
    have hlt : partNr < parts.length := by
      by_contra hcon
      rw [List.getElem?_eq_none (not_lt.1 hcon)] at hp
      exact absurd hp (by simp)
    refine ⟨parts.set partNr
      { s1.part with
        voicelist := allocateVoices MAX_STAVES (allocateStaves MAX_STAVES s1.part.voicelist)
        instrList := firstInstrFixup s1.part.instrList },
      { s1.part with
        voicelist := allocateVoices MAX_STAVES (allocateStaves MAX_STAVES s1.part.voicelist)
        instrList := firstInstrFixup s1.part.instrList }, ?_, ?_, h2, h3, h4, ?_⟩
    · unfold initVoiceMapperAndMapVoices mapVoices
      rw [hp]
      dsimp only
      rw [h1]
      rfl
    · simp [List.getElem?_set_self hlt]
    · intro hn hd
      have h2a : s1.part.measureNumbers =
          (e.children.filter (fun m => m.tagName == "measure")).map (fun m => m.attr "number") := by
        rw [h2]
        show p.measureNumbers ++ _ = _
        rw [hn, List.nil_append]
      have h3a : s1.part.measureDurations.length =
          e.children.countP (fun m => m.tagName == "measure") := by
        rw [h3]
        show p.measureDurations.length + _ = _
        rw [hd]
        simp
      refine ⟨?_, h3a, h2a⟩
      show s1.part.measureNumbers.length = s1.part.measureDurations.length
      rw [h3a, h2a, List.length_map, List.countP_eq_length_filter]
  · intro q n d
    refine ⟨rfl, rfl, ?_⟩
    intro h
    simp only [MusicXmlPart.addMeasureNumberAndDuration, List.length_append, h,
      List.length_singleton]

theorem initVoiceMapperAndMapVoices_measures_witness :
    (∃ parts1 p1,
      initVoiceMapperAndMapVoices mxmlSupport specStavesOverlap 480 4
        [MusicXmlPart.create 4 "P1" "Piano"] partOneTwo 0 = .ok parts1 ∧
      parts1[0]? = some p1 ∧
      p1.measureNumbers = (MusicXmlPart.create 4 "P1" "Piano").measureNumbers ++
        (partOneTwo.children.filter (fun m => m.tagName == "measure")).map
          (fun m => m.attr "number") ∧
      p1.measureDurations.length = (MusicXmlPart.create 4 "P1" "Piano").measureDurations.length +
        partOneTwo.children.countP (fun m => m.tagName == "measure") ∧
      p1.measureDurations.take (MusicXmlPart.create 4 "P1" "Piano").measureDurations.length
        = (MusicXmlPart.create 4 "P1" "Piano").measureDurations ∧
      ((MusicXmlPart.create 4 "P1" "Piano").measureNumbers = [] →
        (MusicXmlPart.create 4 "P1" "Piano").measureDurations = [] →
        p1.measureNumbers.length = p1.measureDurations.length ∧
        p1.measureDurations.length
          = partOneTwo.children.countP (fun m => m.tagName == "measure") ∧
        p1.measureNumbers =
          (partOneTwo.children.filter (fun m => m.tagName == "measure")).map
            (fun m => m.attr "number"))) ∧
    (initVoiceMapperAndMapVoices mxmlSupport specStavesOverlap 480 4
        [MusicXmlPart.create 4 "P1" "Piano"] partOneTwo 0).toOption.map
      (fun parts1 => parts1.map (fun p1 => (p1.measureNumbers, p1.measureDurations)))
      = some [(["1", "2"], [⟨2, 4⟩, ⟨4, 4⟩])] :=
  ⟨(initVoiceMapperAndMapVoices_measures mxmlSupport specStavesOverlap 480 (by decide) 4
    [MusicXmlPart.create 4 "P1" "Piano"] partOneTwo 0 (MusicXmlPart.create 4 "P1" "Piano")
    rfl).1, by decide⟩

/-! ## The duration recorded for a measure by the driver -/

theorem measureLength_of_zero (division : Int) (hdiv : 0 < division) (raw : Fraction)
    (timeSigLen : Int) (hz : raw.isZero = true) (ht : 0 < timeSigLen) :
    measureLength division raw timeSigLen = timeSigLen := by
  unfold measureLength
  rw [hz]
  simp only [Bool.true_and, decide_eq_true_eq, gt_iff_lt, ht, if_true]
  exact Fraction.ticks_fromTicks division timeSigLen hdiv (le_of_lt ht)

theorem measureLength_of_not_zero (division : Int) (raw : Fraction) (timeSigLen : Int)
    (hz : raw.isZero = false) :
    measureLength division raw timeSigLen = raw.ticks division := by
  unfold measureLength
  rw [hz]
  simp

/-- C23: the duration the driver records for a `measure` element `e` reached in
the state `s`, with `MScore::division >= 16`.  The driver appends one duration
`d`.  With `raw` the raw duration (`maxtick` at the end of the measure minus the
tick at its start, reduced): when `raw` is zero and the time signature length
known at the end of the measure is positive, the ticks of `d` are that length
rounded up to the raster; when `raw` is not zero (and not negative), the ticks
of `d` are the ticks of `raw` rounded up to the raster, whatever the time
signature length. -/
theorem scanMeasure_duration (ms : MxmlSupport)
    (stavesOverlap : VoiceOverlapDetector → String → Bool) (division : Int)
    (hdiv : 16 ≤ division) (MAX_STAVES : Nat) (e : QDomElement) (s : DriverState) :
    ∃ s1 d, scanMeasure ms stavesOverlap division MAX_STAVES e s = some s1 ∧
      s1.part.measureDurations = s.part.measureDurations ++ [d] ∧
      ((rawDuration s.loc_tick s1.loc_maxtick).isZero = true → 0 < s1.timeSigLen →
        d.ticks division = correctedLength division s1.timeSigLen) ∧
      ((rawDuration s.loc_tick s1.loc_maxtick).isZero = false →
        (rawDuration s.loc_tick s1.loc_maxtick).NonNeg →
        d.ticks division
          = correctedLength division ((rawDuration s.loc_tick s1.loc_maxtick).ticks division) ∧
        ∀ timeSigLen : Int,
          measureLength division (rawDuration s.loc_tick s1.loc_maxtick) timeSigLen
            = measureLength division (rawDuration s.loc_tick s1.loc_maxtick) s1.timeSigLen) := by
  have hd0 : 0 < division := by omega
  have hr : 0 < Int.tdiv division 16 := by
    rw [Int.tdiv_eq_ediv (by omega) (by decide)]
    omega
  obtain ⟨d, hd, _, hticks⟩ := fMeasureDuration_spec division hd0 s.loc_tick
    (measureLoop ms division MAX_STAVES e.children
      { s with vod := s.vod ++ [VodCall.newMeasure] }).loc_maxtick
    (measureLoop ms division MAX_STAVES e.children
      { s with vod := s.vod ++ [VodCall.newMeasure] }).timeSigLen
    (measureLoop ms division MAX_STAVES e.children
      { s with vod := s.vod ++ [VodCall.newMeasure] }).timeSigType
  obtain ⟨_, h2⟩ := measureLoop_frame ms division MAX_STAVES e.children
    { s with vod := s.vod ++ [VodCall.newMeasure] }
  unfold scanMeasure
  dsimp only
  rw [hd]
  refine ⟨_, d, rfl, ?_, ?_, ?_⟩
  · simp only [MusicXmlPart.addMeasureNumberAndDuration, h2]
  · intro hz ht
    dsimp only at hz ht ⊢
    rw [measureLength_of_zero division hd0 _ _ hz ht] at hticks
    exact hticks (le_trans (le_of_lt ht) (correctedLength_ge division _ hr (le_of_lt ht)))
  · intro hz hnn
    dsimp only at hz hnn ⊢
    rw [measureLength_of_not_zero division _ _ hz] at hticks
    have h0 := Fraction.ticks_nonneg division _ hnn (le_of_lt hd0)
    refine ⟨hticks (le_trans h0 (correctedLength_ge division _ hr h0)), ?_⟩
    intro t
    rw [measureLength_of_not_zero division _ _ hz, measureLength_of_not_zero division _ _ hz]

theorem scanMeasure_duration_witness :
    (∃ s1 d, scanMeasure mxmlSupport specStavesOverlap 480 4 measureTwo
        { DriverState.start (MusicXmlPart.create 4 "P1" "Piano") with
          loc_divisions := 480, timeSigLen := 1921, timeSigType := 4 } = some s1 ∧
      s1.part.measureDurations = [] ++ [d] ∧
      ((rawDuration ⟨0, 1⟩ s1.loc_maxtick).isZero = true → 0 < s1.timeSigLen →
        d.ticks 480 = correctedLength 480 s1.timeSigLen) ∧
      ((rawDuration ⟨0, 1⟩ s1.loc_maxtick).isZero = false →
        (rawDuration ⟨0, 1⟩ s1.loc_maxtick).NonNeg →
        d.ticks 480 = correctedLength 480 ((rawDuration ⟨0, 1⟩ s1.loc_maxtick).ticks 480) ∧
        ∀ timeSigLen : Int,
          measureLength 480 (rawDuration ⟨0, 1⟩ s1.loc_maxtick) timeSigLen
            = measureLength 480 (rawDuration ⟨0, 1⟩ s1.loc_maxtick) s1.timeSigLen)) ∧
    (scanMeasure mxmlSupport specStavesOverlap 480 4 measureTwo
        { DriverState.start (MusicXmlPart.create 4 "P1" "Piano") with
          loc_divisions := 480, timeSigLen := 1921, timeSigType := 4 }).map
      (fun s1 => (s1.part.measureDurations, s1.part.measureDurations.map (Fraction.ticks 480)))
      = some ([⟨65, 64⟩], [1950]) ∧
    (scanMeasure mxmlSupport specStavesOverlap 480 4 measureOffRaster
        { DriverState.start (MusicXmlPart.create 4 "P1" "Piano") with
          loc_divisions := 480, timeSigLen := 1921, timeSigType := 4 }).map
      (fun s1 => (rawDuration ⟨0, 1⟩ s1.loc_maxtick, s1.part.measureDurations,
        s1.part.measureDurations.map (Fraction.ticks 480)))
      = some (⟨481, 1920⟩, [⟨17, 64⟩], [510]) :=
  ⟨scanMeasure_duration mxmlSupport specStavesOverlap 480 (by decide) 4 measureTwo
    { DriverState.start (MusicXmlPart.create 4 "P1" "Piano") with
      loc_divisions := 480, timeSigLen := 1921, timeSigType := 4 },
   by decide, by decide⟩

/-! ## Non-negative durations with the helpers of the spec -/

theorem specDurationAsFraction_nonneg (divisions : Int) (c : QDomElement)
    (hd : 0 < divisions) (hc : 0 ≤ (parseInt c.text).1) :
    (specDurationAsFraction divisions c).NonNeg := by
  unfold specDurationAsFraction
  split_ifs
  · exact ⟨by dsimp only; omega, hc⟩
  · decide

theorem ite_of_both {α : Type} (P : α → Prop) (c : Prop) [Decidable c] (a b : α) (ha : P a)
    (hb : P b) : P (if c then a else b) := by
  by_cases h : c
  · rw [if_pos h]
    exact ha
  · rw [if_neg h]
    exact hb

theorem specNoteTypeToFraction_cases (type : String) :
    (specNoteTypeToFraction type).NonNeg ∨ specNoteTypeToFraction type = ⟨0, 0⟩ := by
  unfold specNoteTypeToFraction
  iterate 14
    refine ite_of_both (fun f : Fraction => f.NonNeg ∨ f = ⟨0, 0⟩) _ _ _ (Or.inl (by decide)) ?_
  exact Or.inr rfl

theorem specNoteTypeToFraction_nonneg (type : String)
    (h : (specNoteTypeToFraction type).isValid = true) :
    (specNoteTypeToFraction type).NonNeg := by
  rcases specNoteTypeToFraction_cases type with h1 | h1
  · exact h1
  · rw [h1] at h
    exact absurd h (by decide)

theorem specCalculateFraction_nonneg (type : String) (dots normalNotes actualNotes : Int)
    (h : (specCalculateFraction type dots normalNotes actualNotes).isValid = true) :
    (specCalculateFraction type dots normalNotes actualNotes).NonNeg := by
  unfold specCalculateFraction at h ⊢
  dsimp only at h ⊢
  by_cases hv : (specNoteTypeToFraction type).isValid = true
  · obtain ⟨h1, h2⟩ := specNoteTypeToFraction_nonneg type hv
    have hpow : (0 : Int) < 2 ^ dots.toNat := by positivity
    have hpow2 : (1 : Int) ≤ 2 ^ (dots.toNat + 1) := by
      have : (0 : Int) < 2 ^ (dots.toNat + 1) := by positivity
      omega
    have hg : (dotted (specNoteTypeToFraction type) dots.toNat).NonNeg := by
      unfold dotted
      exact ⟨mul_pos h1 hpow, mul_nonneg h2 (by omega)⟩
    rw [if_pos hv]
    by_cases ht : actualNotes > 0 ∧ normalNotes > 0
    · rw [if_pos ht]
      exact ⟨mul_pos hg.1 ht.1, mul_nonneg hg.2 (le_of_lt ht.2)⟩
    · rw [if_neg ht]
      exact hg
  · rw [if_neg hv] at h
    exact absurd h hv

theorem durationsNonNeg_mxmlSupport (e : QDomElement)
    (h : ∀ m ∈ e.children, ∀ ee ∈ m.children, ∀ c ∈ ee.children, c.tagName = "duration" →
      0 ≤ (parseInt c.text).1) :
    DurationsNonNeg mxmlSupport e :=
  ⟨fun m hm ee hee c hc ht d hd =>
      specDurationAsFraction_nonneg d c hd (h m hm ee hee c hc ht),
    specCalculateFraction_nonneg⟩

/-! ## The invariant of the tick cursor in the driver -/

/-- C30: the invariant `0 <= tick <= maxtick` of the tick cursor.  A step of
`aaamoveTick` on an element whose resolved durations are not negative keeps the
invariant and does not decrease `maxtick`.  In the driver, with the durations
written in the part element `e` not negative and `s` the state in which the
driver reaches a measure `m` of `e`: the invariant holds in `s`, and the raw
duration of `m`, `maxtick` at the end of `m` minus the tick at its start, is
not negative. -/
theorem tick_cursor_invariant (ms : MxmlSupport) (st : TickState) (divisions : Int)
    (e0 : QDomElement) (hinv : TickInv st.tick st.maxtick)
    (hres : ResolvedNonNeg ms divisions e0)
    (stavesOverlap : VoiceOverlapDetector → String → Bool) (division : Int)
    (hdiv : 0 < division) (MAX_STAVES : Nat) (e : QDomElement) (p : MusicXmlPart)
    (hnn : DurationsNonNeg ms e) (pre post : List QDomElement) (m : QDomElement)
    (hsplit : e.children = pre ++ m :: post) :
    (TickInv (aaamoveTick ms st divisions e0).tick (aaamoveTick ms st divisions e0).maxtick ∧
      st.maxtick ≤ (aaamoveTick ms st divisions e0).maxtick ∧
      st.maxtick.toRat ≤ (aaamoveTick ms st divisions e0).maxtick.toRat) ∧
    (∃ s, partLoop ms stavesOverlap division MAX_STAVES pre (DriverState.start p) = some s ∧
      TickInv s.loc_tick s.loc_maxtick ∧
      (rawDuration s.loc_tick
        (measureLoop ms division MAX_STAVES m.children
          { s with vod := s.vod ++ [VodCall.newMeasure] }).loc_maxtick).NonNeg ∧
      (rawDuration s.loc_tick
        (measureLoop ms division MAX_STAVES m.children
          { s with vod := s.vod ++ [VodCall.newMeasure] }).loc_maxtick).toRat
        = (measureLoop ms division MAX_STAVES m.children
            { s with vod := s.vod ++ [VodCall.newMeasure] }).loc_maxtick.toRat
          - s.loc_tick.toRat) := by
  constructor
  · obtain ⟨h1, h2⟩ := aaamoveTick_tickInv ms st divisions e0 hres hinv
    exact ⟨h1, (Fraction.le_iff_toRat_le hinv.2.1 h1.2.1).2 h2, h2⟩
  · obtain ⟨s, hs, _⟩ := partLoop_spec ms stavesOverlap division hdiv MAX_STAVES pre
      (DriverState.start p)
    have hstart : TickInv (DriverState.start p).loc_tick (DriverState.start p).loc_maxtick := by
      show TickInv (⟨0, 1⟩ : Fraction) ⟨0, 1⟩
      unfold TickInv
      decide
    have hpre : ∀ x ∈ pre, ∀ ee ∈ x.children, ∀ c ∈ ee.children, c.tagName = "duration" →
        ∀ d : Int, 0 < d → (ms.durationAsFraction d c).NonNeg := by
      intro x hx
      apply hnn.1 x
      rw [hsplit]
      exact List.mem_append_left _ hx
    have hm : ∀ ee ∈ m.children, ∀ c ∈ ee.children, c.tagName = "duration" →
        ∀ d : Int, 0 < d → (ms.durationAsFraction d c).NonNeg := by
      apply hnn.1 m
      rw [hsplit]
      exact List.mem_append_right _ (List.mem_cons_self _ _)
    have hs1 := partLoop_tickInv ms stavesOverlap division MAX_STAVES pre _ s hpre hnn.2
      hstart hs
    obtain ⟨h3, h4⟩ := measureLoop_tickInv ms division MAX_STAVES m.children
      { s with vod := s.vod ++ [VodCall.newMeasure] } hm hnn.2 hs1
    have hle : s.loc_tick.toRat ≤ s.loc_maxtick.toRat :=
      (Fraction.le_iff_toRat_le hs1.1.1 hs1.2.1).1 hs1.2.2
    obtain ⟨h5, h6⟩ := rawDuration_nonneg s.loc_tick
      (measureLoop ms division MAX_STAVES m.children
        { s with vod := s.vod ++ [VodCall.newMeasure] }).loc_maxtick hs1.1.1 h3.2.1
      (le_trans hle h4)
    exact ⟨s, hs, hs1, h5, h6⟩

theorem tick_cursor_invariant_witness :
    (TickInv (aaamoveTick mxmlSupport ⟨⟨1, 4⟩, ⟨1, 2⟩, ⟨0, 1⟩, "", ""⟩ 480 backup960).tick
        (aaamoveTick mxmlSupport ⟨⟨1, 4⟩, ⟨1, 2⟩, ⟨0, 1⟩, "", ""⟩ 480 backup960).maxtick ∧
      (⟨1, 2⟩ : Fraction)
        ≤ (aaamoveTick mxmlSupport ⟨⟨1, 4⟩, ⟨1, 2⟩, ⟨0, 1⟩, "", ""⟩ 480 backup960).maxtick ∧
      (⟨1, 2⟩ : Fraction).toRat
        ≤ (aaamoveTick mxmlSupport ⟨⟨1, 4⟩, ⟨1, 2⟩, ⟨0, 1⟩, "", ""⟩ 480 backup960).maxtick.toRat) ∧
    (∃ s, partLoop mxmlSupport specStavesOverlap 480 4 [measureOne]
        (DriverState.start (MusicXmlPart.create 4 "P1" "Piano")) = some s ∧
      TickInv s.loc_tick s.loc_maxtick ∧
      (rawDuration s.loc_tick
        (measureLoop mxmlSupport 480 4 measureTwo.children
          { s with vod := s.vod ++ [VodCall.newMeasure] }).loc_maxtick).NonNeg ∧
      (rawDuration s.loc_tick
        (measureLoop mxmlSupport 480 4 measureTwo.children
          { s with vod := s.vod ++ [VodCall.newMeasure] }).loc_maxtick).toRat
        = (measureLoop mxmlSupport 480 4 measureTwo.children
            { s with vod := s.vod ++ [VodCall.newMeasure] }).loc_maxtick.toRat
          - s.loc_tick.toRat) :=
  tick_cursor_invariant mxmlSupport ⟨⟨1, 4⟩, ⟨1, 2⟩, ⟨0, 1⟩, "", ""⟩ 480 backup960
    (by unfold TickInv; decide) (by unfold ResolvedNonNeg; decide)
    specStavesOverlap 480 (by decide) 4 partOneTwo (MusicXmlPart.create 4 "P1" "Piano")
    (durationsNonNeg_mxmlSupport partOneTwo (by decide)) [measureOne] [] measureTwo rfl

/-! ## `parseFile` and the index of a part -/

/-- C28 (evaluation at the failing inputs): `parseFile` hands every `part`
element to the driver with the running index `partNr`, and the driver accesses
`parts[partNr]` without a bound check.  For a document with a `part` element
and no `part-list` the index 0 is used on an empty list; for a document with
one declared part and two `part` elements the index 1 is used on a list of one
part; for a `part` element before the `part-list` the index 0 is used on an
empty list.  A document whose `part-list` declares its one part is read to the
end. -/
theorem parseFile_part_index_out_of_range :
    parseFile mxmlSupport specStavesOverlap 480 4 partWithoutPartList
      = .error (Fault.partOutOfRange 0 0) ∧
    parseFile mxmlSupport specStavesOverlap 480 4 twoPartsOneDeclared
      = .error (Fault.partOutOfRange 1 1) ∧
    parseFile mxmlSupport specStavesOverlap 480 4 partBeforePartList
      = .error (Fault.partOutOfRange 0 0) ∧
    (parseFile mxmlSupport specStavesOverlap 480 4 onePartDeclared).toOption.map
        (fun parts => parts.map (fun p => (p.id, p.name, p.measureNumbers)))
      = some [("P1", "Piano", ["1", "2"])] :=
  ⟨rfl, rfl, rfl, by decide⟩

/-! ## The order of the voice slots -/

/-- C27 (evaluation at the failing input): for a part whose notes are in the
voices 2 and 10 on one staff, the voice list is kept in the order of the
identifiers as texts, "10" before "2", and `allocateVoices` numbers the voices
in that order: voice 10 gets slot 0 and voice 2 gets slot 1. -/
theorem allocateVoices_ten_before_two :
    (mapVoices mxmlSupport specStavesOverlap 480 4 partVoicesTwoAndTen
        (MusicXmlPart.create 4 "P1" "")).map
      (fun p => p.voicelist.map (fun e => (e.1, e.2.overlaps, e.2.staff, e.2.voice)))
      = some [("10", false, 0, 0), ("2", false, 0, 1)] ∧
    (allocateVoices 4 [("10", VoiceDesc.init.setStaff 0), ("2", VoiceDesc.init.setStaff 0)]).map
        (fun e => (e.1, e.2.staff, e.2.voice))
      = [("10", 0, 0), ("2", 0, 1)] ∧
    VoiceList.WF [("10", VoiceDesc.init.setStaff 0), ("2", VoiceDesc.init.setStaff 0)] := by
  refine ⟨by decide, by decide, ?_⟩
  simp [VoiceList.WF, String.lt_iff_toList_lt]
  decide

/-! ## Overlapping voices -/

/-- C26 (evaluation at the failing input): an overlapping voice whose identifier
is the empty text, with a chord-rest on the staves 0 and 1, is left unallocated
(-1) on both staves by `allocateStaves`, and a second overlapping voice "1"
with fewer chord-rests on staff 0 is left at -1 as well; with the identifier
"1" the same voice is allocated on both staves.  The driver builds such a voice
list from a part whose notes carry an empty `voice` element. -/
theorem allocateStaves_empty_identifier_overlapping :
    (allocateStaves 4 [("", overlappingOnTwoStaves)]).map
        (fun e => (e.1, e.2.overlaps, e.2.staffAlloc 0, e.2.staffAlloc 1))
      = [("", true, -1, -1)] ∧
    (allocateStaves 4
        [("", overlappingOnTwoStaves.incrChordRests 0), ("1", overlappingOnTwoStaves)]).map
        (fun e => (e.1, e.2.overlaps, e.2.staffAlloc 0, e.2.staffAlloc 1))
      = [("", true, -1, -1), ("1", true, -1, -1)] ∧
    (allocateStaves 4 [("1", overlappingOnTwoStaves)]).map
        (fun e => (e.1, e.2.overlaps, e.2.staffAlloc 0, e.2.staffAlloc 1))
      = [("1", true, 1, 1)] ∧
    (mapVoices mxmlSupport specStavesOverlap 480 4 partEmptyVoiceOnTwoStaves
        (MusicXmlPart.create 4 "P1" "")).map
      (fun p => p.voicelist.map
        (fun e => ((e.1, e.2.overlaps), (e.2.chordRests 0, e.2.chordRests 1),
          (e.2.staffAlloc 0, e.2.staffAlloc 1))))
      = some [(("", true), (1, 1), (-1, -1))] :=
  ⟨by decide, by decide, by decide, by decide⟩

/-! ## What `allocateStaves` can write -/

theorem regularStep_forall (M : Nat) (Q : VoiceDesc → Prop)
    (hs : ∀ d s, Q d → Q (d.setStaff s)) (st : VoiceList × (Nat → Nat))
    (h : ∀ e ∈ st.1, Q e.2) : ∀ e ∈ (regularStep M st).1, Q e.2 := by
  unfold regularStep
  dsimp only
  split_ifs
  · intro x hx
    dsimp only at hx
    obtain ⟨y, hy, rfl⟩ := VoiceList.mem_modify_inv hx
    dsimp only
    split_ifs
    · exact hs _ _ (h y hy)
    · exact h y hy
  · intro x hx
    dsimp only at hx
    obtain ⟨y, hy, rfl⟩ := VoiceList.mem_modify_inv hx
    dsimp only
    split_ifs
    · exact hs _ _ (h y hy)
    · exact h y hy
  · exact h

theorem overlapStep_forall (Q : VoiceDesc → Prop) (k : Nat)
    (ha : ∀ d, Q d → Q (d.setStaffAlloc k 1) ∧ Q (d.setStaffAlloc k (-2)))
    (st : VoiceList × (Nat → Nat)) (h : ∀ e ∈ st.1, Q e.2) :
    ∀ e ∈ (overlapStep k st).1, Q e.2 := by
  unfold overlapStep
  dsimp only
  split_ifs
  · intro x hx
    dsimp only at hx
    obtain ⟨y, hy, rfl⟩ := VoiceList.mem_modify_inv hx
    dsimp only
    split_ifs
    · exact (ha _ (h y hy)).1
    · exact h y hy
  · intro x hx
    dsimp only at hx
    obtain ⟨y, hy, rfl⟩ := VoiceList.mem_modify_inv hx
    dsimp only
    split_ifs
    · exact (ha _ (h y hy)).2
    · exact h y hy
  · exact h

theorem regularLoop_forall (M : Nat) (Q : VoiceDesc → Prop)
    (hs : ∀ d s, Q d → Q (d.setStaff s)) (n : Nat) (st : VoiceList × (Nat → Nat))
    (h : ∀ e ∈ st.1, Q e.2) : ∀ e ∈ (regularLoop M n st).1, Q e.2 := by
  induction n generalizing st with
  | zero => exact h
  | succ n ih => exact ih _ (regularStep_forall M Q hs st h)

theorem overlapLoop_forall (Q : VoiceDesc → Prop) (k : Nat)
    (ha : ∀ d, Q d → Q (d.setStaffAlloc k 1) ∧ Q (d.setStaffAlloc k (-2)))
    (n : Nat) (st : VoiceList × (Nat → Nat)) (h : ∀ e ∈ st.1, Q e.2) :
    ∀ e ∈ (overlapLoop k n st).1, Q e.2 := by
  induction n generalizing st with
  | zero => exact h
  | succ n ih => exact ih _ (overlapStep_forall Q k ha st h)

theorem overlapStaves_forall (M : Nat) (Q : VoiceDesc → Prop)
    (ha : ∀ d k, k < M → Q d → Q (d.setStaffAlloc k 1) ∧ Q (d.setStaffAlloc k (-2)))
    (st : VoiceList × (Nat → Nat)) (h : ∀ e ∈ st.1, Q e.2) :
    ∀ e ∈ (overlapStaves M st).1, Q e.2 := by
  unfold overlapStaves
  have hmem : ∀ k ∈ List.range M, k < M := fun k hk => List.mem_range.1 hk
  generalize List.range M = ks at hmem
  induction ks generalizing st with
  | nil => exact h
  | cons k t ih =>
    simp only [List.foldl_cons]
    exact ih _ (overlapLoop_forall Q k (fun d => ha d k (hmem k (List.mem_cons_self _ _))) _ st h)
      (fun j hj => hmem j (List.mem_cons_of_mem _ hj))

/-- A property of voice descriptors that every write of `allocateStaves` keeps
holds for every voice after `allocateStaves`. -/
theorem allocateStaves_forall (M : Nat) (Q : VoiceDesc → Prop)
    (hs : ∀ d s, Q d → Q (d.setStaff s))
    (ha : ∀ d k, k < M → Q d → Q (d.setStaffAlloc k 1) ∧ Q (d.setStaffAlloc k (-2)))
    (vl : VoiceList) (h : ∀ e ∈ vl, Q e.2) : ∀ e ∈ allocateStaves M vl, Q e.2 :=
  overlapStaves_forall M Q ha _ (regularLoop_forall M Q hs vl.length (vl, fun _ => 0) h)

/-- After `allocateStaves` on a voice list that starts unassigned, every per-staff
allocation is unset (-1), granted (1) or refused (-2), and it is unset on the
staves from `MAX_STAVES` on. -/
theorem allocateStaves_staffAlloc_values (M : Nat) (vl : VoiceList)
    (hinit : ∀ e ∈ vl, ∀ s, e.2.staffAlloc s = -1) :
    ∀ e ∈ allocateStaves M vl, ∀ s,
      (e.2.staffAlloc s = -1 ∨ e.2.staffAlloc s = 1 ∨ e.2.staffAlloc s = -2) ∧
      (M ≤ s → e.2.staffAlloc s = -1) := by
  apply allocateStaves_forall M
    (fun d => ∀ s, (d.staffAlloc s = -1 ∨ d.staffAlloc s = 1 ∨ d.staffAlloc s = -2) ∧
      (M ≤ s → d.staffAlloc s = -1))
  · intro d s hd
    exact hd
  · intro d k hk hd
    constructor
    · intro s
      simp only [VoiceDesc.setStaffAlloc]
      by_cases hsk : s = k
      · rw [if_pos hsk]
        exact ⟨Or.inr (Or.inl rfl), fun h => by omega⟩
      · rw [if_neg hsk]
        exact hd s
    · intro s
      simp only [VoiceDesc.setStaffAlloc]
      by_cases hsk : s = k
      · rw [if_pos hsk]
        exact ⟨Or.inr (Or.inr rfl), fun h => by omega⟩
      · rw [if_neg hsk]
        exact hd s
  · intro e he s
    exact ⟨Or.inl (hinit e he s), fun _ => hinit e he s⟩

/-! ## The slots given by `allocateVoices` -/

/-- The slots that `allocateVoices` gives on a voice list as `allocateStaves`
leaves it, by position in the list. -/
theorem allocateVoices_slots (M : Nat) (stv : VoiceList)
    (hA : ∀ e ∈ stv, e.2.voice = -1 ∧ (∀ s, e.2.voices s = -1) ∧
      (e.2.overlaps = true → e.2.staff = -1) ∧
      (e.2.overlaps = false → ∀ s, e.2.staffAlloc s = -1))
    (i : Nat) (e : String × VoiceDesc) (hget : (allocateVoices M stv)[i]? = some e) :
    (e.2.overlaps = false →
      (∀ s : Nat, e.2.staff = (s : Int) → e.2.voice =
        ((((allocateVoices M stv).take i).countP
          (fun x => !x.2.overlaps && x.2.staff == (s : Int)) : Nat) : Int)) ∧
      (e.2.staff < 0 → e.2.voice = -1) ∧ (∀ s, e.2.voices s = -1)) ∧
    (e.2.overlaps = true → e.2.voice = -1 ∧ ∀ s : Nat,
      (s < M → 0 ≤ e.2.staffAlloc s → e.2.voices s =
        (((allocateVoices M stv).countP (fun x => !x.2.overlaps && x.2.staff == (s : Int)) +
          ((allocateVoices M stv).take i).countP
            (fun x => x.2.overlaps && decide (0 ≤ x.2.staffAlloc s)) : Nat) : Int)) ∧
      ((M ≤ s ∨ e.2.staffAlloc s < 0) → e.2.voices s = -1)) := by
  have hal1 := regularVoices_allocation stv (fun _ => 0)
  have hal : (allocateVoices M stv).map allocation = stv.map allocation :=
    allocateVoices_allocation M stv
  obtain ⟨e0, h0, ha0⟩ := getElem?_of_allocation_eq hal hget
  obtain ⟨d1, h1, hv1, hslot1, hneg1⟩ := regularVoices_get stv (fun _ => 0) i e0 h0
  obtain ⟨d2, h2, hv2, hslot2⟩ := overlapVoices_get M
    (regularVoices stv (fun _ => 0)).1 (regularVoices stv (fun _ => 0)).2 i (e0.1, d1) h1
  have he : e = (e0.1, d2) := by
    have : (allocateVoices M stv)[i]? = some (e0.1, d2) := h2
    rw [hget] at this
    exact Option.some.inj this
  have hmem0 : e0 ∈ stv := List.getElem?_mem h0
  obtain ⟨hvoice0, hvoices0, hov0, hreg0⟩ := hA e0 hmem0
  simp only [allocation, Prod.mk.injEq] at ha0
  obtain ⟨_, hao, has, haa⟩ := ha0
  have hd1a : d1.staffAlloc = e0.2.staffAlloc := by
    obtain ⟨x, hx, hxa⟩ := getElem?_of_allocation_eq hal1 h1
    rw [h0] at hx
    have := Option.some.inj hx
    subst this
    simp only [allocation, Prod.mk.injEq] at hxa
    exact hxa.2.2.2.symm
  have hvs : ∀ s, e.2.voices s = d2.voices s := by
    intro s
    rw [he]
  have hv : e.2.voice = d1.voice := by rw [he]; exact hv2
  constructor
  · intro hreg
    have hreg' : e0.2.overlaps = false := by rw [hao]; exact hreg
    refine ⟨?_, ?_, ?_⟩
    · intro s hs
      have hs0 : e0.2.staff = (s : Int) := by rw [has]; exact hs
      rw [hv, hslot1 s hs0]
      have ht := countP_take_of_allocation_eq hal
        (fun a => !a.2.1 && a.2.2.1 == (s : Int)) i
      have ht' : ((allocateVoices M stv).take i).countP
          (fun x => !x.2.overlaps && x.2.staff == (s : Int))
          = (stv.take i).countP (fun x => !x.2.overlaps && x.2.staff == (s : Int)) := ht
      rw [ht']
      have hc : (stv.take i).countP (fun x => x.2.staff == (s : Int))
          = (stv.take i).countP (fun x => !x.2.overlaps && x.2.staff == (s : Int)) := by
        apply List.countP_congr
        intro x hx
        have hxm := List.mem_of_mem_take hx
        obtain ⟨_, _, h3, _⟩ := hA x hxm
        simp only [beq_iff_eq, Bool.and_eq_true, Bool.not_eq_true']
        constructor
        · intro hxs
          refine ⟨?_, hxs⟩
          by_contra hno
          have := h3 (by simpa using hno)
          omega
        · intro hxs; exact hxs.2
      rw [hc]
      simp
    · intro hneg
      rw [hv, hneg1 (by rw [has]; exact hneg)]
      exact hvoice0
    · intro s
      have hcond : ¬ (s < M ∧ 0 ≤ d1.staffAlloc s) := by
        rw [hd1a, hreg0 hreg' s]
        intro h
        omega
      rw [hvs, hslot2 s]
      dsimp only
      rw [if_neg hcond, hv1]
      exact hvoices0 s
  · intro hovl
    have hovl' : e0.2.overlaps = true := by rw [hao]; exact hovl
    refine ⟨?_, ?_⟩
    · rw [hv, hneg1 (by rw [hov0 hovl']; decide)]
      exact hvoice0
    intro s
    constructor
    · intro hsM hge
      have hcond : s < M ∧ 0 ≤ d1.staffAlloc s := by
        rw [hd1a, haa]; exact ⟨hsM, hge⟩
      rw [hvs, hslot2 s]
      dsimp only
      rw [if_pos hcond, regularVoices_next]
      have hw := countP_of_allocation_eq hal (fun a => !a.2.1 && a.2.2.1 == (s : Int))
      have hw' : (allocateVoices M stv).countP
          (fun x => !x.2.overlaps && x.2.staff == (s : Int))
          = stv.countP (fun x => !x.2.overlaps && x.2.staff == (s : Int)) := hw
      have hc1 : stv.countP (fun x => x.2.staff == (s : Int))
          = stv.countP (fun x => !x.2.overlaps && x.2.staff == (s : Int)) := by
        apply List.countP_congr
        intro x hxm
        obtain ⟨_, _, h3, _⟩ := hA x hxm
        simp only [beq_iff_eq, Bool.and_eq_true, Bool.not_eq_true']
        constructor
        · intro hxs
          refine ⟨?_, hxs⟩
          by_contra hno
          have := h3 (by simpa using hno)
          omega
        · intro hxs; exact hxs.2
      have ht1 := countP_take_of_allocation_eq hal1
        (fun a => decide (0 ≤ a.2.2.2 s)) i
      have ht1' : ((regularVoices stv (fun _ => 0)).1.take i).countP
          (fun x => decide (0 ≤ x.2.staffAlloc s))
          = (stv.take i).countP (fun x => decide (0 ≤ x.2.staffAlloc s)) := ht1
      have ht2 := countP_take_of_allocation_eq hal
        (fun a => a.2.1 && decide (0 ≤ a.2.2.2 s)) i
      have ht2' : ((allocateVoices M stv).take i).countP
          (fun x => x.2.overlaps && decide (0 ≤ x.2.staffAlloc s))
          = (stv.take i).countP (fun x => x.2.overlaps && decide (0 ≤ x.2.staffAlloc s)) := ht2
      have hc2 : (stv.take i).countP (fun x => decide (0 ≤ x.2.staffAlloc s))
          = (stv.take i).countP (fun x => x.2.overlaps && decide (0 ≤ x.2.staffAlloc s)) := by
        apply List.countP_congr
        intro x hx
        have hxm := List.mem_of_mem_take hx
        obtain ⟨_, _, _, h4⟩ := hA x hxm
        simp only [decide_eq_true_eq, Bool.and_eq_true]
        constructor
        · intro hxs
          refine ⟨?_, hxs⟩
          by_contra hno
          have := h4 (by simpa using hno) s
          omega
        · intro hxs; exact hxs.2
      rw [hw', ht2', ht1', hc1, hc2]
      simp
    · intro hlt
      have hcond : ¬ (s < M ∧ 0 ≤ d1.staffAlloc s) := by
        rw [hd1a, haa]; intro h; omega
      rw [hvs, hslot2 s]
      dsimp only
      rw [if_neg hcond, hv1]
      exact hvoices0 s

/-- Numbering by position: when every element of `l` that satisfies `p` is
numbered `c` plus the number of such elements before it, the numbers of these
elements, in the order of the list, are `c, c + 1, ...`. -/
theorem map_filter_eq_range {α : Type} (p : α → Bool) (f : α → Int) (c : Nat) (l : List α)
    (h : ∀ (i : Nat) (a : α), l[i]? = some a → p a = true →
      f a = ((c + (l.take i).countP p : Nat) : Int)) :
    (l.filter p).map f = (List.range' c (l.countP p)).map (fun n : Nat => (n : Int)) := by
  induction l using List.reverseRecOn with
  | nil => simp
  | append_singleton l a ih =>
    have hl : ∀ (i : Nat) (b : α), l[i]? = some b → p b = true →
        f b = ((c + (l.take i).countP p : Nat) : Int) := by
      intro i b hb hpb
      have hi : i < l.length := by
        by_contra hcon
        rw [List.getElem?_eq_none (not_lt.1 hcon)] at hb
        cases hb
      have h1 := h i b (by rw [List.getElem?_append_left hi]; exact hb) hpb
      rw [List.take_append_of_le_length (le_of_lt hi)] at h1
      exact h1
    rw [List.filter_append, List.map_append, ih hl, List.countP_append]
    by_cases hpa : p a = true
    · have h1 := h l.length a (by simp) hpa
      rw [List.take_left' rfl] at h1
      simp only [List.filter_cons, hpa, if_true, List.filter_nil, List.map_cons, List.map_nil,
        List.countP_cons, List.countP_nil, zero_add]
      rw [h1, List.range'_concat]
      simp
    · simp [hpa]

theorem countP_take_succ_of_pos {α : Type} (p : α → Bool) (l : List α) (i : Nat) (a : α)
    (hi : l[i]? = some a) (hp : p a = true) :
    (l.take (i + 1)).countP p = (l.take i).countP p + 1 := by
  rw [List.take_succ, hi, List.countP_append]
  simp [hp]

theorem countP_take_lt {α : Type} (p : α → Bool) (l : List α) (i j : Nat) (a : α)
    (hi : l[i]? = some a) (hp : p a = true) (hij : i < j) :
    (l.take i).countP p < (l.take j).countP p := by
  have h1 := countP_take_succ_of_pos p l i a hi hp
  have h2 : (l.take (i + 1)).countP p ≤ (l.take j).countP p := by
    have : l.take (i + 1) = (l.take j).take (i + 1) := by
      rw [List.take_take, min_eq_left (by omega)]
    rw [this]
    exact List.Sublist.countP_le _ (List.take_sublist _ _)
  omega

theorem countP_take_lt_all {α : Type} (p : α → Bool) (l : List α) (i : Nat) (a : α)
    (hi : l[i]? = some a) (hp : p a = true) :
    (l.take i).countP p < l.countP p := by
  have h1 := countP_take_succ_of_pos p l i a hi hp
  have h2 : (l.take (i + 1)).countP p ≤ l.countP p :=
    List.Sublist.countP_le _ (List.take_sublist _ _)
  omega

theorem mem_of_allocation_eq {l l1 : VoiceList}
    (h : l.map allocation = l1.map allocation) {e : String × VoiceDesc} (he : e ∈ l) :
    ∃ e1 ∈ l1, allocation e1 = allocation e := by
  obtain ⟨i, hi⟩ := List.mem_iff_getElem?.1 he
  obtain ⟨e1, h1, h2⟩ := getElem?_of_allocation_eq h hi
  exact ⟨e1, List.getElem?_mem h1, h2⟩

/-- What the voice list holds after `allocateStaves` and `allocateVoices` on a
voice list that starts unassigned: the allocation facts, the capacity of every
staff and the slot of every placed voice by position. -/
theorem allocate_facts (M : Nat) (vl : VoiceList) (hwf : vl.WF) (hinit : vl.Unassigned) :
    (∀ e ∈ allocateVoices M (allocateStaves M vl),
      (e.2.overlaps = true → e.2.staff = -1) ∧
      (e.2.overlaps = false → ∀ s, e.2.staffAlloc s = -1) ∧
      ∀ s, (e.2.staffAlloc s = -1 ∨ e.2.staffAlloc s = 1 ∨ e.2.staffAlloc s = -2) ∧
        (M ≤ s → e.2.staffAlloc s = -1)) ∧
    (∀ s, (allocateVoices M (allocateStaves M vl)).countP (fun e => occupies s e.2) ≤ VOICES) ∧
    (∀ (s i : Nat) (a : String × VoiceDesc),
      (allocateVoices M (allocateStaves M vl))[i]? = some a →
      (!a.2.overlaps && a.2.staff == (s : Int)) = true →
      a.2.voice = ((0 + ((allocateVoices M (allocateStaves M vl)).take i).countP
        (fun x => !x.2.overlaps && x.2.staff == (s : Int)) : Nat) : Int)) ∧
    (∀ (s i : Nat) (a : String × VoiceDesc),
      (allocateVoices M (allocateStaves M vl))[i]? = some a →
      (a.2.overlaps && a.2.staffAlloc s == 1) = true →
      a.2.voices s = (((allocateVoices M (allocateStaves M vl)).countP
          (fun x => !x.2.overlaps && x.2.staff == (s : Int)) +
        ((allocateVoices M (allocateStaves M vl)).take i).countP
          (fun x => x.2.overlaps && x.2.staffAlloc s == 1) : Nat) : Int)) ∧
    (∀ e ∈ allocateVoices M (allocateStaves M vl),
      (¬ (e.2.overlaps = false ∧ 0 ≤ e.2.staff) → e.2.voice = -1) ∧
      ∀ s, ¬ (e.2.overlaps = true ∧ e.2.staffAlloc s = 1) → e.2.voices s = -1) := by
  obtain ⟨_, hA⟩ := allocateStaves_stavesInv M vl hwf hinit
  have hvals := allocateStaves_staffAlloc_values M vl (fun e he s => ((hinit e he).2.2 s).1)
  have hcap : ∀ s, (allocateStaves M vl).countP (fun e => occupies s e.2) ≤ VOICES := by
    have h0 : CapacityInv (vl, fun _ => 0) := by
      refine ⟨hwf, fun s => ⟨?_, Nat.zero_le _⟩⟩
      simp only [Nat.le_zero, List.countP_eq_zero]
      intro e he
      obtain ⟨h1, _, h2⟩ := hinit e he
      simp [occupies, h1, (h2 s).1]
    have h1 := overlapStaves_capacity M _ (regularLoop_capacity M vl.length _ h0)
    intro s
    exact le_trans (h1.2 s).1 (h1.2 s).2
  have hslots := allocateVoices_slots M (allocateStaves M vl) hA
  have hal : (allocateVoices M (allocateStaves M vl)).map allocation
      = (allocateStaves M vl).map allocation := allocateVoices_allocation M _
  generalize allocateStaves M vl = stv at hA hvals hcap hslots hal
  generalize hR : allocateVoices M stv = R at hslots hal
  have hfacts : ∀ e ∈ R, (e.2.overlaps = true → e.2.staff = -1) ∧
      (e.2.overlaps = false → ∀ s, e.2.staffAlloc s = -1) ∧
      ∀ s, (e.2.staffAlloc s = -1 ∨ e.2.staffAlloc s = 1 ∨ e.2.staffAlloc s = -2) ∧
        (M ≤ s → e.2.staffAlloc s = -1) := by
    intro e he
    obtain ⟨e1, he1, ha⟩ := mem_of_allocation_eq hal he
    simp only [allocation, Prod.mk.injEq] at ha
    obtain ⟨_, h1, h2, h3⟩ := ha
    obtain ⟨_, _, g1, g2⟩ := hA e1 he1
    rw [← h1, ← h2, ← h3]
    exact ⟨g1, g2, hvals e1 he1⟩
  refine ⟨hfacts, ?_, ?_, ?_, ?_⟩
  · intro s
    have := countP_of_allocation_eq hal
      (fun a => (!a.2.1 && a.2.2.1 == (s : Int)) || (a.2.1 && a.2.2.2 s == 1))
    have h2 : R.countP (fun e => occupies s e.2) = stv.countP (fun e => occupies s e.2) := this
    rw [h2]
    exact hcap s
  · intro s i a hget hp
    simp only [Bool.and_eq_true, Bool.not_eq_true', beq_iff_eq] at hp
    rw [zero_add]
    exact ((hslots i a hget).1 hp.1).1 s hp.2
  · intro s i a hget hp
    simp only [Bool.and_eq_true, beq_iff_eq] at hp
    have hsM : s < M := by
      by_contra hcon
      have := ((hfacts a (List.getElem?_mem hget)).2.2 s).2 (not_lt.1 hcon)
      omega
    rw [(((hslots i a hget).2 hp.1).2 s).1 hsM (by omega)]
    have hc : (R.take i).countP (fun x => x.2.overlaps && decide (0 ≤ x.2.staffAlloc s))
        = (R.take i).countP (fun x => x.2.overlaps && x.2.staffAlloc s == 1) := by
      apply List.countP_congr
      intro x hx
      have hv := ((hfacts x (List.mem_of_mem_take hx)).2.2 s).1
      simp only [Bool.and_eq_true, decide_eq_true_eq, beq_iff_eq]
      constructor
      · intro h
        exact ⟨h.1, by omega⟩
      · intro h
        exact ⟨h.1, by omega⟩
    rw [hc]
  · intro e he
    obtain ⟨i, hget⟩ := List.mem_iff_getElem?.1 he
    obtain ⟨h1, h2⟩ := hslots i e hget
    constructor
    · intro hno
      cases ho : e.2.overlaps with
      | true => exact (h2 ho).1
      | false =>
        apply (h1 ho).2.1
        by_contra hcon
        exact hno ⟨ho, by omega⟩
    · intro s hno
      cases ho : e.2.overlaps with
      | true =>
        apply ((h2 ho).2 s).2
        have hv := ((hfacts e he).2.2 s).1
        right
        by_contra hcon
        apply hno
        refine ⟨ho, ?_⟩
        omega
      | false => exact (h1 ho).2.2 s

/-- C29: after `allocateStaves` followed by `allocateVoices` on a voice list in
which every voice starts unassigned, for every staff `s`: at most `VOICES`
voices are placed on `s` (regular voices with `staff = s` and overlapping voices
allocated on `s`); their slots, regular voices first and each group in the order
of the list, are `0, 1, ..., k - 1` for the `k` voices placed; no two voices
placed on `s` have the same slot; and every slot number is unset (-1) or lies in
`[0, VOICES)`. -/
theorem allocated_slots_distinct (MAX_STAVES : Nat) (vcLst : VoiceList) (hwf : vcLst.WF)
    (hinit : vcLst.Unassigned) (s : Nat) :
    (allocateVoices MAX_STAVES (allocateStaves MAX_STAVES vcLst)).countP
        (fun e => occupies s e.2) ≤ VOICES ∧
    ((allocateVoices MAX_STAVES (allocateStaves MAX_STAVES vcLst)).filter
          (fun e => !e.2.overlaps && e.2.staff == (s : Int))).map (fun e => e.2.voice) ++
      ((allocateVoices MAX_STAVES (allocateStaves MAX_STAVES vcLst)).filter
          (fun e => e.2.overlaps && e.2.staffAlloc s == 1)).map (fun e => e.2.voices s)
      = (List.range ((allocateVoices MAX_STAVES (allocateStaves MAX_STAVES vcLst)).countP
          (fun e => occupies s e.2))).map (fun n : Nat => (n : Int)) ∧
    (∀ (i j : Nat) (e1 e2 : String × VoiceDesc), i ≠ j →
      (allocateVoices MAX_STAVES (allocateStaves MAX_STAVES vcLst))[i]? = some e1 →
      (allocateVoices MAX_STAVES (allocateStaves MAX_STAVES vcLst))[j]? = some e2 →
      occupies s e1.2 = true → occupies s e2.2 = true →
      slotOn s e1.2 ≠ slotOn s e2.2) ∧
    (∀ e ∈ allocateVoices MAX_STAVES (allocateStaves MAX_STAVES vcLst),
      (e.2.voice = -1 ∨ (0 ≤ e.2.voice ∧ e.2.voice < VOICES)) ∧
      (e.2.voices s = -1 ∨ (0 ≤ e.2.voices s ∧ e.2.voices s < VOICES))) := by
  obtain ⟨hfacts, hcap, hreg, hovl, hunset⟩ := allocate_facts MAX_STAVES vcLst hwf hinit
  generalize allocateVoices MAX_STAVES (allocateStaves MAX_STAVES vcLst) = R
    at hfacts hcap hreg hovl hunset
  have hsplit := fun t => countP_occupies_split t R
  -- the slot of a placed voice, by its position
  have hslot : ∀ (i : Nat) (a : String × VoiceDesc), R[i]? = some a → occupies s a.2 = true →
      (a.2.overlaps = false ∧ slotOn s a.2 =
        (((R.take i).countP (fun x => !x.2.overlaps && x.2.staff == (s : Int)) : Nat) : Int) ∧
        (R.take i).countP (fun x => !x.2.overlaps && x.2.staff == (s : Int))
          < R.countP (fun x => !x.2.overlaps && x.2.staff == (s : Int))) ∨
      (a.2.overlaps = true ∧ slotOn s a.2 =
        ((R.countP (fun x => !x.2.overlaps && x.2.staff == (s : Int)) +
          (R.take i).countP (fun x => x.2.overlaps && x.2.staffAlloc s == 1) : Nat) : Int) ∧
        (R.take i).countP (fun x => x.2.overlaps && x.2.staffAlloc s == 1)
          < R.countP (fun x => x.2.overlaps && x.2.staffAlloc s == 1)) := by
    intro i a hget hocc
    unfold occupies at hocc
    unfold slotOn
    cases ho : a.2.overlaps with
    | false =>
      rw [ho] at hocc
      simp only [Bool.not_false, Bool.true_and, Bool.false_and, Bool.or_false] at hocc
      have hp : (!a.2.overlaps && a.2.staff == (s : Int)) = true := by
        rw [ho]
        simpa using hocc
      left
      refine ⟨rfl, ?_, countP_take_lt_all
        (fun x : String × VoiceDesc => !x.2.overlaps && x.2.staff == (s : Int)) R i a hget hp⟩
      have := hreg s i a hget hp
      rw [zero_add] at this
      simpa using this
    | true =>
      rw [ho] at hocc
      simp only [Bool.not_true, Bool.false_and, Bool.true_and, Bool.false_or] at hocc
      have hp : (a.2.overlaps && a.2.staffAlloc s == 1) = true := by
        rw [ho]
        simpa using hocc
      right
      refine ⟨rfl, ?_, countP_take_lt_all
        (fun x : String × VoiceDesc => x.2.overlaps && x.2.staffAlloc s == 1) R i a hget hp⟩
      have := hovl s i a hget hp
      simpa using this
  -- two placed voices at positions `i < j`
  have hlt : ∀ (i j : Nat) (e1 e2 : String × VoiceDesc), i < j → R[i]? = some e1 →
      R[j]? = some e2 → occupies s e1.2 = true → occupies s e2.2 = true →
      slotOn s e1.2 ≠ slotOn s e2.2 := by
    intro i j e1 e2 hij h1 h2 o1 o2
    rcases hslot i e1 h1 o1 with ⟨r1, s1, b1⟩ | ⟨r1, s1, b1⟩ <;>
      rcases hslot j e2 h2 o2 with ⟨r2, s2, b2⟩ | ⟨r2, s2, b2⟩
    · have hp : (!e1.2.overlaps && e1.2.staff == (s : Int)) = true := by
        unfold occupies at o1
        rw [r1] at o1 ⊢
        simpa using o1
      have := countP_take_lt
        (fun x : String × VoiceDesc => !x.2.overlaps && x.2.staff == (s : Int)) R i j e1 h1 hp hij
      rw [s1, s2]
      omega
    · rw [s1, s2]
      omega
    · rw [s1, s2]
      omega
    · have hp : (e1.2.overlaps && e1.2.staffAlloc s == 1) = true := by
        unfold occupies at o1
        rw [r1] at o1 ⊢
        simpa using o1
      have := countP_take_lt
        (fun x : String × VoiceDesc => x.2.overlaps && x.2.staffAlloc s == 1) R i j e1 h1 hp hij
      rw [s1, s2]
      omega
  refine ⟨hcap s, ?_, ?_, ?_⟩
  · have e1 := map_filter_eq_range _ (fun e : String × VoiceDesc => e.2.voice) 0 R (hreg s)
    have e2 := map_filter_eq_range _ (fun e : String × VoiceDesc => e.2.voices s)
      (R.countP (fun x => !x.2.overlaps && x.2.staff == (s : Int))) R (hovl s)
    have e3 := List.range'_append_1 0
      (R.countP (fun x => !x.2.overlaps && x.2.staff == (s : Int)))
      (R.countP (fun x => x.2.overlaps && x.2.staffAlloc s == 1))
    simp only [zero_add] at e3
    have e4 : (List.range' 0 (R.countP (fun x => !x.2.overlaps && x.2.staff == (s : Int)))).map
          (fun n : Nat => (n : Int)) ++
        (List.range' (R.countP (fun x => !x.2.overlaps && x.2.staff == (s : Int)))
          (R.countP (fun x => x.2.overlaps && x.2.staffAlloc s == 1))).map (fun n : Nat => (n : Int))
        = (List.range' 0 (R.countP (fun x => x.2.overlaps && x.2.staffAlloc s == 1) +
            R.countP (fun x => !x.2.overlaps && x.2.staff == (s : Int)))).map
          (fun n : Nat => (n : Int)) := by
      rw [← e3]
      exact (List.map_append _ _ _).symm
    rw [e1, e2, e4, List.range_eq_range', ← hsplit s, Nat.add_comm]
  · intro i j e1 e2 hij h1 h2 o1 o2
    rcases Nat.lt_or_gt_of_ne hij with h | h
    · exact hlt i j e1 e2 h h1 h2 o1 o2
    · exact (hlt j i e2 e1 h h2 h1 o2 o1).symm
  · intro e he
    obtain ⟨i, hget⟩ := List.mem_iff_getElem?.1 he
    obtain ⟨hu1, hu2⟩ := hunset e he
    constructor
    · by_cases hp : e.2.overlaps = false ∧ 0 ≤ e.2.staff
      · right
        have hst : e.2.staff = ((e.2.staff.toNat : Nat) : Int) := by
          rw [Int.toNat_of_nonneg hp.2]
        have hp2 : (!e.2.overlaps && e.2.staff == ((e.2.staff.toNat : Nat) : Int)) = true := by
          rw [hp.1]
          simpa using hst
        have h1 := hreg e.2.staff.toNat i e hget hp2
        have h2 := countP_take_lt_all
          (fun x : String × VoiceDesc =>
            !x.2.overlaps && x.2.staff == ((e.2.staff.toNat : Nat) : Int)) R i e hget hp2
        have h3 := hcap e.2.staff.toNat
        have h4 := hsplit e.2.staff.toNat
        rw [zero_add] at h1
        rw [h1]
        constructor
        · omega
        · have : (R.take i).countP
              (fun x => !x.2.overlaps && x.2.staff == ((e.2.staff.toNat : Nat) : Int))
              < VOICES := by omega
          exact_mod_cast this
      · exact Or.inl (hu1 hp)
    · by_cases hp : e.2.overlaps = true ∧ e.2.staffAlloc s = 1
      · right
        have hp2 : (e.2.overlaps && e.2.staffAlloc s == 1) = true := by
          rw [hp.1]
          simpa using hp.2
        have h1 := hovl s i e hget hp2
        have h2 := countP_take_lt_all
          (fun x : String × VoiceDesc => x.2.overlaps && x.2.staffAlloc s == 1) R i e hget hp2
        have h3 := hcap s
        have h4 := hsplit s
        rw [h1]
        constructor
        · omega
        · have : R.countP (fun x => !x.2.overlaps && x.2.staff == (s : Int)) +
              (R.take i).countP (fun x => x.2.overlaps && x.2.staffAlloc s == 1)
              < VOICES := by omega
          exact_mod_cast this
      · exact Or.inl (hu2 s hp)

theorem allocated_slots_distinct_witness :
    (allocateVoices 4 (allocateStaves 4 twoVoices)).countP
        (fun e => occupies 0 e.2) ≤ VOICES ∧
    ((allocateVoices 4 (allocateStaves 4 twoVoices)).filter
          (fun e => !e.2.overlaps && e.2.staff == ((0 : Nat) : Int))).map (fun e => e.2.voice) ++
      ((allocateVoices 4 (allocateStaves 4 twoVoices)).filter
          (fun e => e.2.overlaps && e.2.staffAlloc 0 == 1)).map (fun e => e.2.voices 0)
      = (List.range ((allocateVoices 4 (allocateStaves 4 twoVoices)).countP
          (fun e => occupies 0 e.2))).map (fun n : Nat => (n : Int)) :=
  ⟨(allocated_slots_distinct 4 twoVoices
      (by simp [VoiceList.WF, twoVoices, String.lt_iff_toList_lt]; decide)
      (by unfold VoiceList.Unassigned twoVoices
          simp [tenOnStaffZero, threeOnStaffZero, VoiceDesc.init]) 0).1,
   (allocated_slots_distinct 4 twoVoices
      (by simp [VoiceList.WF, twoVoices, String.lt_iff_toList_lt]; decide)
      (by unfold VoiceList.Unassigned twoVoices
          simp [tenOnStaffZero, threeOnStaffZero, VoiceDesc.init]) 0).2.1⟩

/-! ## Overlapping voices, staff by staff -/

theorem overlapStep_progress (h : Nat) (st : VoiceList × (Nat → Nat))
    (hinv : OverlapInv h st) :
    OverlapInv h (overlapStep h st) ∧
    pendingOn h (overlapStep h st).1 = pendingOn h st.1 - 1 := by
  obtain ⟨vl, va⟩ := st
  obtain ⟨hwf, hkeys, hvals, hfull, hprio⟩ := hinv
  dsimp only at hwf hkeys hvals hfull hprio
  have hspec := findMax_spec (fun d => d.overlaps && d.staffAlloc h == -1)
    (fun d => d.chordRests h) vl (0, "")
  rw [← findOverlapping_eq_findMax] at hspec
  obtain ⟨_, hmax, hfound⟩ := hspec
  unfold overlapStep
  dsimp only
  rcases hfound with hnone | ⟨l₁, e, l₂, hl, hel, hr, hpos, _⟩
  · rw [hnone]
    simp only [ne_eq, not_true_eq_false, if_false]
    refine ⟨⟨hwf, hkeys, hvals, hfull, hprio⟩, ?_⟩
    have : pendingOn h vl = 0 := by
      unfold pendingOn
      rw [List.countP_eq_zero]
      intro x hx hp
      simp only [Bool.and_eq_true, decide_eq_true_eq, beq_iff_eq] at hp
      have h1 := hmax x hx (by simp [hp.1.1, hp.2])
      rw [hnone] at h1
      dsimp only at h1
      omega
    rw [this]
  · have he : e ∈ vl := by rw [hl]; simp
    have hkey : e.1 ≠ "" := hkeys e he
    rw [hr] at hmax ⊢
    dsimp only at hmax hpos ⊢
    rw [if_pos hkey]
    simp only [Bool.and_eq_true, beq_iff_eq] at hel
    have hstep : ∀ (X : Int) (va1 : Nat → Nat), va h ≤ va1 h →
        ((X = 1 ∧ va h < VOICES) ∨ (X = -2 ∧ VOICES ≤ va1 h)) →
        OverlapInv h (vl.modify e.1 (fun d => d.setStaffAlloc h X), va1) ∧
        pendingOn h (vl.modify e.1 (fun d => d.setStaffAlloc h X)) = pendingOn h vl - 1 := by
      intro X va1 hva hX
      have hXv : X = 1 ∨ X = -2 := by
        rcases hX with hX | hX
        · exact Or.inl hX.1
        · exact Or.inr hX.1
      have hmod : ∀ x ∈ vl.modify e.1 (fun d => d.setStaffAlloc h X),
          ∃ y ∈ vl, x.1 = y.1 ∧ x.2.overlaps = y.2.overlaps ∧
            x.2.chordRests h = y.2.chordRests h ∧
            ((y = e ∧ x.2.staffAlloc h = X) ∨ (y ≠ e ∧ x.2.staffAlloc h = y.2.staffAlloc h)) := by
        intro x hx
        obtain ⟨y, hy, rfl⟩ := VoiceList.mem_modify_inv hx
        refine ⟨y, hy, rfl, ?_⟩
        dsimp only
        by_cases hk : y.1 = e.1
        · have hye : y = e := hwf.key_inj hy he hk
          rw [if_pos hk]
          refine ⟨rfl, rfl, Or.inl ⟨hye, ?_⟩⟩
          simp [VoiceDesc.setStaffAlloc]
        · rw [if_neg hk]
          refine ⟨rfl, rfl, Or.inr ⟨?_, rfl⟩⟩
          intro hye
          exact hk (by rw [hye])
      constructor
      · refine ⟨VoiceList.modify_wf vl e.1 (fun d => d.setStaffAlloc h X) hwf, ?_, ?_, ?_, ?_⟩
        · intro x hx
          obtain ⟨y, hy, h1, _⟩ := hmod x hx
          rw [h1]
          exact hkeys y hy
        · intro x hx
          obtain ⟨y, hy, _, h2, h3, h4⟩ := hmod x hx
          rcases h4 with ⟨hye, h4⟩ | ⟨_, h4⟩
          · right
            rw [h2, h3, h4, hye]
            exact ⟨hel.1, hpos, hXv⟩
          · rw [h2, h3, h4]
            exact hvals y hy
        · intro x hx hx2
          dsimp only
          obtain ⟨y, hy, _, _, _, h4⟩ := hmod x hx
          rcases h4 with ⟨_, h4⟩ | ⟨_, h4⟩
          · rw [h4] at hx2
            rcases hX with hX | hX
            · omega
            · exact hX.2
          · rw [h4] at hx2
            exact le_trans (hfull y hy hx2) hva
        · intro u hu v hv huo hlt hv1
          obtain ⟨yu, hyu, _, u2, u3, u4⟩ := hmod u hu
          obtain ⟨yv, hyv, _, v2, v3, v4⟩ := hmod v hv
          rw [u2] at huo
          rw [u3, v3] at hlt
          -- the voice behind `u` was granted before this round
          have hold : yv ≠ e → yu.2.staffAlloc h = 1 := by
            intro hne
            rcases v4 with ⟨hye, _⟩ | ⟨_, v4⟩
            · exact absurd hye hne
            · rw [v4] at hv1
              exact hprio yu hyu yv hyv huo hlt hv1
          rcases v4 with ⟨hye, v4⟩ | ⟨hne, v4⟩
          · -- `v` is the voice handled in this round
            rw [hye] at hlt
            have hune : yu ≠ e := by
              intro hcon
              rw [hcon] at hlt
              exact lt_irrefl _ hlt
            rcases u4 with ⟨hcon, _⟩ | ⟨_, u4⟩
            · exact absurd hcon hune
            · rw [u4]
              rw [v4] at hv1
              rcases hX with hX | hX
              · rcases hvals yu hyu with h1 | ⟨_, _, h1 | h1⟩
                · have := hmax yu hyu (by simp [huo, h1])
                  omega
                · exact h1
                · have := hfull yu hyu h1
                  omega
              · omega
          · have h1 := hold hne
            rcases u4 with ⟨hcon, _⟩ | ⟨_, u4⟩
            · rw [hcon, hel.2] at h1
              omega
            · rw [u4]
              exact h1
      · have := VoiceList.countP_modify_pred
          (fun d => d.overlaps && decide (1 ≤ d.chordRests h) && d.staffAlloc h == -1) vl e
          (fun d => d.setStaffAlloc h X) hwf he
          (by
            simp only [Bool.and_eq_true, decide_eq_true_eq, beq_iff_eq]
            exact ⟨⟨hel.1, hpos⟩, hel.2⟩)
          (by
            simp only [VoiceDesc.setStaffAlloc, if_true, Bool.and_eq_false_imp,
              Bool.and_eq_true, decide_eq_true_eq, beq_eq_false_iff_ne, ne_eq]
            intro _
            rcases hXv with h | h <;> omega)
        unfold pendingOn
        dsimp only at this ⊢
        omega
    split
    · rename_i hlt
      exact hstep 1 _ (by simp) (Or.inl ⟨rfl, hlt⟩)
    · rename_i hge
      exact hstep (-2) _ (le_refl _) (Or.inr ⟨rfl, not_lt.1 hge⟩)

theorem overlapLoop_progress (h n : Nat) (st : VoiceList × (Nat → Nat))
    (hinv : OverlapInv h st) :
    OverlapInv h (overlapLoop h n st) ∧
    pendingOn h (overlapLoop h n st).1 = pendingOn h st.1 - n := by
  induction n generalizing st with
  | zero => exact ⟨hinv, rfl⟩
  | succ n ih =>
    obtain ⟨h1, h2⟩ := overlapStep_progress h st hinv
    obtain ⟨h3, h4⟩ := ih _ h1
    refine ⟨h3, ?_⟩
    simp only [overlapLoop]
    rw [h4, h2]
    omega

/-! ## What the handling of one staff leaves of the other staves -/

theorem VoiceList.modify_forall2 {γ : Type} (g : VoiceDesc → γ) (B : γ → γ → Prop)
    (vl : VoiceList) (key : String) (f : VoiceDesc → VoiceDesc) (hf : ∀ d, g (f d) = g d)
    (h : ∀ u ∈ vl, ∀ v ∈ vl, B (g u.2) (g v.2)) :
    ∀ u ∈ vl.modify key f, ∀ v ∈ vl.modify key f, B (g u.2) (g v.2) := by
  have hg : ∀ x ∈ vl.modify key f, ∃ y ∈ vl, g x.2 = g y.2 := by
    intro x hx
    obtain ⟨y, hy, rfl⟩ := VoiceList.mem_modify_inv hx
    refine ⟨y, hy, ?_⟩
    dsimp only
    split_ifs
    · exact hf _
    · rfl
  intro u hu v hv
  obtain ⟨yu, hyu, h1⟩ := hg u hu
  obtain ⟨yv, hyv, h2⟩ := hg v hv
  rw [h1, h2]
  exact h yu hyu yv hyv

theorem regularStep_forall2 {γ : Type} (M : Nat) (g : VoiceDesc → γ) (B : γ → γ → Prop)
    (hs : ∀ d s, g (d.setStaff s) = g d) (st : VoiceList × (Nat → Nat))
    (h : ∀ u ∈ st.1, ∀ v ∈ st.1, B (g u.2) (g v.2)) :
    ∀ u ∈ (regularStep M st).1, ∀ v ∈ (regularStep M st).1, B (g u.2) (g v.2) := by
  unfold regularStep
  dsimp only
  split_ifs
  · exact VoiceList.modify_forall2 g B _ _ _ (fun d => hs d _) h
  · exact VoiceList.modify_forall2 g B _ _ _ (fun d => hs d _) h
  · exact h

theorem overlapStep_forall2 {γ : Type} (g : VoiceDesc → γ) (B : γ → γ → Prop) (k : Nat)
    (ha : ∀ d X, g (d.setStaffAlloc k X) = g d) (st : VoiceList × (Nat → Nat))
    (h : ∀ u ∈ st.1, ∀ v ∈ st.1, B (g u.2) (g v.2)) :
    ∀ u ∈ (overlapStep k st).1, ∀ v ∈ (overlapStep k st).1, B (g u.2) (g v.2) := by
  unfold overlapStep
  dsimp only
  split_ifs
  · exact VoiceList.modify_forall2 g B _ _ _ (fun d => ha d _) h
  · exact VoiceList.modify_forall2 g B _ _ _ (fun d => ha d _) h
  · exact h

theorem regularLoop_forall2 {γ : Type} (M : Nat) (g : VoiceDesc → γ) (B : γ → γ → Prop)
    (hs : ∀ d s, g (d.setStaff s) = g d) (n : Nat) (st : VoiceList × (Nat → Nat))
    (h : ∀ u ∈ st.1, ∀ v ∈ st.1, B (g u.2) (g v.2)) :
    ∀ u ∈ (regularLoop M n st).1, ∀ v ∈ (regularLoop M n st).1, B (g u.2) (g v.2) := by
  induction n generalizing st with
  | zero => exact h
  | succ n ih => exact ih _ (regularStep_forall2 M g B hs st h)

theorem overlapLoop_forall2 {γ : Type} (g : VoiceDesc → γ) (B : γ → γ → Prop) (k : Nat)
    (ha : ∀ d X, g (d.setStaffAlloc k X) = g d) (n : Nat) (st : VoiceList × (Nat → Nat))
    (h : ∀ u ∈ st.1, ∀ v ∈ st.1, B (g u.2) (g v.2)) :
    ∀ u ∈ (overlapLoop k n st).1, ∀ v ∈ (overlapLoop k n st).1, B (g u.2) (g v.2) := by
  induction n generalizing st with
  | zero => exact h
  | succ n ih => exact ih _ (overlapStep_forall2 g B k ha st h)

theorem overlapFold_forall2 {γ : Type} (g : VoiceDesc → γ) (B : γ → γ → Prop) (ks : List Nat)
    (ha : ∀ k ∈ ks, ∀ d X, g (d.setStaffAlloc k X) = g d) (st : VoiceList × (Nat → Nat))
    (h : ∀ u ∈ st.1, ∀ v ∈ st.1, B (g u.2) (g v.2)) :
    ∀ u ∈ (ks.foldl (fun st h => overlapLoop h st.1.length st) st).1,
      ∀ v ∈ (ks.foldl (fun st h => overlapLoop h st.1.length st) st).1, B (g u.2) (g v.2) := by
  induction ks generalizing st with
  | nil => exact h
  | cons k t ih =>
    simp only [List.foldl_cons]
    exact ih (fun j hj => ha j (List.mem_cons_of_mem _ hj)) _
      (overlapLoop_forall2 g B k (ha k (List.mem_cons_self _ _)) _ st h)

theorem onStaff_setStaffAlloc (h k : Nat) (hne : k ≠ h) (d : VoiceDesc) (X : Int) :
    onStaff h (d.setStaffAlloc k X) = onStaff h d := by
  simp only [onStaff, VoiceDesc.setStaffAlloc, Prod.mk.injEq, true_and]
  rw [if_neg (fun hcon => hne hcon.symm)]

/-- One staff after its loop: every overlapping voice with a chord-rest on the
staff is granted or refused, by priority of count. -/
theorem overlapLoop_settledOn (h : Nat) (st : VoiceList × (Nat → Nat)) (hwf : st.1.WF)
    (hkeys : ∀ e ∈ st.1, e.1 ≠ "") (hinit : ∀ e ∈ st.1, e.2.staffAlloc h = -1) :
    OverlapInv h (overlapLoop h st.1.length st) ∧
    ∀ u ∈ (overlapLoop h st.1.length st).1, ∀ v ∈ (overlapLoop h st.1.length st).1,
      SettledOn (onStaff h u.2) (onStaff h v.2) := by
  have h0 : OverlapInv h st := by
    refine ⟨hwf, hkeys, fun e he => Or.inl (hinit e he), ?_, ?_⟩
    · intro e he h2
      rw [hinit e he] at h2
      omega
    · intro u _ v hv _ _ h1
      rw [hinit v hv] at h1
      omega
  obtain ⟨hinv, hpend⟩ := overlapLoop_progress h st.1.length st h0
  have hzero : pendingOn h (overlapLoop h st.1.length st).1 = 0 := by
    rw [hpend]
    have : pendingOn h st.1 ≤ st.1.length := List.countP_le_length _
    omega
  refine ⟨hinv, ?_⟩
  obtain ⟨_, _, hvals, _, hprio⟩ := hinv
  intro u hu v hv
  unfold SettledOn onStaff
  dsimp only
  refine ⟨fun ho => ⟨fun hc => ?_, fun hc => ?_⟩, fun ho hlt h1 => hprio u hu v hv ho hlt h1⟩
  · rcases hvals u hu with h1 | ⟨_, _, h1⟩
    · exfalso
      unfold pendingOn at hzero
      rw [List.countP_eq_zero] at hzero
      exact hzero u hu (by simp [ho, hc, h1])
    · exact h1
  · rcases hvals u hu with h1 | ⟨_, h2, _⟩
    · exact h1
    · omega

theorem overlapFold_settledOn (ks : List Nat) (hnd : ks.Nodup) (st : VoiceList × (Nat → Nat))
    (hwf : st.1.WF) (hkeys : ∀ e ∈ st.1, e.1 ≠ "")
    (hinit : ∀ k ∈ ks, ∀ e ∈ st.1, e.2.staffAlloc k = -1) :
    ∀ h ∈ ks, ∀ u ∈ (ks.foldl (fun st h => overlapLoop h st.1.length st) st).1,
      ∀ v ∈ (ks.foldl (fun st h => overlapLoop h st.1.length st) st).1,
      SettledOn (onStaff h u.2) (onStaff h v.2) := by
  induction ks generalizing st with
  | nil =>
    intro h hh
    cases hh
  | cons k t ih =>
    obtain ⟨hk, hnd1⟩ := List.nodup_cons.1 hnd
    obtain ⟨hinv, hsettled⟩ := overlapLoop_settledOn k st hwf hkeys
      (hinit k (List.mem_cons_self _ _))
    intro h hh
    simp only [List.foldl_cons]
    rcases List.mem_cons.1 hh with rfl | hh
    · apply overlapFold_forall2 (onStaff h) SettledOn t _ _ hsettled
      intro j hj d X
      exact onStaff_setStaffAlloc h j (fun hcon => hk (hcon ▸ hj)) d X
    · apply ih hnd1 _ hinv.1 hinv.2.1 _ h hh
      intro j hj e he
      have hne : k ≠ j := fun hcon => hk (hcon ▸ hj)
      have := overlapLoop_forall2 (onStaff j) (fun a _ => a.2.2 = -1) k
        (fun d X => onStaff_setStaffAlloc j k hne d X) st.1.length st
        (fun u hu _ _ => hinit j (List.mem_cons_of_mem _ hj) u hu) e he e he
      exact this

/-- When no voice identifier is the empty string, `allocateStaves` leaves every
overlapping voice with a chord-rest on a staff `h` granted (1) or refused (-2) on
`h` and untouched (-1) on the staves where it has no chord-rest; and when a voice
is granted on `h`, so is every overlapping voice with more chord-rests on `h`. -/
theorem allocateStaves_overlapping_settled (MAX_STAVES : Nat) (vcLst : VoiceList)
    (hwf : vcLst.WF) (hkeys : ∀ e ∈ vcLst, e.1 ≠ "")
    (hinit : ∀ e ∈ vcLst, ∀ s, e.2.staffAlloc s = -1) (h : Nat) (hh : h < MAX_STAVES) :
    (∀ u ∈ allocateStaves MAX_STAVES vcLst, u.2.overlaps = true →
      (1 ≤ u.2.chordRests h → u.2.staffAlloc h = 1 ∨ u.2.staffAlloc h = -2) ∧
      (u.2.chordRests h = 0 → u.2.staffAlloc h = -1)) ∧
    (∀ u ∈ allocateStaves MAX_STAVES vcLst, ∀ v ∈ allocateStaves MAX_STAVES vcLst,
      u.2.overlaps = true → v.2.chordRests h < u.2.chordRests h →
      v.2.staffAlloc h = 1 → u.2.staffAlloc h = 1) := by
  have hkeys1 : ∀ e ∈ (regularLoop MAX_STAVES vcLst.length (vcLst, fun _ => 0)).1, e.1 ≠ "" := by
    intro e he
    have hk := regularLoop_keys MAX_STAVES vcLst.length (vcLst, fun _ => 0)
    have : e.1 ∈ (regularLoop MAX_STAVES vcLst.length (vcLst, fun _ => 0)).1.map Prod.fst :=
      List.mem_map_of_mem _ he
    rw [hk] at this
    obtain ⟨y, hy, hye⟩ := List.mem_map.1 this
    rw [← hye]
    exact hkeys y hy
  have hwf1 : (regularLoop MAX_STAVES vcLst.length (vcLst, fun _ => 0)).1.WF := by
    rw [VoiceList.wf_iff_keys, regularLoop_keys]
    exact (VoiceList.wf_iff_keys vcLst).1 hwf
  have hinit1 : ∀ k ∈ List.range MAX_STAVES,
      ∀ e ∈ (regularLoop MAX_STAVES vcLst.length (vcLst, fun _ => 0)).1,
        e.2.staffAlloc k = -1 := by
    intro k _ e he
    exact regularLoop_forall MAX_STAVES (fun d => ∀ s, d.staffAlloc s = -1)
      (fun d s hd => hd) vcLst.length (vcLst, fun _ => 0) hinit e he k
  have hmain := overlapFold_settledOn (List.range MAX_STAVES) (List.nodup_range MAX_STAVES)
    (regularLoop MAX_STAVES vcLst.length (vcLst, fun _ => 0)) hwf1 hkeys1 hinit1 h
    (List.mem_range.2 hh)
  have hres : ∀ u ∈ allocateStaves MAX_STAVES vcLst, ∀ v ∈ allocateStaves MAX_STAVES vcLst,
      SettledOn (onStaff h u.2) (onStaff h v.2) := hmain
  constructor
  · intro u hu ho
    exact (hres u hu u hu).1 ho
  · intro u hu v hv ho hlt h1
    exact (hres u hu v hv).2 ho hlt h1

/-! ## When `parseFile` reads a document to the end -/

theorem partListLoop_length (M : Nat) (l : List QDomElement) (partName : String)
    (parts : List MusicXmlPart) :
    (partListLoop M l partName parts).length
      = parts.length + l.countP (fun c => c.tagName == "score-part") := by
  induction l generalizing partName parts with
  | nil => simp [partListLoop]
  | cons e rest ih =>
    by_cases he : e.tagName = "score-part"
    · simp only [partListLoop, if_pos he]
      rw [ih, List.countP_cons_of_pos _ _ (by simpa using he)]
      simp
      omega
    · simp only [partListLoop, if_neg he]
      rw [ih, List.countP_cons_of_neg _ _ (by simpa using he)]

theorem initVoiceMapperAndMapVoices_cases (ms : MxmlSupport)
    (stavesOverlap : VoiceOverlapDetector → String → Bool) (division : Int)
    (hdiv : 0 < division) (MAX_STAVES : Nat) (parts : List MusicXmlPart) (e : QDomElement)
    (partNr : Nat) :
    (partNr < parts.length →
      ∃ parts1, initVoiceMapperAndMapVoices ms stavesOverlap division MAX_STAVES parts e partNr
        = .ok parts1 ∧ parts1.length = parts.length) ∧
    (parts.length ≤ partNr →
      initVoiceMapperAndMapVoices ms stavesOverlap division MAX_STAVES parts e partNr
        = .error (Fault.partOutOfRange partNr parts.length)) := by
  constructor
  · intro hlt
    obtain ⟨s1, h1, _⟩ := partLoop_spec ms stavesOverlap division hdiv MAX_STAVES
      e.children (DriverState.start parts[partNr])
    unfold initVoiceMapperAndMapVoices mapVoices
    rw [List.getElem?_eq_getElem hlt]
    dsimp only
    rw [h1]
    exact ⟨_, rfl, by simp⟩
  · intro hge
    unfold initVoiceMapperAndMapVoices
    rw [List.getElem?_eq_none hge]

/-- With a positive `MScore::division`, `parseFile` reads the document to the end
exactly when every `part` element comes after enough declarations; otherwise it
stops at an access `parts[partNr]` that is out of range. -/
theorem parseFileLoop_ok_iff (ms : MxmlSupport)
    (stavesOverlap : VoiceOverlapDetector → String → Bool) (division : Int)
    (hdiv : 0 < division) (MAX_STAVES : Nat) (l : List QDomElement) (partNr : Nat)
    (parts : List MusicXmlPart) :
    (indicesInRange l partNr parts.length = true →
      ∃ parts1, parseFileLoop ms stavesOverlap division MAX_STAVES l partNr parts
        = .ok parts1) ∧
    (indicesInRange l partNr parts.length = false →
      ∃ i n, n ≤ i ∧ parseFileLoop ms stavesOverlap division MAX_STAVES l partNr parts
        = .error (Fault.partOutOfRange i n)) := by
  induction l generalizing partNr parts with
  | nil =>
    refine ⟨fun _ => ⟨parts, rfl⟩, fun h => ?_⟩
    simp [indicesInRange] at h
  | cons e rest ih =>
    by_cases h1 : e.tagName = "part"
    · simp only [indicesInRange, parseFileLoop, if_pos h1, parsePart]
      obtain ⟨hin, hout⟩ := initVoiceMapperAndMapVoices_cases ms stavesOverlap division hdiv
        MAX_STAVES parts e partNr
      by_cases hlt : partNr < parts.length
      · obtain ⟨parts1, hp, hlen⟩ := hin hlt
        rw [hp]
        dsimp only
        have := ih (partNr + 1) parts1
        rw [hlen] at this
        simpa [hlt] using this
      · rw [hout (not_lt.1 hlt)]
        dsimp only
        refine ⟨fun h => ?_, fun _ => ⟨partNr, parts.length, not_lt.1 hlt, rfl⟩⟩
        simp [hlt] at h
    · by_cases h2 : e.tagName = "part-list"
      · simp only [indicesInRange, parseFileLoop, if_neg h1, if_pos h2]
        have := ih partNr (parsePartList MAX_STAVES e parts)
        have hlen : (parsePartList MAX_STAVES e parts).length
            = parts.length + partsDeclared e := partListLoop_length MAX_STAVES _ _ _
        rw [hlen] at this
        exact this
      · simp only [indicesInRange, parseFileLoop, if_neg h1, if_neg h2]
        exact ih partNr parts

/-! ## Termination of `measureDurationAsFraction` -/

/-- The least number of doublings that takes `d` to `tsigtype` or beyond is the
ceiling of the binary logarithm of `tsigtype / d`, when `d` is below
`tsigtype`. -/
theorem ceil_logb_of_least_doubling (d tsigtype : Int) (hd : 1 ≤ d) (hlt : d < tsigtype)
    (k : Nat) (hk : tsigtype ≤ d * 2 ^ k) (hleast : ∀ j < k, d * 2 ^ j < tsigtype) :
    ⌈Real.logb 2 ((tsigtype : ℝ) / (d : ℝ))⌉ = (k : Int) := by
  have hdR : (0 : ℝ) < (d : ℝ) := by exact_mod_cast (show (0 : Int) < d by omega)
  have htR : (0 : ℝ) < (tsigtype : ℝ) := by exact_mod_cast (show (0 : Int) < tsigtype by omega)
  have hx : (0 : ℝ) < (tsigtype : ℝ) / (d : ℝ) := div_pos htR hdR
  have hk1 : 1 ≤ k := by
    rcases Nat.eq_zero_or_pos k with h0 | h0
    · subst h0
      simp only [pow_zero, mul_one] at hk
      omega
    · exact h0
  have hprev : d * 2 ^ (k - 1) < tsigtype := hleast (k - 1) (by omega)
  rw [Int.ceil_eq_iff]
  constructor
  · have e : (((k : Int) : ℝ) - 1) = (((k - 1 : Nat) : ℝ)) := by
      rw [Nat.cast_sub hk1]
      simp
    rw [e, Real.lt_logb_iff_rpow_lt (by norm_num) hx, Real.rpow_natCast, lt_div_iff₀ hdR]
    have : ((d * 2 ^ (k - 1) : Int) : ℝ) < (tsigtype : ℝ) := by exact_mod_cast hprev
    push_cast at this
    linarith
  · have e : (((k : Int) : ℝ)) = ((k : Nat) : ℝ) := by simp
    rw [e, Real.logb_le_iff_le_rpow (by norm_num) hx, Real.rpow_natCast, div_le_iff₀ hdR]
    have : (tsigtype : ℝ) ≤ ((d * 2 ^ k : Int) : ℝ) := by exact_mod_cast hk
    push_cast at this
    linarith

/-- C31: `measureDurationAsFraction` returns for every `tsigtype` and every
length `n/d` with `d >= 1`, the integers being unbounded.  There is a number
`k` of rounds of the doubling loop, not above the ceiling of the binary
logarithm of the real quotient `tsigtype / d` (a count, so read as zero where
that ceiling is negative): with room for `k` rounds the function returns
`(n * 2^k)/(d * 2^k)`, with less room the loop is still running.  For
`d < tsigtype` the number of rounds is exactly that ceiling, and for
`tsigtype <= d` (in particular for `tsigtype <= 0`) no round is run.  The
driver's argument `Fraction::fromTicks` of the corrected length has a
denominator of at least 1 when `MScore::division` is positive, so the call made
by the driver returns. -/
theorem measureDurationAsFraction_terminates (length : Fraction)
    (hd : 1 ≤ length.denominator) (tsigtype : Int) :
    (∃ k : Nat,
      k ≤ Int.toNat ⌈Real.logb 2 ((tsigtype : ℝ) / (length.denominator : ℝ))⌉ ∧
      (∀ fuel, k ≤ fuel → measureDurationAsFraction fuel length tsigtype
        = some ⟨length.numerator * 2 ^ k, length.denominator * 2 ^ k⟩) ∧
      (∀ fuel, fuel < k → measureDurationAsFraction fuel length tsigtype = none) ∧
      (length.denominator < tsigtype →
        (k : Int) = ⌈Real.logb 2 ((tsigtype : ℝ) / (length.denominator : ℝ))⌉) ∧
      (tsigtype ≤ length.denominator → k = 0)) ∧
    (∀ division : Int, 0 < division →
      (∀ L : Int, 1 ≤ (Fraction.fromTicks division L).denominator) ∧
      ∀ (measureStartTick loc_maxtick : Fraction) (timeSigLen : Int),
        ∃ r, fMeasureDuration division measureStartTick loc_maxtick timeSigLen tsigtype
          = some r) := by
  constructor
  · by_cases hlt : length.denominator < tsigtype
    · obtain ⟨k, hk, hleast⟩ := exists_least_doubling length.denominator tsigtype hd
      have hceil := ceil_logb_of_least_doubling length.denominator tsigtype hd hlt k hk hleast
      have hpos : ¬ tsigtype ≤ 0 := by omega
      refine ⟨k, ?_, ?_, ?_, fun _ => hceil.symm, fun h => absurd hlt (not_lt.2 h)⟩
      · rw [hceil]
        simp
      · intro fuel hfuel
        unfold measureDurationAsFraction
        rw [if_neg hpos]
        exact measureDurationLoop_of_least tsigtype k length fuel hk hleast hfuel
      · intro fuel hfuel
        unfold measureDurationAsFraction
        rw [if_neg hpos]
        exact measureDurationLoop_short tsigtype k length fuel hleast hfuel
    · refine ⟨0, Nat.zero_le _, ?_, fun fuel hfuel => absurd hfuel (Nat.not_lt_zero fuel),
        fun h => absurd h hlt, fun _ => rfl⟩
      intro fuel _
      unfold measureDurationAsFraction
      by_cases hpos : tsigtype ≤ 0
      · rw [if_pos hpos]
        simp
      · rw [if_neg hpos]
        rw [measureDurationLoop_of_least tsigtype 0 length fuel
          (by simp only [pow_zero, mul_one]; omega)
          (fun j hj => absurd hj (Nat.not_lt_zero j)) (Nat.zero_le fuel)]
  · intro division hdiv
    refine ⟨fun L => Fraction.fromTicks_den_pos division L hdiv, ?_⟩
    intro measureStartTick loc_maxtick timeSigLen
    obtain ⟨r, hr, _⟩ := fMeasureDuration_spec division hdiv measureStartTick loc_maxtick
      timeSigLen tsigtype
    exact ⟨r, hr⟩

theorem measureDurationAsFraction_terminates_witness :
    (1 : Int) ≤ (Fraction.mk 3 4).denominator ∧
    measureDurationAsFraction 2 ⟨3, 4⟩ 16 = some ⟨12, 16⟩ ∧
    measureDurationAsFraction 1 ⟨3, 4⟩ 16 = none ∧
    ⌈Real.logb 2 (((16 : Int) : ℝ) / (((Fraction.mk 3 4).denominator : Int) : ℝ))⌉ = 2 ∧
    measureDurationAsFraction 0 ⟨17, 64⟩ 4 = some ⟨17, 64⟩ ∧
    measureDurationAsFraction 0 ⟨17, 64⟩ (-1) = some ⟨17, 64⟩ ∧
    (0 : Int) < 480 ∧
    (Fraction.fromTicks 480 510).denominator = 64 ∧
    (∃ r, fMeasureDuration 480 ⟨0, 1⟩ ⟨17, 64⟩ 1920 16 = some r) := by
  obtain ⟨⟨k4, _, g2, _, _, g5⟩, _⟩ :=
    measureDurationAsFraction_terminates ⟨17, 64⟩ (by decide) 4
  obtain ⟨⟨k0, _, f2, _, _, f5⟩, _⟩ :=
    measureDurationAsFraction_terminates ⟨17, 64⟩ (by decide) (-1)
  have hk4 : k4 = 0 := g5 (by decide)
  have hk0 : k0 = 0 := f5 (by decide)
  subst hk4
  subst hk0
  have g := g2 0 (Nat.le_refl 0)
  have f := f2 0 (Nat.le_refl 0)
  simp only [pow_zero, mul_one] at g f
  obtain ⟨⟨k, _, h2, h3, h4, _⟩, h6⟩ :=
    measureDurationAsFraction_terminates ⟨3, 4⟩ (by decide) 16
  have e1 : measureDurationAsFraction 1 ⟨3, 4⟩ 16 = none := by decide
  have e2 : measureDurationAsFraction 2 ⟨3, 4⟩ 16 = some ⟨12, 16⟩ := by decide
  have hk : k = 2 := by
    rcases Nat.lt_trichotomy k 2 with h | h | h
    · have := h2 1 (by omega)
      rw [e1] at this
      cases this
    · exact h
    · have := h3 2 h
      rw [e2] at this
      cases this
  subst hk
  refine ⟨by decide, h2 2 (Nat.le_refl 2), h3 1 (by decide), ?_, g, f, by decide, by decide,
    (h6 480 (by decide)).2 ⟨0, 1⟩ ⟨17, 64⟩ 1920⟩
  exact (h4 (by decide)).symm

end Ms
